import Mathlib

/-!
# GraphWeaver: crawl engine, verified against its specification

A shallow embedding of the C++ sources of the documentation crawler
(`src/parse/normalizer.cpp`, `src/storage/rocksdb_store.cpp`,
`src/crawler/crawler.cpp`, `src/fetch/fetcher.cpp`, `src/fetch/rate_limiter.cpp`)
followed by theorems about them.

Conventions of the embedding

* `std::string` is `Str = List Char`; a byte is a character, `std::tolower` in
  the "C" locale is `Char.toLower` (only `A`..`Z` change).
* `std::string::npos` is `none`; positions are `some i`.
* A C++ exception leaving a function is `Except.error`; the only one that the
  URL code can raise is `std::out_of_range` from `std::stoi`.
* `nlohmann::json` and the calendar functions of the C library are inputs
  (`JsonLib`, `CLib`); theorems that need their round trip assume it for the
  values at hand.
* `int` values are `Int`; `std::stoi` rejects what does not fit 32 bits.
* Clocks, random draws, the HTTP server and the JSON library are inputs of the
  functions that consult them.
-/

namespace GraphWeaver

abbrev Str := List Char

/-- The exceptions the embedded code can raise: `std::out_of_range` and
`std::invalid_argument`, both from `std::stoi`. -/
inductive Raised where
  | out_of_range
  | invalid_argument
  deriving DecidableEq, Repr

deriving instance DecidableEq for Except

/-! ## String primitives (`std::string`, `std::getline`) -/

/-- `std::transform(..., std::tolower)` over a string. -/
def to_lower (str : Str) : Str := str.map Char.toLower

/-- `s.compare(pos, pat.size(), pat) == 0` at position 0: `pat` starts `s`. -/
def starts_with : Str → Str → Bool
  | _, [] => true
  | [], _ :: _ => false
  | c :: s, p :: pat => c == p && starts_with s pat

/-- `std::string::find(pat)`: the first position at which `pat` occurs. -/
def find_str : Str → Str → Option Nat
  | [], pat => if pat.isEmpty then some 0 else none
  | c :: s, pat =>
    if starts_with (c :: s) pat then some 0
    else (find_str s pat).map (· + 1)

/-- `std::string::rfind(pat)`: the last position at which `pat` occurs. -/
def rfind_str : Str → Str → Option Nat
  | [], pat => if pat.isEmpty then some 0 else none
  | c :: s, pat =>
    match rfind_str s pat with
    | some i => some (i + 1)
    | none => if starts_with (c :: s) pat then some 0 else none

/-- `std::string::find(ch)`. -/
def find_char (ch : Char) : Str → Option Nat
  | [] => none
  | c :: s => if c = ch then some 0 else (find_char ch s).map (· + 1)

/-- `std::string::rfind(ch)`. -/
def rfind_char (ch : Char) : Str → Option Nat
  | [] => none
  | c :: s =>
    match rfind_char ch s with
    | some i => some (i + 1)
    | none => if c = ch then some 0 else none

/-- All pieces between delimiters (never an empty list). -/
def split_on (delim : Char) : Str → List Str
  | [] => [[]]
  | c :: s =>
    if c = delim then [] :: split_on delim s
    else
      match split_on delim s with
      | piece :: rest => (c :: piece) :: rest
      | [] => [[c]]

/-- The strings that `while (std::getline(iss, piece, delim))` yields: the
pieces between delimiters, without the empty piece that would follow the last
delimiter (or make up an empty input), for which `getline` fails. -/
def getlines (delim : Char) (s : Str) : List Str :=
  let pieces := split_on delim s
  if pieces.getLast? = some [] then pieces.dropLast else pieces

/-- `operator<` of `std::string`: lexicographic on character codes. -/
def str_lt : Str → Str → Bool
  | [], [] => false
  | [], _ :: _ => true
  | _ :: _, [] => false
  | a :: as, b :: bs =>
    if a.toNat < b.toNat then true
    else if b.toNat < a.toNat then false
    else str_lt as bs

/-- `operator[]=` of an ordered `std::map<std::string, V>`, kept as a list of
pairs in key order. -/
def map_set {V : Type} (k : Str) (v : V) : List (Str × V) → List (Str × V)
  | [] => [(k, v)]
  | (k', v') :: rest =>
    if k = k' then (k, v) :: rest
    else if str_lt k k' then (k, v) :: (k', v') :: rest
    else (k', v') :: map_set k v rest

/-- `find` of an ordered map. -/
def map_get {V : Type} (k : Str) : List (Str × V) → Option V
  | [] => none
  | (k', v') :: rest => if k = k' then some v' else map_get k rest

/-- `erase` of an ordered map. -/
def map_erase {V : Type} (k : Str) : List (Str × V) → List (Str × V)
  | [] => []
  | (k', v') :: rest => if k = k' then rest else (k', v') :: map_erase k rest

/-! ## URL model (`src/parse/normalizer.cpp`) -/

/-- Parsed URL components (`struct URLComponents`). -/
structure URLComponents where
  scheme : Str
  host : Str
  port : Int := 0
  path : Str
  query : Str := []
  fragment : Str := []
  deriving DecidableEq, Repr

/-- `URLComponents::is_default_port`. -/
def URLComponents.is_default_port (c : URLComponents) : Bool :=
  if c.port = 0 then true
  else if c.scheme = "https".data && c.port = 443 then true
  else if c.scheme = "http".data && c.port = 80 then true
  else false

/-- Decimal text of an `int` as `operator<<` prints it. -/
def int_to_str (n : Int) : Str :=
  if n < 0 then '-' :: Nat.toDigits 10 n.natAbs else Nat.toDigits 10 n.natAbs

/-- `URLComponents::to_string(include_fragment)`. -/
def URLComponents.to_string (c : URLComponents) (include_fragment : Bool := false) : Str :=
  c.scheme ++ "://".data ++ c.host
    ++ (if c.port > 0 && !c.is_default_port then ':' :: int_to_str c.port else [])
    ++ (if c.path.isEmpty then "/".data else c.path)
    ++ (if !c.query.isEmpty then '?' :: c.query else [])
    ++ (if include_fragment && !c.fragment.isEmpty then '#' :: c.fragment else [])

/-- What `(https?)://` matches under `std::regex::icase` at the start of the
input: the scheme as written and the input after `://`. -/
def match_scheme (s : Str) : Option (Str × Str) :=
  if to_lower (s.take 4) = "http".data then
    match s.drop 4 with
    | ':' :: '/' :: '/' :: r => some (s.take 4, r)
    | c :: ':' :: '/' :: '/' :: r =>
      if c.toLower = 's' then some (s.take 5, r) else none
    | _ => none
  else none

/-- The sub-matches of the part of the URL pattern that follows the host,
groups 3 to 6 of the expression; `none` is an unmatched group. -/
structure RestMatch where
  port : Option Str
  path : Option Str
  query : Option Str
  fragment : Option Str
  deriving DecidableEq, Repr

/-- A character that `.` matches in an ECMAScript `std::regex`: any but a line
terminator. -/
def dot_matches (c : Char) : Bool := c != '\n' && c != '\r'

/-- Match of `(?::(\d+))?(/[^?#]*)?(?:\?([^#]*))?(?:#(.*))?$` against a whole
string. Every group is greedy and what follows a group cannot start with a
character of the group, so the match is unique when there is one. -/
def match_rest (r : Str) : Option RestMatch :=
  let pr : Option Str × Str :=
    match r with
    | ':' :: t =>
      if (t.takeWhile Char.isDigit).isEmpty then (none, r)
      else (some (t.takeWhile Char.isDigit), t.dropWhile Char.isDigit)
    | _ => (none, r)
  let pa : Option Str × Str :=
    match pr.2 with
    | '/' :: t =>
      (some ('/' :: t.takeWhile (fun c => c != '?' && c != '#')),
        t.dropWhile (fun c => c != '?' && c != '#'))
    | _ => (none, pr.2)
  let qu : Option Str × Str :=
    match pa.2 with
    | '?' :: t => (some (t.takeWhile (· != '#')), t.dropWhile (· != '#'))
    | _ => (none, pa.2)
  match qu.2 with
  | [] => some ⟨pr.1, pa.1, qu.1, none⟩
  | '#' :: t => if t.all dot_matches then some ⟨pr.1, pa.1, qu.1, some t⟩ else none
  | _ => none

/-- Backtracking of the greedy host group `([^/:]+)`: the longest host of at
most `n` characters after which the rest of the pattern matches. -/
def match_host (r : Str) : Nat → Option (Str × RestMatch)
  | 0 => none
  | n + 1 =>
    match match_rest (r.drop (n + 1)) with
    | some m => some (r.take (n + 1), m)
    | none => match_host r n

/-- `std::stoi` on a run of decimal digits: `std::out_of_range` when the value
does not fit an `int`. -/
def stoi (digits : Str) : Except Raised Int :=
  let v : Nat := digits.foldl (fun acc c => 10 * acc + (c.toNat - 48)) 0
  if v > 2147483647 then .error .out_of_range else .ok (Int.ofNat v)

/-- `URLNormalizer::parse`: `none` is `std::nullopt`. -/
def URLNormalizer.parse (url_str : Str) : Except Raised (Option URLComponents) :=
  if url_str.isEmpty then .ok none
  else
    match match_scheme url_str with
    | none => .ok none
    | some (scheme, r) =>
      match match_host r (r.takeWhile (fun c => c != '/' && c != ':')).length with
      | none => .ok none
      | some (host, m) =>
        let path : Str := m.path.getD "/".data
        let build (port : Int) : URLComponents :=
          { scheme := to_lower scheme, host := to_lower host, port := port,
            path := if path.isEmpty then "/".data else path,
            query := m.query.getD [], fragment := m.fragment.getD [] }
        match m.port with
        | some digits =>
          if digits.isEmpty then .ok (some (build 0))
          else
            match stoi digits with
            | .ok p => .ok (some (build p))
            | .error e => .error e
        | none => .ok (some (build 0))

/-- The rebuilding loop of `sort_query_params` over the ordered map. -/
def emit_params : List (Str × Str) → Bool → Str
  | [], _ => []
  | (key, value) :: rest, first =>
    (if !first then "&".data else [])
      ++ key ++ (if !value.isEmpty then '=' :: value else [])
      ++ emit_params rest false

/-- One iteration of the parsing loop of `sort_query_params`. -/
def add_param (params : List (Str × Str)) (pair : Str) : List (Str × Str) :=
  match find_char '=' pair with
  | some eq_pos => map_set (pair.take eq_pos) (pair.drop (eq_pos + 1)) params
  | none => if !pair.isEmpty then map_set pair [] params else params

/-- `URLNormalizer::sort_query_params`. -/
def URLNormalizer.sort_query_params (query : Str) : Str :=
  if query.isEmpty then []
  else emit_params ((getlines '&' query).foldl add_param []) true

/-- One iteration of the segment loop of `normalize_path`. -/
def add_segment (segments : List Str) (segment : Str) : List Str :=
  if segment.isEmpty || segment = ".".data then segments
  else if segment = "..".data then segments.dropLast
  else segments ++ [segment]

/-- `URLNormalizer::normalize_path`. -/
def URLNormalizer.normalize_path (path : Str) : Str :=
  if path.isEmpty then "/".data
  else
    let segments := (getlines '/' path).foldl add_segment []
    let joined : Str := (segments.map (fun s => '/' :: s)).flatten
    let result : Str := if joined.isEmpty then "/".data else joined
    if path.length > 1 && path.getLast? = some '/' && result.getLast? != some '/' then
      result ++ "/".data
    else result

/-- `URLNormalizer::normalize`. The block that inspects a trailing slash
changes nothing and is left out. -/
def URLNormalizer.normalize (url_str : Str) (keep_fragment : Bool := false) :
    Except Raised Str :=
  match URLNormalizer.parse url_str with
  | .error e => .error e
  | .ok none => .ok url_str
  | .ok (some components) =>
    let c1 : URLComponents :=
      { components with
        scheme := to_lower components.scheme
        host := to_lower components.host
        path := URLNormalizer.normalize_path components.path
        query := URLNormalizer.sort_query_params components.query
        fragment := if !keep_fragment then [] else components.fragment }
    let c2 : URLComponents := if c1.is_default_port then { c1 with port := 0 } else c1
    .ok (c2.to_string keep_fragment)

/-- `URLNormalizer::is_in_scope`. -/
def URLNormalizer.is_in_scope (url_str allowed_domain : Str) ( allowed_path_prefix : Str := []) :
    Except Raised Bool :=
  match URLNormalizer.parse url_str with
  | .error e => .error e
  | .ok none => .ok false
  | .ok (some components) =>
    if components.scheme != "http".data && components.scheme != "https".data then .ok false
    else
      let url_domain := to_lower components.host
      let check_domain := to_lower allowed_domain
      let domain_ok : Bool :=
        if url_domain != check_domain then
          if url_domain.length > check_domain.length then
            let suffix := '.' :: check_domain
            if rfind_str url_domain suffix != some (url_domain.length - suffix.length) then false
            else true
          else false
        else true
      if !domain_ok then .ok false
      else if ! allowed_path_prefix.isEmpty then
        if find_str components.path allowed_path_prefix != some 0 then .ok false
        else .ok true
      else .ok true

/-- `URLNormalizer::is_absolute`. -/
def URLNormalizer.is_absolute (url_str : Str) : Bool :=
  (find_str url_str "://".data).isSome

/-- `URLNormalizer::extract_domain`. -/
def URLNormalizer.extract_domain (url_str : Str) : Except Raised Str :=
  match URLNormalizer.parse url_str with
  | .error e => .error e
  | .ok none => .ok []
  | .ok (some components) => .ok components.host

/-- `URLNormalizer::extract_path`. -/
def URLNormalizer.extract_path (url_str : Str) : Except Raised Str :=
  match URLNormalizer.parse url_str with
  | .error e => .error e
  | .ok none => .ok []
  | .ok (some components) => .ok components.path

/-- Split of a relative reference at its first `?` into path and query. -/
def split_query (s : Str) : Str × Str :=
  match find_char '?' s with
  | some query_pos => (s.take query_pos, s.drop (query_pos + 1))
  | none => (s, [])

/-- `URLNormalizer::resolve`; `none` is `std::nullopt`. -/
def URLNormalizer.resolve (base_url relative_url : Str) : Except Raised (Option Str) :=
  match relative_url with
  | [] => .ok (some base_url)
  | c0 :: rel_tail =>
    if URLNormalizer.is_absolute relative_url then
      (URLNormalizer.normalize relative_url).map some
    else
      match URLNormalizer.parse base_url with
      | .error e => .error e
      | .ok none => .ok none
      | .ok (some base) =>
        let finish (resolved_path resolved_query : Str) : Except Raised (Option Str) :=
          let result : URLComponents :=
            { scheme := base.scheme, host := base.host, port := base.port,
              path := URLNormalizer.normalize_path resolved_path,
              query := resolved_query }
          (URLNormalizer.normalize result.to_string).map some
        if c0 = '/' then
          if rel_tail.head? = some '/' then
            match URLNormalizer.parse (base.scheme ++ ":".data ++ relative_url) with
            | .error e => .error e
            | .ok none => .ok none
            | .ok (some parsed) => .ok (some parsed.to_string)
          else
            finish (split_query relative_url).1 (split_query relative_url).2
        else if c0 = '?' then
          finish base.path rel_tail
        else if c0 = '#' then
          .ok (some ({ base with fragment := rel_tail }.to_string true))
        else
          let base_dir : Str :=
            match rfind_char '/' base.path with
            | some last_slash => base.path.take (last_slash + 1)
            | none => "/".data
          finish (base_dir ++ (split_query relative_url).1) (split_query relative_url).2

/-! ## Records (`include/models/models.hpp`) -/

/-- Page processing status (`enum class PageStatus`). -/
inductive PageStatus where
  | Unknown | Pending | InProgress | Success | Failure | NotFound | OutOfScope
  | RobotsDisallowed
  deriving DecidableEq, Repr

/-- Image processing status (`enum class ImageStatus`). -/
inductive ImageStatus where
  | Unknown | Pending | InProgress | Success | Failure | Skipped | TooLarge
  | InvalidDomain
  deriving DecidableEq, Repr

/-- Failure reasons (`enum class ErrorType`). -/
inductive ErrorType where
  | None | NetworkError | TimeoutError | HTTPError | ParseError | SelectorNotFound
  | ContentEmpty | IOError | RateLimited | RobotsDisallowed | OutOfScope
  | MaxRetriesExceeded | Unknown
  deriving DecidableEq, Repr

/-- A reading of `std::chrono::system_clock`, in clock ticks since the epoch; a
default-constructed time point is the epoch. -/
abbrev TimePoint := Int

/-- Database entry of a crawled page (`struct PageDBEntry`) with its default
member initialisers. -/
structure PageDBEntry where
  status : PageStatus := .Pending
  error_type : ErrorType := .None
  error_message : Str := []
  created_at : TimePoint := 0
  processed_at : TimePoint := 0
  last_attempt : TimePoint := 0
  depth : Int := 0
  attempt_count : Int := 0
  content_hash : Str := []
  normalized_url : Str := []
  final_url : Str := []
  local_file_path : Str := []
  token_count : Int := 0
  deriving DecidableEq, Repr

/-- Database entry of an image (`struct ImageDBEntry`). -/
structure ImageDBEntry where
  status : ImageStatus := .Pending
  error_type : ErrorType := .None
  error_message : Str := []
  created_at : TimePoint := 0
  processed_at : TimePoint := 0
  last_attempt : TimePoint := 0
  attempt_count : Int := 0
  original_url : Str := []
  local_path : Str := []
  caption : Str := []
  file_size : Int := 0
  content_type : Str := []
  deriving DecidableEq, Repr

/-- Work item of the priority queue (`struct WorkItem`); `referrer`, which no
code sets, is left out. -/
structure WorkItem where
  url : Str
  normalized_url : Str := []
  depth : Int
  priority : Int
  discovered_at : TimePoint
  deriving DecidableEq, Repr

/-- The constructor `WorkItem(u, d)`: priority equals depth; `now` is the clock
reading it takes. -/
def WorkItem.make (u : Str) (d : Int) (now : TimePoint) : WorkItem :=
  { url := u, depth := d, priority := d, discovered_at := now }

/-- HTTP fetch result (`struct FetchResult`). -/
structure FetchResult where
  status_code : Int := 0
  body : Str := []
  final_url : Str := []
  content_type : Str := []
  error : Str := []
  response_time_ms : Int := 0
  success : Bool := false
  is_redirect : Bool := false
  deriving DecidableEq, Repr

/-- `FetchResult::is_html`. -/
def FetchResult.is_html (r : FetchResult) : Bool :=
  (find_str r.content_type "text/html".data).isSome

/-- Result of the content pipeline (`struct ProcessResult`). -/
structure ProcessResult where
  title : Str := []
  markdown : Str := []
  saved_file_path : Str := []
  extracted_links : List Str := []
  image_count : Int := 0
  token_count : Int := 0
  success : Bool := false
  error : Str := []
  deriving DecidableEq, Repr

/-- The fields of `struct SiteConfig` that the crawl engine reads. -/
structure SiteConfig where
  start_urls : List Str := []
  allowed_domain : Str
  allowed_path_prefix : Str := []
  content_selector : Str := "auto".data
  max_depth : Int := 0
  skip_images : Bool := false
  deriving DecidableEq, Repr

/-- The fields of `struct AppConfig` that the fetcher reads; the two delays are
`std::chrono::seconds`, held as their `count()`. -/
structure AppConfig where
  max_retries : Int := 3
  initial_retry_delay : Int := 1
  max_retry_delay : Int := 30
  deriving DecidableEq, Repr

/-- The library functions the store and the crawler call, as inputs: the MD5
and SHA-256 digests of `utils/hash.cpp` and the JSON text that `to_json`
obtains from `nlohmann::json::dump`. -/
structure Env where
  url_hash : Str → Str
  content_hash : Str → Str
  page_to_json : PageDBEntry → Str
  image_to_json : ImageDBEntry → Str

/-! ## Visited store (`src/storage/rocksdb_store.cpp`) -/

/-- The embedded key-value database: records in key order. -/
abbrev Store := List (Str × Str)

/-- `RocksDBStore::page_key`. -/
def RocksDBStore.page_key (env : Env) (normalized_url : Str) : Str :=
  "p:".data ++ env.url_hash normalized_url

/-- `RocksDBStore::image_key`. -/
def RocksDBStore.image_key (env : Env) (normalized_url : Str) : Str :=
  "i:".data ++ env.url_hash normalized_url

/-- `RocksDBStore::get`. -/
def RocksDBStore.get (db : Store) (key : Str) : Option Str := map_get key db

/-- `RocksDBStore::put`. -/
def RocksDBStore.put (db : Store) (key value : Str) : Store := map_set key value db

/-- `RocksDBStore::mark_page_visited`: the answer and the database afterwards;
`now` is the reading of the system clock. -/
def RocksDBStore.mark_page_visited (env : Env) (db : Store) (normalized_url : Str)
    (now : TimePoint) : Bool × Store :=
  let key := RocksDBStore.page_key env normalized_url
  match RocksDBStore.get db key with
  | some _ => (false, db)
  | none =>
    let entry : PageDBEntry :=
      { status := .Pending, normalized_url := normalized_url,
        created_at := now, last_attempt := now }
    (true, RocksDBStore.put db key (env.page_to_json entry))

/-- `RocksDBStore::update_page_status`. -/
def RocksDBStore.update_page_status (env : Env) (db : Store) (normalized_url : Str)
    (entry : PageDBEntry) : Store :=
  RocksDBStore.put db (RocksDBStore.page_key env normalized_url) (env.page_to_json entry)

/-- `RocksDBStore::update_image_status`. -/
def RocksDBStore.update_image_status (env : Env) (db : Store) (normalized_url : Str)
    (entry : ImageDBEntry) : Store :=
  RocksDBStore.put db (RocksDBStore.image_key env normalized_url) (env.image_to_json entry)

/-- The operations of an open store that a caller can issue; the reading ones
(`check_page_status`, `get_page_content_hash`, `check_image_status`,
`get_visited_count`, `requeue_incomplete`, `write_visited_log`) leave the
database as it is. -/
inductive StoreOp where
  | mark_page_visited (normalized_url : Str) (now : TimePoint)
  | update_page_status (normalized_url : Str) (entry : PageDBEntry)
  | update_image_status (normalized_url : Str) (entry : ImageDBEntry)
  | check_page_status (normalized_url : Str)
  | get_page_content_hash (normalized_url : Str)
  | check_image_status (normalized_url : Str)
  | get_visited_count
  | requeue_incomplete
  | write_visited_log

/-- Effect of one operation on the database. -/
def StoreOp.apply (env : Env) (db : Store) : StoreOp → Store
  | .mark_page_visited u now => (RocksDBStore.mark_page_visited env db u now).2
  | .update_page_status u entry => RocksDBStore.update_page_status env db u entry
  | .update_image_status u entry => RocksDBStore.update_image_status env db u entry
  | _ => db

/-- Whether the operation is a `mark_page_visited(u)` call that answers true on
database `db`. -/
def StoreOp.claims (env : Env) (db : Store) (u : Str) : StoreOp → Bool
  | .mark_page_visited v now =>
    decide (v = u) && (RocksDBStore.mark_page_visited env db v now).1
  | _ => false

/-- The number of `mark_page_visited(u)` calls that answer true while the
operations run in order from database `db`. -/
def count_claims (env : Env) (u : Str) : Store → List StoreOp → Nat
  | _, [] => 0
  | db, op :: ops =>
    (if op.claims env db u then 1 else 0) + count_claims env u (op.apply env db) ops

/-! ## Priority queue (`src/queue/priority_queue.cpp`) -/

/-- State of `ThreadSafePriorityQueue`: the items held by the heap (in the
order they were pushed), the closed flag and the counters. -/
structure ThreadSafePriorityQueue where
  items : List WorkItem := []
  closed : Bool := false
  total_pushed : Nat := 0
  total_popped : Nat := 0
  min_depth : Int := 2147483647
  max_depth : Int := 0
  deriving DecidableEq, Repr

/-- `ThreadSafePriorityQueue::push`. -/
def ThreadSafePriorityQueue.push (q : ThreadSafePriorityQueue) (item : WorkItem) :
    ThreadSafePriorityQueue :=
  { q with
    items := q.items ++ [item]
    total_pushed := q.total_pushed + 1
    min_depth := if item.depth < q.min_depth then item.depth else q.min_depth
    max_depth := if item.depth > q.max_depth then item.depth else q.max_depth }

/-! ## Site crawler (`src/crawler/crawler.cpp`) -/

/-- What a worker can observe of the crawler and its collaborators: the
database, the queue, the hosts handed to `rate_limiter_.wait_for_host` and the
URLs handed to `fetcher_.fetch_with_retry` (oldest first), and the counter of
processed pages. -/
structure World where
  store : Store := []
  queue : ThreadSafePriorityQueue := {}
  waits : List Str := []
  fetches : List Str := []
  pages_processed : Int := 0
  deriving DecidableEq, Repr

/-- What the server and the content pipeline answer during one
`process_page`: the result of `fetch_with_retry`, the result of
`extract_process_and_save`, the image records that `process_images` stores
while it runs, the clock reading taken when the page is claimed and the one
taken when the work item of the `i`-th extracted link is built. -/
structure PageOutcome where
  fetch_result : FetchResult
  result : ProcessResult
  image_records : List (Str × ImageDBEntry) := []
  claimed_at : TimePoint := 0
  discovered_at : Nat → TimePoint := fun _ => 0

/-- The loop of `process_page` over the extracted links, from the `i`-th link
on; the second component is the exception that ended it, if any. -/
def Crawler.enqueue_links (site : SiteConfig) (item : WorkItem) (out : PageOutcome) :
    List Str → Nat → World → World × Option Raised
  | [], _, w => (w, none)
  | link :: rest, i, w =>
    match URLNormalizer.resolve item.url link with
    | .error e => (w, some e)
    | .ok none => Crawler.enqueue_links site item out rest (i + 1) w
    | .ok (some resolved) =>
      match URLNormalizer.is_in_scope resolved site.allowed_domain
          (SiteConfig.allowed_path_prefix site) with
      | .error e => (w, some e)
      | .ok false => Crawler.enqueue_links site item out rest (i + 1) w
      | .ok true =>
        let pushed := WorkItem.make resolved (item.depth + 1) (out.discovered_at i)
        Crawler.enqueue_links site item out rest (i + 1) { w with queue := w.queue.push pushed }

/-- The image records of `process_images`, written through
`update_image_status`. -/
def store_images (env : Env) (db : Store) : List (Str × ImageDBEntry) → Store
  | [] => db
  | (src, entry) :: rest =>
    store_images env (RocksDBStore.update_image_status env db src entry) rest

/-- `Crawler::process_page`: the world afterwards and the exception that left
the function, if any. -/
def Crawler.process_page (env : Env) (site : SiteConfig) (w : World) (item : WorkItem)
    (out : PageOutcome) : World × Option Raised :=
  if site.max_depth > 0 && item.depth > site.max_depth then (w, none)
  else
    match URLNormalizer.normalize item.url with
    | .error e => (w, some e)
    | .ok normalized =>
      let marked := RocksDBStore.mark_page_visited env w.store normalized out.claimed_at
      if !marked.1 then (w, none)
      else
        let w1 : World := { w with store := marked.2 }
        match URLNormalizer.extract_domain item.url with
        | .error e => (w1, some e)
        | .ok host =>
          let w2 : World := if !host.isEmpty then { w1 with waits := w1.waits ++ [host] } else w1
          let w3 : World := { w2 with fetches := w2.fetches ++ [item.url] }
          if !out.fetch_result.success then
            let entry : PageDBEntry :=
              { status := .Failure, error_type := .HTTPError,
                error_message := out.fetch_result.error, normalized_url := normalized }
            ({ w3 with store := RocksDBStore.update_page_status env w3.store normalized entry },
              none)
          else if !out.fetch_result.is_html then
            let entry : PageDBEntry := { status := .Success, normalized_url := normalized }
            ({ w3 with store := RocksDBStore.update_page_status env w3.store normalized entry },
              none)
          else
            let w4 : World := { w3 with store := store_images env w3.store out.image_records }
            let ok_entry : PageDBEntry :=
              { status := .Success, normalized_url := normalized,
                content_hash := env.content_hash out.result.markdown,
                local_file_path := out.result.saved_file_path,
                token_count := out.result.token_count }
            let failed_entry : PageDBEntry :=
              { status := .Failure, error_type := .ContentEmpty,
                error_message := out.result.error, normalized_url := normalized }
            let w5 : World :=
              if out.result.success then
                { w4 with
                  store := RocksDBStore.update_page_status env w4.store normalized ok_entry
                  pages_processed := w4.pages_processed + 1 }
              else
                { w4 with
                  store := RocksDBStore.update_page_status env w4.store normalized failed_entry }
            Crawler.enqueue_links site item out out.result.extracted_links 0 w5

/-! ## Fetcher (`src/fetch/fetcher.cpp`) -/

/-- `Fetcher::is_retryable_status`. -/
def Fetcher.is_retryable_status (status_code : Int) : Bool :=
  if status_code = 0 then true
  else if status_code = 429 then true
  else if status_code ≥ 500 && status_code < 600 then true
  else false

/-- `static_cast<int64_t>(base * 0.1)`: the product is formed in `double` and
truncated towards zero; for every `base` below 2^53 in magnitude that is the
integer quotient by ten. -/
def tenth (base : Int) : Int := Int.tdiv base 10

/-- `Fetcher::calculate_backoff`: the value handed to
`std::chrono::milliseconds`; `rand` is what `rand()` returns. -/
def Fetcher.calculate_backoff (config : AppConfig) (attempt : Int) (rand : Nat) : Int :=
  let base0 : Int := config.initial_retry_delay * 2 ^ (attempt - 1).toNat
  let max_delay : Int := config.max_retry_delay
  let base : Int := if base0 > max_delay then max_delay else base0
  let jitter : Int := tenth base
  if jitter > 0 then base + ((rand : Int) % (2 * jitter + 1) - jitter) else base

/-- An integer brought into the range of `int`: the value modulo 2^32, as
`static_cast<int>` of a 64-bit integer gives it; the model also gives this
value to an `int` sum that overflows. -/
def wrap32 (n : Int) : Int := (n + 2147483648) % 4294967296 - 2147483648

/-- What a `fetch_with_retry` call did: the result it returns, the number of
`fetch_once` calls it made and the durations (in milliseconds) it slept. -/
structure RetryRun where
  result : FetchResult := {}
  attempts : Nat := 0
  sleeps : List Int := []
  deriving DecidableEq, Repr

/-- The `for` loop of `fetch_with_retry` from the test
`attempt <= config_.max_retries + 1` on, run for at most `fuel` iterations:
`none` when the loop is still running after them. `attempt` and the bound are
`int`s, whose sums wrap in the model where they overflow; `fetch_once k` is
the result of the `k`-th call of `fetch_once` and `rand k` the draw of the
backoff after it. -/
def Fetcher.retry_loop (config : AppConfig) (fetch_once : Nat → FetchResult)
    (rand : Nat → Nat) : Nat → Int → RetryRun → Option RetryRun
  | 0, attempt, run => if attempt ≤ wrap32 (config.max_retries + 1) then none else some run
  | fuel + 1, attempt, run =>
    if attempt ≤ wrap32 (config.max_retries + 1) then
      let last_result := fetch_once (run.attempts + 1)
      let run1 : RetryRun := { run with result := last_result, attempts := run.attempts + 1 }
      if last_result.success || !Fetcher.is_retryable_status last_result.status_code then
        some run1
      else
        let run2 : RetryRun :=
          if attempt ≤ config.max_retries then
            { run1 with sleeps := run1.sleeps ++
                [Fetcher.calculate_backoff config attempt (rand (run.attempts + 1))] }
          else run1
        Fetcher.retry_loop config fetch_once rand fuel (wrap32 (attempt + 1)) run2
    else some run

/-- `Fetcher::fetch_with_retry`, its loop run for at most `fuel` iterations. -/
def Fetcher.fetch_with_retry (config : AppConfig) (fetch_once : Nat → FetchResult)
    (rand : Nat → Nat) (fuel : Nat) : Option RetryRun :=
  Fetcher.retry_loop config fetch_once rand fuel 1 {}

/-! ## Rate limiter (`src/fetch/rate_limiter.cpp`) -/

/-- State of `RateLimiter`; delays are in milliseconds and time points are
readings of the steady clock in milliseconds. -/
structure RateLimiter where
  default_delay : Int
  host_delays : List (Str × Int) := []
  last_request : List (Str × Int) := []
  deriving DecidableEq, Repr

/-- `RateLimiter::reset_host`. -/
def RateLimiter.reset_host (rl : RateLimiter) (host : Str) : RateLimiter :=
  { rl with last_request := map_erase host rl.last_request }

/-- `RateLimiter::add_jitter`; `draw` is the output of the generator, mapped by
the uniform distribution onto `-jitter .. jitter`. -/
def RateLimiter.add_jitter (delay : Int) (draw : Nat) : Int :=
  let base := delay
  let jitter := tenth base
  if jitter ≤ 0 then delay else base + (-jitter + (draw : Int) % (2 * jitter + 1))

/-- `RateLimiter::wait_for_host` called at time `now`: the state afterwards and
the duration it sleeps (0 when it returns at once). -/
def RateLimiter.wait_for_host (rl : RateLimiter) (host : Str) (now : Int) (draw : Nat) :
    RateLimiter × Int :=
  let delay : Int := (map_get host rl.host_delays).getD rl.default_delay
  let rl1 : RateLimiter := { rl with last_request := map_set host now rl.last_request }
  match map_get host rl.last_request with
  | none => (rl1, 0)
  | some last =>
    let elapsed := now - last
    let target_delay := RateLimiter.add_jitter delay draw
    if elapsed < target_delay then (rl1, target_delay - elapsed) else (rl1, 0)

/-- Return times of a sequence of `wait_for_host(host)` calls: each call is
given as the time it is made and its random draw, and returns at that time
plus the sleep it computes. -/
def RateLimiter.return_times (host : Str) : RateLimiter → List (Int × Nat) → List Int
  | _, [] => []
  | rl, (now, draw) :: calls =>
    let r := rl.wait_for_host host now draw
    (now + r.2) :: RateLimiter.return_times host r.1 calls

/-! ## Priority queue operations (`src/queue/priority_queue.cpp`), continued -/

/-- `ThreadSafePriorityQueue::push_batch`: the loop body is that of `push`. -/
def ThreadSafePriorityQueue.push_batch (q : ThreadSafePriorityQueue) (items : List WorkItem) :
    ThreadSafePriorityQueue :=
  items.foldl ThreadSafePriorityQueue.push q

/-- The least priority among the items held. -/
def min_priority : List WorkItem → Option Int
  | [] => none
  | x :: xs =>
    match min_priority xs with
    | none => some x.priority
    | some m => some (if x.priority ≤ m then x.priority else m)

/-- Removal of the `n`-th item (in stored order) among those of priority `m`:
the item and the items left. -/
def remove_nth_with (m : Int) : Nat → List WorkItem → Option (WorkItem × List WorkItem)
  | _, [] => none
  | n, x :: xs =>
    if x.priority = m then
      match n with
      | 0 => some (x, xs)
      | k + 1 => (remove_nth_with m k xs).map (fun r => (r.1, x :: r.2))
    else (remove_nth_with m n xs).map (fun r => (r.1, x :: r.2))

/-- `queue_.top()` followed by `queue_.pop()` on the `std::priority_queue` with
`CompareWorkItem`: the item taken is one that no other item precedes, that is
one of least priority. Which of several such items the heap holds on top
depends on its internal arrangement, which the standard library leaves open;
`choice` stands for it: the item taken is the `choice`-th of them, modulo
their number, in stored order. -/
def heap_take (items : List WorkItem) (choice : Nat) : Option (WorkItem × List WorkItem) :=
  match min_priority items with
  | none => none
  | some m => remove_nth_with m (choice % (items.filter (fun x => x.priority = m)).length) items

/-- `ThreadSafePriorityQueue::try_pop_nonblocking`. -/
def ThreadSafePriorityQueue.try_pop_nonblocking (q : ThreadSafePriorityQueue) (choice : Nat) :
    Option WorkItem × ThreadSafePriorityQueue :=
  if q.items.isEmpty then (none, q)
  else
    match heap_take q.items choice with
    | none => (none, q)
    | some (item, rest) => (some item, { q with items := rest, total_popped := q.total_popped + 1 })

/-- `ThreadSafePriorityQueue::pop` called with no other thread at work: `none`
is a call that never returns, because it waits on the condition variable for
`!queue_.empty() || closed_` and nobody pushes or closes. -/
def ThreadSafePriorityQueue.pop (q : ThreadSafePriorityQueue) (choice : Nat) :
    Option (Option WorkItem × ThreadSafePriorityQueue) :=
  if q.items.isEmpty && !q.closed then none
  else if q.closed && q.items.isEmpty then some (none, q)
  else
    match heap_take q.items choice with
    | none => some (none, q)
    | some (item, rest) =>
      some (some item, { q with items := rest, total_popped := q.total_popped + 1 })

/-- `ThreadSafePriorityQueue::try_pop(timeout)` called with no other thread at
work: on an open empty queue the wait times out. -/
def ThreadSafePriorityQueue.try_pop (q : ThreadSafePriorityQueue) (choice : Nat) :
    Option WorkItem × ThreadSafePriorityQueue :=
  if q.items.isEmpty && !q.closed then (none, q)
  else if q.closed && q.items.isEmpty then (none, q)
  else
    match heap_take q.items choice with
    | none => (none, q)
    | some (item, rest) => (some item, { q with items := rest, total_popped := q.total_popped + 1 })

/-- `ThreadSafePriorityQueue::close`. -/
def ThreadSafePriorityQueue.close (q : ThreadSafePriorityQueue) : ThreadSafePriorityQueue :=
  { q with closed := true }

/-- `ThreadSafePriorityQueue::is_closed`. -/
def ThreadSafePriorityQueue.is_closed (q : ThreadSafePriorityQueue) : Bool := q.closed

/-- `ThreadSafePriorityQueue::empty`. -/
def ThreadSafePriorityQueue.empty (q : ThreadSafePriorityQueue) : Bool := q.items.isEmpty

/-- `ThreadSafePriorityQueue::size`. -/
def ThreadSafePriorityQueue.size (q : ThreadSafePriorityQueue) : Nat := q.items.length

/-- `ThreadSafePriorityQueue::clear`. -/
def ThreadSafePriorityQueue.clear (q : ThreadSafePriorityQueue) : ThreadSafePriorityQueue :=
  { q with items := [] }

/-- The operations that change a queue, each pop with the heap's choice. -/
inductive QueueOp where
  | push (item : WorkItem)
  | push_batch (items : List WorkItem)
  | pop (choice : Nat)
  | try_pop (choice : Nat)
  | try_pop_nonblocking (choice : Nat)
  | clear
  | close
  deriving DecidableEq, Repr

/-- The queue after one operation; a `pop` that never returns leaves it as it
is. -/
def QueueOp.apply (q : ThreadSafePriorityQueue) : QueueOp → ThreadSafePriorityQueue
  | .push item => q.push item
  | .push_batch items => q.push_batch items
  | .pop choice =>
    match q.pop choice with
    | some r => r.2
    | none => q
  | .try_pop choice => (q.try_pop choice).2
  | .try_pop_nonblocking choice => (q.try_pop_nonblocking choice).2
  | .clear => q.clear
  | .close => q.close

/-- The items that successive `try_pop_nonblocking` calls return until one
returns nothing, at most `n` calls; `choice k` is the heap's choice when `k`
calls remain. -/
def drain_nonblocking (choice : Nat → Nat) :
    Nat → ThreadSafePriorityQueue → List WorkItem × ThreadSafePriorityQueue
  | 0, q => ([], q)
  | n + 1, q =>
    match q.try_pop_nonblocking (choice n) with
    | (none, q1) => ([], q1)
    | (some item, q1) => (item :: (drain_nonblocking choice n q1).1, (drain_nonblocking choice n q1).2)

/-- The items that successive `pop` calls return until one returns nothing or
does not return, at most `n` calls. -/
def drain_pop (choice : Nat → Nat) :
    Nat → ThreadSafePriorityQueue → List WorkItem × ThreadSafePriorityQueue
  | 0, q => ([], q)
  | n + 1, q =>
    match q.pop (choice n) with
    | none => ([], q)
    | some (none, q1) => ([], q1)
    | some (some item, q1) => (item :: (drain_pop choice n q1).1, (drain_pop choice n q1).2)

/-- A `push` or `push_batch` call. -/
inductive PushOp where
  | push (item : WorkItem)
  | push_batch (items : List WorkItem)
  deriving DecidableEq, Repr

/-- The call as a queue operation. -/
def PushOp.op : PushOp → QueueOp
  | .push item => .push item
  | .push_batch items => .push_batch items

/-- The items the call hands to the queue. -/
def PushOp.items : PushOp → List WorkItem
  | .push item => [item]
  | .push_batch items => items

/-- The queue after a sequence of operations. -/
def run_queue_ops (q : ThreadSafePriorityQueue) (ops : List QueueOp) : ThreadSafePriorityQueue :=
  ops.foldl QueueOp.apply q

/-! ## Robots handler (`src/fetch/robots.cpp`) -/

/-- `std::isspace` in the "C" locale. -/
def is_space (c : Char) : Bool :=
  c = ' ' || c = '\t' || c = '\n' || c = '\x0b' || c = '\x0c' || c = '\r'

/-- `trim` of `robots.cpp`: leading and trailing white space removed. -/
def trim (s : Str) : Str :=
  ((s.dropWhile is_space).reverse.dropWhile is_space).reverse

/-- `std::stoi` on any string: leading white space is skipped, a sign is
accepted, the digits that follow are read and the rest ignored;
`std::invalid_argument` when there is no digit, `std::out_of_range` when the
value does not fit an `int`. -/
def std_stoi (s : Str) : Except Raised Int :=
  let t := s.dropWhile is_space
  let signed : Bool × Str :=
    match t with
    | '-' :: r => (true, r)
    | '+' :: r => (false, r)
    | _ => (false, t)
  let digits := signed.2.takeWhile Char.isDigit
  if digits.isEmpty then .error .invalid_argument
  else
    let v : Int := Int.ofNat (digits.foldl (fun acc c => 10 * acc + (c.toNat - 48)) 0)
    let value : Int := if signed.1 then -v else v
    if value < -2147483648 || value > 2147483647 then .error .out_of_range else .ok value

/-- One group of `robots.txt` (`struct RobotsRule` of `robots.hpp`). -/
structure RobotsRule where
  user_agent : Str := []
  disallow : List Str := []
  allow : List Str := []
  sitemaps : List Str := []
  crawl_delay_seconds : Int := -1
  deriving DecidableEq, Repr

/-- State of `RobotsHandler`: the map `rules_` in key order. -/
structure RobotsHandler where
  rules : List (Str × RobotsRule) := []
  deriving DecidableEq, Repr

/-- `rules_[agent]`: the group of `agent`, default-constructed when the map has
none. -/
def rule_at (rules : List (Str × RobotsRule)) (agent : Str) : RobotsRule :=
  (map_get agent rules).getD {}

/-- What the loop of `parse` reads in a line: the lowercased key before the
first colon and the trimmed value after it, once the comment is cut off;
`none` for a line that the loop skips. -/
def robots_directive (line0 : Str) : Option (Str × Str) :=
  let line1 : Str :=
    match find_char '#' line0 with
    | some hash_pos => line0.take hash_pos
    | none => line0
  let line := trim line1
  if line.isEmpty then none
  else
    match find_char ':' line with
    | none => none
    | some colon_pos => some (to_lower (trim (line.take colon_pos)), trim (line.drop (colon_pos + 1)))

/-- One iteration of the loop of `parse` on the map and `current_agent`. -/
def robots_parse_line (state : List (Str × RobotsRule) × Str) (line : Str) :
    List (Str × RobotsRule) × Str :=
  let rules := state.1
  let current_agent := state.2
  match robots_directive line with
  | none => state
  | some (key, value) =>
    if key = "user-agent".data then
      let agent := to_lower value
      if (map_get agent rules).isNone then
        (map_set agent { user_agent := agent } rules, agent)
      else (rules, agent)
    else if key = "disallow".data && !current_agent.isEmpty then
      let rule := rule_at rules current_agent
      (map_set current_agent { rule with disallow := rule.disallow ++ [value] } rules,
        current_agent)
    else if key = "allow".data && !current_agent.isEmpty then
      let rule := rule_at rules current_agent
      (map_set current_agent { rule with allow := rule.allow ++ [value] } rules, current_agent)
    else if key = "sitemap".data then
      if !current_agent.isEmpty then
        let rule := rule_at rules current_agent
        (map_set current_agent { rule with sitemaps := rule.sitemaps ++ [value] } rules,
          current_agent)
      else
        let rule := rule_at rules "*".data
        (map_set "*".data { rule with sitemaps := rule.sitemaps ++ [value] } rules,
          current_agent)
    else if key = "crawl-delay".data && !current_agent.isEmpty then
      match std_stoi value with
      | .ok delay =>
        let rule := rule_at rules current_agent
        (map_set current_agent { rule with crawl_delay_seconds := delay } rules, current_agent)
      | .error _ => state
    else state

/-- `RobotsHandler::parse`: the handler after parsing the text (the rules held
before are cleared). -/
def RobotsHandler.parse (robots_txt : Str) : RobotsHandler :=
  { rules := ((getlines '\n' robots_txt).foldl robots_parse_line ([], [])).1 }

/-- `RobotsHandler::get_rule_for_agent`; `none` is `nullptr`. -/
def RobotsHandler.get_rule_for_agent (h : RobotsHandler) (user_agent : Str) :
    Option RobotsRule :=
  match map_get (to_lower user_agent) h.rules with
  | some rule => some rule
  | none => map_get "*".data h.rules

/-- `RobotsHandler::matches_rule`; `path.rfind(rule_path, 0) == 0` looks for
`rule_path` at position 0 only. -/
def RobotsHandler.matches_rule (path rule_path : Str) : Bool :=
  if rule_path.isEmpty then false
  else if rule_path = "/".data then true
  else if starts_with path rule_path then true
  else false

/-- The loops of `is_allowed` over the `Allow` or the `Disallow` values: the
greatest length of a matching value, from -1. -/
def best_match (url_path : Str) (values : List Str) : Int :=
  values.foldl
    (fun best value =>
      if RobotsHandler.matches_rule url_path value then
        if (value.length : Int) > best then (value.length : Int) else best
      else best)
    (-1)

/-- The part of `is_allowed` that follows the choice of the rule group. -/
def RobotsRule.allows (rule : RobotsRule) (url_path : Str) : Bool :=
  if url_path.isEmpty then true
  else
    let best_allow := best_match url_path rule.allow
    let best_disallow := best_match url_path rule.disallow
    if best_allow = -1 && best_disallow = -1 then true
    else if best_allow ≥ best_disallow then true
    else false

/-- `RobotsHandler::is_allowed`. -/
def RobotsHandler.is_allowed (h : RobotsHandler) (url_path : Str)
    (user_agent : Str := "*".data) : Bool :=
  match h.get_rule_for_agent user_agent with
  | none => true
  | some rule => rule.allows url_path

/-- The spec's words for `A` and `D`: `best` is the greatest length of a value
of the list that is non-empty and is `/` or a prefix of the path, and -1 when
the list has no such value. -/
def longest_match_is (path : Str) (values : List Str) (best : Int) : Prop :=
  (∀ v ∈ values, v ≠ [] → (v = "/".data ∨ v <+: path) → (v.length : Int) ≤ best) ∧
  ((∃ v ∈ values, v ≠ [] ∧ (v = "/".data ∨ v <+: path) ∧ (v.length : Int) = best) ∨
    (best = -1 ∧ ∀ v ∈ values, ¬ (v ≠ [] ∧ (v = "/".data ∨ v <+: path))))

/-! ## Record serialisation (`src/models/models.cpp`) -/

/-- `to_string(PageStatus)`. -/
def PageStatus.to_string : PageStatus → Str
  | .Unknown => "unknown".data
  | .Pending => "pending".data
  | .InProgress => "in_progress".data
  | .Success => "success".data
  | .Failure => "failure".data
  | .NotFound => "not_found".data
  | .OutOfScope => "out_of_scope".data
  | .RobotsDisallowed => "robots_disallowed".data

/-- `page_status_from_string`. -/
def page_status_from_string (str : Str) : PageStatus :=
  if str = "pending".data then .Pending
  else if str = "in_progress".data then .InProgress
  else if str = "success".data then .Success
  else if str = "failure".data then .Failure
  else if str = "not_found".data then .NotFound
  else if str = "out_of_scope".data then .OutOfScope
  else if str = "robots_disallowed".data then .RobotsDisallowed
  else .Unknown

/-- `to_string(ImageStatus)`. -/
def ImageStatus.to_string : ImageStatus → Str
  | .Unknown => "unknown".data
  | .Pending => "pending".data
  | .InProgress => "in_progress".data
  | .Success => "success".data
  | .Failure => "failure".data
  | .Skipped => "skipped".data
  | .TooLarge => "too_large".data
  | .InvalidDomain => "invalid_domain".data

/-- `image_status_from_string`. -/
def image_status_from_string (str : Str) : ImageStatus :=
  if str = "pending".data then .Pending
  else if str = "in_progress".data then .InProgress
  else if str = "success".data then .Success
  else if str = "failure".data then .Failure
  else if str = "skipped".data then .Skipped
  else if str = "too_large".data then .TooLarge
  else if str = "invalid_domain".data then .InvalidDomain
  else .Unknown

/-- `to_string(ErrorType)`. -/
def ErrorType.to_string : ErrorType → Str
  | .None => "none".data
  | .NetworkError => "network_error".data
  | .TimeoutError => "timeout_error".data
  | .HTTPError => "http_error".data
  | .ParseError => "parse_error".data
  | .SelectorNotFound => "selector_not_found".data
  | .ContentEmpty => "content_empty".data
  | .IOError => "io_error".data
  | .RateLimited => "rate_limited".data
  | .RobotsDisallowed => "robots_disallowed".data
  | .OutOfScope => "out_of_scope".data
  | .MaxRetriesExceeded => "max_retries_exceeded".data
  | .Unknown => "unknown".data

/-- `error_type_from_string`. -/
def error_type_from_string (str : Str) : ErrorType :=
  if str = "none".data then .None
  else if str = "network_error".data then .NetworkError
  else if str = "timeout_error".data then .TimeoutError
  else if str = "http_error".data then .HTTPError
  else if str = "parse_error".data then .ParseError
  else if str = "selector_not_found".data then .SelectorNotFound
  else if str = "content_empty".data then .ContentEmpty
  else if str = "io_error".data then .IOError
  else if str = "rate_limited".data then .RateLimited
  else if str = "robots_disallowed".data then .RobotsDisallowed
  else if str = "out_of_scope".data then .OutOfScope
  else if str = "max_retries_exceeded".data then .MaxRetriesExceeded
  else .Unknown

/-- The clock and calendar functions of the C and C++ libraries that
`models.cpp` calls, as inputs: the number of ticks of
`std::chrono::system_clock` in a millisecond (10^6 with libstdc++, whose tick
is a nanosecond), the text that `gmtime_r` and `std::put_time` with
`%Y-%m-%dT%H:%M:%S` give for a `time_t`, and the `time_t` that `std::get_time`
with the same pattern and `timegm` give for a text. -/
structure CLib where
  ticks_per_ms : Int
  put_time_utc : Int → Str
  get_time_utc : Str → Int

/-- Output of an integer under `std::setfill(fill) << std::setw(width)`. -/
def pad_left (fill : Char) (width : Nat) (s : Str) : Str :=
  List.replicate (width - s.length) fill ++ s

/-- `timepoint_to_iso8601`; `duration_cast` and `%` truncate towards zero. -/
def timepoint_to_iso8601 (clib : CLib) (tp : TimePoint) : Str :=
  let time_t_val : Int := Int.tdiv tp (1000 * clib.ticks_per_ms)
  let ms : Int := Int.tmod (Int.tdiv tp clib.ticks_per_ms) 1000
  clib.put_time_utc time_t_val ++ ".".data ++ pad_left '0' 3 (int_to_str ms) ++ "Z".data

/-- `iso8601_to_timepoint`; the `std::stoi` of the millisecond digits can
raise. -/
def iso8601_to_timepoint (clib : CLib) (str : Str) : Except Raised TimePoint :=
  let tp : Int := clib.get_time_utc str * (1000 * clib.ticks_per_ms)
  if str.length > 19 && (str.drop 19).head? = some '.' then
    let ms_str := (str.drop 20).take 3
    if !ms_str.isEmpty then
      match std_stoi ms_str with
      | .ok ms => .ok (tp + ms * clib.ticks_per_ms)
      | .error e => .error e
    else .ok tp
  else .ok tp

/-- A value held by a member of a JSON object, as far as `from_json` looks at
it: numbers are integers (signed or unsigned alike) or floating-point values,
of which only the truncation matters; arrays and objects are not looked
into. -/
inductive JsonValue where
  | null
  | boolean (b : Bool)
  | number_integer (n : Int)
  | number_float (truncated : Int)
  | string (s : Str)
  | structured
  deriving DecidableEq, Repr

/-- A JSON document: an object (members in key order, as in the `std::map` of
`nlohmann::json`) or any other value. -/
inductive Json where
  | object (members : List (Str × JsonValue))
  | other (v : JsonValue)
  deriving DecidableEq, Repr

/-- The functions of `nlohmann::json` that `models.cpp` calls on text, as
inputs: `dump()` of an object and `json::parse`, where `none` is the
`parse_error` exception. -/
structure JsonLib where
  dump : List (Str × JsonValue) → Str
  parse : Str → Option Json

/-- `j.value(key, default)` with a string default; `none` is the
`json::type_error` raised when `j` is not an object or the member is not a
string. -/
def Json.value_string (j : Json) (key dflt : Str) : Option Str :=
  match j with
  | .other _ => none
  | .object members =>
    match map_get key members with
    | none => some dflt
    | some (.string s) => some s
    | some _ => none

/-- `j.value(key, 0)`: the default is an `int`, so the member is converted to
`int`; `none` is the `json::type_error` raised when `j` is not an object or
the member is not a number or a boolean. -/
def Json.value_int (j : Json) (key : Str) (dflt : Int) : Option Int :=
  match j with
  | .other _ => none
  | .object members =>
    match map_get key members with
    | none => some dflt
    | some (.number_integer n) => some (wrap32 n)
    | some (.number_float t) => some (wrap32 t)
    | some (.boolean b) => some (if b then 1 else 0)
    | some _ => none

/-- How far `from_json` has come: still assigning fields, stopped by a
`json::exception` that its handler caught (the entry is returned as filled so
far), or left by another exception. -/
inductive Decode (α : Type) where
  | going (entry : α)
  | caught (entry : α)
  | escaped (e : Raised)

/-- The next assignment of `from_json`. -/
def Decode.step {α : Type} (d : Decode α) (f : α → Decode α) : Decode α :=
  match d with
  | .going entry => f entry
  | .caught entry => .caught entry
  | .escaped e => .escaped e

/-- What `from_json` returns. -/
def Decode.finish {α : Type} : Decode α → Except Raised α
  | .going entry => .ok entry
  | .caught entry => .ok entry
  | .escaped e => .error e

/-- An assignment `entry.f = g(j.value(key, default))` of a string member. -/
def read_string {α : Type} (j : Json) (key dflt : Str) (assign : α → Str → α) (entry : α) :
    Decode α :=
  match j.value_string key dflt with
  | none => .caught entry
  | some s => .going (assign entry s)

/-- An assignment `entry.f = j.value(key, 0)`. -/
def read_int {α : Type} (j : Json) (key : Str) (assign : α → Int → α) (entry : α) :
    Decode α :=
  match j.value_int key 0 with
  | none => .caught entry
  | some n => .going (assign entry n)

/-- An assignment `entry.f = iso8601_to_timepoint(j.value(key, ""))`. -/
def read_time {α : Type} (clib : CLib) (j : Json) (key : Str) (assign : α → TimePoint → α)
    (entry : α) : Decode α :=
  match j.value_string key [] with
  | none => .caught entry
  | some s =>
    match iso8601_to_timepoint clib s with
    | .ok tp => .going (assign entry tp)
    | .error e => .escaped e

/-- The object that `PageDBEntry::to_json` builds before `dump()`. -/
def PageDBEntry.to_json_object (clib : CLib) (e : PageDBEntry) : List (Str × JsonValue) :=
  [] |> map_set "status".data (.string e.status.to_string)
     |> map_set "error_type".data (.string e.error_type.to_string)
     |> map_set "error_message".data (.string e.error_message)
     |> map_set "created_at".data (.string (timepoint_to_iso8601 clib e.created_at))
     |> map_set "processed_at".data (.string (timepoint_to_iso8601 clib e.processed_at))
     |> map_set "last_attempt".data (.string (timepoint_to_iso8601 clib e.last_attempt))
     |> map_set "depth".data (.number_integer e.depth)
     |> map_set "attempt_count".data (.number_integer e.attempt_count)
     |> map_set "content_hash".data (.string e.content_hash)
     |> map_set "normalized_url".data (.string e.normalized_url)
     |> map_set "final_url".data (.string e.final_url)
     |> map_set "local_file_path".data (.string e.local_file_path)
     |> map_set "token_count".data (.number_integer e.token_count)

/-- `PageDBEntry::to_json`. -/
def PageDBEntry.to_json (lib : JsonLib) (clib : CLib) (e : PageDBEntry) : Str :=
  lib.dump (e.to_json_object clib)

/-- `PageDBEntry::from_json`. -/
def PageDBEntry.from_json (lib : JsonLib) (clib : CLib) (json_str : Str) :
    Except Raised PageDBEntry :=
  match lib.parse json_str with
  | none => .ok {}
  | some j =>
    (Decode.going ({} : PageDBEntry)
      |>.step (read_string j "status".data "unknown".data
          (fun e s => { e with status := page_status_from_string s }))
      |>.step (read_string j "error_type".data "none".data
          (fun e s => { e with error_type := error_type_from_string s }))
      |>.step (read_string j "error_message".data [] (fun e s => { e with error_message := s }))
      |>.step (read_time clib j "created_at".data (fun e t => { e with created_at := t }))
      |>.step (read_time clib j "processed_at".data (fun e t => { e with processed_at := t }))
      |>.step (read_time clib j "last_attempt".data (fun e t => { e with last_attempt := t }))
      |>.step (read_int j "depth".data (fun e n => { e with depth := n }))
      |>.step (read_int j "attempt_count".data (fun e n => { e with attempt_count := n }))
      |>.step (read_string j "content_hash".data [] (fun e s => { e with content_hash := s }))
      |>.step (read_string j "normalized_url".data [] (fun e s => { e with normalized_url := s }))
      |>.step (read_string j "final_url".data [] (fun e s => { e with final_url := s }))
      |>.step (read_string j "local_file_path".data []
          (fun e s => { e with local_file_path := s }))
      |>.step (read_int j "token_count".data (fun e n => { e with token_count := n }))).finish

/-- The object that `ImageDBEntry::to_json` builds before `dump()`. -/
def ImageDBEntry.to_json_object (clib : CLib) (e : ImageDBEntry) : List (Str × JsonValue) :=
  [] |> map_set "status".data (.string e.status.to_string)
     |> map_set "error_type".data (.string e.error_type.to_string)
     |> map_set "error_message".data (.string e.error_message)
     |> map_set "created_at".data (.string (timepoint_to_iso8601 clib e.created_at))
     |> map_set "processed_at".data (.string (timepoint_to_iso8601 clib e.processed_at))
     |> map_set "last_attempt".data (.string (timepoint_to_iso8601 clib e.last_attempt))
     |> map_set "attempt_count".data (.number_integer e.attempt_count)
     |> map_set "original_url".data (.string e.original_url)
     |> map_set "local_path".data (.string e.local_path)
     |> map_set "caption".data (.string e.caption)
     |> map_set "file_size".data (.number_integer e.file_size)
     |> map_set "content_type".data (.string e.content_type)

/-- `ImageDBEntry::to_json`. -/
def ImageDBEntry.to_json (lib : JsonLib) (clib : CLib) (e : ImageDBEntry) : Str :=
  lib.dump (e.to_json_object clib)

/-- `ImageDBEntry::from_json`. -/
def ImageDBEntry.from_json (lib : JsonLib) (clib : CLib) (json_str : Str) :
    Except Raised ImageDBEntry :=
  match lib.parse json_str with
  | none => .ok {}
  | some j =>
    (Decode.going ({} : ImageDBEntry)
      |>.step (read_string j "status".data "unknown".data
          (fun e s => { e with status := image_status_from_string s }))
      |>.step (read_string j "error_type".data "none".data
          (fun e s => { e with error_type := error_type_from_string s }))
      |>.step (read_string j "error_message".data [] (fun e s => { e with error_message := s }))
      |>.step (read_time clib j "created_at".data (fun e t => { e with created_at := t }))
      |>.step (read_time clib j "processed_at".data (fun e t => { e with processed_at := t }))
      |>.step (read_time clib j "last_attempt".data (fun e t => { e with last_attempt := t }))
      |>.step (read_int j "attempt_count".data (fun e n => { e with attempt_count := n }))
      |>.step (read_string j "original_url".data [] (fun e s => { e with original_url := s }))
      |>.step (read_string j "local_path".data [] (fun e s => { e with local_path := s }))
      |>.step (read_string j "caption".data [] (fun e s => { e with caption := s }))
      |>.step (read_int j "file_size".data (fun e n => { e with file_size := n }))
      |>.step (read_string j "content_type".data [] (fun e s => { e with content_type := s }))).finish

/-- The library functions of `Env` when the records are serialised by
`to_json` over the given JSON and C libraries. -/
def Env.of_libs (lib : JsonLib) (clib : CLib) (url_hash content_hash : Str → Str) : Env where
  url_hash := url_hash
  content_hash := content_hash
  page_to_json := PageDBEntry.to_json lib clib
  image_to_json := ImageDBEntry.to_json lib clib

/-! ## Resume scan (`RocksDBStore::requeue_incomplete`) -/

/-- What a `requeue_incomplete` call did: the work items handed to the
callback, in order, and its return value (or the exception that left it). -/
structure RequeueRun where
  callbacks : List WorkItem
  result : Except Raised Int

/-- The loop of `requeue_incomplete` from the iterator's position on;
`requeued` is the counter and `clock k` the clock reading taken by the
constructor of the `k`-th work item. -/
def requeue_scan (lib : JsonLib) (clib : CLib) (clock : Nat → TimePoint) :
    List (Str × Str) → List WorkItem → Int → RequeueRun
  | [], callbacks, requeued => ⟨callbacks, .ok requeued⟩
  | (key, value) :: rest, callbacks, requeued =>
    if !starts_with key "p:".data then ⟨callbacks, .ok requeued⟩
    else
      match PageDBEntry.from_json lib clib value with
      | .error e => ⟨callbacks, .error e⟩
      | .ok entry =>
        if entry.status = .Pending || entry.status = .Failure then
          if !entry.normalized_url.isEmpty then
            let item := WorkItem.make entry.normalized_url entry.depth (clock callbacks.length)
            requeue_scan lib clib clock rest (callbacks ++ [item]) (requeued + 1)
          else requeue_scan lib clib clock rest callbacks requeued
        else requeue_scan lib clib clock rest callbacks requeued

/-- `RocksDBStore::requeue_incomplete`: `it->Seek("p:")` puts the iterator on
the first record whose key is not below `p:`. The database is only read. -/
def RocksDBStore.requeue_incomplete (lib : JsonLib) (clib : CLib) (clock : Nat → TimePoint)
    (db : Store) : RequeueRun :=
  requeue_scan lib clib clock (db.dropWhile (fun kv => str_lt kv.1 "p:".data)) [] 0

/-- The database is in key order, as RocksDB keeps it. -/
def store_sorted (db : Store) : Prop :=
  db.Pairwise (fun a b => str_lt a.1 b.1 = true)

/-- The spec's words for the records to requeue: status `Pending` or `Failure`
and a non-empty `normalized_url`. -/
def wants_requeue (entry : PageDBEntry) : Bool :=
  (entry.status = .Pending || entry.status = .Failure) && !entry.normalized_url.isEmpty

/-- The spec's words for the scan: the records under a key beginning with `p:`,
each deserialised. -/
def decode_page_records (lib : JsonLib) (clib : CLib) :
    List (Str × Str) → Except Raised (List PageDBEntry)
  | [] => .ok []
  | (key, value) :: rest =>
    if starts_with key "p:".data then
      match PageDBEntry.from_json lib clib value with
      | .error e => .error e
      | .ok entry =>
        match decode_page_records lib clib rest with
        | .error e => .error e
        | .ok entries => .ok (entry :: entries)
    else decode_page_records lib clib rest

/-- The work items `WorkItem{url = normalized_url, depth}` of the entries, the
`k`-th built at clock reading `clock (first + k)`. -/
def requeue_items (clock : Nat → TimePoint) : Nat → List PageDBEntry → List WorkItem
  | _, [] => []
  | first, entry :: rest =>
    WorkItem.make entry.normalized_url entry.depth (clock first)
      :: requeue_items clock (first + 1) rest

/-- The time point is a whole number of milliseconds at or after the epoch,
and the C library writes its second in 19 characters and reads it back from
the text of the time point. -/
def time_round_trips (clib : CLib) (tp : TimePoint) : Prop :=
  0 ≤ tp ∧ tp % clib.ticks_per_ms = 0 ∧
  (clib.put_time_utc (Int.tdiv tp (1000 * clib.ticks_per_ms))).length = 19 ∧
  clib.get_time_utc (timepoint_to_iso8601 clib tp) = Int.tdiv tp (1000 * clib.ticks_per_ms)

/-- The value is one that an `int` holds. -/
def fits_int (n : Int) : Prop := -2147483648 ≤ n ∧ n ≤ 2147483647

/-! ## Output path of a page (`url_to_filepath` of `src/parse/normalizer.cpp`) -/

/-- The character loop of `url_to_filepath`: what is appended to `safe_path`
for a character of the path. -/
def safe_path_char (c : Char) : Char :=
  if c = '/' || c.isAlphanum || c = '-' || c = '_' || c = '.' then c else '_'

/-- The first half of `url_to_filepath`: `safe_path` as it stands before the
extension is looked at, from the path of the URL: the leading `/` dropped,
the characters replaced, `index` for an empty result, a trailing `/`
dropped. -/
def cleaned_path (url_path : Str) : Str :=
  let path : Str := if !url_path.isEmpty && url_path.head? = some '/' then url_path.drop 1 else url_path
  let safe0 : Str := path.map safe_path_char
  let safe1 : Str := if safe0.isEmpty then "index".data else safe0
  if safe1.getLast? = some '/' then safe1.take (safe1.length - 1) else safe1

/-- The second half of `url_to_filepath`: `safe_path` as it stands before the
full path is put together. -/
def safe_path_of (url_path : Str) : Str :=
  let safe2 : Str := cleaned_path url_path
  let last_dot := rfind_char '.' safe2
  let last_slash := rfind_char '/' safe2
  match last_dot with
  | some dot =>
    let has_extension : Bool :=
      match last_slash with
      | none => true
      | some slash => dot > slash
    if has_extension then
      let ext := to_lower (safe2.drop (dot + 1))
      if ext = "html".data || ext = "htm".data then safe2.take dot ++ ".md".data else safe2
    else safe2 ++ ".md".data
  | none => safe2 ++ ".md".data

/-- `url_to_filepath`. -/
def url_to_filepath (url base_domain base_dir : Str) : Except Raised Str :=
  match URLNormalizer.parse url with
  | .error e => .error e
  | .ok none => .ok []
  | .ok (some components) =>
    let result : Str :=
      if !base_dir.isEmpty then
        if base_dir.getLast? != some '/' then base_dir ++ "/".data else base_dir
      else []
    .ok (result ++ (base_domain ++ "/".data ++ safe_path_of components.path))

/-! ## Token count (`src/process/tokenizer.cpp`) -/

/-- `Tokenizer::count_tokens`: the quotient is cast to `int` and the sum is an
`int` sum, which wraps in the model where it overflows. -/
def Tokenizer.count_tokens (text : Str) : Int :=
  if text.isEmpty then 0 else wrap32 (wrap32 (Int.ofNat (text.length / 4)) + 1)

/-! ## Rate limiter calls (`src/fetch/rate_limiter.cpp`), continued -/

/-- `RateLimiter::set_host_delay`. -/
def RateLimiter.set_host_delay (rl : RateLimiter) (host : Str) (delay : Int) : RateLimiter :=
  { rl with host_delays := map_set host delay rl.host_delays }

/-- `RateLimiter::get_host_delay`. -/
def RateLimiter.get_host_delay (rl : RateLimiter) (host : Str) : Int :=
  (map_get host rl.host_delays).getD rl.default_delay

/-- A call that changes a rate limiter; a `wait_for_host` call comes with the
clock reading and the random draw it meets. -/
inductive LimiterCall where
  | wait_for_host (host : Str) (now : Int) (draw : Nat)
  | set_host_delay (host : Str) (delay : Int)
  | reset_host (host : Str)
  deriving DecidableEq, Repr

/-- The rate limiter after the call. -/
def LimiterCall.apply (rl : RateLimiter) : LimiterCall → RateLimiter
  | .wait_for_host host now draw => (rl.wait_for_host host now draw).1
  | .set_host_delay host delay => rl.set_host_delay host delay
  | .reset_host host => rl.reset_host host

/-- The call is `wait_for_host(host)`. -/
def LimiterCall.waits_for (host : Str) : LimiterCall → Bool
  | .wait_for_host h _ _ => h = host
  | _ => false

/-- The rate limiter after a sequence of calls. -/
def run_limiter_calls (rl : RateLimiter) (calls : List LimiterCall) : RateLimiter :=
  calls.foldl LimiterCall.apply rl

/-! ## Worker pool (`Crawler::run` and `Crawler::worker_loop`) -/

/-- Where a worker thread stands in `worker_loop`: at the top of the loop;
holding the item that `try_pop` returned, before `in_flight_++`; inside
`process_page(item)`, which will still push the given items; or past the
loop. -/
inductive WorkerState where
  | at_loop_top
  | popped (item : WorkItem)
  | processing (item : WorkItem) (to_push : List WorkItem)
  | exited
  deriving DecidableEq, Repr

/-- Where the monitor loop of `run` stands: before `queue_.empty()`; between
`queue_.empty()`, which returned true, and `in_flight_.load()`; or past the
loop. -/
inductive MonitorState where
  | at_check
  | saw_empty
  | joining
  deriving DecidableEq, Repr

/-- The state shared by the threads of a running crawler, and where each
thread stands. -/
structure Pool where
  queue : ThreadSafePriorityQueue := {}
  in_flight : Int := 0
  shutdown_flag : Bool := false
  workers : List WorkerState := []
  monitor : MonitorState := .at_check
  deriving DecidableEq, Repr

/-- One atomic step of one thread. `worker_pop i choice`: worker `i` tests
`should_stop()` and its `try_pop` returns. `worker_begin i pushes`: it
executes `in_flight_++` and enters `process_page`, whose link loop will push
`pushes`. `worker_push i`: the next `queue_.push` of `process_page`.
`worker_end i`: `process_page` returns and `in_flight_--` is executed.
`monitor_empty`: the monitor tests `should_stop()` and evaluates
`queue_.empty()`. `monitor_in_flight`: it evaluates `in_flight_.load() == 0`
and closes the queue when that holds. -/
inductive PoolStep where
  | worker_pop (i : Nat) (choice : Nat)
  | worker_begin (i : Nat) (pushes : List WorkItem)
  | worker_push (i : Nat)
  | worker_end (i : Nat)
  | monitor_empty
  | monitor_in_flight
  deriving DecidableEq, Repr

/-- The pool after a step; `none` when the thread does not stand where the
step starts. -/
def Pool.step (p : Pool) : PoolStep → Option Pool
  | .worker_pop i choice =>
    match p.workers.get? i with
    | some .at_loop_top =>
      if p.shutdown_flag then some { p with workers := p.workers.set i .exited }
      else
        match p.queue.try_pop choice with
        | (some item, q) => some { p with queue := q, workers := p.workers.set i (.popped item) }
        | (none, q) =>
          if q.is_closed then some { p with queue := q, workers := p.workers.set i .exited }
          else some { p with queue := q }
    | _ => none
  | .worker_begin i pushes =>
    match p.workers.get? i with
    | some (.popped item) =>
      some { p with in_flight := p.in_flight + 1,
                    workers := p.workers.set i (.processing item pushes) }
    | _ => none
  | .worker_push i =>
    match p.workers.get? i with
    | some (.processing item (pushed :: rest)) =>
      some { p with queue := p.queue.push pushed,
                    workers := p.workers.set i (.processing item rest) }
    | _ => none
  | .worker_end i =>
    match p.workers.get? i with
    | some (.processing _ []) =>
      some { p with in_flight := p.in_flight - 1, workers := p.workers.set i .at_loop_top }
    | _ => none
  | .monitor_empty =>
    match p.monitor with
    | .at_check =>
      if p.shutdown_flag then some { p with monitor := .joining }
      else if p.queue.empty then some { p with monitor := .saw_empty }
      else some p
    | _ => none
  | .monitor_in_flight =>
    match p.monitor with
    | .saw_empty =>
      if p.in_flight = 0 then some { p with queue := p.queue.close, monitor := .joining }
      else some { p with monitor := .at_check }
    | _ => none

/-- The pool after a schedule of steps, when each is possible in turn. -/
def Pool.run : Pool → List PoolStep → Option Pool
  | p, [] => some p
  | p, s :: rest =>
    match p.step s with
    | some p1 => p1.run rest
    | none => none

/-! ## HTML tree (`src/parse/html_parser.cpp`) -/

/-- A node of the tree that `gumbo_parse` builds, as far as `html_parser.cpp`
looks at it: a text node (`GUMBO_NODE_TEXT`), an element
(`GUMBO_NODE_ELEMENT`) with the name that `gumbo_normalized_tagname` gives for
its tag (empty for an unknown tag), its attributes and its children, or a node
of another type (document, CDATA, comment, white space, template), into which
the code does not look. -/
inductive GumboNode where
  | text (text : Str)
  | element (tag : Str) (attributes : List (Str × Str)) (children : List GumboNode)
  | other
  deriving Repr

/-- A `GumboNode*` into the tree: the child indices that lead from the start
node to the node, and the node it points to. -/
abbrev NodeRef := List Nat × GumboNode

/-- `gumbo_get_attribute`: the first attribute of that name, compared without
regard to letter case. -/
def gumbo_get_attribute (attributes : List (Str × Str)) (name : Str) : Option Str :=
  (attributes.find? (fun a => to_lower a.1 = to_lower name)).map Prod.snd

/-- The strings that `while (iss >> cls)` yields: the runs of characters
between white space. -/
def words : Str → List Str
  | [] => []
  | c :: s =>
    if is_space c then words s
    else
      match s with
      | [] => [[c]]
      | d :: _ =>
        if is_space d then [c] :: words s
        else
          match words s with
          | w :: ws => (c :: w) :: ws
          | [] => [[c]]

/-- `matches_selector`. -/
def matches_selector (node : GumboNode) (selector : Str) : Bool :=
  match node with
  | .element tag attributes _ =>
    let tag_name := to_lower tag
    let sel := selector.filter (fun c => !is_space c)
    if sel.isEmpty then false
    else
      let dot_pos := find_char '.' sel
      let hash_pos := find_char '#' sel
      let split_pos := min (dot_pos.getD sel.length) (hash_pos.getD sel.length)
      let sel_tag : Str := if split_pos > 0 then to_lower (sel.take split_pos) else []
      let sel_class : Str :=
        match dot_pos with
        | some d =>
          let stop : Nat :=
            match hash_pos with
            | some h => if h > d then h else sel.length
            | none => sel.length
          (sel.drop (d + 1)).take (stop - d - 1)
        | none => []
      let sel_id : Str :=
        match hash_pos with
        | some h => sel.drop (h + 1)
        | none => []
      if !sel_tag.isEmpty && sel_tag != tag_name then false
      else if !sel_id.isEmpty && gumbo_get_attribute attributes "id".data != some sel_id then false
      else if !sel_class.isEmpty then
        match gumbo_get_attribute attributes "class".data with
        | none => false
        | some classes => (words classes).contains sel_class
      else true
  | _ => false

mutual
/-- `find_matching_nodes`: the nodes appended to `results`, in the order of
the `push_back` calls; `path` leads to `node`. -/
def find_matching_nodes (selector : Str) : List Nat → GumboNode → List NodeRef
  | path, .element tag attributes children =>
    (if matches_selector (.element tag attributes children) selector
      then [(path, .element tag attributes children)] else [])
      ++ find_matching_children selector path 0 children
  | path, .text t => if matches_selector (.text t) selector then [(path, .text t)] else []
  | path, .other => if matches_selector .other selector then [(path, .other)] else []
/-- The loop of `find_matching_nodes` over the children, from the `i`-th
on. -/
def find_matching_children (selector : Str) : List Nat → Nat → List GumboNode → List NodeRef
  | _, _, [] => []
  | path, i, child :: rest =>
    find_matching_nodes selector (path ++ [i]) child
      ++ find_matching_children selector path (i + 1) rest
end

/-- `HTMLElement::select` (and `HTMLDocument::select`, which starts at the
root): the selector is cut at commas and the matches of each piece are
appended. -/
def HTMLElement.select (node : GumboNode) (selector : Str) : List NodeRef :=
  (getlines ',' selector).foldl (fun elements sel => elements ++ find_matching_nodes sel [] node) []

/-- `HTMLElement::select_first`. -/
def HTMLElement.select_first (node : GumboNode) (selector : Str) : Option NodeRef :=
  (HTMLElement.select node selector).head?

mutual
/-- `HTMLElement::collect_text`: what is appended to `out`. -/
def collect_text : GumboNode → Str
  | .text t => t ++ " ".data
  | .element _ _ children => collect_text_children children
  | .other => []
/-- The loop of `collect_text` over the children. -/
def collect_text_children : List GumboNode → Str
  | [] => []
  | child :: rest => collect_text child ++ collect_text_children rest
end

/-- The trimming loop of `text()` and `main_text()`: white space popped off
the end. -/
def pop_trailing_space (out : Str) : Str := (out.reverse.dropWhile is_space).reverse

/-- `HTMLElement::text`. -/
def HTMLElement.text (node : GumboNode) : Str := pop_trailing_space (collect_text node)

mutual
/-- `collect_main_text`: what is appended to `out`. -/
def collect_main_text : GumboNode → Str
  | .text t => t ++ " ".data
  | .element tag _ children =>
    if tag = "script".data || tag = "style".data || tag = "noscript".data then []
    else collect_main_text_children children
  | .other => []
/-- The loop of `collect_main_text` over the children. -/
def collect_main_text_children : List GumboNode → Str
  | [] => []
  | child :: rest => collect_main_text child ++ collect_main_text_children rest
end

/-- `HTMLDocument::main_text`, with the root of the document given. -/
def HTMLDocument.main_text (root : GumboNode) : Str :=
  let start : GumboNode :=
    match HTMLElement.select_first root "body".data with
    | some body => body.2
    | none => root
  pop_trailing_space (collect_main_text start)

mutual
/-- The spec's words "document order": a node, then its children with their
descendants, one child after the other. -/
def document_order : List Nat → GumboNode → List NodeRef
  | path, .element tag attributes children =>
    (path, .element tag attributes children) :: document_order_children path 0 children
  | path, .text t => [(path, .text t)]
  | path, .other => [(path, .other)]
/-- Document order of the children from the `i`-th on. -/
def document_order_children : List Nat → Nat → List GumboNode → List NodeRef
  | _, _, [] => []
  | path, i, child :: rest =>
    document_order (path ++ [i]) child ++ document_order_children path (i + 1) rest
end

/-- The text of a text node. -/
def GumboNode.text? : GumboNode → Option Str
  | .text t => some t
  | _ => none

/-- The node is a `script`, `style` or `noscript` element. -/
def GumboNode.is_skipped : GumboNode → Bool
  | .element tag _ _ => tag = "script".data || tag = "style".data || tag = "noscript".data
  | _ => false

/-- The node that the path leads to from `node`. -/
def GumboNode.at_path : GumboNode → List Nat → Option GumboNode
  | node, [] => some node
  | .element _ _ children, i :: rest =>
    match children.get? i with
    | some child => child.at_path rest
    | none => none
  | _, _ :: _ => none

/-- The keys of the map are in strictly increasing order, as `std::map` keeps
them. -/
def keys_sorted {V : Type} (m : List (Str × V)) : Prop :=
  m.Pairwise (fun a b => str_lt a.1 b.1 = true)

/-- The texts of the text nodes among the given nodes, in their order. -/
def text_nodes (nodes : List NodeRef) : List Str :=
  nodes.filterMap (fun r => r.2.text?)

mutual
/-- The tree with the children of every `script`, `style` and `noscript`
element cut off. -/
def without_skipped : GumboNode → GumboNode
  | .element tag attributes children =>
    if tag = "script".data || tag = "style".data || tag = "noscript".data
      then .element tag attributes []
      else .element tag attributes (without_skipped_children children)
  | .text t => .text t
  | .other => .other
/-- The children, each with the skipped subtrees cut off. -/
def without_skipped_children : List GumboNode → List GumboNode
  | [] => []
  | child :: rest => without_skipped child :: without_skipped_children rest
end

/-- A character that the host group `[^/:]` of the URL pattern matches. -/
def host_char (c : Char) : Bool := c != '/' && c != ':'

/-- A character that the path group `[^?#]` of the URL pattern matches. -/
def path_char (c : Char) : Bool := c != '?' && c != '#'

/-- The port group `(?::(\d+))?` of `match_rest`: the digits matched and the
input left. -/
def port_stage (r : Str) : Option Str × Str :=
  match r with
  | ':' :: t =>
    if (t.takeWhile Char.isDigit).isEmpty then (none, r)
    else (some (t.takeWhile Char.isDigit), t.dropWhile Char.isDigit)
  | _ => (none, r)

/-- The path group `(/[^?#]*)?` of `match_rest`. -/
def path_stage (r : Str) : Option Str × Str :=
  match r with
  | '/' :: t =>
    (some ('/' :: t.takeWhile (fun c => c != '?' && c != '#')),
      t.dropWhile (fun c => c != '?' && c != '#'))
  | _ => (none, r)

/-- The query group `(?:\?([^#]*))?` of `match_rest`. -/
def query_stage (r : Str) : Option Str × Str :=
  match r with
  | '?' :: t => (some (t.takeWhile (· != '#')), t.dropWhile (· != '#'))
  | _ => (none, r)

/-- The fragment group `(?:#(.*))?$` of `match_rest`, given the earlier
groups. -/
def fragment_stage (port path query : Option Str) (r : Str) : Option RestMatch :=
  match r with
  | [] => some ⟨port, path, query, none⟩
  | '#' :: t => if t.all dot_matches then some ⟨port, path, query, some t⟩ else none
  | _ => none

/-- The components are such as `parse` returns them: scheme `http` or `https`,
a non-empty lowercase host without `/` and `:`, a port that an `int` holds,
a path beginning with `/` without `?` and `#`, a query without `#` and a
fragment without line terminators. -/
def URLComponents.well_formed (c : URLComponents) : Prop :=
  (c.scheme = "http".data ∨ c.scheme = "https".data) ∧
  c.host ≠ [] ∧ c.host.all host_char = true ∧ to_lower c.host = c.host ∧
  0 ≤ c.port ∧ c.port ≤ 2147483647 ∧
  c.path.head? = some '/' ∧ c.path.all path_char = true ∧
  c.query.all (fun ch => ch != '#') = true ∧
  c.fragment.all dot_matches = true

/-- The text `:port` that precedes the path in a URL, if any. -/
def port_text : Option Str → Str
  | some digits => ':' :: digits
  | none => []

/-- A path segment as the spec wants it after normalization: not empty, not
`.`, not `..`, and without `/`. -/
def good_segment (s : Str) : Prop :=
  s ≠ [] ∧ s ≠ ".".data ∧ s ≠ "..".data ∧ '/' ∉ s

/-- The path made of the segments, each after a `/`. -/
def join_segments (segments : List Str) : Str :=
  (segments.map (fun s => '/' :: s)).flatten

/-- The components that `normalize` hands to `to_string`. -/
def normalized_components (c : URLComponents) (keep_fragment : Bool) : URLComponents :=
  let c1 : URLComponents :=
    { c with
      scheme := to_lower c.scheme
      host := to_lower c.host
      path := URLNormalizer.normalize_path c.path
      query := URLNormalizer.sort_query_params c.query
      fragment := if !keep_fragment then [] else c.fragment }
  if c1.is_default_port then { c1 with port := 0 } else c1

/-! ## File names (`src/utils/sanitize.cpp`)

A `std::string` is a `Str` whose characters stand for its bytes:
`static_cast<unsigned char>(c)` is `c.toNat`. -/

/-- `INVALID_CHARS`: the `std::string` made from the literal
`"<>:\"/\\|?*\0"` ends before the literal's NUL. -/
def INVALID_CHARS : Str := ['<', '>', ':', '"', '/', '\\', '|', '?', '*']

/-- `RESERVED_NAMES`. -/
def RESERVED_NAMES : List Str :=
  ["CON".data, "PRN".data, "AUX".data, "NUL".data,
   "COM1".data, "COM2".data, "COM3".data, "COM4".data, "COM5".data, "COM6".data,
   "COM7".data, "COM8".data, "COM9".data,
   "LPT1".data, "LPT2".data, "LPT3".data, "LPT4".data, "LPT5".data, "LPT6".data,
   "LPT7".data, "LPT8".data, "LPT9".data]

/-- The loop of `collapse_duplicates`, with its flag `last_was_char`. -/
def collapse_loop (c : Char) : Str → Bool → Str
  | [], _ => []
  | ch :: rest, last_was_char =>
    if ch = c then
      if !last_was_char then ch :: collapse_loop c rest true
      else collapse_loop c rest last_was_char
    else ch :: collapse_loop c rest false

/-- `collapse_duplicates`. -/
def collapse_duplicates (input : Str) (c : Char) : Str := collapse_loop c input false

/-- The byte is a continuation byte of UTF-8: `(c & 0xC0) == 0x80`. -/
def is_continuation (c : Char) : Bool := c.toNat &&& 0xC0 == 0x80

/-- The loop of `truncate_utf8`: the value of `pos` after
`while (pos > 0 && (input[pos] & 0xC0) == 0x80) --pos`. -/
def truncate_boundary (input : Str) : Nat → Nat
  | 0 => 0
  | pos + 1 =>
    if is_continuation (input.getD (pos + 1) '\x00') then truncate_boundary input pos
    else pos + 1

/-- `truncate_utf8`. -/
def truncate_utf8 (input : Str) (max_bytes : Nat) : Str :=
  if input.length ≤ max_bytes then input
  else input.take (truncate_boundary input max_bytes)

/-- The number of bytes of the character that begins with the byte, as
`is_valid_utf8` reads it from the leading bits; `none` for an invalid leading
byte. -/
def utf8_char_len (c : Char) : Option Nat :=
  if c.toNat &&& 0x80 = 0 then some 1
  else if c.toNat &&& 0xE0 = 0xC0 then some 2
  else if c.toNat &&& 0xF0 = 0xE0 then some 3
  else if c.toNat &&& 0xF8 = 0xF0 then some 4
  else none

/-- The loops of `is_valid_utf8` over the bytes that remain, of which the
first `pending` ones have to be continuation bytes of the character being
read (the inner loop has `char_len - j` bytes to go): `false` for an invalid
leading byte, for a byte that is no continuation byte, and when the text ends
inside a character (`i + char_len > len`). -/
def valid_utf8_from : Nat → Str → Bool
  | 0, [] => true
  | _ + 1, [] => false
  | 0, c :: rest =>
    match utf8_char_len c with
    | none => false
    | some char_len => valid_utf8_from (char_len - 1) rest
  | pending + 1, c :: rest => is_continuation c && valid_utf8_from pending rest

/-- `is_valid_utf8`. -/
def is_valid_utf8 (input : Str) : Bool := valid_utf8_from 0 input

/-- What the first loop of `sanitize_filename` appends for a character. -/
def sanitize_char (c : Char) : Char :=
  if (find_char c INVALID_CHARS).isSome then '_'
  else if c.toNat < 32 then '_'
  else c

/-- The loop `while (!s.empty() && p(s.back())) s.pop_back()`. -/
def pop_back_while (p : Char → Bool) (s : Str) : Str :=
  (s.reverse.dropWhile p).reverse

/-- `sanitize_filename`. -/
def sanitize_filename (input : Str) (max_length : Nat := 255) : Str :=
  if input.isEmpty then "unnamed".data
  else
    let replaced : Str := input.map sanitize_char
    let collapsed : Str := collapse_duplicates replaced '_'
    let no_front : Str := collapsed.dropWhile (fun c => c = '.' || c = ' ')
    let stripped : Str := pop_back_while (fun c => c = '.' || c = ' ') no_front
    let upper : Str := stripped.map Char.toUpper
    let name_part : Str :=
      match find_char '.' upper with
      | some dot_pos => upper.take dot_pos
      | none => upper
    let named : Str := if RESERVED_NAMES.contains name_part then '_' :: stripped else stripped
    let cut : Str := if named.length > max_length then truncate_utf8 named max_length else named
    if cut.isEmpty then "unnamed".data else cut

/-! ## Markdown chunks (`src/process/chunker.cpp`) -/

/-- A chunk (`struct Chunk`). -/
structure Chunk where
  content : Str := []
  heading_hierarchy : List Str := []
  token_count : Int := 0
  deriving DecidableEq, Repr

/-- Configuration of the chunker (`struct ChunkerConfig`). -/
structure ChunkerConfig where
  max_chunk_size : Int := 512
  chunk_overlap : Int := 50
  deriving DecidableEq, Repr

/-- Match of `.+$` at the start of `s` under `std::regex::multiline`: the run
of characters up to the end of the line, which must not be empty. -/
def match_title (s : Str) : Option Str :=
  let run := s.takeWhile dot_matches
  if run.isEmpty then none else some run

/-- Match of `\s+.+$` at the start of `s` with at most `n` characters of white
space, the longest white space first: its length and the title. -/
def match_space_title (s : Str) : Nat → Option (Nat × Str)
  | 0 => none
  | n + 1 =>
    match match_title (s.drop (n + 1)) with
    | some title => some (n + 1, title)
    | none => match_space_title s n

/-- Match of `#{1,6}\s+(.+)$` at the start of `s` with at most `k` characters
`#`, the most first: the length of the match and the title. -/
def match_hashes (s : Str) : Nat → Option (Nat × Str)
  | 0 => none
  | k + 1 =>
    let r := s.drop (k + 1)
    match match_space_title r (r.takeWhile is_space).length with
    | some (w, title) => some (k + 1 + w + title.length, title)
    | none => match_hashes s k

/-- Match of `#{1,6}\s+(.+)$` at the start of `s`. -/
def match_heading (s : Str) : Option (Nat × Str) :=
  match_hashes s (min (s.takeWhile (fun c => c = '#')).length 6)

/-- The positions of the successive matches of `^#{1,6}\s+.+$` that the
`std::sregex_iterator` of `split_by_headings` yields, for the text from
position `pos` on: `at_line_start` tells whether `^` holds here, and `skip`
characters are still part of the previous match. -/
def heading_positions : Str → Nat → Bool → Nat → List Nat
  | [], _, _, _ => []
  | c :: rest, pos, at_line_start, skip =>
    if skip = 0 then
      if at_line_start then
        match match_heading (c :: rest) with
        | some (len, _) => pos :: heading_positions rest (pos + 1) (!dot_matches c) (len - 1)
        | none => heading_positions rest (pos + 1) (!dot_matches c) 0
      else heading_positions rest (pos + 1) (!dot_matches c) 0
    else heading_positions rest (pos + 1) (!dot_matches c) (skip - 1)

/-- The loop of `split_by_headings` over the matches, and the piece after the
last one. -/
def split_sections (markdown : Str) : List Nat → Nat → List Str
  | [], last_pos => if last_pos < markdown.length then [markdown.drop last_pos] else []
  | pos :: more, last_pos =>
    if pos > last_pos then
      (markdown.drop last_pos).take (pos - last_pos) :: split_sections markdown more pos
    else split_sections markdown more pos

/-- `Chunker::split_by_headings`. -/
def Chunker.split_by_headings (markdown : Str) : List Str :=
  let positions := heading_positions markdown 0 true 0
  if positions.isEmpty then [markdown] else split_sections markdown positions 0

/-- The title of the first match of `^#{1,6}\s+(.+)$` that `std::regex_search`
finds in the text. -/
def first_heading : Str → Bool → Option Str
  | [], _ => none
  | c :: rest, at_line_start =>
    match (if at_line_start then match_heading (c :: rest) else none) with
    | some (_, title) => some title
    | none => first_heading rest (!dot_matches c)

/-- `Chunker::extract_heading_hierarchy`. -/
def Chunker.extract_heading_hierarchy (section_text : Str) : List Str :=
  match first_heading section_text true with
  | some title => [title]
  | none => []

/-- `static_cast<size_t>` of an `int`. -/
def to_size_t (n : Int) : Nat := (n % 18446744073709551616).toNat

/-- The `while` loop of `chunk_markdown` over a section that is too long, from
`start` on, run for at most `fuel` iterations: `none` when the loop is still
running after them. In the last line `len` is not below the overlap, so the
difference does not wrap. -/
def split_by_size (config : ChunkerConfig) (section_text : Str) : Nat → Nat → Option (List Chunk)
  | 0, start => if start < section_text.length then none else some []
  | fuel + 1, start =>
    if start < section_text.length then
      let len : Nat :=
        min (section_text.length - start) (to_size_t (wrap32 (config.max_chunk_size * 4)))
      let content : Str := (section_text.drop start).take len
      let c : Chunk :=
        { content := content
          heading_hierarchy := Chunker.extract_heading_hierarchy section_text
          token_count := Tokenizer.count_tokens content }
      if len < to_size_t (wrap32 (config.chunk_overlap * 4)) then some [c]
      else
        (split_by_size config section_text fuel
          (start + (len - to_size_t (wrap32 (config.chunk_overlap * 4))))).map (fun cs => c :: cs)
    else some []

/-- The loop of `chunk_markdown` over the sections. -/
def chunk_sections (config : ChunkerConfig) (fuel : Nat) : List Str → Option (List Chunk)
  | [] => some []
  | section_text :: rest =>
    let tokens : Int := Tokenizer.count_tokens section_text
    let here : Option (List Chunk) :=
      if tokens ≤ config.max_chunk_size then
        some [{ content := section_text
                heading_hierarchy := Chunker.extract_heading_hierarchy section_text
                token_count := tokens }]
      else split_by_size config section_text fuel 0
    match here with
    | none => none
    | some cs => (chunk_sections config fuel rest).map (fun more => cs ++ more)

/-- `Chunker::chunk_markdown`, each `while` loop run for at most `fuel`
iterations: `none` when one of them is still running after them. -/
def Chunker.chunk_markdown (config : ChunkerConfig) (fuel : Nat) (markdown : Str) :
    Option (List Chunk) :=
  chunk_sections config fuel (Chunker.split_by_headings markdown)

/-! ## Queue statistics (`src/queue/priority_queue.cpp`), continued -/

/-- The counters that `get_stats` returns (`struct Stats`). -/
structure Stats where
  total_pushed : Nat := 0
  total_popped : Nat := 0
  current_size : Nat := 0
  min_depth : Int := 2147483647
  max_depth : Int := 0
  deriving DecidableEq, Repr

/-- `ThreadSafePriorityQueue::get_stats`. -/
def ThreadSafePriorityQueue.get_stats (q : ThreadSafePriorityQueue) : Stats :=
  { total_pushed := q.total_pushed
    total_popped := q.total_popped
    current_size := q.items.length
    min_depth := q.min_depth
    max_depth := q.max_depth }

/-- The operation is `clear`. -/
def QueueOp.is_clear : QueueOp → Bool
  | .clear => true
  | _ => false

/-- The number of items that the `clear` calls of a sequence of operations
remove from the queue. -/
def cleared_by (q : ThreadSafePriorityQueue) : List QueueOp → Nat
  | [] => 0
  | op :: ops => (if op.is_clear then q.items.length else 0) + cleared_by (op.apply q) ops

/-! ## Query parameters -/

/-- The key and the value that the parsing loop of `sort_query_params` reads
from one `&`-separated piece of a query; an empty piece holds no parameter. -/
def param_of (pair : Str) : Option (Str × Str) :=
  match find_char '=' pair with
  | some eq_pos => some (pair.take eq_pos, pair.drop (eq_pos + 1))
  | none => if !pair.isEmpty then some (pair, []) else none

/-- The `&`-separated `key=value` parameters of a query, in the order
written. -/
def query_parameters (query : Str) : List (Str × Str) :=
  (getlines '&' query).filterMap param_of

/-! ## Concrete inputs used by the evaluations below -/

/-- A stand-in for the library functions: the digest of a string is the string
itself and a record is rendered as its status followed by its URL. -/
def demo_env : Env where
  url_hash := fun u => u
  content_hash := fun c => c
  page_to_json := fun e => (reprStr e.status).data ++ " ".data ++ e.normalized_url
  image_to_json := fun e => (reprStr e.status).data ++ " ".data ++ e.original_url

/-- Days from 1970-01-01 to the given day of the proleptic Gregorian
calendar. -/
def days_from_civil (y m d : Int) : Int :=
  let y1 := if m ≤ 2 then y - 1 else y
  let era := y1 / 400
  let yoe := y1 - era * 400
  let doy := (153 * (if m > 2 then m - 3 else m + 9) + 2) / 5 + d - 1
  let doe := yoe * 365 + yoe / 4 - yoe / 100 + doy
  era * 146097 + doe - 719468

/-- Year, month and day of the day that lies `z` days after 1970-01-01. -/
def civil_from_days (z : Int) : Int × Int × Int :=
  let z1 := z + 719468
  let era := z1 / 146097
  let doe := z1 - era * 146097
  let yoe := (doe - doe / 1460 + doe / 36524 - doe / 146096) / 365
  let doy := doe - (365 * yoe + yoe / 4 - yoe / 100)
  let mp := (5 * doy + 2) / 153
  let d := doy - (153 * mp + 2) / 5 + 1
  let m := if mp < 10 then mp + 3 else mp - 9
  (if m ≤ 2 then yoe + era * 400 + 1 else yoe + era * 400, m, d)

/-- Two decimal digits of a number below 100. -/
def two_digits (n : Int) : Str := pad_left '0' 2 (int_to_str n)

/-- A calendar for the evaluations: `%Y-%m-%dT%H:%M:%S` of a `time_t` in
UTC. -/
def demo_put_time_utc (t : Int) : Str :=
  let days := t / 86400
  let secs := t % 86400
  let ymd := civil_from_days days
  int_to_str ymd.1 ++ "-".data ++ two_digits ymd.2.1 ++ "-".data ++ two_digits ymd.2.2
    ++ "T".data ++ two_digits (secs / 3600) ++ ":".data ++ two_digits (secs % 3600 / 60)
    ++ ":".data ++ two_digits (secs % 60)

/-- The number written by a run of decimal digits. -/
def digits_value (digits : Str) : Int :=
  Int.ofNat (digits.foldl (fun acc c => 10 * acc + (c.toNat - 48)) 0)

/-- A calendar for the evaluations: the fields of `%Y-%m-%dT%H:%M:%S` read
from the start of the text into a zeroed `struct tm` until one does not fit,
then `timegm`. -/
def demo_get_time_utc (s : Str) : Int :=
  let year_digits := s.takeWhile Char.isDigit
  let field (r : Str) (sep : Char) : Option (Int × Str) :=
    match r with
    | c :: a :: b :: rest =>
      if c = sep && a.isDigit && b.isDigit then some (digits_value [a, b], rest) else none
    | _ => none
  let r0 := s.dropWhile Char.isDigit
  if year_digits.isEmpty then days_from_civil 1900 1 0 * 86400
  else
    let year := digits_value year_digits
    match field r0 '-' with
    | none => days_from_civil year 1 0 * 86400
    | some (month, r1) =>
      match field r1 '-' with
      | none => days_from_civil year month 0 * 86400
      | some (day, r2) =>
        match field r2 'T' with
        | none => days_from_civil year month day * 86400
        | some (hour, r3) =>
          match field r3 ':' with
          | none => days_from_civil year month day * 86400 + hour * 3600
          | some (minute, r4) =>
            match field r4 ':' with
            | none => days_from_civil year month day * 86400 + hour * 3600 + minute * 60
            | some (second, _) =>
              days_from_civil year month day * 86400 + hour * 3600 + minute * 60 + second

/-- The C library of the evaluations: a clock ticking in nanoseconds and the
calendar above. -/
def demo_clib : CLib where
  ticks_per_ms := 1000000
  put_time_utc := demo_put_time_utc
  get_time_utc := demo_get_time_utc

/-- A JSON string literal: quotes and backslashes escaped. -/
def mini_quote (s : Str) : Str :=
  '"' :: (s.map (fun c => if c = '"' || c = '\\' then ['\\', c] else [c])).flatten ++ ['"']

/-- JSON text of a member value. -/
def mini_dump_value : JsonValue → Str
  | .null => "null".data
  | .boolean b => if b then "true".data else "false".data
  | .number_integer n => int_to_str n
  | .number_float t => int_to_str t ++ ".0".data
  | .string s => mini_quote s
  | .structured => "[]".data

/-- JSON text of the members of an object, separated by commas. -/
def mini_dump_members : List (Str × JsonValue) → Str
  | [] => []
  | [(k, v)] => mini_quote k ++ ":".data ++ mini_dump_value v
  | (k, v) :: rest =>
    mini_quote k ++ ":".data ++ mini_dump_value v ++ ",".data ++ mini_dump_members rest

/-- Compact JSON text of an object, as `dump()` writes it. -/
def mini_dump (members : List (Str × JsonValue)) : Str :=
  '{' :: mini_dump_members members ++ ['}']

/-- The string literal whose opening quote has been read: its content and the
text after the closing quote. -/
def mini_read_string : Str → Option (Str × Str)
  | [] => none
  | '"' :: rest => some ([], rest)
  | '\\' :: c :: rest => (mini_read_string rest).map (fun r => (c :: r.1, r.2))
  | c :: rest => (mini_read_string rest).map (fun r => (c :: r.1, r.2))

/-- A member value at the start of the text and the text after it. -/
def mini_read_value (s : Str) : Option (JsonValue × Str) :=
  match s with
  | '"' :: rest => (mini_read_string rest).map (fun r => (.string r.1, r.2))
  | '-' :: rest =>
    if (rest.takeWhile Char.isDigit).isEmpty then none
    else some (.number_integer (-digits_value (rest.takeWhile Char.isDigit)),
      rest.dropWhile Char.isDigit)
  | 'n' :: 'u' :: 'l' :: 'l' :: rest => some (.null, rest)
  | 't' :: 'r' :: 'u' :: 'e' :: rest => some (.boolean true, rest)
  | 'f' :: 'a' :: 'l' :: 's' :: 'e' :: rest => some (.boolean false, rest)
  | '[' :: ']' :: rest => some (.structured, rest)
  | _ =>
    if (s.takeWhile Char.isDigit).isEmpty then none
    else some (.number_integer (digits_value (s.takeWhile Char.isDigit)),
      s.dropWhile Char.isDigit)

/-- The members of an object whose opening brace has been read, at most `n`
of them, up to the closing brace that ends the text. -/
def mini_read_members : Nat → Str → Option (List (Str × JsonValue))
  | 0, _ => none
  | n + 1, s =>
    match s with
    | '"' :: rest =>
      match mini_read_string rest with
      | some (key, ':' :: after_colon) =>
        match mini_read_value after_colon with
        | some (v, ['}']) => some [(key, v)]
        | some (v, ',' :: more) => (mini_read_members n more).map (fun ms => (key, v) :: ms)
        | _ => none
      | _ => none
    | _ => none

/-- A reader for the JSON texts of the evaluations: flat objects written
without white space; a member read later replaces an earlier one of the same
key. -/
def mini_parse (s : Str) : Option Json :=
  match s with
  | ['{', '}'] => some (.object [])
  | '{' :: rest =>
    (mini_read_members rest.length rest).map
      (fun ms => .object (ms.foldl (fun m kv => map_set kv.1 kv.2 m) []))
  | _ => (mini_read_value s).bind (fun r => if r.2.isEmpty then some (.other r.1) else none)

/-- The JSON library of the evaluations. -/
def mini_json : JsonLib where
  dump := mini_dump
  parse := mini_parse

/-- Page records for the evaluations: pending, done, failed, and pending
without a URL. -/
def demo_page_records : List PageDBEntry :=
  [{ status := .Pending, normalized_url := "http://ex.com/a".data, depth := 0 },
   { status := .Success, normalized_url := "http://ex.com/b".data, depth := 1 },
   { status := .Failure, error_type := .HTTPError, normalized_url := "http://ex.com/c".data,
     depth := 2 },
   { status := .Pending }]

/-- A database for the evaluations: an image record, the page records above,
and a record under a key past the `p:` range. -/
def demo_store : Store :=
  [("i:1".data, ImageDBEntry.to_json mini_json demo_clib
      { status := .Pending, original_url := "http://ex.com/a.png".data }),
   ("p:1".data, PageDBEntry.to_json mini_json demo_clib
      { status := .Pending, normalized_url := "http://ex.com/a".data, depth := 0 }),
   ("p:2".data, PageDBEntry.to_json mini_json demo_clib
      { status := .Success, normalized_url := "http://ex.com/b".data, depth := 1 }),
   ("p:3".data, PageDBEntry.to_json mini_json demo_clib
      { status := .Failure, error_type := .HTTPError, normalized_url := "http://ex.com/c".data,
        depth := 2 }),
   ("p:4".data, PageDBEntry.to_json mini_json demo_clib { status := .Pending }),
   ("q".data, PageDBEntry.to_json mini_json demo_clib
      { status := .Pending, normalized_url := "http://ex.com/d".data })]

/-- A document for the evaluations: a `div` of class `x` holding a text and a
script, a comment, and a paragraph. -/
def demo_tree : GumboNode :=
  .element "html".data [] [
    .element "body".data [] [
      .element "div".data [("class".data, "x content".data)] [
        .text "Hello".data,
        .element "script".data [] [.text "alert(1)".data]],
      .other,
      .element "p".data [("id".data, "y".data)] [.text "World".data]]]

/-! ## Lemmas on string search -/

theorem starts_with_iff (s pat : Str) : starts_with s pat = true ↔ pat <+: s := by
  induction s generalizing pat with
  | nil =>
    cases pat with
    | nil => simp [starts_with]
    | cons p pat => simp [starts_with]
  | cons c s ih =>
    cases pat with
    | nil => simp [starts_with]
    | cons p pat =>
      simp only [starts_with, Bool.and_eq_true, beq_iff_eq, ih, List.cons_prefix_cons]
      constructor
      · rintro ⟨h1, h2⟩; exact ⟨h1.symm, h2⟩
      · rintro ⟨h1, h2⟩; exact ⟨h1.symm, h2⟩

theorem find_str_zero_iff (s pat : Str) : find_str s pat = some 0 ↔ starts_with s pat = true := by
  cases s with
  | nil =>
    cases pat with
    | nil => simp [find_str, starts_with]
    | cons p pat => simp [find_str, starts_with]
  | cons c s =>
    by_cases h : starts_with (c :: s) pat = true
    · simp [find_str, h]
    · simp only [find_str, h]
      cases find_str s pat <;> simp

theorem rfind_str_bound (s pat : Str) (i : Nat) (h : rfind_str s pat = some i) :
    i + pat.length ≤ s.length := by
  induction s generalizing i with
  | nil =>
    cases pat with
    | nil => simp [rfind_str] at h; simp [h]
    | cons p pat => simp [rfind_str] at h
  | cons c s ih =>
    simp only [rfind_str] at h
    cases hr : rfind_str s pat with
    | some j =>
      rw [hr] at h
      simp only [Option.some.injEq] at h
      have := ih j hr
      simp only [List.length_cons]
      omega
    | none =>
      rw [hr] at h
      by_cases hs : starts_with (c :: s) pat = true
      · simp only [hs, if_true, Option.some.injEq] at h
        have hp := (starts_with_iff _ _).1 hs
        have := hp.length_le
        omega
      · simp [hs] at h

theorem rfind_str_at_end_iff (s pat : Str) (hlen : pat.length ≤ s.length) :
    rfind_str s pat = some (s.length - pat.length) ↔ pat <:+ s := by
  induction s with
  | nil =>
    have : pat = [] := by
      cases pat with
      | nil => rfl
      | cons p pat => simp at hlen
    subst this
    simp [rfind_str]
  | cons c s ih =>
    by_cases hle : pat.length ≤ s.length
    · have ih' := ih hle
      have hsuf : pat <:+ c :: s ↔ pat <:+ s := by
        rw [List.suffix_cons_iff]
        constructor
        · rintro (h | h)
          · subst h; simp at hle
          · exact h
        · intro h; exact Or.inr h
      rw [hsuf, ← ih']
      simp only [rfind_str, List.length_cons]
      cases hr : rfind_str s pat with
      | some j =>
        simp only [Option.some.injEq]
        omega
      | none =>
        by_cases hs : starts_with (c :: s) pat = true
        · simp only [hs, if_true, Option.some.injEq]
          constructor
          · intro h; omega
          · intro h; simp at h
        · simp [hs]
    · have heq : pat.length = s.length + 1 := by
        simp only [List.length_cons] at hlen
        omega
      have hnone : rfind_str s pat = none := by
        cases hr : rfind_str s pat with
        | none => rfl
        | some j =>
          have := rfind_str_bound s pat j hr
          omega
      simp only [rfind_str, hnone, List.length_cons, heq, Nat.sub_self]
      have hsw : starts_with (c :: s) pat = true ↔ pat <:+ c :: s := by
        rw [starts_with_iff]
        constructor
        · intro h
          have := h.eq_of_length (by simp [heq])
          rw [this]
        · intro h
          have := h.eq_of_length (by simp [heq])
          rw [this]
      by_cases hs : starts_with (c :: s) pat = true
      · simp [hs, hsw.1 hs]
      · have : ¬ pat <:+ c :: s := fun h => hs (hsw.2 h)
        simp [hs, this]

theorem match_scheme_lower (s scheme r : Str) (h : match_scheme s = some (scheme, r)) :
    to_lower scheme = "http".data ∨ to_lower scheme = "https".data := by
  unfold match_scheme at h
  by_cases h4 : to_lower (s.take 4) = "http".data
  · simp only [h4, if_true] at h
    split at h
    · simp only [Option.some.injEq, Prod.mk.injEq] at h
      left; rw [← h.1]; exact h4
    · rename_i c r' hd
      by_cases hc : c.toLower = 's'
      · simp only [hc, if_true, Option.some.injEq, Prod.mk.injEq] at h
        right
        rw [← h.1]
        have hs : s = s.take 4 ++ s.drop 4 := (List.take_append_drop 4 s).symm
        have hlen : (s.take 4).length = 4 := by
          have : (to_lower (s.take 4)).length = 4 := by rw [h4]; rfl
          simpa [to_lower] using this
        have h5 : s.take 5 = s.take 4 ++ [c] := by
          conv_lhs => rw [hs, hd]
          rw [List.take_append_eq_append_take, hlen]
          simp
        rw [h5]
        simp only [to_lower, List.map_append, List.map_cons, List.map_nil] at h4 ⊢
        rw [h4, hc]
        rfl
      · simp [hc] at h
    · simp at h
  · simp [h4] at h

theorem parse_scheme (url : Str) (c : URLComponents)
    (h : URLNormalizer.parse url = .ok (some c)) :
    c.scheme = "http".data ∨ c.scheme = "https".data := by
  unfold URLNormalizer.parse at h
  split at h
  · simp at h
  · split at h
    · simp at h
    · rename_i scheme r hm
      have hl := match_scheme_lower _ _ _ hm
      split at h
      · simp at h
      · rename_i host m hh
        have key : ∀ port : Int, ∀ c' : URLComponents,
            c' = { scheme := to_lower scheme, host := to_lower host, port := port,
                   path := if (m.path.getD "/".data).isEmpty then "/".data else m.path.getD "/".data,
                   query := m.query.getD [], fragment := m.fragment.getD [] } →
            c'.scheme = "http".data ∨ c'.scheme = "https".data := by
          intro port c' hc'
          rw [hc']
          exact hl
        split at h
        · split at h
          · simp only [Except.ok.injEq, Option.some.injEq] at h
            exact key 0 c h.symm
          · split at h
            · rename_i p hp
              simp only [Except.ok.injEq, Option.some.injEq] at h
              exact key p c h.symm
            · simp at h
        · simp only [Except.ok.injEq, Option.some.injEq] at h
          exact key 0 c h.symm

theorem is_in_scope_of_parsed (url d p : Str) (c : URLComponents)
    (h : URLNormalizer.parse url = .ok (some c)) :
    ∃ b : Bool, URLNormalizer.is_in_scope url d p = .ok b ∧
      (b = true ↔
        (to_lower c.host = to_lower d ∨ ('.' :: to_lower d) <:+ to_lower c.host) ∧
        (p = [] ∨ p <+: c.path)) := by
  have hsch := parse_scheme url c h
  have hscheme : (c.scheme != "http".data && c.scheme != "https".data) = false := by
    rcases hsch with h1 | h1 <;> simp [h1]
  have hpath : (find_str c.path p != some 0) = false ↔ p <+: c.path := by
    rw [← starts_with_iff, ← find_str_zero_iff]
    simp
  simp only [URLNormalizer.is_in_scope, h, hscheme]
  by_cases heq : to_lower c.host = to_lower d
  · have hd : (to_lower c.host != to_lower d) = false := by simp [heq]
    simp only [hd, Bool.false_eq_true, if_false, Bool.not_true]
    by_cases hp : p = []
    · subst hp
      exact ⟨true, by simp, by simp [heq]⟩
    · have hpe : (!p.isEmpty) = true := by
        cases p with
        | nil => exact absurd rfl hp
        | cons a b => rfl
      simp only [hpe, if_true]
      by_cases hf : (find_str c.path p != some 0) = true
      · refine ⟨false, by simp [hf], ?_⟩
        have : ¬ p <+: c.path := fun hh => by
          rw [hpath.2 hh] at hf; exact absurd hf (by simp)
        simp [hp, this]
      · have hf' : (find_str c.path p != some 0) = false := by simpa using hf
        refine ⟨true, by simp [hf'], ?_⟩
        simp [heq, hpath.1 hf']
  · have hd : (to_lower c.host != to_lower d) = true := by simp [heq]
    simp only [hd, if_true]
    by_cases hlen : (to_lower c.host).length > (to_lower d).length
    · have hle : ('.' :: to_lower d).length ≤ (to_lower c.host).length := by
        simp only [List.length_cons]; omega
      have hr := rfind_str_at_end_iff (to_lower c.host) ('.' :: to_lower d) hle
      simp only [hlen, if_true]
      by_cases hsuf : ('.' :: to_lower d) <:+ to_lower c.host
      · have hr' : (rfind_str (to_lower c.host) ('.' :: to_lower d)
            != some ((to_lower c.host).length - ('.' :: to_lower d).length)) = false := by
          simp [hr.2 hsuf]
        simp only [hr', Bool.false_eq_true, if_false, Bool.not_true]
        by_cases hp : p = []
        · subst hp
          exact ⟨true, by simp, by simp [hsuf]⟩
        · have hpe : (!p.isEmpty) = true := by
            cases p with
            | nil => exact absurd rfl hp
            | cons a b => rfl
          simp only [hpe, if_true]
          by_cases hf : (find_str c.path p != some 0) = true
          · refine ⟨false, by simp [hf], ?_⟩
            have : ¬ p <+: c.path := fun hh => by
              rw [hpath.2 hh] at hf; exact absurd hf (by simp)
            simp [hp, this]
          · have hf' : (find_str c.path p != some 0) = false := by simpa using hf
            refine ⟨true, by simp [hf'], ?_⟩
            simp [hsuf, hpath.1 hf']
      · have hr' : (rfind_str (to_lower c.host) ('.' :: to_lower d)
            != some ((to_lower c.host).length - ('.' :: to_lower d).length)) = true := by
          simp only [bne_iff_ne, ne_eq]
          exact fun hh => hsuf (hr.1 hh)
        refine ⟨false, ?_, ?_⟩
        · simp only [hr', if_true]
          simp
        · simp [heq, hsuf]
    · refine ⟨false, by simp [hlen], ?_⟩
      have : ¬ ('.' :: to_lower d) <:+ to_lower c.host := by
        intro hh
        have := hh.length_le
        simp only [List.length_cons] at this
        omega
      simp [heq, this]

/-! ## Lemmas on the ordered map -/

theorem map_get_map_set_same {V : Type} (k : Str) (v : V) (m : List (Str × V)) :
    map_get k (map_set k v m) = some v := by
  induction m with
  | nil => simp [map_set, map_get]
  | cons kv rest ih =>
    obtain ⟨k', v'⟩ := kv
    by_cases h : k = k'
    · simp [map_set, map_get, h]
    · by_cases hlt : str_lt k k' = true
      · simp [map_set, map_get, h, hlt]
      · simp [map_set, map_get, h, hlt, ih]

theorem map_get_map_set_other {V : Type} (k k2 : Str) (v : V) (m : List (Str × V))
    (hne : k2 ≠ k) : map_get k2 (map_set k v m) = map_get k2 m := by
  induction m with
  | nil => simp [map_set, map_get, hne]
  | cons kv rest ih =>
    obtain ⟨k', v'⟩ := kv
    by_cases h : k = k'
    · subst h
      simp [map_set, map_get, hne]
    · by_cases hlt : str_lt k k' = true
      · simp [map_set, map_get, h, hlt, hne]
      · by_cases h2 : k2 = k'
        · simp [map_set, map_get, h, hlt, h2]
        · simp [map_set, map_get, h, hlt, h2, ih]

theorem map_get_map_set_isSome {V : Type} (k k2 : Str) (v : V) (m : List (Str × V))
    (h : (map_get k2 m).isSome = true) : (map_get k2 (map_set k v m)).isSome = true := by
  by_cases hk : k2 = k
  · subst hk
    simp [map_get_map_set_same]
  · rw [map_get_map_set_other k k2 v m hk]
    exact h

/-! ## Lemmas on the visited store -/

theorem mark_page_visited_of_some (env : Env) (db : Store) (u : Str) (now : TimePoint)
    (record : Str) (h : RocksDBStore.get db (RocksDBStore.page_key env u) = some record) :
    RocksDBStore.mark_page_visited env db u now = (false, db) := by
  simp only [RocksDBStore.mark_page_visited, h]

theorem mark_page_visited_of_none (env : Env) (db : Store) (u : Str) (now : TimePoint)
    (h : RocksDBStore.get db (RocksDBStore.page_key env u) = none) :
    RocksDBStore.mark_page_visited env db u now
      = (true, RocksDBStore.put db (RocksDBStore.page_key env u)
          (env.page_to_json
            { status := .Pending, normalized_url := u, created_at := now,
              last_attempt := now })) := by
  simp only [RocksDBStore.mark_page_visited, h]

theorem mark_page_visited_keeps {env : Env} (db : Store) (v key : Str) (now : TimePoint)
    (h : (RocksDBStore.get db key).isSome = true) :
    (RocksDBStore.get (RocksDBStore.mark_page_visited env db v now).2 key).isSome = true := by
  cases hg : RocksDBStore.get db (RocksDBStore.page_key env v) with
  | some x => rw [mark_page_visited_of_some env db v now x hg]; exact h
  | none =>
    rw [mark_page_visited_of_none env db v now hg]
    exact map_get_map_set_isSome _ _ _ _ h

theorem store_op_keeps {env : Env} (db : Store) (key : Str) (op : StoreOp)
    (h : (RocksDBStore.get db key).isSome = true) :
    (RocksDBStore.get (op.apply env db) key).isSome = true := by
  cases op with
  | mark_page_visited v now => exact mark_page_visited_keeps db v key now h
  | update_page_status v entry => exact map_get_map_set_isSome _ _ _ _ h
  | update_image_status v entry => exact map_get_map_set_isSome _ _ _ _ h
  | check_page_status v => exact h
  | get_page_content_hash v => exact h
  | check_image_status v => exact h
  | get_visited_count => exact h
  | requeue_incomplete => exact h
  | write_visited_log => exact h

theorem count_claims_of_present {env : Env} (u : Str) (ops : List StoreOp) :
    ∀ db : Store, (RocksDBStore.get db (RocksDBStore.page_key env u)).isSome = true →
      count_claims env u db ops = 0 := by
  induction ops with
  | nil => intro db _; rfl
  | cons op ops ih =>
    intro db h
    have hno : op.claims env db u = false := by
      cases op with
      | mark_page_visited v now =>
        by_cases hv : v = u
        · subst hv
          cases hg : RocksDBStore.get db (RocksDBStore.page_key env v) with
          | none => rw [hg] at h; simp at h
          | some x => simp [StoreOp.claims, mark_page_visited_of_some env db v now x hg]
        · simp [StoreOp.claims, hv]
      | _ => rfl
    simp only [count_claims, hno]
    simpa using ih _ (store_op_keeps db _ op h)

theorem claims_makes_present {env : Env} (db : Store) (u : Str) (op : StoreOp)
    (h : op.claims env db u = true) :
    (RocksDBStore.get (op.apply env db) (RocksDBStore.page_key env u)).isSome = true := by
  cases op with
  | mark_page_visited v now =>
    simp only [StoreOp.claims, Bool.and_eq_true, decide_eq_true_eq] at h
    obtain ⟨hv, hm⟩ := h
    subst hv
    simp only [StoreOp.apply]
    cases hg : RocksDBStore.get db (RocksDBStore.page_key env v) with
    | some x => rw [mark_page_visited_of_some env db v now x hg] at hm; simp at hm
    | none =>
      rw [mark_page_visited_of_none env db v now hg]
      simp [RocksDBStore.get, RocksDBStore.put, map_get_map_set_same]
  | _ => simp [StoreOp.claims] at h

theorem count_claims_le_one {env : Env} (u : Str) (ops : List StoreOp) :
    ∀ db : Store, count_claims env u db ops ≤ 1 := by
  induction ops with
  | nil => intro db; simp [count_claims]
  | cons op ops ih =>
    intro db
    by_cases hc : op.claims env db u = true
    · have h0 := @count_claims_of_present env u ops _ (claims_makes_present db u op hc)
      simp [count_claims, hc, h0]
    · have := ih (op.apply env db)
      simpa [count_claims, hc] using this

/-! ## Lemmas on the crawler -/

theorem enqueue_links_pushes (site : SiteConfig) (item : WorkItem) (out : PageOutcome)
    (links : List Str) :
    ∀ (i : Nat) (w : World), ∃ pushed : List WorkItem,
      (Crawler.enqueue_links site item out links i w).1.queue.items = w.queue.items ++ pushed ∧
      ∀ x ∈ pushed, ∃ l ∈ links,
        URLNormalizer.resolve item.url l = .ok (some x.url) ∧
        URLNormalizer.is_in_scope x.url site.allowed_domain
          (SiteConfig.allowed_path_prefix site) = .ok true ∧
        x.depth = item.depth + 1 := by
  induction links with
  | nil =>
    intro i w
    exact ⟨[], by simp [Crawler.enqueue_links], by simp⟩
  | cons link rest ih =>
    intro i w
    unfold Crawler.enqueue_links
    cases hres : URLNormalizer.resolve item.url link with
    | error e => exact ⟨[], by simp, by simp⟩
    | ok r =>
      cases r with
      | none =>
        obtain ⟨pushed, h1, h2⟩ := ih (i + 1) w
        refine ⟨pushed, h1, ?_⟩
        intro x hx
        obtain ⟨l, hl, hrest⟩ := h2 x hx
        exact ⟨l, List.mem_cons_of_mem _ hl, hrest⟩
      | some resolved =>
        simp only
        cases hsc : URLNormalizer.is_in_scope resolved site.allowed_domain
            (SiteConfig.allowed_path_prefix site) with
        | error e => exact ⟨[], by simp, by simp⟩
        | ok b =>
          cases b with
          | false =>
            obtain ⟨pushed, h1, h2⟩ := ih (i + 1) w
            refine ⟨pushed, h1, ?_⟩
            intro x hx
            obtain ⟨l, hl, hrest⟩ := h2 x hx
            exact ⟨l, List.mem_cons_of_mem _ hl, hrest⟩
          | true =>
            obtain ⟨pushed, h1, h2⟩ := ih (i + 1) ⟨w.store, w.queue.push
              (WorkItem.make resolved (item.depth + 1) (out.discovered_at i)), w.waits,
              w.fetches, w.pages_processed⟩
            refine ⟨WorkItem.make resolved (item.depth + 1) (out.discovered_at i) :: pushed,
              ?_, ?_⟩
            · simp only [] at h1 ⊢
              rw [h1]
              simp [ThreadSafePriorityQueue.push]
            · intro x hx
              rcases List.mem_cons.1 hx with hx | hx
              · subst hx
                exact ⟨link, List.mem_cons_self _ _, hres, hsc, rfl⟩
              · obtain ⟨l, hl, hrest⟩ := h2 x hx
                exact ⟨l, List.mem_cons_of_mem _ hl, hrest⟩

theorem process_page_queue (env : Env) (site : SiteConfig) (w : World) (item : WorkItem)
    (out : PageOutcome) :
    (Crawler.process_page env site w item out).1.queue = w.queue ∨
    ∃ w5 : World, w5.queue = w.queue ∧
      Crawler.process_page env site w item out
        = Crawler.enqueue_links site item out out.result.extracted_links 0 w5 := by
  unfold Crawler.process_page
  by_cases hd : (decide (site.max_depth > 0) && decide (item.depth > site.max_depth)) = true
  · left
    simp only [hd, if_true]
  · simp only [hd, if_false]
    cases hn : URLNormalizer.normalize item.url with
    | error e => left; rfl
    | ok normalized =>
      simp only []
      by_cases hm : (RocksDBStore.mark_page_visited env w.store normalized out.claimed_at).1 = true
      · simp only [hm, Bool.not_true, Bool.false_eq_true, if_false]
        cases hx : URLNormalizer.extract_domain item.url with
        | error e => left; rfl
        | ok host =>
          simp only []
          by_cases hs : out.fetch_result.success = true
          · simp only [hs, Bool.not_true, Bool.false_eq_true, if_false]
            by_cases hh : out.fetch_result.is_html = true
            · right
              simp only [hh, Bool.not_true, Bool.false_eq_true, if_false]
              refine ⟨_, ?_, rfl⟩
              by_cases hr : out.result.success = true <;>
                by_cases he : (!List.isEmpty host) = true <;> simp [hr, he]
            · left
              simp only [hh, Bool.not_false, if_true]
              by_cases he : (!List.isEmpty host) = true <;> simp [he]
          · left
            simp only [hs, Bool.not_false, if_true]
            by_cases he : (!List.isEmpty host) = true <;> simp [he]
      · left
        simp [hm]

/-! ## Lemmas on the fetcher -/

theorem is_retryable_status_iff (status_code : Int) :
    Fetcher.is_retryable_status status_code = true ↔
      status_code = 0 ∨ status_code = 429 ∨ (500 ≤ status_code ∧ status_code ≤ 599) := by
  unfold Fetcher.is_retryable_status
  by_cases h0 : status_code = 0
  · simp [h0]
  · by_cases h1 : status_code = 429
    · simp [h1]
    · simp only [h0, h1, if_false, false_or]
      by_cases h2 : (decide (status_code ≥ 500) && decide (status_code < 600)) = true
      · simp only [h2, if_true, true_iff]
        simp only [Bool.and_eq_true, decide_eq_true_eq] at h2
        omega
      · simp only [h2, if_false]
        simp only [Bool.and_eq_true, decide_eq_true_eq] at h2
        constructor
        · intro h; exact absurd h (by simp)
        · intro h; exact absurd ⟨h.1, by omega⟩ h2

theorem retry_loop_exit (config : AppConfig) (fetch_once : Nat → FetchResult)
    (rand : Nat → Nat) (fuel : Nat) (attempt : Int) (run : RetryRun)
    (h : ¬ attempt ≤ wrap32 (config.max_retries + 1)) :
    Fetcher.retry_loop config fetch_once rand fuel attempt run = some run := by
  cases fuel with
  | zero => simp only [Fetcher.retry_loop, h, if_false]
  | succ fuel => simp only [Fetcher.retry_loop, h, if_false]

/-- The loop of `fetch_with_retry`, entered at `attempt` with a bound below
the largest `int` and enough iterations allowed, returns after `k` further
calls, `1 ≤ k ≤ bound - attempt + 1`: the first `k - 1` of them gave results
that are unsuccessful and retryable, and the `k`-th is successful or not
retryable, or the last one allowed. -/
theorem retry_loop_spec (config : AppConfig) (fetch_once : Nat → FetchResult)
    (rand : Nat → Nat) (hbound : wrap32 (config.max_retries + 1) < 2147483647) :
    ∀ (fuel : Nat) (attempt : Int) (run : RetryRun), 1 ≤ attempt →
      attempt ≤ wrap32 (config.max_retries + 1) →
      (wrap32 (config.max_retries + 1) - attempt).toNat < fuel →
      ∃ (r : RetryRun) (k : Nat),
        Fetcher.retry_loop config fetch_once rand fuel attempt run = some r ∧
        1 ≤ k ∧ (k : Int) ≤ wrap32 (config.max_retries + 1) - attempt + 1 ∧
        r.attempts = run.attempts + k ∧
        r.result = fetch_once (run.attempts + k) ∧
        (∀ j, 1 ≤ j → j < k →
          ((fetch_once (run.attempts + j)).success ||
            !Fetcher.is_retryable_status (fetch_once (run.attempts + j)).status_code) = false) ∧
        (((fetch_once (run.attempts + k)).success ||
            !Fetcher.is_retryable_status (fetch_once (run.attempts + k)).status_code) = true ∨
          (k : Int) = wrap32 (config.max_retries + 1) - attempt + 1) := by
  intro fuel
  induction fuel with
  | zero => intro attempt run _ _ h; omega
  | succ fuel ih =>
    intro attempt run h1 hle hfuel
    by_cases hs : ((fetch_once (run.attempts + 1)).success ||
        !Fetcher.is_retryable_status (fetch_once (run.attempts + 1)).status_code) = true
    · refine ⟨{ run with result := fetch_once (run.attempts + 1), attempts := run.attempts + 1 },
        1, ?_, le_refl _, by omega, rfl, rfl, fun j h2 h3 => by omega, Or.inl hs⟩
      simp only [Fetcher.retry_loop, hle, if_true, hs]
    · have hs2 : ((fetch_once (run.attempts + 1)).success ||
          !Fetcher.is_retryable_status (fetch_once (run.attempts + 1)).status_code) = false := by
        simpa using hs
      have hnext : wrap32 (attempt + 1) = attempt + 1 := by
        unfold wrap32
        omega
      obtain ⟨run2, hrun2, hatt, hres⟩ : ∃ run2 : RetryRun,
          Fetcher.retry_loop config fetch_once rand (fuel + 1) attempt run
            = Fetcher.retry_loop config fetch_once rand fuel (attempt + 1) run2 ∧
          run2.attempts = run.attempts + 1 ∧ run2.result = fetch_once (run.attempts + 1) := by
        by_cases hm : attempt ≤ config.max_retries
        · exact ⟨RetryRun.mk (fetch_once (run.attempts + 1)) (run.attempts + 1)
              (run.sleeps ++ [Fetcher.calculate_backoff config attempt (rand (run.attempts + 1))]),
            by simp only [Fetcher.retry_loop, hle, if_true, hs2, hnext, hm,
              Bool.false_eq_true, if_false], rfl, rfl⟩
        · exact ⟨RetryRun.mk (fetch_once (run.attempts + 1)) (run.attempts + 1) run.sleeps,
            by simp only [Fetcher.retry_loop, hle, if_true, hs2, hnext, hm,
              Bool.false_eq_true, if_false], rfl, rfl⟩
      rw [hrun2]
      by_cases hlast : attempt + 1 ≤ wrap32 (config.max_retries + 1)
      · obtain ⟨r, k, hr, hk1, hk2, hk3, hk4, hk5, hk6⟩ :=
          ih (attempt + 1) run2 (by omega) hlast (by omega)
        refine ⟨r, k + 1, hr, by omega, by omega, by rw [hk3, hatt]; omega,
          by rw [hk4, hatt]; congr 1; omega, ?_, ?_⟩
        · intro j hj1 hj2
          by_cases hj : j = 1
          · rw [hj]; exact hs2
          · have := hk5 (j - 1) (by omega) (by omega)
            rw [hatt] at this
            have he : run.attempts + 1 + (j - 1) = run.attempts + j := by omega
            rw [he] at this
            exact this
        · rw [hatt] at hk6
          have he : run.attempts + 1 + k = run.attempts + (k + 1) := by omega
          rw [he] at hk6
          rcases hk6 with h | h
          · exact Or.inl h
          · right
            push_cast
            omega
      · rw [retry_loop_exit config fetch_once rand fuel (attempt + 1) run2 hlast]
        refine ⟨run2, 1, rfl, le_refl _, by omega, hatt, hres, fun j h2 h3 => by omega, ?_⟩
        right
        push_cast
        omega

/-! ## Lemmas on the priority queue -/

theorem min_priority_eq_none (items : List WorkItem) :
    min_priority items = none ↔ items = [] := by
  cases items with
  | nil => simp [min_priority]
  | cons x xs =>
    simp only [min_priority]
    cases min_priority xs <;> simp

theorem min_priority_le (items : List WorkItem) (m : Int) (h : min_priority items = some m) :
    ∀ y ∈ items, m ≤ y.priority := by
  induction items generalizing m with
  | nil => simp
  | cons x xs ih =>
    simp only [min_priority] at h
    cases hm : min_priority xs with
    | none =>
      rw [hm] at h
      have hx : xs = [] := (min_priority_eq_none xs).1 hm
      subst hx
      simp only [Option.some.injEq] at h
      intro y hy
      simp only [List.mem_singleton] at hy
      subst hy
      omega
    | some m' =>
      rw [hm] at h
      simp only [Option.some.injEq] at h
      have ih' := ih m' hm
      intro y hy
      rcases List.mem_cons.1 hy with hy | hy
      · subst hy
        split at h <;> omega
      · have := ih' y hy
        split at h <;> omega

theorem min_priority_mem (items : List WorkItem) (m : Int) (h : min_priority items = some m) :
    ∃ y ∈ items, y.priority = m := by
  induction items generalizing m with
  | nil => simp [min_priority] at h
  | cons x xs ih =>
    simp only [min_priority] at h
    cases hm : min_priority xs with
    | none =>
      rw [hm] at h
      simp only [Option.some.injEq] at h
      exact ⟨x, List.mem_cons_self _ _, h⟩
    | some m' =>
      rw [hm] at h
      simp only [Option.some.injEq] at h
      by_cases hle : x.priority ≤ m'
      · simp only [hle, if_true] at h
        exact ⟨x, List.mem_cons_self _ _, h⟩
      · simp only [hle, if_false] at h
        obtain ⟨y, hy, hp⟩ := ih m' hm
        exact ⟨y, List.mem_cons_of_mem _ hy, by rw [hp, h]⟩

theorem remove_nth_with_isSome (m : Int) (items : List WorkItem) :
    ∀ n : Nat, n < (items.filter (fun x => x.priority = m)).length →
      ∃ r, remove_nth_with m n items = some r := by
  induction items with
  | nil => intro n h; simp at h
  | cons x xs ih =>
    intro n h
    by_cases hx : x.priority = m
    · cases n with
      | zero => exact ⟨(x, xs), by simp [remove_nth_with, hx]⟩
      | succ k =>
        have hk : k < (xs.filter (fun x => x.priority = m)).length := by
          simp [List.filter_cons, hx] at h
          omega
        obtain ⟨r, hr⟩ := ih k hk
        exact ⟨(r.1, x :: r.2), by simp [remove_nth_with, hx, hr]⟩
    · have hk : n < (xs.filter (fun x => x.priority = m)).length := by
        simpa [List.filter_cons, hx] using h
      obtain ⟨r, hr⟩ := ih n hk
      exact ⟨(r.1, x :: r.2), by simp [remove_nth_with, hx, hr]⟩

theorem remove_nth_with_spec (m : Int) (items : List WorkItem) :
    ∀ (n : Nat) (x : WorkItem) (rest : List WorkItem),
      remove_nth_with m n items = some (x, rest) →
      x.priority = m ∧ (x :: rest).Perm items := by
  induction items with
  | nil => intro n x rest h; simp [remove_nth_with] at h
  | cons y ys ih =>
    intro n x rest h
    by_cases hy : y.priority = m
    · cases n with
      | zero =>
        simp only [remove_nth_with, hy, if_true, Option.some.injEq, Prod.mk.injEq] at h
        obtain ⟨h1, h2⟩ := h
        subst h1; subst h2
        exact ⟨hy, List.Perm.refl _⟩
      | succ k =>
        simp only [remove_nth_with, hy, if_true] at h
        cases hr : remove_nth_with m k ys with
        | none => rw [hr] at h; simp at h
        | some r =>
          rw [hr] at h
          simp only [Option.map_some', Option.some.injEq, Prod.mk.injEq] at h
          obtain ⟨h1, h2⟩ := h
          obtain ⟨hp, hperm⟩ := ih k r.1 r.2 (by rw [hr])
          subst h1; subst h2
          exact ⟨hp, (List.Perm.swap y r.1 r.2).trans (hperm.cons y)⟩
    · simp only [remove_nth_with, hy, if_false] at h
      cases hr : remove_nth_with m n ys with
      | none => rw [hr] at h; simp at h
      | some r =>
        rw [hr] at h
        simp only [Option.map_some', Option.some.injEq, Prod.mk.injEq] at h
        obtain ⟨h1, h2⟩ := h
        obtain ⟨hp, hperm⟩ := ih n r.1 r.2 (by rw [hr])
        subst h1; subst h2
        exact ⟨hp, (List.Perm.swap y r.1 r.2).trans (hperm.cons y)⟩

/-- What the heap hands out: from a non-empty heap an item of least priority,
the others staying. -/
theorem heap_take_spec (items : List WorkItem) (choice : Nat) (hne : items ≠ []) :
    ∃ (x : WorkItem) (rest : List WorkItem), heap_take items choice = some (x, rest) ∧
      (x :: rest).Perm items ∧ ∀ y ∈ items, x.priority ≤ y.priority := by
  cases hm : min_priority items with
  | none => exact absurd ((min_priority_eq_none items).1 hm) hne
  | some m =>
    obtain ⟨y, hy, hyp⟩ := min_priority_mem items m hm
    have hpos : 0 < (items.filter (fun x => x.priority = m)).length := by
      apply List.length_pos_of_mem (a := y)
      simp [List.mem_filter, hy, hyp]
    obtain ⟨r, hr⟩ := remove_nth_with_isSome m items
      (choice % (items.filter (fun x => x.priority = m)).length) (Nat.mod_lt _ hpos)
    obtain ⟨hp, hperm⟩ := remove_nth_with_spec m items _ r.1 r.2 hr
    refine ⟨r.1, r.2, by simp [heap_take, hm, hr], hperm, ?_⟩
    intro z hz
    rw [hp]
    exact min_priority_le items m hm z hz

theorem try_pop_nonblocking_empty (q : ThreadSafePriorityQueue) (choice : Nat)
    (h : q.items = []) : q.try_pop_nonblocking choice = (none, q) := by
  simp [ThreadSafePriorityQueue.try_pop_nonblocking, h]

theorem try_pop_nonblocking_nonempty (q : ThreadSafePriorityQueue) (choice : Nat)
    (h : q.items ≠ []) :
    ∃ (x : WorkItem) (rest : List WorkItem),
      q.try_pop_nonblocking choice
        = (some x, { q with items := rest, total_popped := q.total_popped + 1 }) ∧
      (x :: rest).Perm q.items ∧ ∀ y ∈ q.items, x.priority ≤ y.priority := by
  obtain ⟨x, rest, ht, hperm, hmin⟩ := heap_take_spec q.items choice h
  refine ⟨x, rest, ?_, hperm, hmin⟩
  have he : q.items.isEmpty = false := by
    cases hq : q.items with
    | nil => exact absurd hq h
    | cons a b => rfl
  simp [ThreadSafePriorityQueue.try_pop_nonblocking, he, ht]

theorem drain_nonblocking_spec (choice : Nat → Nat) :
    ∀ (n : Nat) (q : ThreadSafePriorityQueue), q.items.length ≤ n →
      (drain_nonblocking choice n q).1.Perm q.items ∧
      (drain_nonblocking choice n q).1.Pairwise (fun a b => a.priority ≤ b.priority) ∧
      (drain_nonblocking choice n q).2.items = [] ∧
      (drain_nonblocking choice n q).2.closed = q.closed := by
  intro n
  induction n with
  | zero =>
    intro q h
    have hq : q.items = [] := List.length_eq_zero.1 (Nat.le_zero.1 h)
    simp [drain_nonblocking, hq]
  | succ n ih =>
    intro q h
    by_cases hq : q.items = []
    · simp [drain_nonblocking, try_pop_nonblocking_empty q _ hq, hq]
    · obtain ⟨x, rest, hpop, hperm, hmin⟩ := try_pop_nonblocking_nonempty q (choice n) hq
      have hlen : rest.length ≤ n := by
        have := hperm.length_eq
        simp only [List.length_cons] at this
        omega
      obtain ⟨h1, h2, h3, h4⟩ :=
        ih { q with items := rest, total_popped := q.total_popped + 1 } hlen
      simp only [drain_nonblocking, hpop]
      refine ⟨(h1.cons x).trans hperm, ?_, h3, h4⟩
      refine List.Pairwise.cons ?_ h2
      intro y hy
      apply hmin
      exact hperm.subset (List.mem_cons_of_mem _ (h1.subset hy))

theorem pop_of_closed (q : ThreadSafePriorityQueue) (choice : Nat) (h : q.closed = true) :
    q.pop choice = some (q.try_pop_nonblocking choice) := by
  by_cases hq : q.items.isEmpty = true
  · simp [ThreadSafePriorityQueue.pop, ThreadSafePriorityQueue.try_pop_nonblocking, h, hq]
  · simp only [ThreadSafePriorityQueue.pop, ThreadSafePriorityQueue.try_pop_nonblocking, h, hq]
    cases heap_take q.items choice <;> simp

theorem try_pop_nonblocking_closed (q : ThreadSafePriorityQueue) (choice : Nat) :
    (q.try_pop_nonblocking choice).2.closed = q.closed := by
  by_cases hq : q.items.isEmpty = true
  · simp [ThreadSafePriorityQueue.try_pop_nonblocking, hq]
  · simp only [ThreadSafePriorityQueue.try_pop_nonblocking, hq]
    cases heap_take q.items choice <;> simp

theorem drain_pop_of_closed (choice : Nat → Nat) :
    ∀ (n : Nat) (q : ThreadSafePriorityQueue), q.closed = true →
      drain_pop choice n q = drain_nonblocking choice n q := by
  intro n
  induction n with
  | zero => intro q _; rfl
  | succ n ih =>
    intro q h
    simp only [drain_pop, drain_nonblocking, pop_of_closed q _ h]
    have hc := try_pop_nonblocking_closed q (choice n)
    cases hp : q.try_pop_nonblocking (choice n) with
    | mk r q1 =>
      rw [hp] at hc
      cases r with
      | none => rfl
      | some item =>
        simp only
        rw [ih q1 (by rw [← h]; exact hc)]

theorem push_closed (q : ThreadSafePriorityQueue) (item : WorkItem) :
    (q.push item).closed = q.closed := rfl

theorem push_items (q : ThreadSafePriorityQueue) (item : WorkItem) :
    (q.push item).items = q.items ++ [item] := rfl

theorem push_batch_closed (items : List WorkItem) :
    ∀ q : ThreadSafePriorityQueue, (q.push_batch items).closed = q.closed := by
  induction items with
  | nil => intro q; rfl
  | cons x xs ih =>
    intro q
    have := ih (q.push x)
    simpa [ThreadSafePriorityQueue.push_batch] using this

theorem push_batch_items (items : List WorkItem) :
    ∀ q : ThreadSafePriorityQueue, (q.push_batch items).items = q.items ++ items := by
  induction items with
  | nil => intro q; simp [ThreadSafePriorityQueue.push_batch]
  | cons x xs ih =>
    intro q
    have := ih (q.push x)
    simp only [ThreadSafePriorityQueue.push_batch, List.foldl_cons] at this ⊢
    rw [this, push_items]
    simp

theorem queue_op_keeps_closed (q : ThreadSafePriorityQueue) (op : QueueOp)
    (h : q.closed = true) : (op.apply q).closed = true := by
  cases op with
  | push item => exact h
  | push_batch items => simp [QueueOp.apply, push_batch_closed, h]
  | pop choice =>
    simp only [QueueOp.apply, pop_of_closed q choice h, try_pop_nonblocking_closed, h]
  | try_pop choice =>
    simp only [QueueOp.apply, ThreadSafePriorityQueue.try_pop]
    split
    · exact h
    · split
      · exact h
      · cases heap_take q.items choice <;> simp [h]
  | try_pop_nonblocking choice =>
    simp only [QueueOp.apply, try_pop_nonblocking_closed, h]
  | clear => exact h
  | close => rfl

theorem run_push_ops_items (ops : List PushOp) :
    ∀ q : ThreadSafePriorityQueue,
      (run_queue_ops q (ops.map PushOp.op)).items = q.items ++ (ops.map PushOp.items).flatten := by
  induction ops with
  | nil => intro q; simp [run_queue_ops]
  | cons op ops ih =>
    intro q
    have h := ih (op.op.apply q)
    simp only [run_queue_ops, List.map_cons, List.foldl_cons, List.flatten_cons] at h ⊢
    rw [h]
    cases op with
    | push item => simp [PushOp.op, PushOp.items, QueueOp.apply, push_items]
    | push_batch items => simp [PushOp.op, PushOp.items, QueueOp.apply, push_batch_items]

theorem run_queue_ops_closed (ops : List QueueOp) :
    ∀ q : ThreadSafePriorityQueue, q.closed = true → (run_queue_ops q ops).closed = true := by
  induction ops with
  | nil => intro q h; exact h
  | cons op ops ih =>
    intro q h
    exact ih (op.apply q) (queue_op_keeps_closed q op h)

/-! ## Lemmas on the robots handler -/

theorem matches_rule_iff (path v : Str) :
    RobotsHandler.matches_rule path v = true ↔ v ≠ [] ∧ (v = "/".data ∨ v <+: path) := by
  unfold RobotsHandler.matches_rule
  cases v with
  | nil => simp
  | cons c r =>
    by_cases h1 : c :: r = "/".data
    · simp [h1]
    · by_cases h2 : starts_with path (c :: r) = true
      · have := (starts_with_iff path (c :: r)).1 h2
        simp [h1, h2, this]
      · have : ¬ (c :: r) <+: path := fun hh => h2 ((starts_with_iff path (c :: r)).2 hh)
        simp [h1, h2, this]

theorem best_match_fold (path : Str) (values : List Str) :
    ∀ b : Int,
      b ≤ values.foldl
        (fun best value =>
          if RobotsHandler.matches_rule path value then
            if (value.length : Int) > best then (value.length : Int) else best
          else best) b ∧
      (∀ v ∈ values, RobotsHandler.matches_rule path v = true →
        (v.length : Int) ≤ values.foldl
          (fun best value =>
            if RobotsHandler.matches_rule path value then
              if (value.length : Int) > best then (value.length : Int) else best
            else best) b) ∧
      (values.foldl
          (fun best value =>
            if RobotsHandler.matches_rule path value then
              if (value.length : Int) > best then (value.length : Int) else best
            else best) b = b ∨
        ∃ v ∈ values, RobotsHandler.matches_rule path v = true ∧
          (v.length : Int) = values.foldl
            (fun best value =>
              if RobotsHandler.matches_rule path value then
                if (value.length : Int) > best then (value.length : Int) else best
              else best) b) := by
  induction values with
  | nil => intro b; simp
  | cons x xs ih =>
    intro b
    simp only [List.foldl_cons]
    by_cases hm : RobotsHandler.matches_rule path x = true
    · by_cases hgt : (x.length : Int) > b
      · simp only [hm, hgt, if_true]
        obtain ⟨h1, h2, h3⟩ := ih (x.length : Int)
        refine ⟨by omega, ?_, ?_⟩
        · intro v hv hvm
          rcases List.mem_cons.1 hv with hv | hv
          · subst hv; exact h1
          · exact h2 v hv hvm
        · right
          rcases h3 with h3 | ⟨v, hv, hvm, hlen⟩
          · exact ⟨x, List.mem_cons_self _ _, hm, h3.symm⟩
          · exact ⟨v, List.mem_cons_of_mem _ hv, hvm, hlen⟩
      · simp only [hm, hgt, if_true, if_false]
        obtain ⟨h1, h2, h3⟩ := ih b
        refine ⟨h1, ?_, ?_⟩
        · intro v hv hvm
          rcases List.mem_cons.1 hv with hv | hv
          · subst hv; omega
          · exact h2 v hv hvm
        · rcases h3 with h3 | ⟨v, hv, hvm, hlen⟩
          · exact Or.inl h3
          · exact Or.inr ⟨v, List.mem_cons_of_mem _ hv, hvm, hlen⟩
    · simp only [hm]
      obtain ⟨h1, h2, h3⟩ := ih b
      refine ⟨h1, ?_, ?_⟩
      · intro v hv hvm
        rcases List.mem_cons.1 hv with hv | hv
        · subst hv; exact absurd hvm hm
        · exact h2 v hv hvm
      · rcases h3 with h3 | ⟨v, hv, hvm, hlen⟩
        · exact Or.inl h3
        · exact Or.inr ⟨v, List.mem_cons_of_mem _ hv, hvm, hlen⟩

theorem best_match_is_longest (path : Str) (values : List Str) :
    longest_match_is path values (best_match path values) := by
  obtain ⟨h1, h2, h3⟩ := best_match_fold path values (-1)
  refine ⟨?_, ?_⟩
  · intro v hv hne hp
    exact h2 v hv ((matches_rule_iff path v).2 ⟨hne, hp⟩)
  · rcases h3 with h3 | ⟨v, hv, hvm, hlen⟩
    · right
      refine ⟨h3, ?_⟩
      intro v hv hc
      have := h2 v hv ((matches_rule_iff path v).2 hc)
      rw [h3] at this
      have hpos : (0 : Int) ≤ (v.length : Int) := Int.ofNat_nonneg _
      omega
    · left
      exact ⟨v, hv, ((matches_rule_iff path v).1 hvm).1, ((matches_rule_iff path v).1 hvm).2, hlen⟩

theorem longest_match_unique (path : Str) (values : List Str) (a b : Int)
    (ha : longest_match_is path values a) (hb : longest_match_is path values b) : a = b := by
  obtain ⟨ha1, ha2⟩ := ha
  obtain ⟨hb1, hb2⟩ := hb
  rcases ha2 with ⟨v, hv, hne, hp, hlen⟩ | ⟨ha, hnone⟩
  · rcases hb2 with ⟨w, hw, hwne, hwp, hwlen⟩ | ⟨hb, hnone⟩
    · have := hb1 v hv hne hp
      have := ha1 w hw hwne hwp
      omega
    · exact absurd ⟨hne, hp⟩ (hnone v hv)
  · rcases hb2 with ⟨w, hw, hwne, hwp, hwlen⟩ | ⟨hb, _⟩
    · exact absurd ⟨hwne, hwp⟩ (hnone w hw)
    · rw [ha, hb]

theorem rule_allows_iff (rule : RobotsRule) (path : Str) (hpath : path ≠ []) :
    rule.allows path = true ↔
      best_match path rule.allow ≥ best_match path rule.disallow := by
  have he : path.isEmpty = false := by
    cases path with
    | nil => exact absurd rfl hpath
    | cons a b => rfl
  simp only [RobotsRule.allows, he]
  by_cases h1 : (best_match path rule.allow = -1 && best_match path rule.disallow = -1) = true
  · simp only [Bool.and_eq_true, decide_eq_true_eq] at h1
    simp [h1.1, h1.2]
  · by_cases h2 : best_match path rule.allow ≥ best_match path rule.disallow
    · simp [h2]
    · simp [h1, h2]

theorem robots_parse_line_keeps (state : List (Str × RobotsRule) × Str) (line k : Str)
    (h : (map_get k state.1).isSome = true) :
    (map_get k (robots_parse_line state line).1).isSome = true := by
  unfold robots_parse_line
  cases robots_directive line with
  | none => exact h
  | some kv =>
    obtain ⟨key, value⟩ := kv
    simp only
    split
    · split
      · exact map_get_map_set_isSome _ _ _ _ h
      · exact h
    · split
      · exact map_get_map_set_isSome _ _ _ _ h
      · split
        · exact map_get_map_set_isSome _ _ _ _ h
        · split
          · split
            · exact map_get_map_set_isSome _ _ _ _ h
            · exact map_get_map_set_isSome _ _ _ _ h
          · split
            · split
              · exact map_get_map_set_isSome _ _ _ _ h
              · exact h
            · exact h

theorem robots_parse_lines_keep (lines : List Str) (k : Str) :
    ∀ state : List (Str × RobotsRule) × Str, (map_get k state.1).isSome = true →
      (map_get k (lines.foldl robots_parse_line state).1).isSome = true := by
  induction lines with
  | nil => intro state h; exact h
  | cons l ls ih =>
    intro state h
    exact ih _ (robots_parse_line_keeps state l k h)

theorem robots_parse_line_declares (state : List (Str × RobotsRule) × Str) (line v : Str)
    (h : robots_directive line = some ("user-agent".data, v)) :
    (map_get (to_lower v) (robots_parse_line state line).1).isSome = true := by
  unfold robots_parse_line
  simp only [h, if_true]
  by_cases hn : (map_get (to_lower v) state.1).isNone = true
  · simp only [hn, if_true]
    rw [map_get_map_set_same]
    rfl
  · simp only [hn]
    cases hg : map_get (to_lower v) state.1 with
    | none => rw [hg] at hn; simp at hn
    | some r => simp [hg]

theorem robots_parse_declares (lines : List Str) (line v : Str) (hl : line ∈ lines)
    (h : robots_directive line = some ("user-agent".data, v)) :
    ∀ state : List (Str × RobotsRule) × Str,
      (map_get (to_lower v) (lines.foldl robots_parse_line state).1).isSome = true := by
  induction lines with
  | nil => simp at hl
  | cons l ls ih =>
    intro state
    rcases List.mem_cons.1 hl with hl | hl
    · subst hl
      exact robots_parse_lines_keep ls _ _ (robots_parse_line_declares state line v h)
    · exact ih hl _

/-! ## Lemmas on record serialisation -/

theorem page_status_round_trip (v : PageStatus) :
    page_status_from_string v.to_string = v := by
  cases v <;> rfl

theorem image_status_round_trip (v : ImageStatus) :
    image_status_from_string v.to_string = v := by
  cases v <;> rfl

theorem error_type_round_trip (v : ErrorType) :
    error_type_from_string v.to_string = v := by
  cases v <;> rfl

set_option maxRecDepth 1000000 in
theorem stoi_three_digits : ∀ n : Fin 1000,
    std_stoi (pad_left '0' 3 (int_to_str (n.val : Int))) = .ok (n.val : Int) ∧
    (pad_left '0' 3 (int_to_str (n.val : Int))).length = 3 := by
  decide

/-- The second and the millisecond of a whole-millisecond time point at or
after the epoch. -/
theorem time_split (k t : Int) (hk : 0 < k) (ht : 0 ≤ t) (hms : t % k = 0) :
    0 ≤ Int.tmod (Int.tdiv t k) 1000 ∧ Int.tmod (Int.tdiv t k) 1000 < 1000 ∧
    Int.tdiv t (1000 * k) * (1000 * k) + Int.tmod (Int.tdiv t k) 1000 * k = t := by
  have hq0 : 0 ≤ t / k := Int.ediv_nonneg ht (le_of_lt hk)
  rw [Int.tdiv_eq_ediv ht (le_of_lt hk), Int.tmod_eq_emod hq0 (by norm_num),
    Int.tdiv_eq_ediv ht (by positivity)]
  have htk : t = (t / k) * k := by
    have := Int.ediv_add_emod t k
    rw [hms] at this
    linarith [this, mul_comm k (t / k)]
  have hs : t / (1000 * k) = t / k / 1000 := by
    conv_lhs => rw [htk]
    rw [Int.mul_ediv_mul_of_pos_left _ _ hk]
  refine ⟨Int.emod_nonneg _ (by norm_num), Int.emod_lt_of_pos _ (by norm_num), ?_⟩
  rw [hs]
  have h2 := Int.ediv_add_emod (t / k) 1000
  calc t / k / 1000 * (1000 * k) + t / k % 1000 * k
      = (1000 * (t / k / 1000) + t / k % 1000) * k := by ring
    _ = (t / k) * k := by rw [h2]
    _ = t := htk.symm

theorem iso8601_round_trip (clib : CLib) (tp : TimePoint) (hk : 0 < clib.ticks_per_ms)
    (h : time_round_trips clib tp) :
    iso8601_to_timepoint clib (timepoint_to_iso8601 clib tp) = .ok tp := by
  obtain ⟨h0, hms, hlen, hread⟩ := h
  obtain ⟨hm0, hm1, hsum⟩ := time_split clib.ticks_per_ms tp hk h0 hms
  obtain ⟨n, hn⟩ : ∃ n : Fin 1000,
      (n.val : Int) = Int.tmod (Int.tdiv tp clib.ticks_per_ms) 1000 :=
    ⟨⟨(Int.tmod (Int.tdiv tp clib.ticks_per_ms) 1000).toNat, by omega⟩, by
      simp only []
      omega⟩
  obtain ⟨hstoi, hpad⟩ := stoi_three_digits n
  rw [hn] at hstoi hpad
  have htext : timepoint_to_iso8601 clib tp
      = clib.put_time_utc (Int.tdiv tp (1000 * clib.ticks_per_ms))
        ++ ('.' :: (pad_left '0' 3 (int_to_str (Int.tmod (Int.tdiv tp clib.ticks_per_ms) 1000))
          ++ "Z".data)) := by
    simp [timepoint_to_iso8601]
  have hd19 : (timepoint_to_iso8601 clib tp).drop 19
      = '.' :: (pad_left '0' 3 (int_to_str (Int.tmod (Int.tdiv tp clib.ticks_per_ms) 1000))
          ++ "Z".data) := by
    rw [htext]
    exact List.drop_left' hlen
  have hd20 : (timepoint_to_iso8601 clib tp).drop 20
      = pad_left '0' 3 (int_to_str (Int.tmod (Int.tdiv tp clib.ticks_per_ms) 1000))
          ++ "Z".data := by
    have : (timepoint_to_iso8601 clib tp).drop 20
        = ((timepoint_to_iso8601 clib tp).drop 19).drop 1 := by
      rw [List.drop_drop]
    rw [this, hd19]
    rfl
  have htake : ((timepoint_to_iso8601 clib tp).drop 20).take 3
      = pad_left '0' 3 (int_to_str (Int.tmod (Int.tdiv tp clib.ticks_per_ms) 1000)) := by
    rw [hd20]
    exact List.take_left' hpad
  have hlen2 : (timepoint_to_iso8601 clib tp).length > 19 := by
    rw [htext]
    simp only [List.length_append, List.length_cons, hlen]
    omega
  have hne : (pad_left '0' 3
      (int_to_str (Int.tmod (Int.tdiv tp clib.ticks_per_ms) 1000))).isEmpty = false := by
    cases hp : pad_left '0' 3 (int_to_str (Int.tmod (Int.tdiv tp clib.ticks_per_ms) 1000)) with
    | nil => rw [hp] at hpad; simp at hpad
    | cons a b => rfl
  unfold iso8601_to_timepoint
  simp only [hlen2, hd19, htake, hne, hstoi, hread, List.head?_cons, decide_True,
    Bool.and_self, if_true, Bool.not_false]
  rw [hsum]

theorem wrap32_of_fits (n : Int) (h : fits_int n) : wrap32 n = n := by
  obtain ⟨h1, h2⟩ := h
  unfold wrap32
  omega

theorem page_object_eq (clib : CLib) (e : PageDBEntry) :
    e.to_json_object clib =
      [("attempt_count".data, .number_integer e.attempt_count),
       ("content_hash".data, .string e.content_hash),
       ("created_at".data, .string (timepoint_to_iso8601 clib e.created_at)),
       ("depth".data, .number_integer e.depth),
       ("error_message".data, .string e.error_message),
       ("error_type".data, .string e.error_type.to_string),
       ("final_url".data, .string e.final_url),
       ("last_attempt".data, .string (timepoint_to_iso8601 clib e.last_attempt)),
       ("local_file_path".data, .string e.local_file_path),
       ("normalized_url".data, .string e.normalized_url),
       ("processed_at".data, .string (timepoint_to_iso8601 clib e.processed_at)),
       ("status".data, .string e.status.to_string),
       ("token_count".data, .number_integer e.token_count)] := rfl

theorem image_object_eq (clib : CLib) (e : ImageDBEntry) :
    e.to_json_object clib =
      [("attempt_count".data, .number_integer e.attempt_count),
       ("caption".data, .string e.caption),
       ("content_type".data, .string e.content_type),
       ("created_at".data, .string (timepoint_to_iso8601 clib e.created_at)),
       ("error_message".data, .string e.error_message),
       ("error_type".data, .string e.error_type.to_string),
       ("file_size".data, .number_integer e.file_size),
       ("last_attempt".data, .string (timepoint_to_iso8601 clib e.last_attempt)),
       ("local_path".data, .string e.local_path),
       ("original_url".data, .string e.original_url),
       ("processed_at".data, .string (timepoint_to_iso8601 clib e.processed_at)),
       ("status".data, .string e.status.to_string)] := rfl

theorem page_object_lookups (clib : CLib) (e : PageDBEntry) :
    map_get "status".data (e.to_json_object clib) = some (.string e.status.to_string) ∧
    map_get "error_type".data (e.to_json_object clib)
      = some (.string e.error_type.to_string) ∧
    map_get "error_message".data (e.to_json_object clib) = some (.string e.error_message) ∧
    map_get "created_at".data (e.to_json_object clib)
      = some (.string (timepoint_to_iso8601 clib e.created_at)) ∧
    map_get "processed_at".data (e.to_json_object clib)
      = some (.string (timepoint_to_iso8601 clib e.processed_at)) ∧
    map_get "last_attempt".data (e.to_json_object clib)
      = some (.string (timepoint_to_iso8601 clib e.last_attempt)) ∧
    map_get "depth".data (e.to_json_object clib) = some (.number_integer e.depth) ∧
    map_get "attempt_count".data (e.to_json_object clib)
      = some (.number_integer e.attempt_count) ∧
    map_get "content_hash".data (e.to_json_object clib) = some (.string e.content_hash) ∧
    map_get "normalized_url".data (e.to_json_object clib) = some (.string e.normalized_url) ∧
    map_get "final_url".data (e.to_json_object clib) = some (.string e.final_url) ∧
    map_get "local_file_path".data (e.to_json_object clib)
      = some (.string e.local_file_path) ∧
    map_get "token_count".data (e.to_json_object clib)
      = some (.number_integer e.token_count) := by
  rw [page_object_eq]
  refine ⟨?_, ?_, ?_, ?_, ?_, ?_, ?_, ?_, ?_, ?_, ?_, ?_, ?_⟩ <;> simp [map_get]

theorem image_object_lookups (clib : CLib) (e : ImageDBEntry) :
    map_get "status".data (e.to_json_object clib) = some (.string e.status.to_string) ∧
    map_get "error_type".data (e.to_json_object clib)
      = some (.string e.error_type.to_string) ∧
    map_get "error_message".data (e.to_json_object clib) = some (.string e.error_message) ∧
    map_get "created_at".data (e.to_json_object clib)
      = some (.string (timepoint_to_iso8601 clib e.created_at)) ∧
    map_get "processed_at".data (e.to_json_object clib)
      = some (.string (timepoint_to_iso8601 clib e.processed_at)) ∧
    map_get "last_attempt".data (e.to_json_object clib)
      = some (.string (timepoint_to_iso8601 clib e.last_attempt)) ∧
    map_get "attempt_count".data (e.to_json_object clib)
      = some (.number_integer e.attempt_count) ∧
    map_get "original_url".data (e.to_json_object clib) = some (.string e.original_url) ∧
    map_get "local_path".data (e.to_json_object clib) = some (.string e.local_path) ∧
    map_get "caption".data (e.to_json_object clib) = some (.string e.caption) ∧
    map_get "file_size".data (e.to_json_object clib) = some (.number_integer e.file_size) ∧
    map_get "content_type".data (e.to_json_object clib) = some (.string e.content_type) := by
  rw [image_object_eq]
  refine ⟨?_, ?_, ?_, ?_, ?_, ?_, ?_, ?_, ?_, ?_, ?_, ?_⟩ <;> simp [map_get]

theorem read_string_of_member {α : Type} (members : List (Str × JsonValue)) (key dflt s : Str)
    (assign : α → Str → α) (entry : α) (h : map_get key members = some (.string s)) :
    read_string (.object members) key dflt assign entry = .going (assign entry s) := by
  simp [read_string, Json.value_string, h]

theorem read_int_of_member {α : Type} (members : List (Str × JsonValue)) (key : Str) (n : Int)
    (assign : α → Int → α) (entry : α) (h : map_get key members = some (.number_integer n))
    (hfit : fits_int n) :
    read_int (.object members) key assign entry = .going (assign entry n) := by
  simp [read_int, Json.value_int, h, wrap32_of_fits n hfit]

theorem read_time_of_member {α : Type} (clib : CLib) (members : List (Str × JsonValue))
    (key : Str) (tp : TimePoint) (assign : α → TimePoint → α) (entry : α)
    (h : map_get key members = some (.string (timepoint_to_iso8601 clib tp)))
    (hk : 0 < clib.ticks_per_ms) (ht : time_round_trips clib tp) :
    read_time clib (.object members) key assign entry = .going (assign entry tp) := by
  simp [read_time, Json.value_string, h, iso8601_round_trip clib tp hk ht]

/-! ## Lemmas on the resume scan -/

theorem str_lt_trans (a b c : Str) (hab : str_lt a b = true) (hbc : str_lt b c = true) :
    str_lt a c = true := by
  induction a generalizing b c with
  | nil =>
    cases b with
    | nil => simp [str_lt] at hab
    | cons y b =>
      cases c with
      | nil => simp [str_lt] at hbc
      | cons z c => simp [str_lt]
  | cons x a ih =>
    cases b with
    | nil => simp [str_lt] at hab
    | cons y b =>
      cases c with
      | nil => simp [str_lt] at hbc
      | cons z c =>
        simp only [str_lt] at hab hbc ⊢
        by_cases h1 : x.toNat < y.toNat
        · by_cases h2 : y.toNat < z.toNat
          · have : x.toNat < z.toNat := by omega
            simp [this]
          · by_cases h3 : z.toNat < y.toNat
            · simp [h2, h3] at hbc
            · have : x.toNat < z.toNat := by omega
              simp [this]
        · by_cases h1b : y.toNat < x.toNat
          · simp [h1, h1b] at hab
          · simp only [h1, h1b, if_false] at hab
            by_cases h2 : y.toNat < z.toNat
            · have : x.toNat < z.toNat := by omega
              simp [this]
            · by_cases h3 : z.toNat < y.toNat
              · simp [h2, h3] at hbc
              · simp only [h2, h3, if_false] at hbc
                have h4 : ¬ x.toNat < z.toNat := by omega
                have h5 : ¬ z.toNat < x.toNat := by omega
                simp only [h4, h5, if_false]
                exact ih b c hab hbc

theorem char_eq_of_toNat_eq (a b : Char) (h : a.toNat = b.toNat) : a = b := by
  apply Char.ext
  apply UInt32.ext
  exact h

/-- A key beginning with `p:` is not below `p:`. -/
theorem not_below_of_page_key (k : Str) (h : starts_with k "p:".data = true) :
    str_lt k "p:".data = false := by
  obtain ⟨t, rfl⟩ := (starts_with_iff k "p:".data).1 h
  cases t <;> simp [str_lt]

/-- Past a key that is not below `p:` and does not begin with `p:`, no key
begins with `p:`. -/
theorem no_page_key_after (k k2 : Str) (hge : str_lt k "p:".data = false)
    (hk : starts_with k "p:".data = false) (hlt : str_lt k k2 = true) :
    starts_with k2 "p:".data = false := by
  cases hk2 : starts_with k2 "p:".data with
  | false => rfl
  | true =>
    exfalso
    obtain ⟨t, rfl⟩ := (starts_with_iff k2 "p:".data).1 hk2
    have hp : "p:".data = ['p', ':'] := rfl
    rw [hp] at hge hk
    have hp2 : "p:".data ++ t = 'p' :: ':' :: t := rfl
    rw [hp2] at hlt
    cases k with
    | nil => simp [str_lt] at hge
    | cons a k =>
      simp only [str_lt] at hge hlt
      by_cases h1 : a.toNat < 'p'.toNat
      · rw [if_pos h1] at hge
        cases hge
      · by_cases h2 : 'p'.toNat < a.toNat
        · rw [if_neg h1, if_pos h2] at hlt
          cases hlt
        · simp only [h1, h2, if_false] at hge hlt
          have ha : a = 'p' := char_eq_of_toNat_eq _ _ (by omega)
          subst ha
          cases k with
          | nil => simp [str_lt] at hge
          | cons b k =>
            simp only [str_lt] at hge hlt
            by_cases h3 : b.toNat < ':'.toNat
            · rw [if_pos h3] at hge
              cases hge
            · by_cases h4 : ':'.toNat < b.toNat
              · rw [if_neg h3, if_pos h4] at hlt
                cases hlt
              · have hb : b = ':' := char_eq_of_toNat_eq _ _ (by omega)
                subst hb
                simp [starts_with] at hk

theorem decode_page_records_none (lib : JsonLib) (clib : CLib) (l : List (Str × Str))
    (h : ∀ kv ∈ l, starts_with kv.1 "p:".data = false) :
    decode_page_records lib clib l = .ok [] := by
  induction l with
  | nil => rfl
  | cons kv rest ih =>
    obtain ⟨k, v⟩ := kv
    have hk : starts_with k "p:".data = false := h (k, v) (List.mem_cons_self _ _)
    simp only [decode_page_records, hk]
    exact ih (fun kv hkv => h kv (List.mem_cons_of_mem _ hkv))

theorem decode_page_records_dropWhile (lib : JsonLib) (clib : CLib) (l : List (Str × Str)) :
    decode_page_records lib clib (l.dropWhile (fun kv => str_lt kv.1 "p:".data))
      = decode_page_records lib clib l := by
  induction l with
  | nil => rfl
  | cons kv rest ih =>
    obtain ⟨k, v⟩ := kv
    cases hlt : str_lt k "p:".data with
    | false => simp [List.dropWhile, hlt]
    | true =>
      have hk : starts_with k "p:".data = false := by
        cases hs : starts_with k "p:".data with
        | false => rfl
        | true => rw [not_below_of_page_key k hs] at hlt; cases hlt
      simp only [List.dropWhile, hlt, decode_page_records, hk]
      exact ih

theorem store_sorted_dropWhile (l : List (Str × Str)) (h : store_sorted l) :
    store_sorted (l.dropWhile (fun kv => str_lt kv.1 "p:".data)) :=
  List.Pairwise.sublist (List.dropWhile_sublist _) h

theorem requeue_items_append (clock : Nat → TimePoint) (first : Nat) (a b : List PageDBEntry) :
    requeue_items clock first (a ++ b)
      = requeue_items clock first a ++ requeue_items clock (first + a.length) b := by
  induction a generalizing first with
  | nil => simp [requeue_items]
  | cons x a ih =>
    have hlen : first + 1 + a.length = first + (a.length + 1) := by omega
    rw [List.cons_append, requeue_items, requeue_items, ih (first + 1), List.length_cons, hlen,
      List.cons_append]

theorem requeue_items_length (clock : Nat → TimePoint) (first : Nat) (a : List PageDBEntry) :
    (requeue_items clock first a).length = a.length := by
  induction a generalizing first with
  | nil => rfl
  | cons x a ih => simp [requeue_items, ih]

/-- The loop on a sorted run of records whose `p:` records all deserialise:
the callbacks made are the items of the records to requeue, in order, and the
counter grows by their number. -/
theorem requeue_scan_spec (lib : JsonLib) (clib : CLib) (clock : Nat → TimePoint)
    (l : List (Str × Str)) (callbacks : List WorkItem) (requeued : Int)
    (entries : List PageDBEntry)
    (hsorted : store_sorted l)
    (hge : ∀ kv ∈ l, str_lt kv.1 "p:".data = false)
    (hdec : decode_page_records lib clib l = .ok entries) :
    requeue_scan lib clib clock l callbacks requeued
      = ⟨callbacks ++ requeue_items clock callbacks.length (entries.filter wants_requeue),
          .ok (requeued + ((entries.filter wants_requeue).length : Int))⟩ := by
  induction l generalizing callbacks requeued entries with
  | nil =>
    simp only [decode_page_records, Except.ok.injEq] at hdec
    subst hdec
    simp [requeue_scan, requeue_items]
  | cons kv rest ih =>
    obtain ⟨k, v⟩ := kv
    have hsorted2 : store_sorted rest := (List.pairwise_cons.1 hsorted).2
    have hlt : ∀ kv ∈ rest, str_lt k kv.1 = true := (List.pairwise_cons.1 hsorted).1
    have hge2 : ∀ kv ∈ rest, str_lt kv.1 "p:".data = false :=
      fun kv hkv => hge kv (List.mem_cons_of_mem _ hkv)
    have hgek : str_lt k "p:".data = false := hge (k, v) (List.mem_cons_self _ _)
    cases hk : starts_with k "p:".data with
    | false =>
      have hnone : ∀ kv ∈ rest, starts_with kv.1 "p:".data = false :=
        fun kv hkv => no_page_key_after k kv.1 hgek hk (hlt kv hkv)
      simp only [decode_page_records, hk, decode_page_records_none lib clib rest hnone,
        Bool.false_eq_true, if_false, Except.ok.injEq] at hdec
      subst hdec
      simp [requeue_scan, hk, requeue_items]
    | true =>
      simp only [decode_page_records, hk, if_true] at hdec
      cases hj : PageDBEntry.from_json lib clib v with
      | error e => simp [hj] at hdec
      | ok entry =>
        cases hr : decode_page_records lib clib rest with
        | error e => simp [hj, hr] at hdec
        | ok entries2 =>
          simp only [hj, hr, Except.ok.injEq] at hdec
          subst hdec
          by_cases hw : wants_requeue entry = true
          · have hw2 := hw
            simp only [wants_requeue, Bool.and_eq_true] at hw2
            simp only [requeue_scan, hk, hj, hw2.1, hw2.2, Bool.not_true, if_true,
              Bool.false_eq_true, if_false,
              ih (callbacks ++ [WorkItem.make entry.normalized_url entry.depth
                (clock callbacks.length)]) (requeued + 1) entries2 hsorted2 hge2 hr,
              List.filter_cons, hw, requeue_items, List.length_append, List.length_cons,
              List.length_nil, List.append_assoc, List.singleton_append, Nat.cast_add,
              Nat.cast_one]
            congr 2
            ring
          · have hw3 : wants_requeue entry = false := by
              cases h : wants_requeue entry with
              | false => rfl
              | true => exact absurd h hw
            have hscan : requeue_scan lib clib clock ((k, v) :: rest) callbacks requeued
                = requeue_scan lib clib clock rest callbacks requeued := by
              simp only [requeue_scan, hk, hj, Bool.not_true, Bool.false_eq_true, if_false]
              simp only [wants_requeue, Bool.and_eq_false_iff] at hw3
              rcases hw3 with h1 | h1
              · simp [h1]
              · simp only [h1, Bool.false_eq_true, if_false, ite_self]
            rw [hscan, ih callbacks requeued entries2 hsorted2 hge2 hr]
            simp [List.filter_cons, hw3]

theorem dropWhile_not_below (l : List (Str × Str)) (h : store_sorted l) :
    ∀ kv ∈ l.dropWhile (fun kv => str_lt kv.1 "p:".data), str_lt kv.1 "p:".data = false := by
  induction l with
  | nil => simp
  | cons x rest ih =>
    obtain ⟨k, v⟩ := x
    have hsorted2 : store_sorted rest := (List.pairwise_cons.1 h).2
    have hlt : ∀ kv ∈ rest, str_lt k kv.1 = true := (List.pairwise_cons.1 h).1
    cases hk : str_lt k "p:".data with
    | true =>
      simp only [List.dropWhile, hk]
      exact ih hsorted2
    | false =>
      simp only [List.dropWhile, hk]
      intro kv hkv
      rcases List.mem_cons.1 hkv with rfl | hmem
      · exact hk
      · cases h2 : str_lt kv.1 "p:".data with
        | false => rfl
        | true =>
          rw [str_lt_trans k kv.1 "p:".data (hlt kv hmem) h2] at hk
          cases hk

/-! ## Lemmas on the record that `process_page` leaves -/

theorem extract_domain_of_normalize (url normalized : Str)
    (h : URLNormalizer.normalize url = .ok normalized) :
    ∃ host, URLNormalizer.extract_domain url = .ok host := by
  unfold URLNormalizer.normalize at h
  unfold URLNormalizer.extract_domain
  cases hp : URLNormalizer.parse url with
  | error e => simp [hp] at h
  | ok c =>
    cases c with
    | none => exact ⟨_, rfl⟩
    | some c => exact ⟨_, rfl⟩

theorem enqueue_links_keeps_store (site : SiteConfig) (item : WorkItem) (out : PageOutcome)
    (links : List Str) :
    ∀ (i : Nat) (w : World),
      (Crawler.enqueue_links site item out links i w).1.store = w.store ∧
      (Crawler.enqueue_links site item out links i w).1.pages_processed = w.pages_processed := by
  induction links with
  | nil => intro i w; exact ⟨rfl, rfl⟩
  | cons link rest ih =>
    intro i w
    unfold Crawler.enqueue_links
    cases hr : URLNormalizer.resolve item.url link with
    | error e => exact ⟨rfl, rfl⟩
    | ok r =>
      cases r with
      | none => exact ih (i + 1) w
      | some resolved =>
        cases hs : URLNormalizer.is_in_scope resolved site.allowed_domain
            (SiteConfig.allowed_path_prefix site) with
        | error e => simp [hs]
        | ok b =>
          cases b with
          | false => simp only [hs]; exact ih (i + 1) w
          | true => simp only [hs]; exact ih (i + 1) _

theorem page_key_ne_image_key (env : Env) (u v : Str) :
    RocksDBStore.page_key env u ≠ RocksDBStore.image_key env v := by
  intro h
  have h2 := congrArg List.head? h
  simp [RocksDBStore.page_key, RocksDBStore.image_key] at h2

theorem store_images_keeps_page (env : Env) (u : Str) (records : List (Str × ImageDBEntry)) :
    ∀ db : Store, RocksDBStore.get (store_images env db records) (RocksDBStore.page_key env u)
      = RocksDBStore.get db (RocksDBStore.page_key env u) := by
  induction records with
  | nil => intro db; rfl
  | cons r rest ih =>
    intro db
    obtain ⟨src, entry⟩ := r
    rw [store_images, ih]
    exact map_get_map_set_other _ _ _ _ (page_key_ne_image_key env u src)

theorem get_update_page_status (env : Env) (db : Store) (u : Str) (entry : PageDBEntry) :
    RocksDBStore.get (RocksDBStore.update_page_status env db u entry)
      (RocksDBStore.page_key env u) = some (env.page_to_json entry) :=
  map_get_map_set_same _ _ _

/-! ## Lemmas on ordered maps in key order -/

theorem str_lt_irrefl (a : Str) : str_lt a a = false := by
  induction a with
  | nil => rfl
  | cons x a ih => simp [str_lt, ih]

theorem str_lt_total (a b : Str) (hne : a ≠ b) (h : str_lt a b = false) : str_lt b a = true := by
  induction a generalizing b with
  | nil =>
    cases b with
    | nil => exact absurd rfl hne
    | cons y b => simp [str_lt] at h
  | cons x a ih =>
    cases b with
    | nil => simp [str_lt]
    | cons y b =>
      simp only [str_lt] at h ⊢
      by_cases h1 : x.toNat < y.toNat
      · rw [if_pos h1] at h
        cases h
      · rw [if_neg h1] at h
        by_cases h2 : y.toNat < x.toNat
        · rw [if_pos h2]
        · rw [if_neg h2] at h
          rw [if_neg h2, if_neg h1]
          have hxy : x = y := char_eq_of_toNat_eq x y (by omega)
          subst hxy
          exact ih b (fun hab => hne (by rw [hab])) h

theorem map_get_none_of_below {V : Type} (k : Str) (m : List (Str × V))
    (h : ∀ kv ∈ m, str_lt k kv.1 = true) : map_get k m = none := by
  induction m with
  | nil => rfl
  | cons kv rest ih =>
    obtain ⟨k2, v2⟩ := kv
    have hk : k ≠ k2 := by
      intro he
      have := h (k2, v2) (List.mem_cons_self _ _)
      rw [he, str_lt_irrefl] at this
      cases this
    simp only [map_get, hk, if_false]
    exact ih (fun kv hkv => h kv (List.mem_cons_of_mem _ hkv))

theorem map_set_keys {V : Type} (k : Str) (v : V) (m : List (Str × V)) :
    ∀ kv ∈ map_set k v m, kv.1 = k ∨ kv ∈ m := by
  induction m with
  | nil =>
    intro kv hkv
    simp only [map_set, List.mem_singleton] at hkv
    left
    rw [hkv]
  | cons x rest ih =>
    obtain ⟨k2, v2⟩ := x
    intro kv hkv
    by_cases h1 : k = k2
    · simp only [map_set, h1, if_true, List.mem_cons] at hkv
      rcases hkv with h | h
      · left; rw [h, h1]
      · right; exact List.mem_cons_of_mem _ h
    · by_cases h2 : str_lt k k2 = true
      · simp only [map_set, h1, h2, if_true, if_false, List.mem_cons] at hkv
        rcases hkv with h | h | h
        · left; rw [h]
        · right; rw [h]; exact List.mem_cons_self _ _
        · right; exact List.mem_cons_of_mem _ h
      · simp only [map_set, h1, h2, if_false, Bool.false_eq_true, List.mem_cons] at hkv
        rcases hkv with h | h
        · right
          exact List.mem_cons.2 (Or.inl h)
        · rcases ih kv h with h3 | h3
          · left; exact h3
          · right; exact List.mem_cons_of_mem _ h3

theorem map_set_sorted {V : Type} (k : Str) (v : V) (m : List (Str × V))
    (h : keys_sorted m) : keys_sorted (map_set k v m) := by
  induction m with
  | nil => simp [map_set, keys_sorted]
  | cons x rest ih =>
    obtain ⟨k2, v2⟩ := x
    have hrest : keys_sorted rest := (List.pairwise_cons.1 h).2
    have hhead : ∀ kv ∈ rest, str_lt k2 kv.1 = true := (List.pairwise_cons.1 h).1
    by_cases h1 : k = k2
    · simp only [map_set, h1, if_true]
      exact List.pairwise_cons.2 ⟨hhead, hrest⟩
    · by_cases h2 : str_lt k k2 = true
      · simp only [map_set, h1, h2, if_true, if_false]
        refine List.pairwise_cons.2 ⟨?_, h⟩
        intro kv hkv
        rcases List.mem_cons.1 hkv with h3 | h3
        · rw [h3]; exact h2
        · exact str_lt_trans _ _ _ h2 (hhead kv h3)
      · simp only [map_set, h1, h2, if_false, Bool.false_eq_true]
        refine List.pairwise_cons.2 ⟨?_, ih hrest⟩
        intro kv hkv
        rcases map_set_keys k v rest kv hkv with h3 | h3
        · rw [h3]
          have h2' : str_lt k k2 = false := by
            cases hh : str_lt k k2 with
            | false => rfl
            | true => exact absurd hh h2
          exact str_lt_total k k2 h1 h2'
        · exact hhead kv h3

theorem map_erase_sorted {V : Type} (k : Str) (m : List (Str × V)) (h : keys_sorted m) :
    keys_sorted (map_erase k m) := by
  induction m with
  | nil => exact h
  | cons x rest ih =>
    obtain ⟨k2, v2⟩ := x
    have hrest : keys_sorted rest := (List.pairwise_cons.1 h).2
    have hhead : ∀ kv ∈ rest, str_lt k2 kv.1 = true := (List.pairwise_cons.1 h).1
    by_cases h1 : k = k2
    · simp only [map_erase, h1, if_true]
      exact hrest
    · simp only [map_erase, h1, if_false]
      refine List.pairwise_cons.2 ⟨?_, ih hrest⟩
      intro kv hkv
      have hsub : ∀ (l : List (Str × V)), ∀ kv ∈ map_erase k l, kv ∈ l := by
        intro l
        induction l with
        | nil => intro kv hkv; exact hkv
        | cons y l ihl =>
          intro kv hkv
          by_cases h3 : k = y.1
          · simp only [map_erase, h3, if_true] at hkv
            exact List.mem_cons_of_mem _ hkv
          · simp only [map_erase, h3, if_false, List.mem_cons] at hkv
            rcases hkv with h4 | h4
            · rw [h4]; exact List.mem_cons_self _ _
            · exact List.mem_cons_of_mem _ (ihl kv h4)
      exact hhead kv (hsub rest kv hkv)

theorem map_get_map_erase_same {V : Type} (k : Str) (m : List (Str × V)) (h : keys_sorted m) :
    map_get k (map_erase k m) = none := by
  induction m with
  | nil => rfl
  | cons x rest ih =>
    obtain ⟨k2, v2⟩ := x
    have hrest : keys_sorted rest := (List.pairwise_cons.1 h).2
    have hhead : ∀ kv ∈ rest, str_lt k2 kv.1 = true := (List.pairwise_cons.1 h).1
    by_cases h1 : k = k2
    · simp only [map_erase, h1, if_true]
      exact map_get_none_of_below k2 rest hhead
    · simp only [map_erase, map_get, h1, if_false]
      exact ih hrest

theorem map_get_map_erase_other {V : Type} (k k2 : Str) (m : List (Str × V)) (hne : k2 ≠ k) :
    map_get k2 (map_erase k m) = map_get k2 m := by
  induction m with
  | nil => rfl
  | cons x rest ih =>
    obtain ⟨k3, v3⟩ := x
    by_cases h1 : k = k3
    · subst h1
      simp [map_erase, map_get, hne]
    · by_cases h2 : k2 = k3
      · simp [map_erase, map_get, h1, h2]
      · simp [map_erase, map_get, h1, h2, ih]

theorem map_erase_keeps_none {V : Type} (k k2 : Str) (m : List (Str × V))
    (h : map_get k2 m = none) : map_get k2 (map_erase k m) = none := by
  induction m with
  | nil => rfl
  | cons x rest ih =>
    obtain ⟨k3, v3⟩ := x
    by_cases h3 : k2 = k3
    · simp [map_get, h3] at h
    · simp only [map_get, h3, if_false] at h
      by_cases h1 : k = k3
      · simp only [map_erase, h1, if_true]
        exact h
      · simp only [map_erase, h1, if_false, map_get, h3]
        exact ih h

/-! ## Lemmas on the rate limiter -/

theorem limiter_call_sorted (rl : RateLimiter) (call : LimiterCall)
    (h : keys_sorted rl.last_request) : keys_sorted (call.apply rl).last_request := by
  cases call with
  | wait_for_host host now draw =>
    simp only [LimiterCall.apply, RateLimiter.wait_for_host]
    split
    · exact map_set_sorted _ _ _ h
    · split <;> exact map_set_sorted _ _ _ h
  | set_host_delay host delay => exact h
  | reset_host host => exact map_erase_sorted _ _ h

theorem run_limiter_calls_sorted (calls : List LimiterCall) :
    ∀ rl : RateLimiter, keys_sorted rl.last_request →
      keys_sorted (run_limiter_calls rl calls).last_request := by
  induction calls with
  | nil => intro rl h; exact h
  | cons c rest ih =>
    intro rl h
    exact ih _ (limiter_call_sorted rl c h)

theorem wait_for_host_last_request (rl : RateLimiter) (host : Str) (now : Int) (draw : Nat) :
    (rl.wait_for_host host now draw).1.last_request = map_set host now rl.last_request := by
  simp only [RateLimiter.wait_for_host]
  split
  · rfl
  · split <;> rfl

theorem limiter_call_keeps_none (rl : RateLimiter) (call : LimiterCall) (host : Str)
    (hcall : call.waits_for host = false)
    (h : map_get host rl.last_request = none) :
    map_get host (call.apply rl).last_request = none := by
  cases call with
  | wait_for_host h2 now draw =>
    have hne : host ≠ h2 := by
      intro he
      simp [LimiterCall.waits_for, he] at hcall
    simp only [LimiterCall.apply, wait_for_host_last_request]
    rw [map_get_map_set_other _ _ _ _ hne]
    exact h
  | set_host_delay h2 delay => exact h
  | reset_host h2 => exact map_erase_keeps_none _ _ _ h

theorem run_limiter_calls_keeps_none (calls : List LimiterCall) (host : Str)
    (hcalls : ∀ c ∈ calls, c.waits_for host = false) :
    ∀ rl : RateLimiter, map_get host rl.last_request = none →
      map_get host (run_limiter_calls rl calls).last_request = none := by
  induction calls with
  | nil => intro rl h; exact h
  | cons c rest ih =>
    intro rl h
    exact ih (fun c2 hc2 => hcalls c2 (List.mem_cons_of_mem _ hc2)) _
      (limiter_call_keeps_none rl c host (hcalls c (List.mem_cons_self _ _)) h)

theorem wait_for_host_no_record (rl : RateLimiter) (host : Str) (now : Int) (draw : Nat)
    (h : map_get host rl.last_request = none) : (rl.wait_for_host host now draw).2 = 0 := by
  simp only [RateLimiter.wait_for_host, h]

/-! ## Lemmas on `rfind` of a character and on `url_to_filepath` -/

theorem rfind_char_none_iff (ch : Char) (s : Str) : rfind_char ch s = none ↔ ch ∉ s := by
  induction s with
  | nil => simp [rfind_char]
  | cons c s ih =>
    simp only [rfind_char, List.mem_cons, not_or]
    cases hr : rfind_char ch s with
    | some i =>
      simp only [false_iff, not_and, not_not, reduceCtorEq]
      intro _
      by_contra hn
      rw [← ih] at hn
      rw [hn] at hr
      cases hr
    | none =>
      have hs : ch ∉ s := ih.1 hr
      by_cases hc : c = ch
      · simp [hc]
      · simp only [hc, if_false, true_iff]
        exact ⟨fun h => hc h.symm, hs⟩

theorem rfind_char_append_of_not_mem (ch : Char) (a b : Str) (hb : ch ∉ b) :
    rfind_char ch (a ++ b) = rfind_char ch a := by
  induction a with
  | nil =>
    simp only [List.nil_append, rfind_char]
    exact (rfind_char_none_iff ch b).2 hb
  | cons c a ih => simp only [List.cons_append, rfind_char, List.append_eq, ih]

theorem rfind_char_lt (ch : Char) (s : Str) (i : Nat) (h : rfind_char ch s = some i) :
    i < s.length := by
  induction s generalizing i with
  | nil => simp [rfind_char] at h
  | cons c s ih =>
    simp only [rfind_char] at h
    cases hr : rfind_char ch s with
    | some j =>
      simp only [hr, Option.some.injEq] at h
      have := ih j hr
      simp only [List.length_cons]
      omega
    | none =>
      simp only [hr] at h
      split at h
      · simp only [Option.some.injEq] at h
        simp only [List.length_cons]
        omega
      · cases h

theorem rfind_char_at_split (ch : Char) (a b : Str) (hb : ch ∉ b) :
    rfind_char ch (a ++ ch :: b) = some a.length := by
  induction a with
  | nil =>
    simp only [List.nil_append, rfind_char, (rfind_char_none_iff ch b).2 hb, if_true,
      List.length_nil]
  | cons c a ih => simp only [List.cons_append, rfind_char, List.append_eq, ih, List.length_cons]

theorem rfind_char_spec (ch : Char) (s : Str) (i : Nat) (h : rfind_char ch s = some i) :
    s = s.take i ++ ch :: s.drop (i + 1) ∧ ch ∉ s.drop (i + 1) := by
  induction s generalizing i with
  | nil => simp [rfind_char] at h
  | cons c s ih =>
    simp only [rfind_char] at h
    cases hr : rfind_char ch s with
    | some j =>
      simp only [hr, Option.some.injEq] at h
      subst h
      obtain ⟨h1, h2⟩ := ih j hr
      refine ⟨?_, ?_⟩
      · simp only [List.take_succ_cons, List.drop_succ_cons, List.cons_append]
        rw [← h1]
      · simpa using h2
    | none =>
      simp only [hr] at h
      split at h
      · rename_i hc
        simp only [Option.some.injEq] at h
        subst h
        refine ⟨by simp [hc], ?_⟩
        simpa using (rfind_char_none_iff ch s).1 hr
      · cases h

theorem rfind_char_ge_of_mem (ch : Char) (a b : Str) (hb : ch ∈ b) :
    ∃ j, rfind_char ch (a ++ b) = some (a.length + j) := by
  induction a with
  | nil =>
    cases hr : rfind_char ch b with
    | none => exact absurd hb ((rfind_char_none_iff ch b).1 hr)
    | some j => exact ⟨j, by simp [hr]⟩
  | cons c a ih =>
    obtain ⟨j, hj⟩ := ih
    refine ⟨j, ?_⟩
    simp only [List.cons_append, rfind_char, List.append_eq, hj, List.length_cons,
      Option.some.injEq]
    omega

/-- The result of `url_to_filepath` when the cleaned path ends in an extension:
`.md` in place of `html` and `htm`, the cleaned path itself otherwise. -/
theorem safe_path_of_extension (url_path stem ext : Str)
    (hsplit : cleaned_path url_path = stem ++ '.' :: ext)
    (hdot : '.' ∉ ext) (hslash : '/' ∉ ext) :
    safe_path_of url_path
      = if to_lower ext = "html".data ∨ to_lower ext = "htm".data
          then stem ++ ".md".data else cleaned_path url_path := by
  have hd : rfind_char '.' (cleaned_path url_path) = some stem.length := by
    rw [hsplit]
    exact rfind_char_at_split '.' stem ext hdot
  have hs : rfind_char '/' (cleaned_path url_path) = rfind_char '/' stem := by
    rw [hsplit]
    apply rfind_char_append_of_not_mem
    intro hm
    rcases List.mem_cons.1 hm with h | h
    · cases h
    · exact hslash h
  have htake : (cleaned_path url_path).take stem.length = stem := by
    rw [hsplit]
    exact List.take_left' rfl
  have hdrop : (cleaned_path url_path).drop (stem.length + 1) = ext := by
    rw [hsplit]
    have : stem ++ '.' :: ext = (stem ++ ['.']) ++ ext := by simp
    rw [this]
    exact List.drop_left' (by simp)
  unfold safe_path_of
  simp only [hd, htake, hdrop, Bool.or_eq_true, decide_eq_true_eq]
  rw [hs]
  cases hr : rfind_char '/' stem with
  | none => simp
  | some slash =>
    have hlt : slash < stem.length := rfind_char_lt '/' stem slash hr
    simp [hlt]

/-- The result of `url_to_filepath` when the last component of the cleaned path
has no dot: `.md` is appended. -/
theorem safe_path_of_no_extension (url_path : Str)
    (hnone : ∀ stem ext : Str, cleaned_path url_path = stem ++ '.' :: ext →
      '.' ∈ ext ∨ '/' ∈ ext) :
    safe_path_of url_path = cleaned_path url_path ++ ".md".data := by
  unfold safe_path_of
  cases hd : rfind_char '.' (cleaned_path url_path) with
  | none => simp only [hd]
  | some dot =>
    obtain ⟨h1, h2⟩ := rfind_char_spec '.' _ dot hd
    have hsl : '/' ∈ (cleaned_path url_path).drop (dot + 1) := by
      rcases hnone _ _ h1 with h | h
      · exact absurd h h2
      · exact h
    have h1' : cleaned_path url_path
        = ((cleaned_path url_path).take dot ++ ['.']) ++ (cleaned_path url_path).drop (dot + 1) := by
      rw [List.append_assoc]
      exact h1
    obtain ⟨j, hj⟩ := rfind_char_ge_of_mem '/' ((cleaned_path url_path).take dot ++ ['.'])
      ((cleaned_path url_path).drop (dot + 1)) hsl
    rw [← h1'] at hj
    have hlen : ((cleaned_path url_path).take dot).length = dot := by
      have := rfind_char_lt '.' _ dot hd
      simp only [List.length_take]
      omega
    simp only [List.length_append, List.length_singleton, hlen] at hj
    have hfalse : decide (dot > dot + 1 + j) = false := by
      simp only [decide_eq_false_iff_not]
      omega
    simp only [hd, hj, hfalse, Bool.false_eq_true, if_false]

/-! ## Lemmas on the HTML tree -/

theorem collect_text_in_document_order :
    (∀ node : GumboNode, ∀ path : List Nat,
      collect_text node
        = ((text_nodes (document_order path node)).map (fun t => t ++ " ".data)).flatten) ∧
    (∀ children : List GumboNode, ∀ (path : List Nat) (i : Nat),
      collect_text_children children
        = ((text_nodes (document_order_children path i children)).map
            (fun t => t ++ " ".data)).flatten) := by
  have key := @GumboNode.rec
    (fun node => ∀ path : List Nat,
      collect_text node
        = ((text_nodes (document_order path node)).map (fun t => t ++ " ".data)).flatten)
    (fun children => ∀ (path : List Nat) (i : Nat),
      collect_text_children children
        = ((text_nodes (document_order_children path i children)).map
            (fun t => t ++ " ".data)).flatten)
    (by intro t path; simp [collect_text, document_order, text_nodes, GumboNode.text?])
    (by
      intro tag attributes children ih path
      simp only [collect_text, document_order, text_nodes, List.filterMap_cons, GumboNode.text?]
      exact ih path 0)
    (by intro path; simp [collect_text, document_order, text_nodes, GumboNode.text?])
    (by intro path i; simp [collect_text_children, document_order_children, text_nodes])
    (by
      intro child rest ih1 ih2 path i
      simp only [collect_text_children, document_order_children, text_nodes,
        List.filterMap_append, List.map_append, List.flatten_append]
      rw [ih1 (path ++ [i]), ih2 path (i + 1)]
      rfl)
  refine ⟨key, ?_⟩
  intro children
  induction children with
  | nil => intro path i; simp [collect_text_children, document_order_children, text_nodes]
  | cons child rest ih =>
    intro path i
    simp only [collect_text_children, document_order_children, text_nodes,
      List.filterMap_append, List.map_append, List.flatten_append]
    rw [key child (path ++ [i]), ih path (i + 1)]
    rfl

theorem collect_main_text_eq :
    (∀ node : GumboNode, collect_main_text node = collect_text (without_skipped node)) ∧
    (∀ children : List GumboNode,
      collect_main_text_children children
        = collect_text_children (without_skipped_children children)) := by
  have key := @GumboNode.rec
    (fun node => collect_main_text node = collect_text (without_skipped node))
    (fun children => collect_main_text_children children
        = collect_text_children (without_skipped_children children))
    (by intro t; simp [collect_main_text, collect_text, without_skipped])
    (by
      intro tag attributes children ih
      by_cases hs : (tag = "script".data || tag = "style".data || tag = "noscript".data) = true
      · simp only [collect_main_text, without_skipped, hs, if_true, collect_text,
          collect_text_children]
      · simp only [collect_main_text, without_skipped, hs, if_false, collect_text]
        exact ih)
    (by simp [collect_main_text, collect_text, without_skipped])
    (by simp [collect_main_text_children, collect_text_children, without_skipped_children])
    (by
      intro child rest ih1 ih2
      simp only [collect_main_text_children, collect_text_children, without_skipped_children,
        ih1, ih2])
  refine ⟨key, ?_⟩
  intro children
  induction children with
  | nil => simp [collect_main_text_children, collect_text_children, without_skipped_children]
  | cons child rest ih =>
    simp only [collect_main_text_children, collect_text_children, without_skipped_children,
      key child, ih]

theorem find_matching_in_document_order (selector : Str) :
    (∀ node : GumboNode, ∀ path : List Nat,
      find_matching_nodes selector path node
        = (document_order path node).filter (fun r => matches_selector r.2 selector)) ∧
    (∀ children : List GumboNode, ∀ (path : List Nat) (i : Nat),
      find_matching_children selector path i children
        = (document_order_children path i children).filter
            (fun r => matches_selector r.2 selector)) := by
  have key := @GumboNode.rec
    (fun node => ∀ path : List Nat,
      find_matching_nodes selector path node
        = (document_order path node).filter (fun r => matches_selector r.2 selector))
    (fun children => ∀ (path : List Nat) (i : Nat),
      find_matching_children selector path i children
        = (document_order_children path i children).filter
            (fun r => matches_selector r.2 selector))
    (by
      intro t path
      simp [find_matching_nodes, document_order, List.filter_cons])
    (by
      intro tag attributes children ih path
      simp only [find_matching_nodes, document_order, List.filter_cons, ih path 0]
      split <;> rfl)
    (by
      intro path
      simp [find_matching_nodes, document_order, List.filter_cons])
    (by intro path i; simp [find_matching_children, document_order_children])
    (by
      intro child rest ih1 ih2 path i
      simp only [find_matching_children, document_order_children, List.filter_append,
        ih1 (path ++ [i]), ih2 path (i + 1)])
  refine ⟨key, ?_⟩
  intro children
  induction children with
  | nil => intro path i; simp [find_matching_children, document_order_children]
  | cons child rest ih =>
    intro path i
    simp only [find_matching_children, document_order_children, List.filter_append,
      key child (path ++ [i]), ih path (i + 1)]

theorem document_order_paths :
    (∀ node : GumboNode, ∀ path : List Nat,
      (∀ r ∈ document_order path node, path <+: r.1) ∧
      ((document_order path node).map Prod.fst).Nodup) ∧
    (∀ children : List GumboNode, ∀ (path : List Nat) (i : Nat),
      (∀ r ∈ document_order_children path i children, ∃ j, i ≤ j ∧ (path ++ [j]) <+: r.1) ∧
      ((document_order_children path i children).map Prod.fst).Nodup) := by
  have hstep : ∀ (child : GumboNode) (rest : List GumboNode),
      (∀ path : List Nat,
        (∀ r ∈ document_order path child, path <+: r.1) ∧
        ((document_order path child).map Prod.fst).Nodup) →
      (∀ (path : List Nat) (i : Nat),
        (∀ r ∈ document_order_children path i rest, ∃ j, i ≤ j ∧ (path ++ [j]) <+: r.1) ∧
        ((document_order_children path i rest).map Prod.fst).Nodup) →
      ∀ (path : List Nat) (i : Nat),
        (∀ r ∈ document_order_children path i (child :: rest),
          ∃ j, i ≤ j ∧ (path ++ [j]) <+: r.1) ∧
        ((document_order_children path i (child :: rest)).map Prod.fst).Nodup := by
    intro child rest ih1 ih2 path i
    simp only [document_order_children, List.mem_append, List.map_append]
    refine ⟨?_, ?_⟩
    · intro r hr
      rcases hr with hr | hr
      · exact ⟨i, le_refl _, (ih1 (path ++ [i])).1 r hr⟩
      · obtain ⟨j, hj, hp⟩ := (ih2 path (i + 1)).1 r hr
        exact ⟨j, by omega, hp⟩
    · refine List.Nodup.append (ih1 (path ++ [i])).2 (ih2 path (i + 1)).2 ?_
      intro p hp1 hp2
      obtain ⟨r1, hr1, rfl⟩ := List.mem_map.1 hp1
      obtain ⟨r2, hr2, he⟩ := List.mem_map.1 hp2
      have h1 := (ih1 (path ++ [i])).1 r1 hr1
      obtain ⟨j, hj, h2⟩ := (ih2 path (i + 1)).1 r2 hr2
      rw [he] at h2
      obtain ⟨t1, ht1⟩ := h1
      obtain ⟨t2, ht2⟩ := h2
      have h3 : path ++ ([i] ++ t1) = path ++ ([j] ++ t2) := by
        rw [← List.append_assoc, ← List.append_assoc, ht1, ht2]
      have h4 := List.append_cancel_left h3
      simp only [List.singleton_append, List.cons.injEq] at h4
      omega
  have key := @GumboNode.rec
    (fun node => ∀ path : List Nat,
      (∀ r ∈ document_order path node, path <+: r.1) ∧
      ((document_order path node).map Prod.fst).Nodup)
    (fun children => ∀ (path : List Nat) (i : Nat),
      (∀ r ∈ document_order_children path i children, ∃ j, i ≤ j ∧ (path ++ [j]) <+: r.1) ∧
      ((document_order_children path i children).map Prod.fst).Nodup)
    (by intro t path; simp [document_order])
    (by
      intro tag attributes children ih path
      simp only [document_order, List.mem_cons, List.map_cons, List.nodup_cons]
      refine ⟨?_, ?_, (ih path 0).2⟩
      · intro r hr
        rcases hr with hr | hr
        · rw [hr]
        · obtain ⟨j, _, hp⟩ := (ih path 0).1 r hr
          exact List.IsPrefix.trans (List.prefix_append _ _) hp
      · intro hmem
        obtain ⟨r, hr, he⟩ := List.mem_map.1 hmem
        obtain ⟨j, _, hp⟩ := (ih path 0).1 r hr
        rw [he] at hp
        have := List.IsPrefix.length_le hp
        simp at this)
    (by intro path; simp [document_order])
    (by intro path i; simp [document_order_children])
    (by
      intro child rest ih1 ih2
      exact hstep child rest ih1 ih2)
  refine ⟨key, ?_⟩
  intro children
  induction children with
  | nil => intro path i; simp [document_order_children]
  | cons child rest ih => exact hstep child rest (key child) ih

theorem split_on_of_not_mem (delim : Char) (s : Str) (h : delim ∉ s) : split_on delim s = [s] := by
  induction s with
  | nil => rfl
  | cons c s ih =>
    have hc : c ≠ delim := fun he => h (by rw [he]; exact List.mem_cons_self _ _)
    have hs : delim ∉ s := fun hm => h (List.mem_cons_of_mem _ hm)
    simp only [split_on, hc, if_false, ih hs]

theorem getlines_of_not_mem (delim : Char) (s : Str) (hne : s ≠ []) (h : delim ∉ s) :
    getlines delim s = [s] := by
  simp only [getlines, split_on_of_not_mem delim s h, List.getLast?_singleton, Option.some.injEq,
    hne, if_false]

theorem foldl_append_eq_flatten {α β : Type} (f : α → List β) (l : List α) (init : List β) :
    l.foldl (fun acc x => acc ++ f x) init = init ++ (l.map f).flatten := by
  induction l generalizing init with
  | nil => simp
  | cons x l ih => simp [ih, List.append_assoc]

theorem select_eq (node : GumboNode) (selector : Str) :
    HTMLElement.select node selector
      = ((getlines ',' selector).map (fun sel =>
          (document_order [] node).filter (fun r => matches_selector r.2 sel))).flatten := by
  unfold HTMLElement.select
  rw [foldl_append_eq_flatten (fun sel => find_matching_nodes sel [] node)]
  simp only [List.nil_append]
  congr 1
  apply List.map_congr_left
  intro sel _
  exact (find_matching_in_document_order sel).1 node []

theorem head_filter_eq_find {α : Type} (p : α → Bool) (l : List α) :
    (l.filter p).head? = l.find? p := by
  induction l with
  | nil => rfl
  | cons x l ih =>
    by_cases h : p x = true
    · simp [List.filter_cons, List.find?_cons, h]
    · simp [List.filter_cons, List.find?_cons, h, ih]

/-! ## Lemmas on `URLNormalizer::parse` -/

theorem match_scheme_split (s scheme r : Str) (h : match_scheme s = some (scheme, r)) :
    s = scheme ++ "://".data ++ r := by
  unfold match_scheme at h
  by_cases h4 : to_lower (s.take 4) = "http".data
  · simp only [h4, if_true] at h
    have hs : s = s.take 4 ++ s.drop 4 := (List.take_append_drop 4 s).symm
    have hlen : (s.take 4).length = 4 := by
      have : (to_lower (s.take 4)).length = 4 := by rw [h4]; rfl
      simpa [to_lower] using this
    split at h
    · rename_i r' hd
      simp only [Option.some.injEq, Prod.mk.injEq] at h
      rw [← h.1, ← h.2]
      conv_lhs => rw [hs, hd]
      show _ = s.take 4 ++ [':', '/', '/'] ++ r'
      simp
    · rename_i c r' hd
      by_cases hc : c.toLower = 's'
      · simp only [hc, if_true, Option.some.injEq, Prod.mk.injEq] at h
        have h5 : s.take 5 = s.take 4 ++ [c] := by
          conv_lhs => rw [hs, hd]
          rw [List.take_append_eq_append_take, hlen]
          simp
        rw [← h.1, ← h.2, h5]
        conv_lhs => rw [hs, hd]
        show _ = s.take 4 ++ [c] ++ [':', '/', '/'] ++ r'
        simp
      · simp [hc] at h
    · simp at h
  · simp [h4] at h

theorem match_host_spec (r : Str) (n : Nat) (host : Str) (m : RestMatch)
    (h : match_host r n = some (host, m)) :
    ∃ k, 1 ≤ k ∧ k ≤ n ∧ host = r.take k ∧ match_rest (r.drop k) = some m := by
  induction n with
  | zero => simp [match_host] at h
  | succ n ih =>
    simp only [match_host] at h
    cases hm : match_rest (r.drop (n + 1)) with
    | some m2 =>
      simp only [hm, Option.some.injEq, Prod.mk.injEq] at h
      refine ⟨n + 1, by omega, le_refl _, h.1.symm, ?_⟩
      rw [hm, h.2]
    | none =>
      simp only [hm] at h
      obtain ⟨k, h1, h2, h3, h4⟩ := ih h
      exact ⟨k, h1, by omega, h3, h4⟩

/-- What `parse` does when it returns components. -/
theorem parse_inv (url : Str) (c : URLComponents)
    (h : URLNormalizer.parse url = .ok (some c)) :
    ∃ (scheme r host : Str) (m : RestMatch) (port : Int),
      match_scheme url = some (scheme, r) ∧
      match_host r (r.takeWhile (fun c => c != '/' && c != ':')).length = some (host, m) ∧
      ((port = 0 ∧ (m.port = none ∨ m.port = some [])) ∨
        ∃ digits, m.port = some digits ∧ digits ≠ [] ∧ stoi digits = .ok port) ∧
      c = { scheme := to_lower scheme, host := to_lower host, port := port,
            path := if (m.path.getD "/".data).isEmpty then "/".data else m.path.getD "/".data,
            query := m.query.getD [], fragment := m.fragment.getD [] } := by
  unfold URLNormalizer.parse at h
  split at h
  · simp at h
  · split at h
    · simp at h
    · rename_i scheme r hm
      split at h
      · simp at h
      · rename_i host m hh
        refine ⟨scheme, r, host, m, c.port, hm, hh, ?_⟩
        split at h
        · rename_i digits hp
          split at h
          · rename_i hemp
            simp only [Except.ok.injEq, Option.some.injEq] at h
            rw [← h]
            refine ⟨Or.inl ⟨rfl, Or.inr ?_⟩, rfl⟩
            rw [hp]
            cases digits with
            | nil => rfl
            | cons a b => simp at hemp
          · rename_i hemp
            split at h
            · rename_i p hs
              simp only [Except.ok.injEq, Option.some.injEq] at h
              rw [← h]
              refine ⟨Or.inr ⟨digits, hp, ?_, hs⟩, rfl⟩
              intro he
              rw [he] at hemp
              simp at hemp
            · simp at h
        · rename_i hp
          simp only [Except.ok.injEq, Option.some.injEq] at h
          rw [← h]
          exact ⟨Or.inl ⟨rfl, Or.inl hp⟩, rfl⟩

theorem char_toLower_cases (c : Char) :
    c.toLower = c ∨ (65 ≤ c.toNat ∧ c.toNat ≤ 90 ∧ c.toLower.toNat = c.toNat + 32) := by
  unfold Char.toLower
  by_cases h : c.toNat ≥ 65 ∧ c.toNat ≤ 90
  · right
    refine ⟨h.1, h.2, ?_⟩
    simp only [h, and_self, if_true]
    have hv : (c.toNat + 32).isValidChar := by
      left
      omega
    simp only [Char.ofNat, hv, dite_true]
    simp [Char.ofNatAux, Char.toNat, UInt32.toNat]
  · left
    simp only [h, if_false]

theorem char_toLower_idem (c : Char) : c.toLower.toLower = c.toLower := by
  rcases char_toLower_cases c with h | ⟨h1, h2, h3⟩
  · rw [h, h]
  · rcases char_toLower_cases c.toLower with h | ⟨h4, h5, _⟩
    · exact h
    · omega

theorem to_lower_idem (s : Str) : to_lower (to_lower s) = to_lower s := by
  simp only [to_lower, List.map_map]
  apply List.map_congr_left
  intro c _
  exact char_toLower_idem c

theorem char_toLower_ne (c d : Char) (hd : d.toNat < 97 ∨ 122 < d.toNat) (h : c ≠ d) :
    c.toLower ≠ d := by
  rcases char_toLower_cases c with h1 | ⟨h1, h2, h3⟩
  · rw [h1]; exact h
  · intro he
    rw [he] at h3
    omega

theorem to_lower_all_host_char (s : Str) (h : s.all host_char = true) :
    (to_lower s).all host_char = true := by
  simp only [to_lower, List.all_map, List.all_eq_true, Function.comp_apply] at h ⊢
  intro c hc
  have := h c hc
  simp only [host_char, Bool.and_eq_true, bne_iff_ne, ne_eq] at this ⊢
  exact ⟨char_toLower_ne c '/' (by decide) this.1, char_toLower_ne c ':' (by decide) this.2⟩

theorem to_lower_eq_nil (s : Str) : to_lower s = [] ↔ s = [] := by
  simp [to_lower]

/-! ### Decimal digits -/

theorem digitChar_spec : ∀ k : Fin 10,
    (Nat.digitChar k.val).isDigit = true ∧ (Nat.digitChar k.val).toNat - 48 = k.val := by
  decide

theorem toDigitsCore_value (fuel : Nat) : ∀ (n : Nat) (ds : List Char), n < fuel →
    (Nat.toDigitsCore 10 fuel n ds).foldl (fun acc c => 10 * acc + (c.toNat - 48)) 0
      = ds.foldl (fun acc c => 10 * acc + (c.toNat - 48)) n := by
  induction fuel with
  | zero => intro n ds h; omega
  | succ fuel ih =>
    intro n ds h
    have hk := (digitChar_spec ⟨n % 10, Nat.mod_lt _ (by norm_num)⟩).2
    simp only at hk
    simp only [Nat.toDigitsCore]
    by_cases h0 : n / 10 = 0
    · simp only [h0, if_true, List.foldl_cons, hk]
      have : n % 10 = n := by omega
      simp [this]
    · simp only [h0, if_false]
      rw [ih (n / 10) _ (by omega)]
      simp only [List.foldl_cons, hk]
      have : 10 * (n / 10) + n % 10 = n := Nat.div_add_mod n 10
      rw [this]

theorem toDigitsCore_all_digits (fuel : Nat) : ∀ (n : Nat) (ds : List Char),
    ds.all Char.isDigit = true → (Nat.toDigitsCore 10 fuel n ds).all Char.isDigit = true := by
  induction fuel with
  | zero => intro n ds h; exact h
  | succ fuel ih =>
    intro n ds h
    have hk := (digitChar_spec ⟨n % 10, Nat.mod_lt _ (by norm_num)⟩).1
    simp only at hk
    simp only [Nat.toDigitsCore]
    have hcons : (Nat.digitChar (n % 10) :: ds).all Char.isDigit = true := by
      simp only [List.all_cons, hk, h, Bool.and_self]
    split
    · exact hcons
    · exact ih _ _ hcons

theorem toDigitsCore_ne_nil (fuel : Nat) : ∀ (n : Nat) (ds : List Char),
    0 < fuel → Nat.toDigitsCore 10 fuel n ds ≠ [] := by
  induction fuel with
  | zero => intro n ds h; omega
  | succ fuel ih =>
    intro n ds _
    simp only [Nat.toDigitsCore]
    split
    · simp
    · cases fuel with
      | zero =>
        simp [Nat.toDigitsCore]
      | succ f => exact ih _ _ (by omega)

theorem toDigits_spec (n : Nat) :
    (Nat.toDigits 10 n).foldl (fun acc c => 10 * acc + (c.toNat - 48)) 0 = n ∧
    (Nat.toDigits 10 n).all Char.isDigit = true ∧ Nat.toDigits 10 n ≠ [] := by
  refine ⟨?_, ?_, ?_⟩
  · unfold Nat.toDigits
    rw [toDigitsCore_value (n + 1) n [] (by omega)]
    rfl
  · exact toDigitsCore_all_digits _ _ _ rfl
  · exact toDigitsCore_ne_nil _ _ _ (by omega)

theorem stoi_int_to_str (p : Int) (h0 : 0 ≤ p) (h1 : p ≤ 2147483647) :
    stoi (int_to_str p) = .ok p ∧ (int_to_str p).all Char.isDigit = true ∧ int_to_str p ≠ [] := by
  have hn : ¬ p < 0 := by omega
  obtain ⟨hv, hd, hne⟩ := toDigits_spec p.natAbs
  simp only [int_to_str, hn, if_false]
  refine ⟨?_, hd, hne⟩
  unfold stoi
  simp only [hv]
  have h2 : ¬ p.natAbs > 2147483647 := by omega
  simp only [h2, if_false]
  congr 1
  exact Int.natAbs_of_nonneg h0

/-! ### `takeWhile` and `dropWhile` at a boundary -/

theorem takeWhile_at_boundary {α : Type} (p : α → Bool) (a rest : List α)
    (ha : a.all p = true) (hrest : rest = [] ∨ ∃ c t, rest = c :: t ∧ p c = false) :
    (a ++ rest).takeWhile p = a ∧ (a ++ rest).dropWhile p = rest := by
  induction a with
  | nil =>
    rcases hrest with h | ⟨c, t, h, hc⟩
    · simp [h]
    · simp [h, List.takeWhile_cons, List.dropWhile_cons, hc]
  | cons x a ih =>
    simp only [List.all_cons, Bool.and_eq_true] at ha
    obtain ⟨i1, i2⟩ := ih ha.2
    simp only [List.cons_append, List.takeWhile_cons, List.dropWhile_cons, ha.1, if_true, i1, i2,
      and_self]

theorem takeWhile_all {α : Type} (p : α → Bool) (l : List α) : (l.takeWhile p).all p = true := by
  induction l with
  | nil => rfl
  | cons x l ih =>
    by_cases h : p x = true
    · simp only [List.takeWhile_cons, h, if_true, List.all_cons, ih, Bool.and_self]
    · simp [List.takeWhile_cons, h]

theorem dropWhile_all {α : Type} (p q : α → Bool) (l : List α) (h : l.all q = true) :
    (l.dropWhile p).all q = true := by
  induction l with
  | nil => rfl
  | cons x l ih =>
    simp only [List.all_cons, Bool.and_eq_true] at h
    by_cases hx : p x = true
    · simp only [List.dropWhile_cons, hx, if_true]
      exact ih h.2
    · simp only [List.dropWhile_cons, hx, Bool.false_eq_true, if_false, List.all_cons, h.1, h.2,
        Bool.and_self]

theorem dropWhile_head {α : Type} (p : α → Bool) (l : List α) :
    l.dropWhile p = [] ∨ ∃ c t, l.dropWhile p = c :: t ∧ p c = false := by
  induction l with
  | nil => left; rfl
  | cons x l ih =>
    by_cases hx : p x = true
    · simp only [List.dropWhile_cons, hx, if_true]
      exact ih
    · right
      refine ⟨x, l, ?_, ?_⟩
      · simp [List.dropWhile_cons, hx]
      · simpa using hx

/-! ### The groups of the URL pattern -/

theorem match_rest_stages (r : Str) :
    match_rest r
      = fragment_stage (port_stage r).1 (path_stage (port_stage r).2).1
          (query_stage (path_stage (port_stage r).2).2).1
          (query_stage (path_stage (port_stage r).2).2).2 := rfl

theorem port_stage_fields (r d : Str) (h : (port_stage r).1 = some d) :
    d ≠ [] ∧ d.all Char.isDigit = true := by
  unfold port_stage at h
  split at h
  · rename_i t
    split at h
    · cases h
    · rename_i hne
      simp only [Option.some.injEq] at h
      rw [← h]
      refine ⟨?_, takeWhile_all _ _⟩
      intro he
      rw [he] at hne
      simp at hne
  · cases h

theorem path_stage_fields (r p : Str) (h : (path_stage r).1 = some p) :
    ∃ t, p = '/' :: t ∧ t.all path_char = true := by
  unfold path_stage at h
  split at h
  · rename_i t
    simp only [Option.some.injEq] at h
    exact ⟨_, h.symm, takeWhile_all _ _⟩
  · cases h

theorem query_stage_fields (r q : Str) (h : (query_stage r).1 = some q) :
    q.all (fun c => c != '#') = true := by
  unfold query_stage at h
  split at h
  · simp only [Option.some.injEq] at h
    rw [← h]
    exact takeWhile_all _ _
  · cases h

theorem fragment_stage_fields (port path query : Option Str) (r : Str) (m : RestMatch)
    (h : fragment_stage port path query r = some m) :
    m.port = port ∧ m.path = path ∧ m.query = query ∧
    (∀ f, m.fragment = some f → f.all dot_matches = true) := by
  unfold fragment_stage at h
  split at h
  · simp only [Option.some.injEq] at h
    rw [← h]
    exact ⟨rfl, rfl, rfl, fun f hf => by cases hf⟩
  · rename_i t
    split at h
    · rename_i hall
      simp only [Option.some.injEq] at h
      rw [← h]
      refine ⟨rfl, rfl, rfl, ?_⟩
      intro f hf
      simp only [Option.some.injEq] at hf
      rw [← hf]
      exact hall
    · cases h
  · cases h

theorem match_rest_fields (r : Str) (m : RestMatch) (h : match_rest r = some m) :
    (∀ d, m.port = some d → d ≠ [] ∧ d.all Char.isDigit = true) ∧
    (∀ p, m.path = some p → ∃ t, p = '/' :: t ∧ t.all path_char = true) ∧
    (∀ q, m.query = some q → q.all (fun c => c != '#') = true) ∧
    (∀ f, m.fragment = some f → f.all dot_matches = true) := by
  rw [match_rest_stages] at h
  obtain ⟨h1, h2, h3, h4⟩ := fragment_stage_fields _ _ _ _ _ h
  refine ⟨?_, ?_, ?_, h4⟩
  · intro d hd
    rw [h1] at hd
    exact port_stage_fields _ _ hd
  · intro p hp
    rw [h2] at hp
    exact path_stage_fields _ _ hp
  · intro q hq
    rw [h3] at hq
    exact query_stage_fields _ _ hq

theorem port_stage_of_text (port : Option Str) (tail : Str)
    (hport : ∀ d, port = some d → d ≠ [] ∧ d.all Char.isDigit = true)
    (htail : tail.head? = some '/') :
    port_stage (port_text port ++ tail) = (port, tail) := by
  obtain ⟨t, rfl⟩ : ∃ t, tail = '/' :: t := by
    cases tail with
    | nil => simp at htail
    | cons a t =>
      simp only [List.head?_cons, Option.some.injEq] at htail
      exact ⟨t, by rw [htail]⟩
  cases port with
  | none => rfl
  | some d =>
    obtain ⟨hne, hd⟩ := hport d rfl
    obtain ⟨h1, h2⟩ := takeWhile_at_boundary Char.isDigit d ('/' :: t) hd
      (Or.inr ⟨'/', t, rfl, by decide⟩)
    have hemp : d.isEmpty = false := by
      cases d with
      | nil => exact absurd rfl hne
      | cons a b => rfl
    simp only [port_text, List.cons_append, port_stage, h1, h2, hemp, Bool.false_eq_true,
      if_false]

theorem query_stage_nil : query_stage [] = (none, []) := rfl

theorem query_stage_hash (r : Str) : query_stage ('#' :: r) = (none, '#' :: r) := rfl

theorem query_stage_mark (t : Str) :
    query_stage ('?' :: t)
      = (some (t.takeWhile (fun c => c != '#')), t.dropWhile (fun c => c != '#')) := rfl

theorem fragment_stage_nil (port path query : Option Str) :
    fragment_stage port path query [] = some ⟨port, path, query, none⟩ := rfl

theorem fragment_stage_hash (port path query : Option Str) (t : Str) :
    fragment_stage port path query ('#' :: t)
      = if t.all dot_matches then some ⟨port, path, query, some t⟩ else none := rfl

theorem path_stage_total (t : Str) :
    path_stage ('/' :: t) = (some ('/' :: t.takeWhile path_char), t.dropWhile path_char) := rfl

theorem query_stage_after_path (t : Str) :
    (query_stage (t.dropWhile path_char)).2 = []
      ∨ ∃ f, (query_stage (t.dropWhile path_char)).2 = '#' :: f ∧
          ∃ k, f = t.drop k := by
  have hsuffix : ∀ (p : Char → Bool) (l : Str), ∃ k, l.dropWhile p = l.drop k := by
    intro p l
    induction l with
    | nil => exact ⟨0, rfl⟩
    | cons x l ih =>
      by_cases hx : p x = true
      · obtain ⟨k, hk⟩ := ih
        exact ⟨k + 1, by simp [List.dropWhile_cons, hx, hk]⟩
      · exact ⟨0, by simp [List.dropWhile_cons, hx]⟩
  obtain ⟨k1, hk1⟩ := hsuffix path_char t
  rcases dropWhile_head path_char t with h | ⟨c, r, h, hc⟩
  · left
    rw [h, query_stage_nil]
  · rw [h]
    have hc2 : c = '?' ∨ c = '#' := by
      simp only [path_char, Bool.and_eq_false_iff, bne_eq_false_iff_eq] at hc
      exact hc
    have hr : r = t.drop (k1 + 1) := by
      have : (c :: r).drop 1 = (t.drop k1).drop 1 := by rw [← hk1, h]
      simpa [List.drop_drop, Nat.add_comm] using this
    rcases hc2 with hq | hh
    · subst hq
      rw [query_stage_mark]
      obtain ⟨k2, hk2⟩ := hsuffix (fun c => c != '#') r
      rcases dropWhile_head (fun c => c != '#') r with h2 | ⟨c2, r2, h2, hc2⟩
      · left; exact h2
      · right
        have hc3 : c2 = '#' := by simpa using hc2
        subst hc3
        refine ⟨r2, h2, k1 + 1 + k2 + 1, ?_⟩
        have : ('#' :: r2).drop 1 = (r.drop k2).drop 1 := by rw [← hk2, h2]
        rw [hr] at this
        simp only [List.drop_succ_cons, List.drop_zero, List.drop_drop] at this
        rw [this]
    · subst hh
      right
      rw [query_stage_hash]
      exact ⟨r, rfl, k1 + 1, hr⟩

/-- The pattern after the host matches every text that begins with `/` and
holds no line terminator, whatever port precedes it. -/
theorem match_rest_accepts (port : Option Str) (t : Str)
    (hport : ∀ d, port = some d → d ≠ [] ∧ d.all Char.isDigit = true)
    (ht : t.all dot_matches = true) :
    ∃ m, match_rest (port_text port ++ '/' :: t) = some m ∧ m.port = port := by
  rw [match_rest_stages, port_stage_of_text port ('/' :: t) hport rfl]
  simp only [path_stage_total]
  rcases query_stage_after_path t with h | ⟨f, h, k, hk⟩
  · rw [h, fragment_stage_nil]
    exact ⟨_, rfl, rfl⟩
  · rw [h]
    have hf : f.all dot_matches = true := by
      rw [hk]
      simp only [List.all_eq_true] at ht ⊢
      intro c hc
      exact ht c (List.mem_of_mem_drop hc)
    rw [fragment_stage_hash]
    simp only [hf, if_true]
    exact ⟨_, rfl, rfl⟩

/-- The pattern after the host, matched against the text that `to_string`
writes for a port, a path, a query and a fragment. -/
theorem match_rest_of_parts (port : Option Str) (t query fragment : Str)
    (hport : ∀ d, port = some d → d ≠ [] ∧ d.all Char.isDigit = true)
    (ht : t.all path_char = true)
    (hq : query.all (fun c => c != '#') = true)
    (hf : fragment.all dot_matches = true) :
    match_rest (port_text port ++ ('/' :: t ++ ((if !query.isEmpty then '?' :: query else [])
        ++ (if !fragment.isEmpty then '#' :: fragment else []))))
      = some ⟨port, some ('/' :: t), if !query.isEmpty then some query else none,
          if !fragment.isEmpty then some fragment else none⟩ := by
  have hfrag : (if !fragment.isEmpty then '#' :: fragment else []) = []
      ∨ ∃ c r, (if !fragment.isEmpty then '#' :: fragment else []) = c :: r
          ∧ (fun c => c != '#') c = false := by
    cases fragment with
    | nil => left; rfl
    | cons a b => right; exact ⟨'#', a :: b, rfl, by decide⟩
  have hqf : ((if !query.isEmpty then '?' :: query else [])
        ++ (if !fragment.isEmpty then '#' :: fragment else [])) = []
      ∨ ∃ c r, ((if !query.isEmpty then '?' :: query else [])
        ++ (if !fragment.isEmpty then '#' :: fragment else [])) = c :: r
          ∧ path_char c = false := by
    cases query with
    | nil =>
      cases fragment with
      | nil => left; rfl
      | cons a b => right; exact ⟨'#', a :: b, rfl, by decide⟩
    | cons a b => right; exact ⟨'?', _, rfl, by decide⟩
  obtain ⟨h1, h2⟩ := takeWhile_at_boundary path_char t _ ht hqf
  rw [match_rest_stages, List.cons_append, port_stage_of_text port ('/' :: _) hport rfl]
  simp only [path_stage_total, h1, h2]
  cases query with
  | nil =>
    cases fragment with
    | nil => rfl
    | cons a b =>
      simp only [List.isEmpty_nil, Bool.not_true, Bool.false_eq_true, if_false, List.nil_append,
        List.isEmpty_cons, Bool.not_false, if_true]
      rw [query_stage_hash, fragment_stage_hash]
      simp only [hf, if_true]
  | cons a b =>
    obtain ⟨h3, h4⟩ := takeWhile_at_boundary (fun c => c != '#') (a :: b) _ hq hfrag
    simp only [List.isEmpty_cons, Bool.not_false, if_true, List.cons_append]
    simp only [List.isEmpty_cons, Bool.not_false, if_true, List.cons_append] at h3 h4
    rw [query_stage_mark, h3, h4]
    cases fragment with
    | nil => rfl
    | cons a2 b2 =>
      simp only [List.isEmpty_cons, Bool.not_false, if_true]
      rw [fragment_stage_hash]
      simp only [hf, if_true]

/-! ### `parse` on a text put together from parts -/

theorem match_scheme_http (x : Str) :
    match_scheme ("http".data ++ "://".data ++ x) = some ("http".data, x) := rfl

theorem match_scheme_https (x : Str) :
    match_scheme ("https".data ++ "://".data ++ x) = some ("https".data, x) := rfl

theorem match_host_at_boundary (host rest : Str) (m : RestMatch) (hne : host ≠ [])
    (hh : host.all host_char = true)
    (hrest : rest = [] ∨ ∃ c t, rest = c :: t ∧ host_char c = false)
    (hm : match_rest rest = some m) :
    match_host (host ++ rest)
        ((host ++ rest).takeWhile (fun c => c != '/' && c != ':')).length
      = some (host, m) := by
  obtain ⟨h1, _⟩ := takeWhile_at_boundary (fun c => c != '/' && c != ':') host rest hh hrest
  rw [h1]
  obtain ⟨n, hn⟩ : ∃ n, host.length = n + 1 := by
    cases host with
    | nil => exact absurd rfl hne
    | cons a b => exact ⟨b.length, rfl⟩
  rw [hn]
  simp only [match_host]
  have hd : (host ++ rest).drop (n + 1) = rest := by
    rw [← hn]
    exact List.drop_left' rfl
  have ht : (host ++ rest).take (n + 1) = host := by
    rw [← hn]
    exact List.take_left' rfl
  rw [hd, hm, ht]

/-- What `parse` returns for a scheme, a host and a rest that the pattern
matches. -/
theorem parse_of_match (scheme host rest : Str) (m : RestMatch) (p : Int)
    (hs : scheme = "http".data ∨ scheme = "https".data)
    (hne : host ≠ []) (hh : host.all host_char = true)
    (hrest : rest = [] ∨ ∃ c t, rest = c :: t ∧ host_char c = false)
    (hm : match_rest rest = some m)
    (hport : (m.port = none ∧ p = 0) ∨ ∃ d, m.port = some d ∧ d ≠ [] ∧ stoi d = .ok p) :
    URLNormalizer.parse (scheme ++ "://".data ++ (host ++ rest))
      = .ok (some
          { scheme := scheme, host := to_lower host, port := p,
            path := if (m.path.getD "/".data).isEmpty then "/".data else m.path.getD "/".data,
            query := m.query.getD [], fragment := m.fragment.getD [] }) := by
  have hms : match_scheme (scheme ++ "://".data ++ (host ++ rest)) = some (scheme, host ++ rest) := by
    rcases hs with h | h
    · rw [h]; exact match_scheme_http _
    · rw [h]; exact match_scheme_https _
  have hlow : to_lower scheme = scheme := by
    rcases hs with h | h <;> rw [h] <;> rfl
  have hemp : (scheme ++ "://".data ++ (host ++ rest)).isEmpty = false := by
    rcases hs with h | h <;> rw [h] <;> rfl
  unfold URLNormalizer.parse
  simp only [hemp, Bool.false_eq_true, if_false, hms,
    match_host_at_boundary host rest m hne hh hrest hm, hlow]
  rcases hport with ⟨h1, h2⟩ | ⟨d, h1, h2, h3⟩
  · simp only [h1, h2]
  · have hde : d.isEmpty = false := by
      cases d with
      | nil => exact absurd rfl h2
      | cons a b => rfl
    simp only [h1, hde, Bool.false_eq_true, if_false, h3]

/-- The components that `parse` returns are well formed. -/
theorem parse_well_formed (url : Str) (c : URLComponents)
    (h : URLNormalizer.parse url = .ok (some c)) : c.well_formed := by
  obtain ⟨scheme, r, host, m, port, hms, hmh, hport, hc⟩ := parse_inv url c h
  obtain ⟨k, hk1, hk2, hhost, hmr⟩ := match_host_spec _ _ _ _ hmh
  obtain ⟨f1, f2, f3, f4⟩ := match_rest_fields _ _ hmr
  have hhostall : host.all host_char = true := by
    have htw := takeWhile_all (fun c => c != '/' && c != ':') r
    have hpre : host = (r.takeWhile (fun c => c != '/' && c != ':')).take k := by
      rw [hhost]
      have hsplit : r = r.takeWhile (fun c => c != '/' && c != ':')
          ++ r.dropWhile (fun c => c != '/' && c != ':') := (List.takeWhile_append_dropWhile _ _).symm
      conv_lhs => rw [hsplit]
      rw [List.take_append_of_le_length hk2]
    rw [hpre]
    simp only [List.all_eq_true] at htw ⊢
    intro ch hch
    exact htw ch (List.mem_of_mem_take hch)
  have hhostne : host ≠ [] := by
    intro he
    have hlen : host.length = k := by
      rw [hhost, List.length_take]
      have hsub : (r.takeWhile (fun c => c != '/' && c != ':')).length ≤ r.length :=
        List.Sublist.length_le (List.takeWhile_sublist _)
      omega
    rw [he] at hlen
    simp at hlen
    omega
  have hp : 0 ≤ port ∧ port ≤ 2147483647 := by
    rcases hport with ⟨h1, _⟩ | ⟨d, _, _, h3⟩
    · rw [h1]; exact ⟨le_refl _, by norm_num⟩
    · unfold stoi at h3
      simp only at h3
      split at h3
      · cases h3
      · rename_i hle
        simp only [Except.ok.injEq] at h3
        rw [← h3]
        constructor
        · exact Int.ofNat_nonneg _
        · have hle' := Nat.le_of_not_gt hle
          show ((d.foldl (fun acc c => 10 * acc + (c.toNat - 48)) 0 : Nat) : Int) ≤ 2147483647
          exact_mod_cast hle'
  have hpath : ∃ t, (if (m.path.getD "/".data).isEmpty then "/".data else m.path.getD "/".data)
      = '/' :: t ∧ t.all path_char = true := by
    cases hmp : m.path with
    | none => exact ⟨[], rfl, rfl⟩
    | some pth =>
      obtain ⟨t, h1, h2⟩ := f2 pth hmp
      rw [h1]
      exact ⟨t, rfl, h2⟩
  obtain ⟨t, hpt, hta⟩ := hpath
  rw [hc]
  refine ⟨match_scheme_lower _ _ _ hms, ?_, to_lower_all_host_char _ hhostall, to_lower_idem _,
    hp.1, hp.2, ?_, ?_, ?_, ?_⟩
  · simpa [to_lower_eq_nil] using hhostne
  · simp only [hpt, List.head?_cons]
  · simp only [hpt, List.all_cons, hta, Bool.and_true]
    rfl
  · cases hq : m.query with
    | none => rfl
    | some q => exact f3 q hq
  · cases hf : m.fragment with
    | none => rfl
    | some f => exact f4 f hf

/-- The port that `to_string` writes. -/
theorem to_string_parts (c : URLComponents) (incl : Bool) (t : Str) (hpath : c.path = '/' :: t) :
    c.to_string incl
      = c.scheme ++ "://".data ++ (c.host
          ++ (port_text (if c.port > 0 && !c.is_default_port then some (int_to_str c.port) else none)
          ++ ('/' :: t ++ ((if !c.query.isEmpty then '?' :: c.query else [])
          ++ (if !(if incl then c.fragment else []).isEmpty
                then '#' :: (if incl then c.fragment else []) else []))))) := by
  have hp : (if c.port > 0 && !c.is_default_port then ':' :: int_to_str c.port else [])
      = port_text (if c.port > 0 && !c.is_default_port then some (int_to_str c.port) else none) := by
    split <;> rfl
  have hf : (if incl && !c.fragment.isEmpty then '#' :: c.fragment else [])
      = (if !(if incl then c.fragment else []).isEmpty
          then '#' :: (if incl then c.fragment else []) else []) := by
    cases incl <;> simp
  unfold URLComponents.to_string
  rw [hp, hf, hpath]
  simp only [List.isEmpty_cons, Bool.false_eq_true, if_false, List.append_assoc]

/-- Reading back what `to_string` wrote for well-formed components. -/
theorem parse_to_string (c : URLComponents) (incl : Bool) (hwf : c.well_formed) :
    URLNormalizer.parse (c.to_string incl)
      = .ok (some
          { scheme := c.scheme, host := c.host,
            port := if c.port > 0 && !c.is_default_port then c.port else 0,
            path := c.path, query := c.query,
            fragment := if incl then c.fragment else [] }) := by
  obtain ⟨hs, hne, hh, hlow, hp0, hp1, hhead, hpall, hq, hf⟩ := hwf
  obtain ⟨t, hpath⟩ : ∃ t, c.path = '/' :: t := by
    cases hcp : c.path with
    | nil => rw [hcp] at hhead; simp at hhead
    | cons a t =>
      rw [hcp] at hhead
      simp only [List.head?_cons, Option.some.injEq] at hhead
      exact ⟨t, by rw [hhead]⟩
  have ht : t.all path_char = true := by
    rw [hpath] at hpall
    simp only [List.all_cons, Bool.and_eq_true] at hpall
    exact hpall.2
  have hf' : (if incl then c.fragment else []).all dot_matches = true := by
    cases incl
    · rfl
    · exact hf
  obtain ⟨hstoi, hdig, hdne⟩ := stoi_int_to_str c.port hp0 hp1
  have hport : ∀ d, (if c.port > 0 && !c.is_default_port then some (int_to_str c.port) else none)
      = some d → d ≠ [] ∧ d.all Char.isDigit = true := by
    intro d hd
    split at hd
    · simp only [Option.some.injEq] at hd
      rw [← hd]
      exact ⟨hdne, hdig⟩
    · cases hd
  have hm := match_rest_of_parts _ t c.query (if incl then c.fragment else []) hport ht hq hf'
  rw [to_string_parts c incl t hpath]
  rw [parse_of_match c.scheme c.host _ _
    (if c.port > 0 && !c.is_default_port then c.port else 0) hs hne hh ?_ hm ?_]
  · simp only [Option.getD_some, List.isEmpty_cons, Bool.false_eq_true, if_false, hlow, hpath]
    congr 2
    have hq2 : (if !c.query.isEmpty then some c.query else none).getD [] = c.query := by
      cases hcq : c.query with
      | nil => rfl
      | cons a b => rfl
    have hf2 : (if !(if incl then c.fragment else []).isEmpty
        then some (if incl then c.fragment else []) else none).getD []
          = (if incl then c.fragment else []) := by
      cases hcf : (if incl then c.fragment else []) with
      | nil => rfl
      | cons a b => rfl
    rw [hq2, hf2]
  · right
    by_cases hb : (c.port > 0 && !c.is_default_port) = true
    · exact ⟨':', _, by rw [if_pos hb]; rfl, by decide⟩
    · exact ⟨'/', _, by rw [if_neg hb]; rfl, by decide⟩
  · by_cases hb : (c.port > 0 && !c.is_default_port) = true
    · right
      exact ⟨int_to_str c.port, by simp only [hb, if_true], hdne, by
        simp only [hb, if_true]; exact hstoi⟩
    · left
      simp only [hb, Bool.false_eq_true, if_false, and_self]

/-! ## Lemmas on `normalize_path` -/

theorem split_on_ne_nil (d : Char) (s : Str) : split_on d s ≠ [] := by
  induction s with
  | nil => simp [split_on]
  | cons c s ih =>
    simp only [split_on]
    split
    · simp
    · split
      · simp
      · simp

theorem split_on_pieces (d : Char) (s : Str) :
    ∀ piece ∈ split_on d s, d ∉ piece ∧ ∀ c ∈ piece, c ∈ s := by
  induction s with
  | nil =>
    intro piece hp
    simp only [split_on, List.mem_singleton] at hp
    rw [hp]
    simp
  | cons c s ih =>
    intro piece hp
    simp only [split_on] at hp
    by_cases hc : c = d
    · simp only [hc, if_true, List.mem_cons] at hp
      rcases hp with h | h
      · rw [h]; simp
      · obtain ⟨h1, h2⟩ := ih piece h
        exact ⟨h1, fun x hx => List.mem_cons_of_mem _ (h2 x hx)⟩
    · simp only [hc, if_false] at hp
      cases hs : split_on d s with
      | nil => exact absurd hs (split_on_ne_nil d s)
      | cons p rest =>
        rw [hs] at hp ih
        simp only [List.mem_cons] at hp
        rcases hp with h | h
        · obtain ⟨h1, h2⟩ := ih p (List.mem_cons_self _ _)
          rw [h]
          refine ⟨?_, ?_⟩
          · intro hm
            rcases List.mem_cons.1 hm with h3 | h3
            · exact hc h3.symm
            · exact h1 h3
          · intro x hx
            rcases List.mem_cons.1 hx with h3 | h3
            · rw [h3]; exact List.mem_cons_self _ _
            · exact List.mem_cons_of_mem _ (h2 x h3)
        · obtain ⟨h1, h2⟩ := ih piece (List.mem_cons_of_mem _ h)
          exact ⟨h1, fun x hx => List.mem_cons_of_mem _ (h2 x hx)⟩

theorem getlines_pieces (d : Char) (s : Str) :
    ∀ piece ∈ getlines d s, d ∉ piece ∧ ∀ c ∈ piece, c ∈ s := by
  intro piece hp
  apply split_on_pieces d s piece
  unfold getlines at hp
  simp only at hp
  split at hp
  · exact List.mem_of_mem_dropLast hp
  · exact hp

theorem add_segment_fold (pieces : List Str) :
    ∀ init : List Str, ∀ s ∈ pieces.foldl add_segment init,
      s ∈ init ∨ (s ∈ pieces ∧ s ≠ [] ∧ s ≠ ".".data ∧ s ≠ "..".data) := by
  induction pieces with
  | nil => intro init s hs; left; exact hs
  | cons p rest ih =>
    intro init s hs
    simp only [List.foldl_cons] at hs
    rcases ih _ s hs with h | ⟨h1, h2⟩
    · unfold add_segment at h
      by_cases hp1 : (p.isEmpty || decide (p = ".".data)) = true
      · simp only [hp1, if_true] at h
        left; exact h
      · simp only [hp1, Bool.false_eq_true, if_false] at h
        by_cases hp2 : p = "..".data
        · simp only [hp2, if_true] at h
          left
          exact List.mem_of_mem_dropLast h
        · simp only [hp2, if_false, List.mem_append, List.mem_singleton] at h
          rcases h with h | h
          · left; exact h
          · right
            simp only [Bool.or_eq_true, decide_eq_true_eq, not_or] at hp1
            refine ⟨by rw [h]; exact List.mem_cons_self _ _, ?_, ?_, ?_⟩
            · intro he
              rw [h] at he
              rw [he] at hp1
              simp at hp1
            · rw [h]; exact hp1.2
            · rw [h]; exact hp2
    · right
      exact ⟨List.mem_cons_of_mem _ h1, h2⟩

theorem join_segments_cons (s : Str) (rest : List Str) :
    join_segments (s :: rest) = '/' :: (s ++ join_segments rest) := by
  simp [join_segments]

theorem getLast_cons_of_ne_nil {α : Type} (a : α) (l : List α) (h : l ≠ []) :
    (a :: l).getLast? = l.getLast? := by
  cases l with
  | nil => exact absurd rfl h
  | cons b l => exact List.getLast?_cons_cons

theorem getLast_append_of_ne_nil {α : Type} (l1 l2 : List α) (h : l2 ≠ []) :
    (l1 ++ l2).getLast? = l2.getLast? := by
  induction l1 with
  | nil => rfl
  | cons a l1 ih =>
    rw [List.cons_append, getLast_cons_of_ne_nil a _ (by simp [h]), ih]

theorem join_segments_getLast (segments : List Str) (hne : segments ≠ [])
    (hgood : ∀ s ∈ segments, good_segment s) :
    (join_segments segments).getLast? ≠ some '/' ∧ join_segments segments ≠ [] := by
  induction segments with
  | nil => exact absurd rfl hne
  | cons s rest ih =>
    have hs := hgood s (List.mem_cons_self _ _)
    rw [join_segments_cons]
    refine ⟨?_, by simp⟩
    cases rest with
    | nil =>
      simp only [join_segments, List.map_nil, List.flatten_nil, List.append_nil]
      obtain ⟨hs1, _, _, hs4⟩ := hs
      rw [getLast_cons_of_ne_nil _ _ hs1]
      intro hl
      exact hs4 (List.mem_of_mem_getLast? hl)
    | cons s2 rest2 =>
      obtain ⟨h1, h2⟩ := ih (by simp) (fun x hx => hgood x (List.mem_cons_of_mem _ hx))
      have hne2 : s ++ join_segments (s2 :: rest2) ≠ [] := by
        intro he
        exact h2 (List.append_eq_nil.1 he).2
      rw [getLast_cons_of_ne_nil _ _ hne2, getLast_append_of_ne_nil _ _ h2]
      exact h1

theorem normalize_path_unfold (path : Str) (hp : path ≠ []) :
    URLNormalizer.normalize_path path
      = if (decide (path.length > 1) && decide (path.getLast? = some '/') &&
            ((if (join_segments ((getlines '/' path).foldl add_segment [])).isEmpty
                then "/".data else join_segments ((getlines '/' path).foldl add_segment [])).getLast?
              != some '/')) = true
          then (if (join_segments ((getlines '/' path).foldl add_segment [])).isEmpty
                then "/".data else join_segments ((getlines '/' path).foldl add_segment []))
              ++ "/".data
          else (if (join_segments ((getlines '/' path).foldl add_segment [])).isEmpty
                then "/".data else join_segments ((getlines '/' path).foldl add_segment [])) := by
  have hpe : path.isEmpty = false := by
    cases path with
    | nil => exact absurd rfl hp
    | cons a b => rfl
  unfold URLNormalizer.normalize_path join_segments
  simp only [hpe, Bool.false_eq_true, if_false]

/-- The shape of a normalized path: the root, or good segments each after a
`/`, with or without a `/` at the end; the segments are pieces of the input. -/
theorem normalize_path_shape (path : Str) :
    ∃ segments : List Str,
      (∀ s ∈ segments, good_segment s ∧ ∀ c ∈ s, c ∈ path) ∧
      ((segments = [] ∧ URLNormalizer.normalize_path path = "/".data) ∨
       (segments ≠ [] ∧
        (URLNormalizer.normalize_path path = join_segments segments ∨
         URLNormalizer.normalize_path path = join_segments segments ++ "/".data))) := by
  refine ⟨(getlines '/' path).foldl add_segment [], ?_, ?_⟩
  · intro s hs
    rcases add_segment_fold _ [] s hs with h | ⟨h1, h2, h3, h4⟩
    · cases h
    · obtain ⟨h5, h6⟩ := getlines_pieces '/' path s h1
      exact ⟨⟨h2, h3, h4, h5⟩, h6⟩
  · have hgood : ∀ s ∈ (getlines '/' path).foldl add_segment [], good_segment s := by
      intro s hs
      rcases add_segment_fold _ [] s hs with h | ⟨h1, h2, h3, h4⟩
      · cases h
      · exact ⟨h2, h3, h4, (getlines_pieces '/' path s h1).1⟩
    by_cases hp : path = []
    · left
      rw [hp]
      exact ⟨rfl, rfl⟩
    · rw [normalize_path_unfold path hp]
      by_cases hsegs : (getlines '/' path).foldl add_segment [] = []
      · left
        refine ⟨hsegs, ?_⟩
        rw [hsegs]
        simp [join_segments]
      · right
        refine ⟨hsegs, ?_⟩
        obtain ⟨hl, hj⟩ := join_segments_getLast _ hsegs hgood
        have hje : (join_segments ((getlines '/' path).foldl add_segment [])).isEmpty = false := by
          cases hjj : join_segments ((getlines '/' path).foldl add_segment []) with
          | nil => exact absurd hjj hj
          | cons a b => rfl
        simp only [hje, Bool.false_eq_true, if_false]
        split
        · right; rfl
        · left; rfl

theorem join_segments_chars (segments : List Str) :
    ∀ c ∈ join_segments segments, c = '/' ∨ ∃ s ∈ segments, c ∈ s := by
  induction segments with
  | nil => intro c hc; simp [join_segments] at hc
  | cons s rest ih =>
    intro c hc
    rw [join_segments_cons] at hc
    simp only [List.mem_cons, List.mem_append] at hc
    rcases hc with h | h | h
    · left; exact h
    · right; exact ⟨s, List.mem_cons_self _ _, h⟩
    · rcases ih c h with h2 | ⟨s2, h2, h3⟩
      · left; exact h2
      · right; exact ⟨s2, List.mem_cons_of_mem _ h2, h3⟩

theorem normalize_path_chars (path : Str) :
    ∀ c ∈ URLNormalizer.normalize_path path, c = '/' ∨ c ∈ path := by
  obtain ⟨segments, hseg, hshape⟩ := normalize_path_shape path
  intro c hc
  rcases hshape with ⟨_, h⟩ | ⟨_, h | h⟩
  · rw [h] at hc
    left
    simpa using hc
  · rw [h] at hc
    rcases join_segments_chars segments c hc with h2 | ⟨s, h2, h3⟩
    · left; exact h2
    · right; exact (hseg s h2).2 c h3
  · rw [h] at hc
    rcases List.mem_append.1 hc with h1 | h1
    · rcases join_segments_chars segments c h1 with h2 | ⟨s, h2, h3⟩
      · left; exact h2
      · right; exact (hseg s h2).2 c h3
    · left
      simpa using h1

theorem normalize_path_all (path : Str) (q : Char → Bool) (hq : q '/' = true)
    (h : path.all q = true) : (URLNormalizer.normalize_path path).all q = true := by
  simp only [List.all_eq_true] at h ⊢
  intro c hc
  rcases normalize_path_chars path c hc with h1 | h1
  · rw [h1]; exact hq
  · exact h c h1

theorem normalize_path_head (path : Str) :
    (URLNormalizer.normalize_path path).head? = some '/' := by
  obtain ⟨segments, _, hshape⟩ := normalize_path_shape path
  rcases hshape with ⟨_, h⟩ | ⟨hne, h | h⟩
  · rw [h]; rfl
  · rw [h]
    cases segments with
    | nil => exact absurd rfl hne
    | cons s rest => rw [join_segments_cons]; rfl
  · rw [h]
    cases segments with
    | nil => exact absurd rfl hne
    | cons s rest => rw [join_segments_cons]; rfl

theorem split_on_append (d : Char) (s y : Str) (hs : d ∉ s) :
    split_on d (s ++ d :: y) = s :: split_on d y := by
  induction s with
  | nil => simp [split_on]
  | cons c s ih =>
    have hc : c ≠ d := fun he => hs (by rw [he]; exact List.mem_cons_self _ _)
    have hs2 : d ∉ s := fun hm => hs (List.mem_cons_of_mem _ hm)
    simp only [List.cons_append, split_on, hc, if_false, List.append_eq, ih hs2]

theorem split_on_join (segments : List Str) (hgood : ∀ s ∈ segments, '/' ∉ s) :
    ∀ s0 : Str, '/' ∉ s0 →
      split_on '/' (s0 ++ join_segments segments) = s0 :: segments ∧
      split_on '/' (s0 ++ (join_segments segments ++ "/".data)) = s0 :: (segments ++ [[]]) := by
  induction segments with
  | nil =>
    intro s0 h0
    refine ⟨?_, ?_⟩
    · simp only [join_segments, List.map_nil, List.flatten_nil, List.append_nil]
      exact split_on_of_not_mem '/' s0 h0
    · simp only [join_segments, List.map_nil, List.flatten_nil, List.nil_append]
      show split_on '/' (s0 ++ '/' :: []) = [s0, []]
      rw [split_on_append '/' s0 [] h0]
      rfl
  | cons s rest ih =>
    intro s0 h0
    obtain ⟨i1, i2⟩ := ih (fun x hx => hgood x (List.mem_cons_of_mem _ hx)) s
      (hgood s (List.mem_cons_self _ _))
    rw [join_segments_cons]
    refine ⟨?_, ?_⟩
    · rw [split_on_append '/' s0 _ h0, i1]
    · rw [List.cons_append, split_on_append '/' s0 _ h0, List.append_assoc, i2]
      rfl

theorem add_segment_fold_good (segments : List Str) (hgood : ∀ s ∈ segments, good_segment s) :
    ∀ init : List Str, segments.foldl add_segment init = init ++ segments := by
  induction segments with
  | nil => intro init; simp
  | cons s rest ih =>
    intro init
    obtain ⟨h1, h2, h3, _⟩ := hgood s (List.mem_cons_self _ _)
    have he : s.isEmpty = false := by
      cases s with
      | nil => exact absurd rfl h1
      | cons a b => rfl
    have hstep : add_segment init s = init ++ [s] := by
      simp only [add_segment, he, h2, h3, decide_False, Bool.or_self, Bool.false_eq_true,
        if_false]
    rw [List.foldl_cons, hstep, ih (fun x hx => hgood x (List.mem_cons_of_mem _ hx))]
    simp

theorem getlines_join (segments : List Str) (hne : segments ≠ [])
    (hgood : ∀ s ∈ segments, good_segment s) :
    getlines '/' (join_segments segments) = [] :: segments ∧
    getlines '/' (join_segments segments ++ "/".data) = [] :: segments := by
  obtain ⟨h1, h2⟩ := split_on_join segments (fun s hs => (hgood s hs).2.2.2) [] (by simp)
  simp only [List.nil_append] at h1 h2
  refine ⟨?_, ?_⟩
  · unfold getlines
    simp only [h1]
    have hlast : ([] :: segments).getLast? ≠ some [] := by
      rw [getLast_cons_of_ne_nil _ _ hne]
      intro hl
      exact (hgood [] (List.mem_of_mem_getLast? hl)).1 rfl
    simp only [hlast, if_false]
  · unfold getlines
    simp only [h2]
    have hlast : ([] :: (segments ++ [[]])).getLast? = some [] := by
      rw [getLast_cons_of_ne_nil _ _ (by simp), getLast_append_of_ne_nil _ _ (by simp)]
      rfl
    simp only [hlast, if_true]
    rw [List.dropLast_cons_of_ne_nil (by simp), List.dropLast_concat]

/-- A normalized path is left as it is by `normalize_path`. -/
theorem normalize_path_idem (path : Str) :
    URLNormalizer.normalize_path (URLNormalizer.normalize_path path)
      = URLNormalizer.normalize_path path := by
  obtain ⟨segments, hseg, hshape⟩ := normalize_path_shape path
  have hgood : ∀ s ∈ segments, good_segment s := fun s hs => (hseg s hs).1
  rcases hshape with ⟨_, h⟩ | ⟨hne, h | h⟩
  · rw [h]
    rfl
  · rw [h]
    obtain ⟨hl, hj⟩ := join_segments_getLast segments hne hgood
    have hje : (join_segments segments).isEmpty = false := by
      cases hjj : join_segments segments with
      | nil => exact absurd hjj hj
      | cons a b => rfl
    rw [normalize_path_unfold _ hj, (getlines_join segments hne hgood).1, List.foldl_cons]
    have h0 : add_segment [] [] = [] := rfl
    rw [h0, add_segment_fold_good segments hgood []]
    simp only [List.nil_append, hje, Bool.false_eq_true, if_false]
    have hcond : (decide ((join_segments segments).length > 1) &&
        decide ((join_segments segments).getLast? = some '/') &&
        ((join_segments segments).getLast? != some '/')) = false := by
      simp [hl]
    rw [hcond]
    rfl
  · rw [h]
    obtain ⟨hl, hj⟩ := join_segments_getLast segments hne hgood
    have hje : (join_segments segments).isEmpty = false := by
      cases hjj : join_segments segments with
      | nil => exact absurd hjj hj
      | cons a b => rfl
    have hne2 : join_segments segments ++ "/".data ≠ [] := by simp
    rw [normalize_path_unfold _ hne2, (getlines_join segments hne hgood).2, List.foldl_cons]
    have h0 : add_segment [] [] = [] := rfl
    rw [h0, add_segment_fold_good segments hgood []]
    simp only [List.nil_append, hje, Bool.false_eq_true, if_false]
    have hlen : (join_segments segments ++ "/".data).length > 1 := by
      have h1 : 0 < (join_segments segments).length := List.length_pos.2 hj
      have h2 : (join_segments segments ++ "/".data).length
          = (join_segments segments).length + 1 := by
        rw [List.length_append]
        rfl
      omega
    have hlast : (join_segments segments ++ "/".data).getLast? = some '/' := by
      rw [getLast_append_of_ne_nil _ _ (by simp)]
      rfl
    have hcond : (decide ((join_segments segments ++ "/".data).length > 1) &&
        decide ((join_segments segments ++ "/".data).getLast? = some '/') &&
        ((join_segments segments).getLast? != some '/')) = true := by
      simp only [hlast, decide_True, Bool.and_true, Bool.and_eq_true, decide_eq_true_eq,
        bne_iff_ne, ne_eq]
      exact ⟨hlen, hl⟩
    rw [hcond]
    rfl

/-! ## Lemmas on `sort_query_params` -/

theorem map_set_mem {V : Type} (k : Str) (v : V) (m : List (Str × V)) :
    ∀ kv ∈ map_set k v m, kv = (k, v) ∨ kv ∈ m := by
  induction m with
  | nil =>
    intro kv hkv
    simp only [map_set, List.mem_singleton] at hkv
    left; exact hkv
  | cons x rest ih =>
    obtain ⟨k2, v2⟩ := x
    intro kv hkv
    by_cases h1 : k = k2
    · simp only [map_set, h1, if_true, List.mem_cons] at hkv
      rcases hkv with h | h
      · left; rw [h, h1]
      · right; exact List.mem_cons_of_mem _ h
    · by_cases h2 : str_lt k k2 = true
      · simp only [map_set, h1, h2, if_true, if_false, List.mem_cons] at hkv
        rcases hkv with h | h | h
        · left; exact h
        · right; exact List.mem_cons.2 (Or.inl h)
        · right; exact List.mem_cons_of_mem _ h
      · simp only [map_set, h1, h2, if_false, Bool.false_eq_true, List.mem_cons] at hkv
        rcases hkv with h | h
        · right; exact List.mem_cons.2 (Or.inl h)
        · rcases ih kv h with h3 | h3
          · left; exact h3
          · right; exact List.mem_cons_of_mem _ h3

theorem add_param_fold (q : Char → Bool) (pieces : List Str)
    (hp : ∀ p ∈ pieces, p.all q = true) :
    ∀ init : List (Str × Str), (∀ kv ∈ init, kv.1.all q = true ∧ kv.2.all q = true) →
      ∀ kv ∈ pieces.foldl add_param init, kv.1.all q = true ∧ kv.2.all q = true := by
  induction pieces with
  | nil => intro init hinit kv hkv; exact hinit kv hkv
  | cons p rest ih =>
    intro init hinit
    simp only [List.foldl_cons]
    apply ih (fun x hx => hp x (List.mem_cons_of_mem _ hx))
    have hpq : p.all q = true := hp p (List.mem_cons_self _ _)
    have htake : ∀ n, (p.take n).all q = true := by
      intro n
      simp only [List.all_eq_true] at hpq ⊢
      exact fun c hc => hpq c (List.mem_of_mem_take hc)
    have hdrop : ∀ n, (p.drop n).all q = true := by
      intro n
      simp only [List.all_eq_true] at hpq ⊢
      exact fun c hc => hpq c (List.mem_of_mem_drop hc)
    intro kv hkv
    unfold add_param at hkv
    split at hkv
    · rcases map_set_mem _ _ _ kv hkv with h | h
      · rw [h]; exact ⟨htake _, hdrop _⟩
      · exact hinit kv h
    · split at hkv
      · rcases map_set_mem _ _ _ kv hkv with h | h
        · rw [h]; exact ⟨hpq, rfl⟩
        · exact hinit kv h
      · exact hinit kv hkv

theorem emit_params_all (q : Char → Bool) (hamp : q '&' = true) (heq : q '=' = true)
    (params : List (Str × Str))
    (h : ∀ kv ∈ params, kv.1.all q = true ∧ kv.2.all q = true) :
    ∀ first : Bool, (emit_params params first).all q = true := by
  induction params with
  | nil => intro first; rfl
  | cons kv rest ih =>
    obtain ⟨k, v⟩ := kv
    intro first
    obtain ⟨h1, h2⟩ := h (k, v) (List.mem_cons_self _ _)
    have h3 := ih (fun x hx => h x (List.mem_cons_of_mem _ hx)) false
    simp only at h1 h2
    simp only [emit_params, List.all_append, h1, h3, Bool.and_true, Bool.and_eq_true]
    refine ⟨?_, ?_⟩
    · cases first
      · simp only [Bool.not_false, if_true]
        simp [hamp]
      · rfl
    · split
      · simp only [List.all_cons, heq, h2, Bool.and_self]
      · rfl

theorem sort_query_params_all (q : Char → Bool) (hamp : q '&' = true) (heq : q '=' = true)
    (query : Str) (h : query.all q = true) :
    (URLNormalizer.sort_query_params query).all q = true := by
  unfold URLNormalizer.sort_query_params
  split
  · rfl
  · apply emit_params_all q hamp heq
    apply add_param_fold q
    · intro p hp
      simp only [List.all_eq_true] at h ⊢
      exact fun c hc => h c ((getlines_pieces '&' query p hp).2 c hc)
    · intro kv hkv
      cases hkv

/-! ## Lemmas on `normalize` -/

theorem normalize_of_parsed (url : Str) (c : URLComponents) (keep : Bool)
    (h : URLNormalizer.parse url = .ok (some c)) :
    URLNormalizer.normalize url keep = .ok ((normalized_components c keep).to_string keep) := by
  unfold URLNormalizer.normalize
  simp only [h]
  rfl

theorem scheme_lower_of_well_formed (c : URLComponents) (h : c.well_formed) :
    to_lower c.scheme = c.scheme := by
  rcases h.1 with h1 | h1 <;> rw [h1] <;> rfl

theorem is_default_port_congr (a b : URLComponents) (h1 : a.scheme = b.scheme)
    (h2 : a.port = b.port) : a.is_default_port = b.is_default_port := by
  simp only [URLComponents.is_default_port, h1, h2]

/-- The components that `normalize` builds from well-formed components, field
by field. -/
theorem normalized_components_eq (c : URLComponents) (keep : Bool) (h : c.well_formed) :
    normalized_components c keep
      = { scheme := c.scheme, host := c.host,
          port := if c.is_default_port then 0 else c.port,
          path := URLNormalizer.normalize_path c.path,
          query := URLNormalizer.sort_query_params c.query,
          fragment := if keep then c.fragment else [] } := by
  have hs := scheme_lower_of_well_formed c h
  have hh := h.2.2.2.1
  have key : ∀ f : Str, (URLComponents.mk c.scheme c.host c.port
      (URLNormalizer.normalize_path c.path) (URLNormalizer.sort_query_params c.query)
      f).is_default_port = c.is_default_port :=
    fun f => is_default_port_congr _ c rfl rfl
  unfold normalized_components
  simp only [hs, hh, key]
  by_cases hdp : c.is_default_port = true
  · simp only [hdp, if_true]
    cases keep <;> rfl
  · simp only [hdp, Bool.false_eq_true, if_false]
    cases keep <;> rfl

theorem normalized_well_formed (c : URLComponents) (keep : Bool) (h : c.well_formed) :
    (normalized_components c keep).well_formed := by
  rw [normalized_components_eq c keep h]
  obtain ⟨hs, hne, hh, hlow, hp0, hp1, hhead, hpall, hq, hf⟩ := h
  refine ⟨hs, hne, hh, hlow, ?_, ?_, normalize_path_head _,
    normalize_path_all _ path_char (by decide) hpall,
    sort_query_params_all _ (by decide) (by decide) _ hq, ?_⟩
  · simp only
    split
    · exact le_refl _
    · exact hp0
  · simp only
    split
    · norm_num
    · exact hp1
  · simp only
    cases keep
    · rfl
    · exact hf

/-- What `normalize` returns for a URL that parses is read back by `parse` as
the normalized components. -/
theorem parse_normalize (url : Str) (c : URLComponents) (keep : Bool)
    (h : URLNormalizer.parse url = .ok (some c)) :
    ∃ n, URLNormalizer.normalize url keep = .ok n ∧
      URLNormalizer.parse n = .ok (some
        { scheme := c.scheme, host := c.host,
          port := if c.is_default_port then 0 else c.port,
          path := URLNormalizer.normalize_path c.path,
          query := URLNormalizer.sort_query_params c.query,
          fragment := if keep then c.fragment else [] }) := by
  have hwf := parse_well_formed url c h
  refine ⟨_, normalize_of_parsed url c keep h, ?_⟩
  rw [parse_to_string _ keep (normalized_well_formed c keep hwf),
    normalized_components_eq c keep hwf]
  simp only [Except.ok.injEq, Option.some.injEq, URLComponents.mk.injEq, true_and, and_true]
  refine ⟨?_, ?_⟩
  · have hp0 := hwf.2.2.2.2.1
    by_cases hd : c.is_default_port = true
    · simp [hd]
    · have hpos : c.port > 0 := by
        have hne0 : c.port ≠ 0 := by
          intro h0
          apply hd
          simp [URLComponents.is_default_port, h0]
        omega
      have key : ∀ f : Str, (URLComponents.mk c.scheme c.host c.port
          (URLNormalizer.normalize_path c.path) (URLNormalizer.sort_query_params c.query)
          f).is_default_port = c.is_default_port :=
        fun f => is_default_port_congr _ c rfl rfl
      simp only [hd, Bool.false_eq_true, if_false, key, hpos, decide_True, Bool.not_false,
        Bool.and_self, if_true]
  · cases keep <;> simp

/-! ## Lemmas for the claims on `parse` and `resolve` -/

theorem match_host_split_off (r host : Str) (m : RestMatch)
    (h : match_host r (r.takeWhile (fun c => c != '/' && c != ':')).length = some (host, m)) :
    host ≠ [] ∧ host.all host_char = true ∧ ∃ rest, r = host ++ rest ∧ match_rest rest = some m := by
  obtain ⟨k, hk1, hk2, hhost, hmr⟩ := match_host_spec _ _ _ _ h
  have hsub : (r.takeWhile (fun c => c != '/' && c != ':')).length ≤ r.length :=
    List.Sublist.length_le (List.takeWhile_sublist _)
  refine ⟨?_, ?_, r.drop k, ?_, hmr⟩
  · intro he
    have hlen : host.length = k := by
      rw [hhost, List.length_take]
      omega
    rw [he] at hlen
    simp at hlen
    omega
  · have htw := takeWhile_all (fun c => c != '/' && c != ':') r
    have hpre : host = (r.takeWhile (fun c => c != '/' && c != ':')).take k := by
      rw [hhost]
      have hsplit : r = r.takeWhile (fun c => c != '/' && c != ':')
          ++ r.dropWhile (fun c => c != '/' && c != ':') := (List.takeWhile_append_dropWhile _ _).symm
      conv_lhs => rw [hsplit]
      rw [List.take_append_of_le_length hk2]
    rw [hpre]
    simp only [List.all_eq_true] at htw ⊢
    intro ch hch
    exact htw ch (List.mem_of_mem_take hch)
  · rw [hhost]
    exact (List.take_append_drop k r).symm

theorem parse_of_no_scheme (s : Str) (h : match_scheme s = none) :
    URLNormalizer.parse s = .ok none := by
  unfold URLNormalizer.parse
  split
  · rfl
  · simp only [h]

theorem find_str_of_inner (a pat b : Str) :
    (find_str (a ++ (pat ++ b)) pat).isSome = true := by
  induction a with
  | nil =>
    have hst : starts_with (pat ++ b) pat = true :=
      (starts_with_iff _ _).2 (List.prefix_append _ _)
    rw [List.nil_append]
    cases hpb : pat ++ b with
    | nil =>
      have hp : pat = [] := (List.append_eq_nil.1 hpb).1
      simp [find_str, hp]
    | cons c t =>
      rw [hpb] at hst
      simp [find_str, hst]
  | cons c a ih =>
    simp only [List.cons_append, find_str]
    split
    · rfl
    · simp only [Option.isSome_map']
      exact ih

theorem is_absolute_of_parsed (url : Str) (c : URLComponents)
    (h : URLNormalizer.parse url = .ok (some c)) : URLNormalizer.is_absolute url = true := by
  obtain ⟨scheme, r, _, _, _, hms, _⟩ := parse_inv url c h
  rw [match_scheme_split url scheme r hms, List.append_assoc]
  exact find_str_of_inner scheme "://".data r

theorem find_char_none_of_not_mem (ch : Char) (s : Str) (h : ch ∉ s) : find_char ch s = none := by
  induction s with
  | nil => rfl
  | cons c s ih =>
    have hc : c ≠ ch := fun he => h (by rw [he]; exact List.mem_cons_self _ _)
    have hs : ch ∉ s := fun hm => h (List.mem_cons_of_mem _ hm)
    simp only [find_char, hc, if_false, ih hs, Option.map_none']

theorem port_printed_iff (c : URLComponents) (h0 : 0 ≤ c.port) :
    (decide (c.port > 0) && !c.is_default_port) = !c.is_default_port := by
  by_cases hd : c.is_default_port = true
  · simp [hd]
  · have hne0 : c.port ≠ 0 := by
      intro hz
      apply hd
      simp [URLComponents.is_default_port, hz]
    have hpos : c.port > 0 := by omega
    simp [hpos]

/-- The text that `to_string` writes for components without query. -/
theorem to_string_plain (c : URLComponents) (h0 : 0 ≤ c.port)
    (hpath : c.path.head? = some '/') (hq : c.query = []) :
    c.to_string
      = c.scheme ++ "://".data ++ c.host
          ++ (if c.is_default_port then [] else ':' :: int_to_str c.port) ++ c.path := by
  have hpe : c.path.isEmpty = false := by
    cases hcp : c.path with
    | nil => rw [hcp] at hpath; simp at hpath
    | cons a b => rfl
  unfold URLComponents.to_string
  rw [port_printed_iff c h0]
  simp only [hpe, hq, Bool.false_eq_true, if_false, List.isEmpty_nil, Bool.not_true,
    Bool.false_and, List.append_nil]
  cases c.is_default_port <;> rfl

/-- The relative-path branch of `resolve`: a reference without `://`, `?`, `#`
and leading `/`, against a base that parses. -/
theorem resolve_relative (base rel : Str) (b : URLComponents)
    (hbase : URLNormalizer.parse base = .ok (some b))
    (hne : rel ≠ []) (habs : URLNormalizer.is_absolute rel = false)
    (hchars : ∀ ch ∈ rel, ch ≠ '?' ∧ ch ≠ '#') (hhead : rel.head? ≠ some '/') :
    URLNormalizer.resolve base rel
      = (URLNormalizer.normalize
          ({ scheme := b.scheme, host := b.host, port := b.port,
             path := URLNormalizer.normalize_path
              ((match rfind_char '/' b.path with
                | some last_slash => b.path.take (last_slash + 1)
                | none => "/".data) ++ rel),
             query := [] } : URLComponents).to_string).map some := by
  obtain ⟨c0, tail, hrel⟩ : ∃ c0 tail, rel = c0 :: tail := by
    cases rel with
    | nil => exact absurd rfl hne
    | cons a t => exact ⟨a, t, rfl⟩
  have h1 : c0 ≠ '/' := by
    intro he
    apply hhead
    rw [hrel, he]
    rfl
  have hmem : c0 ∈ rel := by rw [hrel]; exact List.mem_cons_self _ _
  have h2 : c0 ≠ '?' := (hchars c0 hmem).1
  have h3 : c0 ≠ '#' := (hchars c0 hmem).2
  have hq : split_query rel = (rel, []) := by
    unfold split_query
    rw [find_char_none_of_not_mem '?' rel (fun hm => (hchars '?' hm).1 rfl)]
  rw [hrel] at habs hq ⊢
  unfold URLNormalizer.resolve
  simp only [habs, Bool.false_eq_true, if_false, hbase, h1, h2, h3, hq]

theorem is_default_port_of_zero (c : URLComponents) (h : c.port = 0) :
    c.is_default_port = true := by
  simp [URLComponents.is_default_port, h]

/-- `normalize` of the text written for well-formed components without query
whose path is already normalized: scheme, host, non-default port and path. -/
theorem normalize_to_string_plain (c : URLComponents) (hwf : c.well_formed) (hq : c.query = [])
    (hidem : URLNormalizer.normalize_path c.path = c.path) :
    URLNormalizer.normalize c.to_string
      = .ok (c.scheme ++ "://".data ++ c.host
          ++ (if c.is_default_port then [] else ':' :: int_to_str c.port) ++ c.path) := by
  have hp0 := hwf.2.2.2.2.1
  have hhead := hwf.2.2.2.2.2.2.1
  have hparse := parse_to_string c false hwf
  rw [port_printed_iff c hp0] at hparse
  have hsq : URLNormalizer.sort_query_params c.query = [] := by rw [hq]; rfl
  by_cases hd : c.is_default_port = true
  · simp only [hd, Bool.not_true, Bool.false_eq_true, if_false] at hparse
    have hwf2 := parse_well_formed _ _ hparse
    have h1 : (URLComponents.mk c.scheme c.host 0 c.path c.query []).is_default_port = true :=
      is_default_port_of_zero _ rfl
    have hF : normalized_components (URLComponents.mk c.scheme c.host 0 c.path c.query []) false
        = URLComponents.mk c.scheme c.host 0 c.path [] [] := by
      rw [normalized_components_eq _ false hwf2]
      simp only [h1, if_true, hidem, hsq, Bool.false_eq_true, if_false]
    have h2 : (URLComponents.mk c.scheme c.host 0 c.path [] []).is_default_port = true :=
      is_default_port_of_zero _ rfl
    rw [normalize_of_parsed _ _ false hparse, hF,
      to_string_plain (URLComponents.mk c.scheme c.host 0 c.path [] []) (le_refl _) hhead rfl]
    simp only [h2, hd, if_true]
  · have hd' : c.is_default_port = false := by
      cases h : c.is_default_port with
      | false => rfl
      | true => exact absurd h hd
    simp only [hd', Bool.not_false, if_true, Bool.false_eq_true, if_false] at hparse
    have hwf2 := parse_well_formed _ _ hparse
    have h1 : (URLComponents.mk c.scheme c.host c.port c.path c.query []).is_default_port
        = false := by
      rw [← hd']
      exact is_default_port_congr _ c rfl rfl
    have hF : normalized_components (URLComponents.mk c.scheme c.host c.port c.path c.query [])
        false = URLComponents.mk c.scheme c.host c.port c.path [] [] := by
      rw [normalized_components_eq _ false hwf2]
      simp only [h1, hidem, hsq, Bool.false_eq_true, if_false]
    have h2 : (URLComponents.mk c.scheme c.host c.port c.path [] []).is_default_port
        = false := by
      rw [← hd']
      exact is_default_port_congr _ c rfl rfl
    rw [normalize_of_parsed _ _ false hparse, hF,
      to_string_plain (URLComponents.mk c.scheme c.host c.port c.path [] []) hp0 hhead rfl]
    simp only [h2, hd', Bool.false_eq_true, if_false]

/-- `parse` accepts what `to_string` writes for a scheme, host and port as
`parse` returns them, a path beginning with `/` and a query, when path and
query hold no line terminator. -/
theorem parse_to_string_accepts (c : URLComponents)
    (hs : c.scheme = "http".data ∨ c.scheme = "https".data)
    (hne : c.host ≠ []) (hh : c.host.all host_char = true)
    (hp0 : 0 ≤ c.port) (hp1 : c.port ≤ 2147483647)
    (hhead : c.path.head? = some '/')
    (hpd : c.path.all dot_matches = true) (hqd : c.query.all dot_matches = true) :
    ∃ c2, URLNormalizer.parse c.to_string = .ok (some c2) := by
  obtain ⟨t, hpath⟩ : ∃ t, c.path = '/' :: t := by
    cases hcp : c.path with
    | nil => rw [hcp] at hhead; simp at hhead
    | cons a t =>
      rw [hcp] at hhead
      simp only [List.head?_cons, Option.some.injEq] at hhead
      exact ⟨t, by rw [hhead]⟩
  have ht : t.all dot_matches = true := by
    rw [hpath] at hpd
    simp only [List.all_cons, Bool.and_eq_true] at hpd
    exact hpd.2
  obtain ⟨hstoi, hdig, hdne⟩ := stoi_int_to_str c.port hp0 hp1
  have hport : ∀ d, (if c.port > 0 && !c.is_default_port then some (int_to_str c.port) else none)
      = some d → d ≠ [] ∧ d.all Char.isDigit = true := by
    intro d hd
    split at hd
    · simp only [Option.some.injEq] at hd
      rw [← hd]
      exact ⟨hdne, hdig⟩
    · cases hd
  have hT : (t ++ ((if !c.query.isEmpty then '?' :: c.query else []) ++ [])).all dot_matches
      = true := by
    simp only [List.append_nil, List.all_append, ht, Bool.true_and]
    split
    · simp only [List.all_cons, hqd, Bool.and_true]
      rfl
    · rfl
  obtain ⟨m, hm, hmp⟩ := match_rest_accepts _ _ hport hT
  have hstr := to_string_parts c false t hpath
  simp only [Bool.false_eq_true, if_false, List.isEmpty_nil, Bool.not_true] at hstr
  rw [hstr]
  refine ⟨_, parse_of_match c.scheme c.host _ m
    (if c.port > 0 && !c.is_default_port then c.port else 0) hs hne hh ?_ hm ?_⟩
  · right
    by_cases hb : (c.port > 0 && !c.is_default_port) = true
    · exact ⟨':', _, by rw [if_pos hb]; rfl, by decide⟩
    · exact ⟨'/', _, by rw [if_neg hb]; rfl, by decide⟩
  · rw [hmp]
    by_cases hb : (c.port > 0 && !c.is_default_port) = true
    · right
      exact ⟨int_to_str c.port, by simp only [hb, if_true], hdne, by
        simp only [hb, if_true]; exact hstoi⟩
    · left
      simp only [hb, Bool.false_eq_true, if_false, and_self]

/-- The value that the last step of `resolve` returns is a URL that `parse`
accepts, when the resolved path and query hold no line terminator. -/
theorem resolve_finish_parses (b : URLComponents) (hwf : b.well_formed) (rp rq v : Str)
    (hrp : rp.all dot_matches = true) (hrq : rq.all dot_matches = true)
    (hv : (URLNormalizer.normalize
        (URLComponents.mk b.scheme b.host b.port (URLNormalizer.normalize_path rp) rq
          []).to_string).map some = .ok (some v)) :
    ∃ c, URLNormalizer.parse v = .ok (some c) ∧
      (c.scheme = "http".data ∨ c.scheme = "https".data) := by
  obtain ⟨hs, hne, hh, _, hp0, hp1, _, _, _, _⟩ := hwf
  obtain ⟨c2, hc2⟩ := parse_to_string_accepts
    (URLComponents.mk b.scheme b.host b.port (URLNormalizer.normalize_path rp) rq [])
    hs hne hh hp0 hp1 (normalize_path_head _)
    (normalize_path_all _ dot_matches (by decide) hrp) hrq
  obtain ⟨n, hn, hpn⟩ := parse_normalize _ c2 false hc2
  rw [hn] at hv
  simp only [Except.map, Except.ok.injEq, Option.some.injEq] at hv
  rw [← hv]
  exact ⟨_, hpn, (parse_well_formed _ _ hc2).1⟩

theorem all_take {α : Type} (q : α → Bool) (l : List α) (n : Nat) (h : l.all q = true) :
    (l.take n).all q = true := by
  simp only [List.all_eq_true] at h ⊢
  exact fun c hc => h c (List.mem_of_mem_take hc)

theorem all_drop {α : Type} (q : α → Bool) (l : List α) (n : Nat) (h : l.all q = true) :
    (l.drop n).all q = true := by
  simp only [List.all_eq_true] at h ⊢
  exact fun c hc => h c (List.mem_of_mem_drop hc)

theorem split_query_all (q : Char → Bool) (s : Str) (h : s.all q = true) :
    (split_query s).1.all q = true ∧ (split_query s).2.all q = true := by
  unfold split_query
  split
  · exact ⟨all_take q s _ h, all_drop q s _ h⟩
  · exact ⟨h, rfl⟩

/-! ## Lemmas on file names -/

theorem find_char_isSome_of_mem (ch : Char) (s : Str) (h : ch ∈ s) :
    (find_char ch s).isSome = true := by
  induction s with
  | nil => cases h
  | cons c s ih =>
    by_cases hc : c = ch
    · simp [find_char, hc]
    · have hs : ch ∈ s := by
        rcases List.mem_cons.1 h with h1 | h1
        · exact absurd h1.symm hc
        · exact h1
      have := ih hs
      simp only [find_char, hc, if_false, Option.isSome_map']
      exact this

theorem sanitize_char_ok (c : Char) :
    sanitize_char c ∉ INVALID_CHARS ∧ 32 ≤ (sanitize_char c).toNat := by
  unfold sanitize_char
  by_cases h1 : (find_char c INVALID_CHARS).isSome = true
  · rw [if_pos h1]
    decide
  · rw [if_neg h1]
    by_cases h2 : c.toNat < 32
    · rw [if_pos h2]
      decide
    · rw [if_neg h2]
      exact ⟨fun hm => h1 (find_char_isSome_of_mem c _ hm), Nat.le_of_not_lt h2⟩

theorem collapse_loop_subset (d : Char) (s : Str) :
    ∀ flag : Bool, ∀ c ∈ collapse_loop d s flag, c ∈ s := by
  induction s with
  | nil => intro flag c hc; simp [collapse_loop] at hc
  | cons x s ih =>
    intro flag c hc
    simp only [collapse_loop] at hc
    split at hc
    · split at hc
      · rcases List.mem_cons.1 hc with h | h
        · rw [h]; exact List.mem_cons_self _ _
        · exact List.mem_cons_of_mem _ (ih _ c h)
      · exact List.mem_cons_of_mem _ (ih _ c hc)
    · rcases List.mem_cons.1 hc with h | h
      · rw [h]; exact List.mem_cons_self _ _
      · exact List.mem_cons_of_mem _ (ih _ c h)

theorem pop_back_while_subset (p : Char → Bool) (s : Str) :
    ∀ c ∈ pop_back_while p s, c ∈ s := by
  intro c hc
  unfold pop_back_while at hc
  rw [List.mem_reverse] at hc
  exact List.mem_reverse.1 ((List.dropWhile_suffix p).subset hc)

theorem truncate_boundary_le (input : Str) (n : Nat) : truncate_boundary input n ≤ n := by
  induction n with
  | zero => simp [truncate_boundary]
  | succ n ih =>
    simp only [truncate_boundary]
    split
    · exact Nat.le_succ_of_le ih
    · exact Nat.le_refl _

theorem truncate_utf8_subset (input : Str) (n : Nat) : ∀ c ∈ truncate_utf8 input n, c ∈ input := by
  intro c hc
  unfold truncate_utf8 at hc
  split at hc
  · exact hc
  · exact List.mem_of_mem_take hc

theorem truncate_utf8_length (input : Str) (n : Nat) : (truncate_utf8 input n).length ≤ n := by
  unfold truncate_utf8
  split
  · assumption
  · rw [List.length_take]
    exact Nat.le_trans (Nat.min_le_left _ _) (truncate_boundary_le input n)

/-- The last three steps of `sanitize_filename`: the prefixed `_`, the cut and
the replacement of an empty result. -/
theorem sanitize_tail (stripped : Str) (b : Bool) (max_length : Nat) :
    (∀ c ∈ (if (if (if b = true then '_' :: stripped else stripped).length > max_length
          then truncate_utf8 (if b = true then '_' :: stripped else stripped) max_length
          else (if b = true then '_' :: stripped else stripped)).isEmpty = true
        then "unnamed".data
        else (if (if b = true then '_' :: stripped else stripped).length > max_length
          then truncate_utf8 (if b = true then '_' :: stripped else stripped) max_length
          else (if b = true then '_' :: stripped else stripped))),
      c ∈ "unnamed".data ∨ c = '_' ∨ c ∈ stripped) ∧
    (if (if (if b = true then '_' :: stripped else stripped).length > max_length
          then truncate_utf8 (if b = true then '_' :: stripped else stripped) max_length
          else (if b = true then '_' :: stripped else stripped)).isEmpty = true
        then "unnamed".data
        else (if (if b = true then '_' :: stripped else stripped).length > max_length
          then truncate_utf8 (if b = true then '_' :: stripped else stripped) max_length
          else (if b = true then '_' :: stripped else stripped))) ≠ [] ∧
    (7 ≤ max_length →
      (if (if (if b = true then '_' :: stripped else stripped).length > max_length
          then truncate_utf8 (if b = true then '_' :: stripped else stripped) max_length
          else (if b = true then '_' :: stripped else stripped)).isEmpty = true
        then "unnamed".data
        else (if (if b = true then '_' :: stripped else stripped).length > max_length
          then truncate_utf8 (if b = true then '_' :: stripped else stripped) max_length
          else (if b = true then '_' :: stripped else stripped))).length ≤ max_length) := by
  generalize hn : (if b = true then '_' :: stripped else stripped) = named
  have hnamed : ∀ c ∈ named, c = '_' ∨ c ∈ stripped := by
    intro c hc
    rw [← hn] at hc
    cases b with
    | false => exact Or.inr hc
    | true =>
      rcases List.mem_cons.1 hc with h | h
      · exact Or.inl h
      · exact Or.inr h
  generalize hcut : (if named.length > max_length then truncate_utf8 named max_length else named)
    = cut
  have hcut1 : ∀ c ∈ cut, c ∈ named := by
    intro c hc
    rw [← hcut] at hc
    split at hc
    · exact truncate_utf8_subset _ _ c hc
    · exact hc
  have hcut2 : cut.length ≤ max_length := by
    rw [← hcut]
    split
    · exact truncate_utf8_length _ _
    · rename_i hlen
      exact Nat.le_of_not_lt hlen
  by_cases he : cut.isEmpty = true
  · rw [if_pos he]
    exact ⟨fun c hc => Or.inl hc, by decide, fun h => h⟩
  · rw [if_neg he]
    refine ⟨fun c hc => Or.inr (hnamed c (hcut1 c hc)), ?_, fun _ => hcut2⟩
    intro h
    rw [h] at he
    exact he rfl

theorem truncate_boundary_spec (input : Str) (n : Nat) :
    truncate_boundary input n = 0 ∨
      is_continuation (input.getD (truncate_boundary input n) '\x00') = false := by
  induction n with
  | zero => left; rfl
  | succ n ih =>
    simp only [truncate_boundary]
    by_cases h : is_continuation (input.getD (n + 1) '\x00') = true
    · rw [if_pos h]
      exact ih
    · rw [if_neg h]
      right
      simpa using h

theorem valid_utf8_from_pending (pending : Nat) (s : Str)
    (h : valid_utf8_from (pending + 1) s = true) :
    is_continuation (s.getD 0 '\x00') = true := by
  cases s with
  | nil => simp [valid_utf8_from] at h
  | cons c rest =>
    simp only [valid_utf8_from, Bool.and_eq_true] at h
    simpa using h.1

/-- A valid text cut at a position that holds no continuation byte is valid. -/
theorem valid_utf8_from_take (s : Str) :
    ∀ (pending p : Nat), valid_utf8_from pending s = true →
      (p = 0 → pending = 0) →
      (p = 0 ∨ is_continuation (s.getD p '\x00') = false) →
      valid_utf8_from pending (s.take p) = true := by
  induction s with
  | nil => intro pending p hv _ _; simpa using hv
  | cons c rest ih =>
    intro pending p hv h0 hp
    cases p with
    | zero =>
      rw [h0 rfl]
      rfl
    | succ p =>
      have hp2 : p = 0 ∨ is_continuation (rest.getD p '\x00') = false := by
        rcases hp with hp | hp
        · cases hp
        · right; simpa using hp
      have hstart : ∀ k, valid_utf8_from k rest = true → p = 0 → k = 0 := by
        intro k hk hp0
        cases k with
        | zero => rfl
        | succ k =>
          have hc := valid_utf8_from_pending k rest hk
          rcases hp2 with h | h
          · rw [hp0] at hp
            rcases hp with hp | hp
            · cases hp
            · simp only [List.getD_cons_succ] at hp
              rw [hc] at hp
              cases hp
          · rw [hp0] at h
            rw [hc] at h
            cases h
      cases pending with
      | zero =>
        simp only [List.take_succ_cons, valid_utf8_from] at hv ⊢
        cases hl : utf8_char_len c with
        | none => simp [hl] at hv
        | some char_len =>
          simp only [hl] at hv ⊢
          exact ih _ p hv (hstart _ hv) hp2
      | succ pending =>
        simp only [List.take_succ_cons, valid_utf8_from, Bool.and_eq_true] at hv ⊢
        exact ⟨hv.1, ih _ p hv.2 (hstart _ hv.2) hp2⟩

/-! ## Lemmas on the chunker -/

theorem match_heading_of_no_hash (c : Char) (rest : Str) (hc : c ≠ '#') :
    match_heading (c :: rest) = none := by
  unfold match_heading
  have : (c :: rest).takeWhile (fun c => decide (c = '#')) = [] := by
    simp [List.takeWhile, hc]
  rw [this]
  rfl

theorem heading_positions_of_no_hash (s : Str) (h : '#' ∉ s) :
    ∀ (pos : Nat) (at_line_start : Bool) (skip : Nat),
      heading_positions s pos at_line_start skip = [] := by
  induction s with
  | nil => intro pos b skip; rfl
  | cons c rest ih =>
    intro pos b skip
    have hc : c ≠ '#' := fun he => h (by rw [he]; exact List.mem_cons_self _ _)
    have hrest : '#' ∉ rest := fun hm => h (List.mem_cons_of_mem _ hm)
    simp only [heading_positions, match_heading_of_no_hash c rest hc, ih hrest]
    split
    · split <;> rfl
    · rfl

theorem split_by_headings_of_no_hash (s : Str) (h : '#' ∉ s) :
    Chunker.split_by_headings s = [s] := by
  unfold Chunker.split_by_headings
  simp only [heading_positions_of_no_hash s h]
  rfl

theorem to_size_t_times_four (x : Int) (h0 : 0 ≤ x) (h1 : x ≤ 536870911) :
    to_size_t (wrap32 (x * 4)) = 4 * x.toNat := by
  unfold to_size_t wrap32
  omega

/-- The fallback loop of `chunk_markdown` is still running after any number
of iterations when at least the overlap remains of the section. -/
theorem split_by_size_runs (config : ChunkerConfig) (section_text : Str)
    (hov : 1 ≤ config.chunk_overlap) (hlt : config.chunk_overlap < config.max_chunk_size)
    (hmax : config.max_chunk_size ≤ 536870911) :
    ∀ (fuel start : Nat),
      start + 4 * config.chunk_overlap.toNat ≤ section_text.length →
      split_by_size config section_text fuel start = none := by
  have hO := to_size_t_times_four config.chunk_overlap (by omega) (by omega)
  have hM := to_size_t_times_four config.max_chunk_size (by omega) hmax
  intro fuel
  induction fuel with
  | zero =>
    intro start hs
    have : start < section_text.length := by omega
    simp only [split_by_size, this, if_true]
  | succ fuel ih =>
    intro start hs
    have hstart : start < section_text.length := by omega
    have hlen : ¬ (min (section_text.length - start) (4 * config.max_chunk_size.toNat)
        < 4 * config.chunk_overlap.toNat) := by omega
    simp only [split_by_size, hstart, if_true, hO, hM, hlen, if_false]
    rw [ih _ (by omega)]
    rfl

theorem count_tokens_gt (config : ChunkerConfig) (section_text : Str)
    (hov : 1 ≤ config.chunk_overlap) (hlt : config.chunk_overlap < config.max_chunk_size)
    (htok : config.max_chunk_size < Tokenizer.count_tokens section_text) :
    4 * config.max_chunk_size.toNat ≤ section_text.length := by
  unfold Tokenizer.count_tokens at htok
  split at htok
  · omega
  · unfold wrap32 at htok
    have : Int.ofNat (section_text.length / 4) = ((section_text.length / 4 : Nat) : Int) := rfl
    rw [this] at htok
    omega

theorem chunk_sections_runs (config : ChunkerConfig) (fuel : Nat) (section_text : Str)
    (hov : 1 ≤ config.chunk_overlap) (hlt : config.chunk_overlap < config.max_chunk_size)
    (hmax : config.max_chunk_size ≤ 536870911)
    (htok : config.max_chunk_size < Tokenizer.count_tokens section_text) :
    ∀ sections : List Str, section_text ∈ sections →
      chunk_sections config fuel sections = none := by
  have hlen := count_tokens_gt config section_text hov hlt htok
  have hrun := split_by_size_runs config section_text hov hlt hmax fuel 0 (by omega)
  intro sections
  induction sections with
  | nil => intro h; cases h
  | cons s rest ih =>
    intro hmem
    rcases List.mem_cons.1 hmem with h | h
    · rw [← h]
      have hnot : ¬ (Tokenizer.count_tokens section_text ≤ config.max_chunk_size) := by omega
      simp only [chunk_sections, hnot, if_false, hrun]
    · simp only [chunk_sections]
      split
      · rfl
      · rw [ih h]
        rfl

theorem count_tokens_of_length (s : Str) (n : Nat) (h : s.length = n) (hn : 0 < n) :
    Tokenizer.count_tokens s = wrap32 (wrap32 (Int.ofNat (n / 4)) + 1) := by
  unfold Tokenizer.count_tokens
  cases s with
  | nil =>
    simp only [List.length_nil] at h
    omega
  | cons c t =>
    rw [← h]
    simp only [List.isEmpty_cons, Bool.false_eq_true, if_false]

/-! ## Lemmas on the queue counters -/

theorem push_batch_counters (items : List WorkItem) :
    ∀ q : ThreadSafePriorityQueue,
      (q.push_batch items).total_pushed = q.total_pushed + items.length ∧
      (q.push_batch items).total_popped = q.total_popped := by
  induction items with
  | nil => intro q; simp [ThreadSafePriorityQueue.push_batch]
  | cons x xs ih =>
    intro q
    have := ih (q.push x)
    simp only [ThreadSafePriorityQueue.push_batch, List.foldl_cons] at this ⊢
    have e1 : (q.push x).total_pushed = q.total_pushed + 1 := rfl
    have e2 : (q.push x).total_popped = q.total_popped := rfl
    rw [this.1, this.2, e1, e2, List.length_cons]
    exact ⟨by omega, rfl⟩

theorem heap_take_length (items : List WorkItem) (choice : Nat) (x : WorkItem)
    (rest : List WorkItem) (h : heap_take items choice = some (x, rest)) :
    rest.length + 1 = items.length := by
  unfold heap_take at h
  cases hm : min_priority items with
  | none => simp [hm] at h
  | some m =>
    simp only [hm] at h
    have := (remove_nth_with_spec m items _ x rest h).2.length_eq
    simpa using this

/-- The queue after a `pop`, `try_pop` or `try_pop_nonblocking`: unchanged, or
one item less and one more counted as popped. -/
theorem pop_result (q : ThreadSafePriorityQueue) (choice : Nat) (q2 : ThreadSafePriorityQueue)
    (h : q2 = (match q.pop choice with
          | some r => r.2
          | none => q) ∨
        q2 = (q.try_pop choice).2 ∨ q2 = (q.try_pop_nonblocking choice).2) :
    q2 = q ∨ ∃ x rest, heap_take q.items choice = some (x, rest) ∧
      q2 = { q with items := rest, total_popped := q.total_popped + 1 } := by
  have hcases : ∀ r : Option (WorkItem × List WorkItem), heap_take q.items choice = r →
      q2 = (match r with
        | none => q
        | some (_, rest) => { q with items := rest, total_popped := q.total_popped + 1 }) →
      q2 = q ∨ ∃ x rest, heap_take q.items choice = some (x, rest) ∧
        q2 = { q with items := rest, total_popped := q.total_popped + 1 } := by
    intro r hr hq
    cases r with
    | none => exact Or.inl hq
    | some p => exact Or.inr ⟨p.1, p.2, hr, hq⟩
  rcases h with h | h | h
  · unfold ThreadSafePriorityQueue.pop at h
    by_cases h1 : (q.items.isEmpty && !q.closed) = true
    · rw [if_pos h1] at h
      exact Or.inl h
    · rw [if_neg h1] at h
      by_cases h2 : (q.closed && q.items.isEmpty) = true
      · rw [if_pos h2] at h
        exact Or.inl h
      · rw [if_neg h2] at h
        apply hcases _ rfl
        rw [h]
        cases heap_take q.items choice with
        | none => rfl
        | some p => rfl
  · unfold ThreadSafePriorityQueue.try_pop at h
    by_cases h1 : (q.items.isEmpty && !q.closed) = true
    · rw [if_pos h1] at h
      exact Or.inl h
    · rw [if_neg h1] at h
      by_cases h2 : (q.closed && q.items.isEmpty) = true
      · rw [if_pos h2] at h
        exact Or.inl h
      · rw [if_neg h2] at h
        apply hcases _ rfl
        rw [h]
        cases heap_take q.items choice with
        | none => rfl
        | some p => rfl
  · unfold ThreadSafePriorityQueue.try_pop_nonblocking at h
    by_cases h1 : q.items.isEmpty = true
    · rw [if_pos h1] at h
      exact Or.inl h
    · rw [if_neg h1] at h
      apply hcases _ rfl
      rw [h]
      cases heap_take q.items choice with
      | none => rfl
      | some p => rfl

/-- What one operation does to the counters and the size. -/
theorem queue_op_balance (q : ThreadSafePriorityQueue) (op : QueueOp) :
    (op.apply q).items.length + (op.apply q).total_popped
        + (if op.is_clear = true then q.items.length else 0) + q.total_pushed
      = (op.apply q).total_pushed + q.items.length + q.total_popped := by
  have hbal : ∀ (choice : Nat) (q2 : ThreadSafePriorityQueue),
      (q2 = q ∨ ∃ x rest, heap_take q.items choice = some (x, rest) ∧
        q2 = { q with items := rest, total_popped := q.total_popped + 1 }) →
      q2.items.length + q2.total_popped + 0 + q.total_pushed
        = q2.total_pushed + q.items.length + q.total_popped := by
    intro choice q2 h
    rcases h with h | ⟨x, rest, ht, h⟩
    · rw [h]
      omega
    · have := heap_take_length q.items choice x rest ht
      rw [h]
      simp only
      omega
  cases op with
  | push item =>
    simp only [QueueOp.apply, ThreadSafePriorityQueue.push, QueueOp.is_clear, List.length_append,
      List.length_singleton, Bool.false_eq_true, if_false]
    omega
  | push_batch items =>
    simp only [QueueOp.apply, QueueOp.is_clear, Bool.false_eq_true, if_false,
      push_batch_items, (push_batch_counters items q).1, (push_batch_counters items q).2,
      List.length_append]
    omega
  | pop choice =>
    simp only [QueueOp.is_clear, Bool.false_eq_true, if_false]
    exact hbal choice _ (pop_result q choice _ (Or.inl rfl))
  | try_pop choice =>
    simp only [QueueOp.is_clear, Bool.false_eq_true, if_false]
    exact hbal choice _ (pop_result q choice _ (Or.inr (Or.inl rfl)))
  | try_pop_nonblocking choice =>
    simp only [QueueOp.is_clear, Bool.false_eq_true, if_false]
    exact hbal choice _ (pop_result q choice _ (Or.inr (Or.inr rfl)))
  | clear =>
    simp only [QueueOp.apply, ThreadSafePriorityQueue.clear, QueueOp.is_clear, if_true,
      List.length_nil]
    omega
  | close =>
    simp only [QueueOp.apply, ThreadSafePriorityQueue.close, QueueOp.is_clear,
      Bool.false_eq_true, if_false]
    omega

theorem run_queue_ops_balance (ops : List QueueOp) :
    ∀ q : ThreadSafePriorityQueue,
      (run_queue_ops q ops).items.length + (run_queue_ops q ops).total_popped
          + cleared_by q ops + q.total_pushed
        = (run_queue_ops q ops).total_pushed + q.items.length + q.total_popped := by
  induction ops with
  | nil =>
    intro q
    simp only [run_queue_ops, List.foldl_nil, cleared_by]
    omega
  | cons op ops ih =>
    intro q
    have h1 := ih (op.apply q)
    have h2 := queue_op_balance q op
    simp only [run_queue_ops, List.foldl_cons, cleared_by] at h1 ⊢
    omega

theorem cleared_by_of_no_clear (ops : List QueueOp) (h : ∀ op ∈ ops, op.is_clear = false) :
    ∀ q : ThreadSafePriorityQueue, cleared_by q ops = 0 := by
  induction ops with
  | nil => intro q; rfl
  | cons op ops ih =>
    intro q
    simp only [cleared_by, h op (List.mem_cons_self _ _), Bool.false_eq_true, if_false,
      ih (fun o ho => h o (List.mem_cons_of_mem _ ho)), Nat.add_zero]

/-! ## Lemmas on query parameters -/

theorem add_param_eq (params : List (Str × Str)) (pair : Str) :
    add_param params pair
      = match param_of pair with
        | some kv => map_set kv.1 kv.2 params
        | none => params := by
  unfold add_param param_of
  cases find_char '=' pair with
  | some i => rfl
  | none =>
    by_cases h : pair.isEmpty = true
    · simp [h]
    · simp [h]

theorem fold_add_param (pieces : List Str) :
    ∀ init : List (Str × Str),
      pieces.foldl add_param init
        = (pieces.filterMap param_of).foldl (fun m kv => map_set kv.1 kv.2 m) init := by
  induction pieces with
  | nil => intro init; rfl
  | cons p rest ih =>
    intro init
    simp only [List.foldl_cons, List.filterMap_cons]
    rw [ih, add_param_eq]
    cases param_of p with
    | none => rfl
    | some kv => rfl

theorem map_set_perm {V : Type} (k : Str) (v : V) (m : List (Str × V))
    (hk : ∀ kv ∈ m, kv.1 ≠ k) : (map_set k v m).Perm ((k, v) :: m) := by
  induction m with
  | nil => exact List.Perm.refl _
  | cons x rest ih =>
    obtain ⟨k2, v2⟩ := x
    have h1 : k ≠ k2 := fun he => hk (k2, v2) (List.mem_cons_self _ _) he.symm
    by_cases h2 : str_lt k k2 = true
    · simp only [map_set, h1, h2, if_true, if_false]
      exact List.Perm.refl _
    · simp only [map_set, h1, h2, if_false, Bool.false_eq_true]
      exact ((ih (fun kv hkv => hk kv (List.mem_cons_of_mem _ hkv))).cons (k2, v2)).trans
        (List.Perm.swap _ _ _)

theorem fold_map_set_perm (l : List (Str × Str)) :
    ∀ init : List (Str × Str), (l.map Prod.fst).Nodup →
      (∀ kv ∈ init, ∀ x ∈ l, kv.1 ≠ x.1) →
      (l.foldl (fun m kv => map_set kv.1 kv.2 m) init).Perm (l ++ init) := by
  induction l with
  | nil => intro init _ _; exact List.Perm.refl _
  | cons x xs ih =>
    intro init hnd hdis
    simp only [List.map_cons, List.nodup_cons] at hnd
    simp only [List.foldl_cons]
    have hx : ∀ kv ∈ init, kv.1 ≠ x.1 := fun kv hkv => hdis kv hkv x (List.mem_cons_self _ _)
    have h1 := ih (map_set x.1 x.2 init) hnd.2 (by
      intro kv hkv y hy
      rcases map_set_keys x.1 x.2 init kv hkv with h | h
      · rw [h]
        intro he
        exact hnd.1 (he ▸ List.mem_map_of_mem Prod.fst hy)
      · exact hdis kv h y (List.mem_cons_of_mem _ hy))
    refine h1.trans ?_
    have h2 : (xs ++ map_set x.1 x.2 init).Perm (xs ++ x :: init) :=
      List.Perm.append_left xs (map_set_perm x.1 x.2 init hx)
    exact h2.trans List.perm_middle

theorem fold_map_set_sorted (l : List (Str × Str)) :
    ∀ init : List (Str × Str), keys_sorted init →
      keys_sorted (l.foldl (fun m kv => map_set kv.1 kv.2 m) init) := by
  induction l with
  | nil => intro init h; exact h
  | cons x xs ih =>
    intro init h
    exact ih _ (map_set_sorted x.1 x.2 init h)

/-- The piece that the rebuilding loop of `sort_query_params` writes for a
parameter. -/
theorem emit_params_cons (kv : Str × Str) (rest : List (Str × Str)) (first : Bool) :
    emit_params (kv :: rest) first
      = (if !first then "&".data else [])
        ++ (kv.1 ++ (if !kv.2.isEmpty then '=' :: kv.2 else []))
        ++ emit_params rest false := by
  obtain ⟨k, v⟩ := kv
  simp only [emit_params, List.append_assoc]

theorem split_on_emit (rest : List (Str × Str))
    (hgood : ∀ kv ∈ rest, '&' ∉ kv.1 ∧ '&' ∉ kv.2) :
    ∀ p0 : Str, '&' ∉ p0 →
      split_on '&' (p0 ++ emit_params rest false)
        = p0 :: rest.map (fun kv => kv.1 ++ (if !kv.2.isEmpty then '=' :: kv.2 else [])) := by
  induction rest with
  | nil =>
    intro p0 h0
    simp only [emit_params, List.append_nil, List.map_nil]
    exact split_on_of_not_mem '&' p0 h0
  | cons kv rest ih =>
    intro p0 h0
    obtain ⟨h1, h2⟩ := hgood kv (List.mem_cons_self _ _)
    have hpiece : '&' ∉ kv.1 ++ (if !kv.2.isEmpty then '=' :: kv.2 else []) := by
      intro hm
      rcases List.mem_append.1 hm with h | h
      · exact h1 h
      · split at h
        · rcases List.mem_cons.1 h with h | h
          · revert h; decide
          · exact h2 h
        · cases h
    have he : p0 ++ emit_params (kv :: rest) false
        = p0 ++ '&' :: ((kv.1 ++ (if !kv.2.isEmpty then '=' :: kv.2 else []))
            ++ emit_params rest false) := by
      rw [emit_params_cons]
      simp
    rw [he, split_on_append '&' p0 _ h0,
      ih (fun x hx => hgood x (List.mem_cons_of_mem _ hx)) _ hpiece]
    rfl

theorem getlines_emit (params : List (Str × Str))
    (hgood : ∀ kv ∈ params, '&' ∉ kv.1 ∧ '&' ∉ kv.2)
    (hne : ∀ kv ∈ params, kv ≠ ([], [])) :
    getlines '&' (emit_params params true)
      = params.map (fun kv => kv.1 ++ (if !kv.2.isEmpty then '=' :: kv.2 else [])) := by
  cases params with
  | nil => rfl
  | cons kv rest =>
    obtain ⟨h1, h2⟩ := hgood kv (List.mem_cons_self _ _)
    have hpiece : '&' ∉ kv.1 ++ (if !kv.2.isEmpty then '=' :: kv.2 else []) := by
      intro hm
      rcases List.mem_append.1 hm with h | h
      · exact h1 h
      · split at h
        · rcases List.mem_cons.1 h with h | h
          · revert h; decide
          · exact h2 h
        · cases h
    have hsplit := split_on_emit rest (fun x hx => hgood x (List.mem_cons_of_mem _ hx)) _ hpiece
    rw [emit_params_cons]
    simp only [Bool.not_true, Bool.false_eq_true, if_false, List.nil_append]
    unfold getlines
    simp only [hsplit]
    have hlast : (List.map (fun kv : Str × Str =>
          kv.1 ++ (if !kv.2.isEmpty then '=' :: kv.2 else [])) (kv :: rest)).getLast? ≠ some [] := by
      intro hl
      obtain ⟨x, hx, hxe⟩ := List.mem_map.1 (List.mem_of_mem_getLast? hl)
      have hx2 := hne x hx
      obtain ⟨k, v⟩ := x
      simp only at hxe
      have hk : k = [] := (List.append_eq_nil.1 hxe).1
      have hv : v = [] := by
        have := (List.append_eq_nil.1 hxe).2
        cases v with
        | nil => rfl
        | cons a b => simp at this
      exact hx2 (by rw [hk, hv])
    rw [List.map_cons] at hlast
    rw [if_neg hlast]
    rfl

theorem find_char_append (ch : Char) (a b : Str) (h : ch ∉ a) :
    find_char ch (a ++ ch :: b) = some a.length := by
  induction a with
  | nil => simp [find_char]
  | cons c a ih =>
    have hc : c ≠ ch := fun he => h (by rw [he]; exact List.mem_cons_self _ _)
    have ha : ch ∉ a := fun hm => h (List.mem_cons_of_mem _ hm)
    simp only [List.cons_append, find_char, hc, if_false, List.append_eq, ih ha,
      Option.map_some', List.length_cons]

theorem find_char_some (ch : Char) (s : Str) :
    ∀ i, find_char ch s = some i → ch ∉ s.take i := by
  induction s with
  | nil => intro i h; simp [find_char] at h
  | cons c s ih =>
    intro i h
    by_cases hc : c = ch
    · simp only [find_char, hc, if_true, Option.some.injEq] at h
      rw [← h]
      simp
    · simp only [find_char, hc, if_false] at h
      cases hf : find_char ch s with
      | none => simp [hf] at h
      | some j =>
        simp only [hf, Option.map_some', Option.some.injEq] at h
        rw [← h]
        simp only [List.take_succ_cons, List.mem_cons, not_or]
        exact ⟨fun he => hc he.symm, ih j hf⟩

theorem param_of_piece (kv : Str × Str) (hk : '=' ∉ kv.1) (hne : kv ≠ ([], [])) :
    param_of (kv.1 ++ (if !kv.2.isEmpty then '=' :: kv.2 else [])) = some kv := by
  obtain ⟨k, v⟩ := kv
  simp only at hk ⊢
  cases v with
  | nil =>
    have hkne : k ≠ [] := fun h => hne (by rw [h])
    have hke : k.isEmpty = false := by
      cases k with
      | nil => exact absurd rfl hkne
      | cons a b => rfl
    simp only [List.isEmpty_nil, Bool.not_true, Bool.false_eq_true, if_false, List.append_nil]
    unfold param_of
    rw [find_char_none_of_not_mem '=' k hk]
    simp only [hke, Bool.not_false, if_true]
  | cons a b =>
    simp only [List.isEmpty_cons, Bool.not_false, if_true]
    unfold param_of
    rw [find_char_append '=' k (a :: b) hk]
    simp

theorem param_of_good (piece : Str) (kv : Str × Str) (hp : '&' ∉ piece)
    (h : param_of piece = some kv) : '=' ∉ kv.1 ∧ '&' ∉ kv.1 ∧ '&' ∉ kv.2 := by
  unfold param_of at h
  cases hf : find_char '=' piece with
  | some i =>
    simp only [hf, Option.some.injEq] at h
    rw [← h]
    exact ⟨find_char_some '=' piece i hf, fun hm => hp (List.mem_of_mem_take hm),
      fun hm => hp (List.mem_of_mem_drop hm)⟩
  | none =>
    simp only [hf] at h
    split at h
    · simp only [Option.some.injEq] at h
      rw [← h]
      refine ⟨?_, hp, by simp⟩
      intro hm
      have := find_char_isSome_of_mem '=' piece hm
      rw [hf] at this
      cases this
    · cases h

theorem query_parameters_good (query : Str) :
    ∀ kv ∈ query_parameters query, '=' ∉ kv.1 ∧ '&' ∉ kv.1 ∧ '&' ∉ kv.2 := by
  intro kv hkv
  unfold query_parameters at hkv
  obtain ⟨piece, hpiece, hpo⟩ := List.mem_filterMap.1 hkv
  exact param_of_good piece kv (getlines_pieces '&' query piece hpiece).1 hpo

theorem filterMap_param_of_pieces (params : List (Str × Str))
    (h : ∀ kv ∈ params, '=' ∉ kv.1 ∧ kv ≠ ([], [])) :
    (params.map (fun kv => kv.1 ++ (if !kv.2.isEmpty then '=' :: kv.2 else []))).filterMap
      param_of = params := by
  induction params with
  | nil => rfl
  | cons kv rest ih =>
    obtain ⟨h1, h2⟩ := h kv (List.mem_cons_self _ _)
    simp only [List.map_cons, List.filterMap_cons, param_of_piece kv h1 h2]
    rw [ih (fun x hx => h x (List.mem_cons_of_mem _ hx))]

theorem query_parameters_emit (params : List (Str × Str))
    (h : ∀ kv ∈ params, '=' ∉ kv.1 ∧ '&' ∉ kv.1 ∧ '&' ∉ kv.2 ∧ kv ≠ ([], [])) :
    query_parameters (emit_params params true) = params := by
  unfold query_parameters
  rw [getlines_emit _ (fun kv hkv => ⟨(h kv hkv).2.1, (h kv hkv).2.2.1⟩)
    (fun kv hkv => (h kv hkv).2.2.2)]
  exact filterMap_param_of_pieces _ (fun kv hkv => ⟨(h kv hkv).1, (h kv hkv).2.2.2⟩)

/-- With pairwise distinct keys and no parameter that is empty on both sides
of its `=`, `sort_query_params` writes the same parameters, ordered by key. -/
theorem sort_query_params_parameters (query : Str)
    (hkeys : ((query_parameters query).map Prod.fst).Nodup)
    (hne : ([], []) ∉ query_parameters query) :
    (query_parameters (URLNormalizer.sort_query_params query)).Perm (query_parameters query) ∧
    keys_sorted (query_parameters (URLNormalizer.sort_query_params query)) := by
  have hsort : URLNormalizer.sort_query_params query
      = emit_params ((query_parameters query).foldl (fun m kv => map_set kv.1 kv.2 m) []) true := by
    unfold URLNormalizer.sort_query_params
    by_cases he : query.isEmpty = true
    · have hq : query = [] := List.isEmpty_iff.1 he
      rw [if_pos he, hq]
      rfl
    · rw [if_neg he, fold_add_param]
      rfl
  have hperm := fold_map_set_perm (query_parameters query) [] hkeys (fun kv hkv => by cases hkv)
  rw [List.append_nil] at hperm
  have hsorted := fold_map_set_sorted (query_parameters query) [] List.Pairwise.nil
  have hgood : ∀ kv ∈ (query_parameters query).foldl (fun m kv => map_set kv.1 kv.2 m) [],
      '=' ∉ kv.1 ∧ '&' ∉ kv.1 ∧ '&' ∉ kv.2 ∧ kv ≠ ([], []) := by
    intro kv hkv
    have hmem := hperm.subset hkv
    obtain ⟨h1, h2, h3⟩ := query_parameters_good query kv hmem
    exact ⟨h1, h2, h3, fun he => hne (he ▸ hmem)⟩
  have hq : query_parameters (URLNormalizer.sort_query_params query)
      = (query_parameters query).foldl (fun m kv => map_set kv.1 kv.2 m) [] := by
    rw [hsort]
    exact query_parameters_emit _ hgood
  rw [hq]
  exact ⟨hperm, hsorted⟩

theorem safe_path_char_slash (ch : Char) : safe_path_char ch = '/' ↔ ch = '/' := by
  unfold safe_path_char
  constructor
  · intro h
    split at h
    · exact h
    · exact absurd h (by decide)
  · intro h
    rw [h]
    rfl

/-- The cleaned path of a URL path that begins with `/`: the rest of the
path, without a `/` at its end, character by character; `index` for the root
path. -/
theorem cleaned_path_cases (p : Str) :
    (p ≠ [] → p.getLast? ≠ some '/' → cleaned_path ('/' :: p) = p.map safe_path_char) ∧
    (∀ q, p = q ++ ['/'] → cleaned_path ('/' :: p) = q.map safe_path_char) ∧
    (p = [] → cleaned_path ('/' :: p) = "index".data) := by
  have hdrop : cleaned_path ('/' :: p)
      = (if ((if (p.map safe_path_char).isEmpty = true then "index".data
              else p.map safe_path_char).getLast? = some '/') then
          (if (p.map safe_path_char).isEmpty = true then "index".data
            else p.map safe_path_char).take
            ((if (p.map safe_path_char).isEmpty = true then "index".data
              else p.map safe_path_char).length - 1)
        else (if (p.map safe_path_char).isEmpty = true then "index".data
              else p.map safe_path_char)) := rfl
  refine ⟨?_, ?_, ?_⟩
  · intro hne hlast
    have hne2 : (p.map safe_path_char).isEmpty = false := by
      cases p with
      | nil => exact absurd rfl hne
      | cons a b => rfl
    have hlast2 : (p.map safe_path_char).getLast? ≠ some '/' := by
      rw [List.getLast?_map]
      intro h
      cases hl : p.getLast? with
      | none => rw [hl] at h; cases h
      | some x =>
        rw [hl] at h hlast
        simp only [Option.map_some', Option.some.injEq] at h
        exact hlast (by rw [(safe_path_char_slash x).1 h])
    rw [hdrop]
    simp only [hne2, Bool.false_eq_true, if_false, hlast2]
  · intro q hq
    have hmap : p.map safe_path_char = q.map safe_path_char ++ ['/'] := by
      rw [hq, List.map_append]
      rfl
    have hne2 : (p.map safe_path_char).isEmpty = false := by
      rw [hmap]
      cases q.map safe_path_char <;> rfl
    rw [hdrop]
    simp only [hne2, Bool.false_eq_true, if_false]
    rw [hmap]
    simp
  · intro h
    rw [h]
    rfl

/-! ## Theorems -/

/-- C1: with the visited store as a key-value map, `mark_page_visited(u)`
answers true and writes a `Pending` record for `u` under `p:<hash(u)>` when no
record is stored under that key (every other key keeps its value), answers
false and leaves the whole store unchanged when one is stored, and in every
sequence of store operations, from every store, at most one
`mark_page_visited(u)` call answers true. -/
theorem mark_page_visited_at_most_once (env : Env) (u : Str) :
    (∀ (db : Store) (now : TimePoint),
        RocksDBStore.get db (RocksDBStore.page_key env u) = none →
        (RocksDBStore.mark_page_visited env db u now).1 = true ∧
        RocksDBStore.get (RocksDBStore.mark_page_visited env db u now).2
            ("p:".data ++ env.url_hash u)
          = some (env.page_to_json
              { status := .Pending, normalized_url := u, created_at := now,
                last_attempt := now }) ∧
        ∀ key, key ≠ "p:".data ++ env.url_hash u →
          RocksDBStore.get (RocksDBStore.mark_page_visited env db u now).2 key
            = RocksDBStore.get db key) ∧
    (∀ (db : Store) (now : TimePoint) (record : Str),
        RocksDBStore.get db (RocksDBStore.page_key env u) = some record →
        RocksDBStore.mark_page_visited env db u now = (false, db)) ∧
    (∀ (db : Store) (ops : List StoreOp), count_claims env u db ops ≤ 1) := by
  refine ⟨?_, ?_, ?_⟩
  · intro db now h
    rw [mark_page_visited_of_none env db u now h]
    refine ⟨rfl, ?_, ?_⟩
    · exact map_get_map_set_same _ _ _
    · intro key hk
      exact map_get_map_set_other _ _ _ _ hk
  · intro db now record h
    exact mark_page_visited_of_some env db u now record h
  · intro db ops
    exact count_claims_le_one u ops db

/-- Witness for C1: on the empty store the first of two claims of the same URL
answers true, and of the two at most one does. -/
theorem mark_page_visited_at_most_once_witness :
    (RocksDBStore.mark_page_visited demo_env [] "http://ex.com/a".data 7).1 = true ∧
    count_claims demo_env "http://ex.com/a".data []
      [.mark_page_visited "http://ex.com/a".data 7,
       .mark_page_visited "http://ex.com/a".data 9] ≤ 1 :=
  ⟨((mark_page_visited_at_most_once demo_env "http://ex.com/a".data).1 [] 7 rfl).1,
   (mark_page_visited_at_most_once demo_env "http://ex.com/a".data).2.2 [] _⟩

/-- C6: when `site.max_depth > 0`, `process_page` on an item deeper than
`max_depth` returns with the world as it was (no store write, no rate-limiter
wait, no fetch, no enqueue, no exception); hence a `process_page` that writes
the store, waits, fetches or enqueues has an item of depth at most
`max_depth`. -/
theorem process_page_respects_max_depth (env : Env) (site : SiteConfig) (w : World)
    (item : WorkItem) (out : PageOutcome) (hmax : site.max_depth > 0) :
    (item.depth > site.max_depth →
      Crawler.process_page env site w item out = (w, none)) ∧
    (((Crawler.process_page env site w item out).1.store ≠ w.store ∨
      (Crawler.process_page env site w item out).1.waits ≠ w.waits ∨
      (Crawler.process_page env site w item out).1.fetches ≠ w.fetches ∨
      (Crawler.process_page env site w item out).1.queue ≠ w.queue) →
      item.depth ≤ site.max_depth) := by
  have key : item.depth > site.max_depth →
      Crawler.process_page env site w item out = (w, none) := by
    intro hd
    simp [Crawler.process_page, hmax, hd]
  refine ⟨key, ?_⟩
  intro hchg
  by_contra hnot
  rw [key (lt_of_not_ge hnot)] at hchg
  simp at hchg

/-- Witness for C6: with `max_depth = 2`, an item of depth 3 leaves the world
as it was. -/
theorem process_page_respects_max_depth_witness :
    ((2 : Int) > 0) ∧
    Crawler.process_page demo_env { allowed_domain := "ex.com".data, max_depth := 2 } {}
        (WorkItem.make "http://ex.com/a".data 3 0)
        { fetch_result := { status_code := 200, success := true }, result := {} }
      = (({} : World), none) :=
  ⟨by decide,
   (process_page_respects_max_depth demo_env
      { allowed_domain := "ex.com".data, max_depth := 2 } {}
      (WorkItem.make "http://ex.com/a".data 3 0)
      { fetch_result := { status_code := 200, success := true }, result := {} }
      (by decide)).1 (by decide)⟩

/-- C2: for every work item and every fetch and extraction outcome, the queue
after `process_page` is the queue before followed by the pushed items, and
each pushed item has as `url` the value `resolve(item.url, l)` of some
extracted link `l`, is in scope for the site's `allowed_domain` and
`allowed_path_prefix`, and has depth `item.depth + 1`; so a link whose
resolution fails or is out of scope is not enqueued. -/
theorem process_page_enqueues_in_scope (env : Env) (site : SiteConfig) (w : World)
    (item : WorkItem) (out : PageOutcome) :
    ∃ pushed : List WorkItem,
      (Crawler.process_page env site w item out).1.queue.items = w.queue.items ++ pushed ∧
      ∀ x ∈ pushed, ∃ l ∈ out.result.extracted_links,
        URLNormalizer.resolve item.url l = .ok (some x.url) ∧
        URLNormalizer.is_in_scope x.url site.allowed_domain
          (SiteConfig.allowed_path_prefix site) = .ok true ∧
        x.depth = item.depth + 1 := by
  rcases process_page_queue env site w item out with h | ⟨w5, hq, h⟩
  · exact ⟨[], by simp [h], by simp⟩
  · obtain ⟨pushed, h1, h2⟩ := enqueue_links_pushes site item out out.result.extracted_links 0 w5
    exact ⟨pushed, by rw [h, h1, hq], h2⟩

/-- C3 (defect in `sort_query_params`): the URL `http://h/?=&a` parses, its
normal form is `http://h/?&a`, and the normal form of that is `http://h/?a`:
the parameter with empty key and empty value prints nothing but still gets its
separator, so `normalize(normalize(s))` differs from `normalize(s)`. -/
theorem normalize_twice_differs :
    URLNormalizer.parse "http://h/?=&a".data
      = .ok (some { scheme := "http".data, host := "h".data, port := 0,
                    path := "/".data, query := "=&a".data, fragment := [] }) ∧
    URLNormalizer.normalize "http://h/?=&a".data false = .ok "http://h/?&a".data ∧
    URLNormalizer.normalize "http://h/?&a".data false = .ok "http://h/?a".data ∧
    URLNormalizer.normalize "http://h/?&a".data false
      ≠ URLNormalizer.normalize "http://h/?=&a".data false := by
  decide

set_option maxRecDepth 1000000 in
/-- C4 (defect): the host group of `URL_REGEX`, `[^/:]+`, runs over `#` and
`?`. For `https://evil.com#.ex.com`, a URL of the host `evil.com` with the
fragment `.ex.com`, `parse` gives the host `evil.com#.ex.com` and no fragment,
and `is_in_scope` for `ex.com` answers true, although `evil.com` neither
equals `ex.com` nor ends with `.ex.com`; the same with `?` in place of `#`.
`resolve` returns such a link of a page as it is but for a closing `/`, and
the link loop of `process_page` puts it in the queue of a crawl of `ex.com`;
`https://evil.com/` itself is out of scope. -/
theorem is_in_scope_accepts_foreign_host :
    URLNormalizer.parse "https://evil.com#.ex.com".data
      = .ok (some { scheme := "https".data, host := "evil.com#.ex.com".data, port := 0,
                    path := "/".data, query := [], fragment := [] }) ∧
    URLNormalizer.is_in_scope "https://evil.com#.ex.com".data "ex.com".data [] = .ok true ∧
    URLNormalizer.is_in_scope "https://evil.com?.ex.com".data "ex.com".data [] = .ok true ∧
    URLNormalizer.is_in_scope "https://evil.com/".data "ex.com".data [] = .ok false ∧
    ¬ ("evil.com".data = "ex.com".data ∨ ".ex.com".data <:+ "evil.com".data) ∧
    URLNormalizer.resolve "https://ex.com/".data "https://evil.com#.ex.com".data
      = .ok (some "https://evil.com#.ex.com/".data) ∧
    ((Crawler.enqueue_links { allowed_domain := "ex.com".data }
        (WorkItem.make "https://ex.com/".data 0 0)
        { fetch_result := {}, result := {} }
        ["https://evil.com#.ex.com".data] 0 {}).1.queue.items.map (fun item => item.url))
      = ["https://evil.com#.ex.com/".data] := by
  decide

/-- The domain rule of `is_in_scope` on the host that `parse` reads (the text
matched by the group `[^/:]+`): for a URL that parses, `is_in_scope(url, d,
"")` answers, and answers true exactly when that host, lowercased, equals
`lowercase(d)` or ends with `.` followed by `lowercase(d)`; a URL that does
not parse is never in scope; and `evilex.com`, which ends with `ex.com`
without the dot, is out of scope for `ex.com`. -/
theorem is_in_scope_domain_rule (url d : Str) :
    (∀ c : URLComponents, URLNormalizer.parse url = .ok (some c) →
      (URLNormalizer.is_in_scope url d [] = .ok true ∨
        URLNormalizer.is_in_scope url d [] = .ok false) ∧
      (URLNormalizer.is_in_scope url d [] = .ok true ↔
        (to_lower c.host = to_lower d ∨ ('.' :: to_lower d) <:+ to_lower c.host))) ∧
    ((∀ c : URLComponents, URLNormalizer.parse url ≠ .ok (some c)) →
      URLNormalizer.is_in_scope url d [] ≠ .ok true) ∧
    URLNormalizer.is_in_scope "https://evilex.com/p".data "ex.com".data [] = .ok false := by
  refine ⟨?_, ?_, by decide⟩
  · intro c h
    obtain ⟨b, hb, hiff⟩ := is_in_scope_of_parsed url d [] c h
    rw [hb]
    constructor
    · cases b <;> simp
    · have hiff2 : b = true ↔
          (to_lower c.host = to_lower d ∨ ('.' :: to_lower d) <:+ to_lower c.host) := by
        simpa using hiff
      rw [← hiff2]
      simp
  · intro hno
    unfold URLNormalizer.is_in_scope
    cases hp : URLNormalizer.parse url with
    | error e => simp
    | ok r =>
      cases r with
      | none => simp
      | some c => exact absurd hp (hno c)

/-- Example of the domain rule: `docs.ex.com` ends with `.ex.com`, so the URL
is in scope for `ex.com`. -/
theorem is_in_scope_domain_rule_witness :
    URLNormalizer.is_in_scope "https://docs.ex.com/p".data "ex.com".data [] = .ok true :=
  (((is_in_scope_domain_rule "https://docs.ex.com/p".data "ex.com".data).1
      { scheme := "https".data, host := "docs.ex.com".data, port := 0, path := "/p".data,
        query := [], fragment := [] } (by decide)).2).2 (Or.inr (by decide))

set_option maxRecDepth 1000000 in
/-- C5 (defect): `is_in_scope` matches the prefix on the path as `parse` reads
it, without collapsing dot segments: `https://example.com/docs/../secret` is in
scope for the prefix `/docs`, yet the path of its normal form is `/secret`,
which does not start with `/docs`. `resolve` gives this URL for the
protocol-relative link `//example.com/docs/../secret`, whose path it does not
collapse, and the link loop of `process_page` of a crawl kept to `/docs` puts
it in the queue. -/
theorem is_in_scope_prefix_escapes_normalized_path :
    URLNormalizer.is_in_scope "https://example.com/docs/../secret".data
      "example.com".data "/docs".data = .ok true ∧
    URLNormalizer.normalize "https://example.com/docs/../secret".data false
      = .ok "https://example.com/secret".data ∧
    URLNormalizer.extract_path "https://example.com/secret".data = .ok "/secret".data ∧
    ¬ ("/docs".data <+: "/secret".data) ∧
    URLNormalizer.is_in_scope "https://example.com/secret".data
      "example.com".data "/docs".data = .ok false ∧
    URLNormalizer.resolve "https://example.com/docs/".data "//example.com/docs/../secret".data
      = .ok (some "https://example.com/docs/../secret".data) ∧
    ((Crawler.enqueue_links
        { allowed_domain := "example.com".data, allowed_path_prefix := "/docs".data }
        (WorkItem.make "https://example.com/docs/".data 0 0)
        { fetch_result := {}, result := {} }
        ["//example.com/docs/../secret".data] 0 {}).1.queue.items.map (fun item => item.url))
      = ["https://example.com/docs/../secret".data] := by
  decide

/-- The prefix rule of `is_in_scope` as the code has it: if `is_in_scope(url,
d, p)` is true for a non-empty `p`, then the URL parses and the path that
`parse` extracts from it (the one `extract_path` returns, before dot-segment
collapsing) starts with `p`. -/
theorem is_in_scope_prefix_on_parsed_path (url d p : Str) (hp : p ≠ [])
    (h : URLNormalizer.is_in_scope url d p = .ok true) :
    ∃ c : URLComponents, URLNormalizer.parse url = .ok (some c) ∧
      URLNormalizer.extract_path url = .ok c.path ∧ p <+: c.path := by
  cases hparse : URLNormalizer.parse url with
  | error e => simp [URLNormalizer.is_in_scope, hparse] at h
  | ok r =>
    cases r with
    | none => simp [URLNormalizer.is_in_scope, hparse] at h
    | some c =>
      obtain ⟨b, hb, hiff⟩ := is_in_scope_of_parsed url d p c hparse
      rw [hb] at h
      have hbt : b = true := by simpa using h
      have hboth := hiff.1 hbt
      refine ⟨c, rfl, by simp [URLNormalizer.extract_path, hparse], ?_⟩
      rcases hboth.2 with h0 | h0
      · exact absurd h0 hp
      · exact h0

/-- Example of the prefix rule: `/docs/api/reference` starts with `/docs/`. -/
theorem is_in_scope_prefix_on_parsed_path_witness :
    ∃ c : URLComponents,
      URLNormalizer.parse "https://example.com/docs/api/reference".data = .ok (some c) ∧
      URLNormalizer.extract_path "https://example.com/docs/api/reference".data = .ok c.path ∧
      "/docs/".data <+: c.path :=
  is_in_scope_prefix_on_parsed_path "https://example.com/docs/api/reference".data
    "example.com".data "/docs/".data (by decide) (by decide)

/-- C7 (defect on resume): a store holds the `Pending` record that an
interrupted run left for `http://ex.com/a`, and the work item is the one
`requeue_incomplete` builds for it (`WorkItem(normalized_url, depth)`); then
`process_page` returns with the world as it was: the URL is not fetched and
its record stays `Pending`, whatever the site, the server and the clock. -/
theorem process_page_skips_requeued_pending (env : Env) (site : SiteConfig)
    (out : PageOutcome) (interrupted_at requeued_at : TimePoint) :
    RocksDBStore.get
        (RocksDBStore.mark_page_visited env [] "http://ex.com/a".data interrupted_at).2
        (RocksDBStore.page_key env "http://ex.com/a".data)
      = some (env.page_to_json
          { status := .Pending, normalized_url := "http://ex.com/a".data,
            created_at := interrupted_at, last_attempt := interrupted_at }) ∧
    Crawler.process_page env site
        { store := (RocksDBStore.mark_page_visited env [] "http://ex.com/a".data
            interrupted_at).2 }
        (WorkItem.make "http://ex.com/a".data 0 requeued_at) out
      = ({ store := (RocksDBStore.mark_page_visited env [] "http://ex.com/a".data
            interrupted_at).2 }, none) := by
  have hnorm : URLNormalizer.normalize "http://ex.com/a".data false
      = .ok "http://ex.com/a".data := by decide
  have hget : RocksDBStore.get
        (RocksDBStore.mark_page_visited env [] "http://ex.com/a".data interrupted_at).2
        (RocksDBStore.page_key env "http://ex.com/a".data)
      = some (env.page_to_json
          { status := .Pending, normalized_url := "http://ex.com/a".data,
            created_at := interrupted_at, last_attempt := interrupted_at }) := by
    rw [mark_page_visited_of_none env [] _ interrupted_at rfl]
    exact map_get_map_set_same _ _ _
  refine ⟨hget, ?_⟩
  have hdepth : (decide (site.max_depth > 0) && decide ((0 : Int) > site.max_depth)) = false := by
    by_cases h1 : site.max_depth > 0
    · have : ¬ (0 : Int) > site.max_depth := by omega
      simp [this]
    · simp [h1]
  simp only [Crawler.process_page, WorkItem.make, hdepth, hnorm,
    mark_page_visited_of_some env _ _ out.claimed_at _ hget]
  simp

/-- C8 (refuted): with `max_retries = 2147483647`, a value that the
validation of the configuration accepts, the `int` sum `max_retries + 1`
overflows; where it wraps, the test `attempt <= max_retries + 1` fails at the
first attempt, and `fetch_with_retry` returns a default result (not
successful, status 0) without a single call of `fetch_once`, although every
call would have succeeded. -/
theorem fetch_with_retry_makes_no_call :
    Fetcher.fetch_with_retry { max_retries := 2147483647 }
        (fun _ => { status_code := 200, success := true }) (fun _ => 0) 1
      = some { result := {}, attempts := 0, sleeps := [] } ∧
    wrap32 (2147483647 + 1) = -2147483648 := by
  decide

/-- The retry loop below the overflow: with `0 ≤ max_retries ≤ 2147483645`,
`fetch_with_retry` returns after `k` calls of `fetch_once` with the result of
the `k`-th, where `1 ≤ k ≤ max_retries + 1`, every earlier result is
unsuccessful and retryable, and the `k`-th is successful or not retryable
unless `k = max_retries + 1`; results with statuses 500, 500, 200 under
`max_retries ≥ 2` give success after exactly 3 calls. -/
theorem fetch_with_retry_attempts (config : AppConfig) (fetch_once : Nat → FetchResult)
    (rand : Nat → Nat) (fuel : Nat) (hmin : 0 ≤ config.max_retries)
    (hmax : config.max_retries ≤ 2147483645) (hfuel : config.max_retries < fuel) :
    ∃ r : RetryRun, Fetcher.fetch_with_retry config fetch_once rand fuel = some r ∧
      1 ≤ r.attempts ∧ (r.attempts : Int) ≤ config.max_retries + 1 ∧
      r.result = fetch_once r.attempts ∧
      (∀ j, 1 ≤ j → j < r.attempts →
        (fetch_once j).success = false ∧
        ((fetch_once j).status_code = 0 ∨ (fetch_once j).status_code = 429 ∨
          (500 ≤ (fetch_once j).status_code ∧ (fetch_once j).status_code ≤ 599))) ∧
      ((fetch_once r.attempts).success = true ∨
        ¬ ((fetch_once r.attempts).status_code = 0 ∨ (fetch_once r.attempts).status_code = 429 ∨
          (500 ≤ (fetch_once r.attempts).status_code ∧
            (fetch_once r.attempts).status_code ≤ 599)) ∨
        (r.attempts : Int) = config.max_retries + 1) ∧
      (2 ≤ config.max_retries →
        (fetch_once 1).status_code = 500 → (fetch_once 1).success = false →
        (fetch_once 2).status_code = 500 → (fetch_once 2).success = false →
        (fetch_once 3).status_code = 200 → (fetch_once 3).success = true →
        r.attempts = 3 ∧ r.result = fetch_once 3 ∧ r.result.success = true) := by
  have hB : wrap32 (config.max_retries + 1) = config.max_retries + 1 := by
    unfold wrap32
    omega
  obtain ⟨r, k, hr, hk1, hk2, hk3, hk4, hk5, hk6⟩ :=
    retry_loop_spec config fetch_once rand (by rw [hB]; omega) fuel 1 {} (le_refl _)
      (by rw [hB]; omega) (by rw [hB]; omega)
  have h0 : ({} : RetryRun).attempts = 0 := rfl
  rw [hB] at hk2 hk6
  simp only [h0, Nat.zero_add] at hk3 hk4 hk5 hk6
  have hcont : ∀ j, 1 ≤ j → j < k →
      (fetch_once j).success = false ∧
      ((fetch_once j).status_code = 0 ∨ (fetch_once j).status_code = 429 ∨
        (500 ≤ (fetch_once j).status_code ∧ (fetch_once j).status_code ≤ 599)) := by
    intro j h1 h2
    have := hk5 j h1 h2
    simp only [Bool.or_eq_false_iff, Bool.not_eq_false'] at this
    exact ⟨this.1, (is_retryable_status_iff _).1 this.2⟩
  have hstop : (fetch_once k).success = true ∨
      ¬ ((fetch_once k).status_code = 0 ∨ (fetch_once k).status_code = 429 ∨
        (500 ≤ (fetch_once k).status_code ∧ (fetch_once k).status_code ≤ 599)) ∨
      (k : Int) = config.max_retries + 1 := by
    rcases hk6 with h | h
    · simp only [Bool.or_eq_true, Bool.not_eq_true'] at h
      rcases h with h | h
      · exact Or.inl h
      · right; left
        intro hr
        rw [(is_retryable_status_iff _).2 hr] at h
        exact absurd h (by simp)
    · right; right
      omega
  refine ⟨r, hr, ?_⟩
  rw [hk3, hk4]
  refine ⟨hk1, by omega, rfl, hcont, hstop, ?_⟩
  intro h2 s1 f1 s2 f2 s3 f3
  have hk3' : k = 3 := by
    have hge : 3 ≤ k := by
      by_contra hlt
      have hk : k = 1 ∨ k = 2 := by omega
      rcases hstop with h | h | h
      · rcases hk with hk | hk <;> subst hk <;> simp [f1, f2] at h
      · rcases hk with hk | hk <;> subst hk <;> simp [s1, s2] at h
      · omega
    by_contra hne
    have := (hcont 3 (by omega) (by omega)).1
    rw [f3] at this
    exact absurd this (by simp)
  subst hk3'
  exact ⟨rfl, rfl, f3⟩

/-- Example of the retry loop: a server answering 500, 500 and then 200, under
the default `max_retries = 3`. -/
theorem fetch_with_retry_attempts_witness :
    ∃ r : RetryRun,
      Fetcher.fetch_with_retry {}
        (fun k => if k < 3 then { status_code := 500 }
                  else { status_code := 200, success := true })
        (fun _ => 0) 4 = some r ∧ r.attempts = 3 ∧ r.result.success = true := by
  obtain ⟨r, h1, _, _, _, _, _, h7⟩ := fetch_with_retry_attempts {}
      (fun k => if k < 3 then { status_code := 500 }
                else { status_code := 200, success := true })
      (fun _ => 0) 4 (by decide) (by decide) (by decide)
  have h := h7 (by decide) rfl rfl rfl rfl rfl rfl
  exact ⟨r, h1, h.1, h.2.2⟩

/-- C9 (defect in `calculate_backoff`): under the default configuration
(`initial_retry_delay` 1 s, `max_retry_delay` 30 s) the delay after the first
attempt is 1 millisecond for every random draw, not between 900 and 1100
milliseconds: the count of seconds is handed to `std::chrono::milliseconds`
unconverted. -/
theorem calculate_backoff_first_default (rand : Nat) :
    Fetcher.calculate_backoff {} 1 rand = 1 ∧
    ¬ (900 * min ((1 : Int) * 2 ^ (1 - 1)) 30 ≤ Fetcher.calculate_backoff {} 1 rand) := by
  have ht : Int.tdiv 1 10 = 0 := by decide
  have h : Fetcher.calculate_backoff {} 1 rand = 1 := by
    simp [Fetcher.calculate_backoff, tenth, ht]
  rw [h]
  exact ⟨rfl, by decide⟩

/-- C10 (defect in `wait_for_host`): with spacing 100 ms and jitter draws that
leave it at 100, three calls for one host made at times 0, 1 and 101 (each no
earlier than the previous return) return at 0, 100 and 101: the last two
returns are 1 ms apart, not 90, because the second call records its call time 1
and not its return time 100 as the last request. -/
theorem wait_for_host_spacing_broken :
    RateLimiter.return_times "example.com".data { default_delay := 100 }
        [(0, 10), (1, 10), (101, 10)]
      = [0, 100, 101] := by
  decide

/-- C11: after any sequence of `push` / `push_batch` calls on a fresh queue,
`try_pop_nonblocking` calls made until one returns nothing return the pushed
items, each once (a permutation of them), in non-decreasing priority, whatever
the heap does with ties, and the call after the last item returns nothing;
when the items were built by the two-argument `WorkItem` constructor
(priority = depth) they come out in non-decreasing depth. -/
theorem priority_queue_drains_in_order (ops : List PushOp) (choice : Nat → Nat) :
    (drain_nonblocking choice ((ops.map PushOp.items).flatten.length + 1)
        (run_queue_ops {} (ops.map PushOp.op))).1.Perm (ops.map PushOp.items).flatten ∧
    (drain_nonblocking choice ((ops.map PushOp.items).flatten.length + 1)
        (run_queue_ops {} (ops.map PushOp.op))).1.Pairwise
      (fun a b => a.priority ≤ b.priority) ∧
    (∀ c : Nat,
      ((drain_nonblocking choice ((ops.map PushOp.items).flatten.length + 1)
        (run_queue_ops {} (ops.map PushOp.op))).2.try_pop_nonblocking c).1 = none) ∧
    ((∀ x ∈ (ops.map PushOp.items).flatten, ∃ u d t, x = WorkItem.make u d t) →
      (drain_nonblocking choice ((ops.map PushOp.items).flatten.length + 1)
        (run_queue_ops {} (ops.map PushOp.op))).1.Pairwise
      (fun a b => a.depth ≤ b.depth)) := by
  have hitems : (run_queue_ops {} (ops.map PushOp.op)).items
      = (ops.map PushOp.items).flatten := by
    rw [run_push_ops_items]; rfl
  obtain ⟨h1, h2, h3, _⟩ := drain_nonblocking_spec choice
    ((ops.map PushOp.items).flatten.length + 1) (run_queue_ops {} (ops.map PushOp.op))
    (by rw [hitems]; omega)
  rw [hitems] at h1
  refine ⟨h1, h2, ?_, ?_⟩
  · intro c
    rw [try_pop_nonblocking_empty _ c h3]
  · intro hmake
    refine h2.imp_of_mem ?_
    intro a b ha hb hab
    obtain ⟨ua, da, ta, hA⟩ := hmake a (h1.subset ha)
    obtain ⟨ub, db, tb, hB⟩ := hmake b (h1.subset hb)
    subst hA; subst hB
    exact hab

/-- Witness for C11: the items of the `PriorityOrdering` test, built by the
two-argument constructor, come out in non-decreasing depth. -/
theorem priority_queue_drains_in_order_witness :
    (drain_nonblocking (fun _ => 0) 5
        (run_queue_ops {}
          [.push (WorkItem.make "depth3".data 3 0), .push (WorkItem.make "depth1".data 1 0),
           .push_batch [WorkItem.make "depth5".data 5 0, WorkItem.make "depth2".data 2 0]])).1.Pairwise
      (fun a b => a.depth ≤ b.depth) :=
  (priority_queue_drains_in_order
      [.push (WorkItem.make "depth3".data 3 0), .push (WorkItem.make "depth1".data 1 0),
       .push_batch [WorkItem.make "depth5".data 5 0, WorkItem.make "depth2".data 2 0]]
      (fun _ => 0)).2.2.2
    (by
      intro x hx
      simp only [List.map_cons, List.map_nil, PushOp.items, List.flatten_cons, List.flatten_nil,
        List.cons_append, List.nil_append, List.append_nil, List.mem_cons, List.mem_singleton,
        List.not_mem_nil, or_false] at hx
      rcases hx with h | h | h | h <;> exact ⟨_, _, _, h⟩)

/-- C12: once `close()` has been called, `is_closed()` is true after every
later sequence of operations (push, push_batch, pop, try_pop,
try_pop_nonblocking, clear, close); on such a queue `pop` always returns, it
returns nothing exactly when the queue is empty, and otherwise an item of
least priority, the other items staying; so repeated `pop` calls return the
remaining items, each once, in non-decreasing priority and then nothing. -/
theorem close_is_monotonic (q : ThreadSafePriorityQueue) (ops : List QueueOp) :
    (run_queue_ops q.close ops).is_closed = true ∧
    (∀ choice : Nat, ∃ r : Option WorkItem × ThreadSafePriorityQueue,
      (run_queue_ops q.close ops).pop choice = some r ∧
      (r.1 = none ↔ (run_queue_ops q.close ops).items = []) ∧
      (∀ x, r.1 = some x →
        (x :: r.2.items).Perm (run_queue_ops q.close ops).items ∧
        ∀ y ∈ (run_queue_ops q.close ops).items, x.priority ≤ y.priority)) ∧
    (∀ choice : Nat → Nat,
      (drain_pop choice ((run_queue_ops q.close ops).items.length + 1)
          (run_queue_ops q.close ops)).1.Perm (run_queue_ops q.close ops).items ∧
      (drain_pop choice ((run_queue_ops q.close ops).items.length + 1)
          (run_queue_ops q.close ops)).1.Pairwise (fun a b => a.priority ≤ b.priority) ∧
      (drain_pop choice ((run_queue_ops q.close ops).items.length + 1)
          (run_queue_ops q.close ops)).2.items = [] ∧
      (drain_pop choice ((run_queue_ops q.close ops).items.length + 1)
          (run_queue_ops q.close ops)).2.is_closed = true) := by
  have hc : (run_queue_ops q.close ops).closed = true := run_queue_ops_closed ops q.close rfl
  refine ⟨hc, ?_, ?_⟩
  · intro choice
    refine ⟨_, pop_of_closed _ choice hc, ?_, ?_⟩
    · by_cases hq : (run_queue_ops q.close ops).items = []
      · simp [try_pop_nonblocking_empty _ choice hq, hq]
      · obtain ⟨x, rest, hpop, _, _⟩ := try_pop_nonblocking_nonempty _ choice hq
        simp [hpop, hq]
    · intro x hx
      by_cases hq : (run_queue_ops q.close ops).items = []
      · rw [try_pop_nonblocking_empty _ choice hq] at hx
        simp at hx
      · obtain ⟨x', rest, hpop, hperm, hmin⟩ := try_pop_nonblocking_nonempty _ choice hq
        rw [hpop] at hx ⊢
        simp only [Option.some.injEq] at hx
        subst hx
        exact ⟨hperm, hmin⟩
  · intro choice
    rw [drain_pop_of_closed choice _ _ hc]
    obtain ⟨h1, h2, h3, h4⟩ := drain_nonblocking_spec choice
      ((run_queue_ops q.close ops).items.length + 1) (run_queue_ops q.close ops) (by omega)
    exact ⟨h1, h2, h3, by rw [ThreadSafePriorityQueue.is_closed, h4]; exact hc⟩

/-- C13: for every state of the handler (so for every parsed robots.txt),
every user agent for which a rule group is chosen and every path beginning
with `/`: with `A` and `D` the greatest length of an `Allow` (resp.
`Disallow`) value of the group that is non-empty and is `/` or a prefix of the
path, and -1 when there is none, such `A` and `D` exist and `is_allowed` is
true exactly when `A ≥ D`; for `Disallow: /docs` with `Allow: /docs/public`
the path `/docs/public/x` is allowed. -/
theorem is_allowed_longest_match (h : RobotsHandler) (user_agent path : Str)
    (rule : RobotsRule) (hrule : h.get_rule_for_agent user_agent = some rule)
    (hpath : path.head? = some '/') :
    (∃ A D : Int, longest_match_is path rule.allow A ∧
      longest_match_is path rule.disallow D) ∧
    (∀ A D : Int, longest_match_is path rule.allow A →
      longest_match_is path rule.disallow D →
      (h.is_allowed path user_agent = true ↔ A ≥ D)) ∧
    (RobotsHandler.parse "User-agent: *\nDisallow: /docs\nAllow: /docs/public\n".data).is_allowed
      "/docs/public/x".data "*".data = true := by
  have hne : path ≠ [] := by
    intro hh
    rw [hh] at hpath
    simp at hpath
  refine ⟨⟨_, _, best_match_is_longest path rule.allow,
    best_match_is_longest path rule.disallow⟩, ?_, by decide⟩
  intro A D hA hD
  rw [longest_match_unique path rule.allow A _ hA (best_match_is_longest path rule.allow),
    longest_match_unique path rule.disallow D _ hD (best_match_is_longest path rule.disallow)]
  simp only [RobotsHandler.is_allowed, hrule]
  exact rule_allows_iff rule path hne

/-- Witness for C13: in the group `Disallow: /docs`, `Allow: /docs/public` the
path `/docs/private` has `A = -1` and `D = 5`, and is not allowed. -/
theorem is_allowed_longest_match_witness :
    ¬ ((RobotsHandler.parse "User-agent: *\nDisallow: /docs\nAllow: /docs/public\n".data).is_allowed
        "/docs/private".data "*".data = true) := by
  intro hallow
  have hiff := (is_allowed_longest_match
    (RobotsHandler.parse "User-agent: *\nDisallow: /docs\nAllow: /docs/public\n".data)
    "*".data "/docs/private".data
    { user_agent := "*".data, disallow := ["/docs".data], allow := ["/docs/public".data] }
    (by decide) (by decide)).2.1 (-1) 5
    ⟨by decide, Or.inr ⟨rfl, by decide⟩⟩
    ⟨by decide, Or.inl ⟨"/docs".data, by decide, by decide, by decide, by decide⟩⟩
  have := hiff.1 hallow
  omega

/-- C14: `is_allowed(path, ua)` depends on `ua` only through its lowercase
form; when the handler has a group under `lowercase(ua)` the answer is that
group's alone (any two handlers holding the same group there agree, whatever
their `*` group); otherwise, when it has a `*` group, the answer is that
group's; with neither every path is allowed; `parse` files a group declared
by a `User-agent` line under the lowercase of its name; and in the
`UserAgentSpecific` test `GoogleBot` may fetch `/private/page` while
`otherbot` may not. -/
theorem is_allowed_selects_group (h : RobotsHandler) (user_agent path : Str) :
    (∀ other_agent : Str, to_lower other_agent = to_lower user_agent →
      h.is_allowed path other_agent = h.is_allowed path user_agent) ∧
    (∀ rule : RobotsRule, map_get (to_lower user_agent) h.rules = some rule →
      h.is_allowed path user_agent = rule.allows path ∧
      ∀ h2 : RobotsHandler, map_get (to_lower user_agent) h2.rules = some rule →
        h2.is_allowed path user_agent = h.is_allowed path user_agent) ∧
    (∀ rule : RobotsRule, map_get (to_lower user_agent) h.rules = none →
      map_get "*".data h.rules = some rule →
      h.is_allowed path user_agent = rule.allows path) ∧
    (map_get (to_lower user_agent) h.rules = none → map_get "*".data h.rules = none →
      h.is_allowed path user_agent = true) ∧
    (∀ (robots_txt line name : Str), line ∈ getlines '\n' robots_txt →
      robots_directive line = some ("user-agent".data, name) →
      (map_get (to_lower name) (RobotsHandler.parse robots_txt).rules).isSome = true) ∧
    (RobotsHandler.parse
        "User-agent: googlebot\nDisallow: /nogoogle\n\nUser-agent: *\nDisallow: /private\n".data).is_allowed
      "/private/page".data "GoogleBot".data = true ∧
    (RobotsHandler.parse
        "User-agent: googlebot\nDisallow: /nogoogle\n\nUser-agent: *\nDisallow: /private\n".data).is_allowed
      "/private/page".data "otherbot".data = false := by
  refine ⟨?_, ?_, ?_, ?_, ?_, by decide, by decide⟩
  · intro other hl
    simp only [RobotsHandler.is_allowed, RobotsHandler.get_rule_for_agent, hl]
  · intro rule hr
    refine ⟨by simp [RobotsHandler.is_allowed, RobotsHandler.get_rule_for_agent, hr], ?_⟩
    intro h2 hr2
    simp [RobotsHandler.is_allowed, RobotsHandler.get_rule_for_agent, hr, hr2]
  · intro rule hn hs
    simp [RobotsHandler.is_allowed, RobotsHandler.get_rule_for_agent, hn, hs]
  · intro hn hs
    simp [RobotsHandler.is_allowed, RobotsHandler.get_rule_for_agent, hn, hs]
  · intro robots_txt line name hl hd
    exact robots_parse_declares _ line name hl hd _

/-- Witness for C14: the handler of the `UserAgentSpecific` test has a group
for `googlebot`, so `GoogleBot` is answered by that group alone. -/
theorem is_allowed_selects_group_witness :
    (RobotsHandler.parse
        "User-agent: googlebot\nDisallow: /nogoogle\n\nUser-agent: *\nDisallow: /private\n".data).is_allowed
      "/nogoogle/page".data "GoogleBot".data
      = RobotsRule.allows { user_agent := "googlebot".data, disallow := ["/nogoogle".data] }
          "/nogoogle/page".data :=
  ((is_allowed_selects_group
    (RobotsHandler.parse
      "User-agent: googlebot\nDisallow: /nogoogle\n\nUser-agent: *\nDisallow: /private\n".data)
    "GoogleBot".data "/nogoogle/page".data).2.1
    { user_agent := "googlebot".data, disallow := ["/nogoogle".data] } (by decide)).1

set_option maxRecDepth 1000000 in
/-- C15 (as stated, refuted): a `PageDBEntry` whose `created_at` is a clock
reading with a part below the millisecond does not come back from
`from_json(to_json())`: the text keeps milliseconds only. -/
theorem page_entry_loses_submillisecond :
    PageDBEntry.from_json mini_json demo_clib
        (PageDBEntry.to_json mini_json demo_clib
          { normalized_url := "http://ex.com/a".data, created_at := 1793399696789123456 })
      = .ok { normalized_url := "http://ex.com/a".data, created_at := 1793399696789000000 } ∧
    PageDBEntry.from_json mini_json demo_clib
        (PageDBEntry.to_json mini_json demo_clib
          { normalized_url := "http://ex.com/a".data, created_at := 1793399696789123456 })
      ≠ .ok { normalized_url := "http://ex.com/a".data, created_at := 1793399696789123456 } := by
  decide

/-- C15 (amended): for every `PageDBEntry` whose three timestamps are whole
milliseconds at or after the epoch (written by the C library as 19 characters
that it reads back), whose `depth`, `attempt_count` and `token_count` are
values of an `int`, and whose JSON text the JSON library parses back to the
object written, `from_json(to_json())` returns the entry, equal in every
field. -/
theorem page_entry_round_trip (lib : JsonLib) (clib : CLib) (e : PageDBEntry)
    (hlib : lib.parse (lib.dump (e.to_json_object clib)) = some (.object (e.to_json_object clib)))
    (hk : 0 < clib.ticks_per_ms)
    (hc : time_round_trips clib e.created_at) (hp : time_round_trips clib e.processed_at)
    (hl : time_round_trips clib e.last_attempt)
    (hd : fits_int e.depth) (ha : fits_int e.attempt_count) (ht : fits_int e.token_count) :
    PageDBEntry.from_json lib clib (e.to_json lib clib) = .ok e := by
  obtain ⟨g1, g2, g3, g4, g5, g6, g7, g8, g9, g10, g11, g12, g13⟩ := page_object_lookups clib e
  simp only [PageDBEntry.from_json, PageDBEntry.to_json, hlib, Decode.step, Decode.finish,
    read_string_of_member _ _ _ _ _ _ g1, read_string_of_member _ _ _ _ _ _ g2,
    read_string_of_member _ _ _ _ _ _ g3, read_time_of_member clib _ _ _ _ _ g4 hk hc,
    read_time_of_member clib _ _ _ _ _ g5 hk hp, read_time_of_member clib _ _ _ _ _ g6 hk hl,
    read_int_of_member _ _ _ _ _ g7 hd, read_int_of_member _ _ _ _ _ g8 ha,
    read_string_of_member _ _ _ _ _ _ g9, read_string_of_member _ _ _ _ _ _ g10,
    read_string_of_member _ _ _ _ _ _ g11, read_string_of_member _ _ _ _ _ _ g12,
    read_int_of_member _ _ _ _ _ g13 ht, page_status_round_trip, error_type_round_trip]

set_option maxRecDepth 1000000 in
/-- Witness for C15: a `Failure` record with timestamps of whole milliseconds
comes back unchanged. -/
theorem page_entry_round_trip_witness :
    PageDBEntry.from_json mini_json demo_clib
        (PageDBEntry.to_json mini_json demo_clib
          { status := .Failure, error_type := .HTTPError, error_message := "HTTP 500".data,
            created_at := 1793399696789000000, processed_at := 1793399697001000000,
            last_attempt := 1793399697001000000, depth := 2, attempt_count := 1,
            normalized_url := "http://ex.com/a?b=\"c\"".data, final_url := "http://ex.com/a".data })
      = .ok { status := .Failure, error_type := .HTTPError, error_message := "HTTP 500".data,
              created_at := 1793399696789000000, processed_at := 1793399697001000000,
              last_attempt := 1793399697001000000, depth := 2, attempt_count := 1,
              normalized_url := "http://ex.com/a?b=\"c\"".data,
              final_url := "http://ex.com/a".data } :=
  page_entry_round_trip mini_json demo_clib _ (by decide) (by decide)
    ⟨by decide, by decide, by decide, by decide⟩ ⟨by decide, by decide, by decide, by decide⟩
    ⟨by decide, by decide, by decide, by decide⟩ ⟨by decide, by decide⟩ ⟨by decide, by decide⟩
    ⟨by decide, by decide⟩

set_option maxRecDepth 1000000 in
/-- C16 (as stated, refuted): an `ImageDBEntry` with a clock reading that has
a part below the millisecond and a file size of 5000000000 bytes comes back
from `from_json(to_json())` with the timestamp cut to the millisecond and the
file size 705032704. -/
theorem image_entry_loses_fields :
    ImageDBEntry.from_json mini_json demo_clib
        (ImageDBEntry.to_json mini_json demo_clib
          { original_url := "http://ex.com/a.png".data, created_at := 1793399696789123456,
            file_size := 5000000000 })
      = .ok { original_url := "http://ex.com/a.png".data, created_at := 1793399696789000000,
              file_size := 705032704 } := by
  decide

/-- C16 (amended): for every `ImageDBEntry` whose three timestamps are whole
milliseconds at or after the epoch (written by the C library as 19 characters
that it reads back), whose `attempt_count` is a value of an `int`, whose
`file_size` lies in the range of an `int`, and whose JSON text the JSON
library parses back to the object written, `from_json(to_json())` returns the
entry, equal in every field. -/
theorem image_entry_round_trip (lib : JsonLib) (clib : CLib) (e : ImageDBEntry)
    (hlib : lib.parse (lib.dump (e.to_json_object clib)) = some (.object (e.to_json_object clib)))
    (hk : 0 < clib.ticks_per_ms)
    (hc : time_round_trips clib e.created_at) (hp : time_round_trips clib e.processed_at)
    (hl : time_round_trips clib e.last_attempt)
    (ha : fits_int e.attempt_count) (hf : fits_int e.file_size) :
    ImageDBEntry.from_json lib clib (e.to_json lib clib) = .ok e := by
  obtain ⟨g1, g2, g3, g4, g5, g6, g7, g8, g9, g10, g11, g12⟩ := image_object_lookups clib e
  simp only [ImageDBEntry.from_json, ImageDBEntry.to_json, hlib, Decode.step, Decode.finish,
    read_string_of_member _ _ _ _ _ _ g1, read_string_of_member _ _ _ _ _ _ g2,
    read_string_of_member _ _ _ _ _ _ g3, read_time_of_member clib _ _ _ _ _ g4 hk hc,
    read_time_of_member clib _ _ _ _ _ g5 hk hp, read_time_of_member clib _ _ _ _ _ g6 hk hl,
    read_int_of_member _ _ _ _ _ g7 ha,
    read_string_of_member _ _ _ _ _ _ g8, read_string_of_member _ _ _ _ _ _ g9,
    read_string_of_member _ _ _ _ _ _ g10, read_int_of_member _ _ _ _ _ g11 hf,
    read_string_of_member _ _ _ _ _ _ g12, image_status_round_trip, error_type_round_trip]

set_option maxRecDepth 1000000 in
/-- Witness for C16: a `Success` record of 2147483647 bytes with timestamps of
whole milliseconds comes back unchanged. -/
theorem image_entry_round_trip_witness :
    ImageDBEntry.from_json mini_json demo_clib
        (ImageDBEntry.to_json mini_json demo_clib
          { status := .Success, created_at := 1793399696789000000,
            processed_at := 1793399697001000000, last_attempt := 1793399697001000000,
            attempt_count := 1, original_url := "http://ex.com/a.png".data,
            local_path := "images/a.png".data, caption := "a".data, file_size := 2147483647,
            content_type := "image/png".data })
      = .ok { status := .Success, created_at := 1793399696789000000,
              processed_at := 1793399697001000000, last_attempt := 1793399697001000000,
              attempt_count := 1, original_url := "http://ex.com/a.png".data,
              local_path := "images/a.png".data, caption := "a".data, file_size := 2147483647,
              content_type := "image/png".data } :=
  image_entry_round_trip mini_json demo_clib _ (by decide) (by decide)
    ⟨by decide, by decide, by decide, by decide⟩ ⟨by decide, by decide, by decide, by decide⟩
    ⟨by decide, by decide, by decide, by decide⟩ ⟨by decide, by decide⟩ ⟨by decide, by decide⟩

/-- C17: for every value of `PageStatus`, of `ImageStatus` and of `ErrorType`,
the `*_from_string` function applied to `to_string` of the value gives the
value back, and `to_string` is injective on each enumeration. -/
theorem enum_string_round_trip :
    (∀ v : PageStatus, page_status_from_string v.to_string = v) ∧
    (∀ v : ImageStatus, image_status_from_string v.to_string = v) ∧
    (∀ v : ErrorType, error_type_from_string v.to_string = v) ∧
    Function.Injective PageStatus.to_string ∧
    Function.Injective ImageStatus.to_string ∧
    Function.Injective ErrorType.to_string :=
  ⟨page_status_round_trip, image_status_round_trip, error_type_round_trip,
    Function.LeftInverse.injective page_status_round_trip,
    Function.LeftInverse.injective image_status_round_trip,
    Function.LeftInverse.injective error_type_round_trip⟩

set_option maxRecDepth 1000000 in
/-- C18 (defect): the store holds, under `p:1`, a record whose `created_at`
reads `2024-01-01T00:00:00.abc` and, under `p:2`, the `Pending` record of
`http://ex.com/a`. `requeue_incomplete` is left by the `std::invalid_argument`
that `std::stoi` raises inside `from_json` on the first record: it makes no
callback and returns no count, although the second record is `Pending` with a
non-empty `normalized_url`. On the store without the first record the callback
is made for `http://ex.com/a` and 1 is returned. -/
theorem requeue_incomplete_raises_on_bad_record :
    (RocksDBStore.requeue_incomplete mini_json demo_clib (fun k => (k : Int))
        [("p:1".data, "\x7b\"created_at\":\"2024-01-01T00:00:00.abc\"\x7d".data),
         ("p:2".data, PageDBEntry.to_json mini_json demo_clib
            { status := .Pending, normalized_url := "http://ex.com/a".data, depth := 0 })]).callbacks
      = [] ∧
    (RocksDBStore.requeue_incomplete mini_json demo_clib (fun k => (k : Int))
        [("p:1".data, "\x7b\"created_at\":\"2024-01-01T00:00:00.abc\"\x7d".data),
         ("p:2".data, PageDBEntry.to_json mini_json demo_clib
            { status := .Pending, normalized_url := "http://ex.com/a".data, depth := 0 })]).result
      = .error .invalid_argument ∧
    (RocksDBStore.requeue_incomplete mini_json demo_clib (fun k => (k : Int))
        [("p:2".data, PageDBEntry.to_json mini_json demo_clib
            { status := .Pending, normalized_url := "http://ex.com/a".data, depth := 0 })]).callbacks
      = [WorkItem.make "http://ex.com/a".data 0 0] ∧
    (RocksDBStore.requeue_incomplete mini_json demo_clib (fun k => (k : Int))
        [("p:2".data, PageDBEntry.to_json mini_json demo_clib
            { status := .Pending, normalized_url := "http://ex.com/a".data, depth := 0 })]).result
      = .ok 1 := by
  decide

/-- The resume scan on records that deserialise: on a database in key order
whose `p:` records all deserialise, `requeue_incomplete` returns; the
callbacks it made are, in key order, exactly one `WorkItem{url =
normalized_url, depth = depth}` for each `p:` record whose status is `Pending`
or `Failure` and whose `normalized_url` is non-empty, none for any other
record, and the value returned is their number. The scan only reads the
database. -/
theorem requeue_incomplete_requeues_incomplete (lib : JsonLib) (clib : CLib)
    (clock : Nat → TimePoint) (db : Store) (entries : List PageDBEntry)
    (hsorted : store_sorted db)
    (hdec : decode_page_records lib clib db = .ok entries) :
    (RocksDBStore.requeue_incomplete lib clib clock db).callbacks
      = requeue_items clock 0 (entries.filter wants_requeue) ∧
    (RocksDBStore.requeue_incomplete lib clib clock db).result
      = .ok ((entries.filter wants_requeue).length : Int) := by
  have hscan := requeue_scan_spec lib clib clock
    (db.dropWhile (fun kv => str_lt kv.1 "p:".data)) [] 0 entries
    (store_sorted_dropWhile db hsorted) (dropWhile_not_below db hsorted)
    (by rw [decode_page_records_dropWhile]; exact hdec)
  unfold RocksDBStore.requeue_incomplete
  rw [hscan]
  simp

set_option maxRecDepth 1000000 in
/-- Example of the resume scan: of an image record, four page records and a
record past the `p:` range, the pending and the failed page with a URL are handed to the
callback, at their depths 0 and 2, and 2 is returned. -/
theorem requeue_incomplete_requeues_incomplete_witness :
    (RocksDBStore.requeue_incomplete mini_json demo_clib (fun k => (k : Int)) demo_store).callbacks
      = [WorkItem.make "http://ex.com/a".data 0 0, WorkItem.make "http://ex.com/c".data 2 1] ∧
    (RocksDBStore.requeue_incomplete mini_json demo_clib (fun k => (k : Int)) demo_store).result
      = .ok 2 :=
  requeue_incomplete_requeues_incomplete mini_json demo_clib (fun k => (k : Int)) demo_store
    demo_page_records (by unfold store_sorted; decide) (by decide)

/-- C19: a `process_page` call that passes the depth guard and claims its URL
(`normalize` gave `normalized` and `mark_page_visited(normalized)` answered
true) ends with the record of that URL overwritten by a terminal one, never
the `Pending` one: `Failure` with `HTTPError` and the fetcher's error message
when the fetch did not succeed; `Success` with an empty file path when the
response is not HTML; `Failure` with `ContentEmpty` and the pipeline's error
when the content pipeline fails; `Success` with `content_hash`,
`local_file_path` and `token_count` when it succeeds. `pages_processed` grows
by one in the last case and is unchanged in the others. -/
theorem process_page_records_terminal_status (env : Env) (site : SiteConfig) (w : World)
    (item : WorkItem) (out : PageOutcome) (normalized : Str)
    (hdepth : (decide (site.max_depth > 0) && decide (item.depth > site.max_depth)) = false)
    (hnorm : URLNormalizer.normalize item.url = .ok normalized)
    (hclaim : (RocksDBStore.mark_page_visited env w.store normalized out.claimed_at).1 = true) :
    (out.fetch_result.success = false →
      RocksDBStore.get (Crawler.process_page env site w item out).1.store
          (RocksDBStore.page_key env normalized)
        = some (env.page_to_json
            { status := .Failure, error_type := .HTTPError,
              error_message := out.fetch_result.error, normalized_url := normalized }) ∧
      (Crawler.process_page env site w item out).1.pages_processed = w.pages_processed) ∧
    (out.fetch_result.success = true → out.fetch_result.is_html = false →
      RocksDBStore.get (Crawler.process_page env site w item out).1.store
          (RocksDBStore.page_key env normalized)
        = some (env.page_to_json
            { status := .Success, normalized_url := normalized, local_file_path := [] }) ∧
      (Crawler.process_page env site w item out).1.pages_processed = w.pages_processed) ∧
    (out.fetch_result.success = true → out.fetch_result.is_html = true →
      out.result.success = false →
      RocksDBStore.get (Crawler.process_page env site w item out).1.store
          (RocksDBStore.page_key env normalized)
        = some (env.page_to_json
            { status := .Failure, error_type := .ContentEmpty,
              error_message := out.result.error, normalized_url := normalized }) ∧
      (Crawler.process_page env site w item out).1.pages_processed = w.pages_processed) ∧
    (out.fetch_result.success = true → out.fetch_result.is_html = true →
      out.result.success = true →
      RocksDBStore.get (Crawler.process_page env site w item out).1.store
          (RocksDBStore.page_key env normalized)
        = some (env.page_to_json
            { status := .Success, normalized_url := normalized,
              content_hash := env.content_hash out.result.markdown,
              local_file_path := out.result.saved_file_path,
              token_count := out.result.token_count }) ∧
      (Crawler.process_page env site w item out).1.pages_processed
        = w.pages_processed + 1) := by
  obtain ⟨host, hhost⟩ := extract_domain_of_normalize item.url normalized hnorm
  have hpp : ∀ w0 : World, (if (!host.isEmpty) = true
      then ({ w0 with waits := w0.waits ++ [host] } : World) else w0).pages_processed
        = w0.pages_processed := by
    intro w0
    split <;> rfl
  refine ⟨?_, ?_, ?_, ?_⟩
  · intro hf
    simp only [Crawler.process_page, hdepth, hnorm, hclaim, hhost, hf, Bool.false_eq_true,
      if_false, Bool.not_true, Bool.not_false, if_true]
    exact ⟨get_update_page_status _ _ _ _, hpp _⟩
  · intro hf hh
    simp only [Crawler.process_page, hdepth, hnorm, hclaim, hhost, hf, hh, Bool.false_eq_true,
      if_false, Bool.not_true, Bool.not_false, if_true]
    exact ⟨get_update_page_status _ _ _ _, hpp _⟩
  · intro hf hh hr
    simp only [Crawler.process_page, hdepth, hnorm, hclaim, hhost, hf, hh, hr,
      Bool.false_eq_true, if_false, Bool.not_true, Bool.not_false, if_true]
    rw [(enqueue_links_keeps_store site item out _ 0 _).1,
      (enqueue_links_keeps_store site item out _ 0 _).2]
    exact ⟨get_update_page_status _ _ _ _, hpp _⟩
  · intro hf hh hr
    simp only [Crawler.process_page, hdepth, hnorm, hclaim, hhost, hf, hh, hr,
      Bool.false_eq_true, if_false, Bool.not_true, Bool.not_false, if_true]
    rw [(enqueue_links_keeps_store site item out _ 0 _).1,
      (enqueue_links_keeps_store site item out _ 0 _).2]
    refine ⟨get_update_page_status _ _ _ _, ?_⟩
    split <;> rfl

/-- Witness for C19: a page fetched as HTML whose content pipeline succeeds is
recorded as `Success` with its hash, path and token count, and counted. -/
theorem process_page_records_terminal_status_witness :
    RocksDBStore.get
        (Crawler.process_page demo_env { allowed_domain := "ex.com".data } {}
          (WorkItem.make "http://ex.com/a".data 0 0)
          { fetch_result := { status_code := 200, success := true,
                              content_type := "text/html".data },
            result := { markdown := "# A".data, saved_file_path := "out/a.md".data,
                        token_count := 2, success := true } }).1.store
        (RocksDBStore.page_key demo_env "http://ex.com/a".data)
      = some (demo_env.page_to_json
          { status := .Success, normalized_url := "http://ex.com/a".data,
            content_hash := "# A".data, local_file_path := "out/a.md".data,
            token_count := 2 }) ∧
    (Crawler.process_page demo_env { allowed_domain := "ex.com".data } {}
          (WorkItem.make "http://ex.com/a".data 0 0)
          { fetch_result := { status_code := 200, success := true,
                              content_type := "text/html".data },
            result := { markdown := "# A".data, saved_file_path := "out/a.md".data,
                        token_count := 2, success := true } }).1.pages_processed = 0 + 1 :=
  (process_page_records_terminal_status demo_env { allowed_domain := "ex.com".data } {}
    (WorkItem.make "http://ex.com/a".data 0 0)
    { fetch_result := { status_code := 200, success := true,
                        content_type := "text/html".data },
      result := { markdown := "# A".data, saved_file_path := "out/a.md".data,
                  token_count := 2, success := true } }
    "http://ex.com/a".data (by decide) (by decide) (by decide)).2.2.2 (by decide) (by decide)
    (by decide)

set_option maxRecDepth 1000000 in
/-- C20 (refuted): `process_page` on a work item of depth 1 whose fetch and
content pipeline succeed persists a `Success` record that deserialises with
depth 0, not 1: the entry it writes is built without the item's depth. -/
theorem process_page_persists_depth_zero :
    (RocksDBStore.get
        (Crawler.process_page (Env.of_libs mini_json demo_clib (fun u => u) (fun c => c))
          { allowed_domain := "ex.com".data } {}
          (WorkItem.make "http://ex.com/a".data 1 0)
          { fetch_result := { status_code := 200, success := true,
                              content_type := "text/html".data },
            result := { markdown := "# A".data, saved_file_path := "out/a.md".data,
                        token_count := 2, success := true } }).1.store
        ("p:".data ++ "http://ex.com/a".data)).map (PageDBEntry.from_json mini_json demo_clib)
      = some (.ok { status := .Success, normalized_url := "http://ex.com/a".data,
                    content_hash := "# A".data, local_file_path := "out/a.md".data,
                    token_count := 2, depth := 0 }) := by
  decide

/-- C28 (as stated, refuted): a text of four bytes counts as 2 tokens, while
`⌈4/4⌉ = 1`. -/
theorem count_tokens_of_four_bytes :
    Tokenizer.count_tokens "abcd".data = 2 ∧
    Tokenizer.count_tokens "abcd".data ≠ ⌈(("abcd".data.length : ℚ) / 4)⌉ := by
  refine ⟨by decide, ?_⟩
  have h : Tokenizer.count_tokens "abcd".data = 2 := by decide
  rw [h]
  have h2 : ⌈(("abcd".data.length : ℚ) / 4)⌉ = 1 := by
    rw [Int.ceil_eq_iff]
    norm_num
  rw [h2]
  decide

/-- C28 (amended): for every text shorter than 2^33 - 4 bytes (8589934588, so
that neither the cast to `int` nor the `int` sum overflows), `count_tokens` is
0 for the empty text and `⌊len/4⌋ + 1` otherwise; it equals `⌈len/4⌉` exactly
when the length is 0 or not a multiple of 4, and is one more than `⌈len/4⌉`
when the length is a positive multiple of 4. -/
theorem count_tokens_floor_plus_one (text : Str) (hlen : text.length < 8589934588) :
    (text = [] → Tokenizer.count_tokens text = 0) ∧
    (text ≠ [] → Tokenizer.count_tokens text = ((text.length / 4 : Nat) : Int) + 1) ∧
    (Tokenizer.count_tokens text = ⌈((text.length : ℚ) / 4)⌉
      ↔ text.length = 0 ∨ text.length % 4 ≠ 0) ∧
    (0 < text.length → text.length % 4 = 0 →
      Tokenizer.count_tokens text = ⌈((text.length : ℚ) / 4)⌉ + 1) := by
  have hceil : ⌈((text.length : ℚ) / 4)⌉ = (((text.length + 3) / 4 : Nat) : Int) := by
    have hd := Nat.div_add_mod (text.length + 3) 4
    have hm := Nat.mod_lt (text.length + 3) (show 4 > 0 by norm_num)
    generalize (text.length + 3) / 4 = q at hd ⊢
    generalize (text.length + 3) % 4 = r at hd hm
    generalize text.length = n at hd
    have hq : (n : ℚ) + 3 = 4 * (q : ℚ) + (r : ℚ) := by exact_mod_cast hd.symm
    have hr : (r : ℚ) ≤ 3 := by exact_mod_cast (show r ≤ 3 by omega)
    have hr0 : (0 : ℚ) ≤ (r : ℚ) := by positivity
    rw [Int.ceil_eq_iff]
    simp only [Int.cast_natCast]
    constructor
    · rw [lt_div_iff₀ (by norm_num)]
      linarith
    · rw [div_le_iff₀ (by norm_num)]
      linarith
  have hval : text ≠ [] → Tokenizer.count_tokens text = ((text.length / 4 : Nat) : Int) + 1 := by
    intro hne
    have he : text.isEmpty = false := by
      cases text with
      | nil => exact absurd rfl hne
      | cons a b => rfl
    unfold Tokenizer.count_tokens
    simp only [he, Bool.false_eq_true, if_false]
    have hc : Int.ofNat (text.length / 4) = ((text.length / 4 : Nat) : Int) := rfl
    rw [hc]
    unfold wrap32
    omega
  have hnil : text = [] → Tokenizer.count_tokens text = 0 := by
    intro h
    rw [h]
    rfl
  refine ⟨hnil, hval, ?_, ?_⟩
  · rw [hceil]
    by_cases hne : text = []
    · rw [hnil hne, hne]
      simp
    · rw [hval hne]
      have hpos : 0 < text.length := List.length_pos.2 hne
      constructor
      · intro h
        right
        have h' : text.length / 4 + 1 = (text.length + 3) / 4 := by exact_mod_cast h
        omega
      · intro h
        have h' : text.length / 4 + 1 = (text.length + 3) / 4 := by omega
        exact_mod_cast h'
  · intro hpos hmod
    have hne : text ≠ [] := List.length_pos.1 hpos
    rw [hceil, hval hne]
    have h' : text.length / 4 = (text.length + 3) / 4 := by omega
    rw [h']

/-- Witness for C28: five bytes count as 2 tokens, which is `⌈5/4⌉`. -/
theorem count_tokens_floor_plus_one_witness :
    Tokenizer.count_tokens "Hello".data = ⌈(("Hello".data.length : ℚ) / 4)⌉ :=
  (count_tokens_floor_plus_one "Hello".data (by decide)).2.2.1.2 (Or.inr (by decide))

/-- C30 (refuted): with one worker and the seed in the queue, let the worker's
`try_pop` return the seed, and let the monitor then evaluate `queue_.empty()`
and `in_flight_.load() == 0` before the worker has executed `in_flight_++`.
The monitor closes the queue while the worker holds the popped seed,
unprocessed; the worker then processes it and its `push` adds a link to the
closed queue. -/
theorem monitor_closes_while_item_held :
    Pool.run
        { queue := ({} : ThreadSafePriorityQueue).push (WorkItem.make "http://ex.com/".data 0 0),
          workers := [.at_loop_top] }
        [.worker_pop 0 0, .monitor_empty, .monitor_in_flight]
      = some
        { queue := { closed := true, total_pushed := 1, total_popped := 1, min_depth := 0 },
          in_flight := 0,
          workers := [.popped (WorkItem.make "http://ex.com/".data 0 0)],
          monitor := .joining } ∧
    (Pool.run
        { queue := ({} : ThreadSafePriorityQueue).push (WorkItem.make "http://ex.com/".data 0 0),
          workers := [.at_loop_top] }
        [.worker_pop 0 0, .monitor_empty, .monitor_in_flight,
         .worker_begin 0 [WorkItem.make "http://ex.com/a".data 1 0], .worker_push 0]).map
        (fun p => (p.queue.is_closed, p.queue.items, p.in_flight))
      = some (true, [WorkItem.make "http://ex.com/a".data 1 0], 1) := by
  decide

/-- C29: on a rate limiter made by its constructor and used through any calls,
`wait_for_host(h)` returns without sleeping whenever `h` has no recorded
last-request time: when no `wait_for_host(h)` was made before, and when none
was made since a `reset_host(h)`, whatever calls were made for other hosts
in between; and a `wait_for_host(h)` call leaves the recorded last-request
time of every other host as it was. -/
theorem wait_for_host_first_call_returns (default_delay : Int) (before after : List LimiterCall)
    (h : Str) (now : Int) (draw : Nat)
    (hafter : ∀ c ∈ after, c.waits_for h = false) :
    ((∀ c ∈ before, c.waits_for h = false) →
      ((run_limiter_calls { default_delay := default_delay } before).wait_for_host
        h now draw).2 = 0) ∧
    ((run_limiter_calls
        ((run_limiter_calls { default_delay := default_delay } before).reset_host h)
        after).wait_for_host h now draw).2 = 0 ∧
    (∀ (rl : RateLimiter) (other : Str), other ≠ h →
      map_get other (rl.wait_for_host h now draw).1.last_request
        = map_get other rl.last_request) := by
  refine ⟨?_, ?_, ?_⟩
  · intro hbefore
    exact wait_for_host_no_record _ h now draw
      (run_limiter_calls_keeps_none before h hbefore _ rfl)
  · apply wait_for_host_no_record
    apply run_limiter_calls_keeps_none after h hafter
    exact map_get_map_erase_same h _
      (run_limiter_calls_sorted before _ List.Pairwise.nil)
  · intro rl other hne
    rw [wait_for_host_last_request]
    exact map_get_map_set_other _ _ _ _ hne

/-- Witness for C29: after two calls for `a.com`, a reset of `a.com` and a call
for `b.com` 5 ms later, the next call for `a.com` does not sleep. -/
theorem wait_for_host_first_call_returns_witness :
    ((run_limiter_calls
        ((run_limiter_calls { default_delay := 100 }
            [.wait_for_host "a.com".data 0 0, .wait_for_host "a.com".data 100 0]).reset_host
          "a.com".data)
        [.wait_for_host "b.com".data 105 0]).wait_for_host "a.com".data 110 0).2 = 0 :=
  (wait_for_host_first_call_returns 100
    [.wait_for_host "a.com".data 0 0, .wait_for_host "a.com".data 100 0]
    [.wait_for_host "b.com".data 105 0] "a.com".data 110 0 (by decide)).2.1

/-- C26 (defect): `text()` of a `div` that holds the text `Hello` and a script
is `Hello alert(1)`: the text inside the `script` subtree is not omitted, and
neither is the text inside `style` and `noscript`; `main_text()` of the
documents whose body holds these elements, made by `collect_main_text`, omits
it. -/
theorem text_keeps_script_text :
    HTMLElement.text
        (.element "div".data []
          [.text "Hello".data, .element "script".data [] [.text "alert(1)".data]])
      = "Hello alert(1)".data ∧
    HTMLDocument.main_text
        (.element "html".data [] [.element "body".data [] [.element "div".data []
          [.text "Hello".data, .element "script".data [] [.text "alert(1)".data]]]])
      = "Hello".data ∧
    HTMLElement.text
        (.element "div".data []
          [.element "style".data [] [.text "p \x7bcolor:red\x7d".data], .text "Hello".data,
           .element "noscript".data [] [.text "Enable JavaScript".data]])
      = "p \x7bcolor:red\x7d Hello Enable JavaScript".data ∧
    HTMLDocument.main_text
        (.element "html".data [] [.element "body".data [] [.element "div".data []
          [.element "style".data [] [.text "p \x7bcolor:red\x7d".data], .text "Hello".data,
           .element "noscript".data [] [.text "Enable JavaScript".data]]]])
      = "Hello".data := by
  decide

/-- What `collect_text` gathers: for every tree, `text()` of a node is the
texts of the text nodes below it that are reached through elements, in
document order and with none left out (those inside `script`, `style` and
`noscript` included), each followed by a space, with the white space at the
end removed.
`collect_main_text`, from which `main_text()` is made, is the same collection
on the tree whose `script`, `style` and `noscript` elements have lost their
children. -/
theorem text_collects_all_text_nodes (node : GumboNode) :
    HTMLElement.text node
      = pop_trailing_space
          ((text_nodes (document_order [] node)).map (fun t => t ++ " ".data)).flatten ∧
    collect_main_text node = collect_text (without_skipped node) ∧
    HTMLElement.text demo_tree = "Hello alert(1) World".data ∧
    HTMLDocument.main_text demo_tree = "Hello World".data := by
  refine ⟨?_, collect_main_text_eq.1 node, by decide, by decide⟩
  unfold HTMLElement.text
  rw [collect_text_in_document_order.1 node []]

/-- C27 (as stated, refuted): in the document `html > body > (div.x, comment,
p#y)`, `select("p, div")` returns the paragraph before the `div` that precedes
it in the document, `select("div, .x")` returns the `div` twice, and
`select_first("p, div")` is the paragraph, not the `div`. -/
theorem select_union_out_of_order :
    (HTMLElement.select demo_tree "p, div".data).map Prod.fst = [[0, 2], [0, 0]] ∧
    (HTMLElement.select demo_tree "div, .x".data).map Prod.fst = [[0, 0], [0, 0]] ∧
    (HTMLElement.select_first demo_tree "p, div".data).map Prod.fst = some [0, 2] ∧
    ((document_order [] demo_tree).filter
        (fun r => matches_selector r.2 "p".data || matches_selector r.2 "div".data)).map Prod.fst
      = [[0, 0], [0, 2]] := by
  decide

/-- C27 (amended): for every tree and selector, `select` returns, for each
comma-separated piece of the selector in turn, the elements matching that
piece in document order; every node occurs once in document order, so for a
selector without a comma `select` returns each matching element exactly once
and in document order, and `select_first` returns the first matching element
of the document. For a union the result is the concatenation over the pieces,
and `select_first` its first entry. -/
theorem select_in_document_order (node : GumboNode) (selector : Str) :
    HTMLElement.select node selector
      = ((getlines ',' selector).map (fun sel =>
          (document_order [] node).filter (fun r => matches_selector r.2 sel))).flatten ∧
    ((document_order [] node).map Prod.fst).Nodup ∧
    HTMLElement.select_first node selector = (HTMLElement.select node selector).head? ∧
    (selector ≠ [] → ',' ∉ selector →
      HTMLElement.select node selector
        = (document_order [] node).filter (fun r => matches_selector r.2 selector) ∧
      ((HTMLElement.select node selector).map Prod.fst).Nodup ∧
      HTMLElement.select_first node selector
        = (document_order [] node).find? (fun r => matches_selector r.2 selector)) := by
  have hnodup := (document_order_paths.1 node []).2
  refine ⟨select_eq node selector, hnodup, rfl, ?_⟩
  intro hne hcomma
  have hsel : HTMLElement.select node selector
      = (document_order [] node).filter (fun r => matches_selector r.2 selector) := by
    rw [select_eq, getlines_of_not_mem ',' selector hne hcomma]
    simp
  refine ⟨hsel, ?_, ?_⟩
  · rw [hsel]
    exact List.Nodup.sublist (List.Sublist.map _ (List.filter_sublist _)) hnodup
  · unfold HTMLElement.select_first
    rw [hsel]
    exact head_filter_eq_find _ _

/-- Witness for C27: `select("div.x")` on the document of the evaluations
returns the `div` once, and `select_first` returns it. -/
theorem select_in_document_order_witness :
    (HTMLElement.select demo_tree "div.x".data).map Prod.fst = [[0, 0]] ∧
    (HTMLElement.select_first demo_tree "div.x".data).map Prod.fst = some [0, 0] := by
  have h := (select_in_document_order demo_tree "div.x".data).2.2.2 (by decide) (by decide)
  rw [h.1, h.2.2]
  decide

/-- C25 (as stated, refuted): the page URL `https://example.com/logo.png`
is mapped to `out/example.com/logo.png`, which does not end in `.md`. -/
theorem url_to_filepath_keeps_other_extension :
    url_to_filepath "https://example.com/logo.png".data "example.com".data "out".data
      = .ok "out/example.com/logo.png".data := by
  decide

/-- C25 (amended): for every URL that parses, `url_to_filepath` returns
`[base_dir/]allowed_domain/<name>`. The path of the URL begins with `/`; the
cleaned path is the rest of it, with one `/` at its end dropped and every
character other than an ASCII letter or digit, `/`, `-`, `_` and `.` replaced
by `_`, and it is `index` for the root path. `<name>` comes from the cleaned
path: when the cleaned path ends in an extension after its last `/`, the
extension `html` or `htm` (in any letter case) is replaced by `md` and every
other extension leaves the cleaned path as the name; when the last component
has no dot, `.md` is appended; the root path gives `index.md`, and
`https://example.com/docs/` gives `docs.md`. -/
theorem url_to_filepath_name (url base_domain base_dir : Str) (c : URLComponents)
    (hparse : URLNormalizer.parse url = .ok (some c)) :
    url_to_filepath url base_domain base_dir
      = .ok ((if base_dir = [] then []
              else if base_dir.getLast? = some '/' then base_dir else base_dir ++ "/".data)
            ++ (base_domain ++ "/".data ++ safe_path_of c.path)) ∧
    (∀ stem ext : Str, cleaned_path c.path = stem ++ '.' :: ext → '.' ∉ ext → '/' ∉ ext →
      safe_path_of c.path
        = if to_lower ext = "html".data ∨ to_lower ext = "htm".data
            then stem ++ ".md".data else cleaned_path c.path) ∧
    ((∀ stem ext : Str, cleaned_path c.path = stem ++ '.' :: ext → '.' ∈ ext ∨ '/' ∈ ext) →
      safe_path_of c.path = cleaned_path c.path ++ ".md".data) ∧
    (c.path = "/".data → safe_path_of c.path = "index.md".data) ∧
    (∃ p : Str, c.path = '/' :: p ∧
      (p ≠ [] → p.getLast? ≠ some '/' → cleaned_path c.path = p.map safe_path_char) ∧
      (∀ q : Str, p = q ++ ['/'] → cleaned_path c.path = q.map safe_path_char) ∧
      (p = [] → cleaned_path c.path = "index".data)) ∧
    (∀ ch : Char, safe_path_char ch
      = if ch.isAlphanum = true ∨ ch = '/' ∨ ch = '-' ∨ ch = '_' ∨ ch = '.' then ch else '_') ∧
    url_to_filepath "https://example.com/docs/".data "example.com".data "out".data
      = .ok "out/example.com/docs.md".data := by
  have hhead : ∃ p : Str, c.path = '/' :: p := by
    have h := (parse_well_formed url c hparse).2.2.2.2.2.2.1
    cases hp : c.path with
    | nil => rw [hp] at h; cases h
    | cons a p =>
      rw [hp] at h
      simp only [List.head?_cons, Option.some.injEq] at h
      exact ⟨p, by rw [h]⟩
  obtain ⟨p, hp⟩ := hhead
  refine ⟨?_, safe_path_of_extension c.path, safe_path_of_no_extension c.path, ?_,
    ⟨p, hp, by rw [hp]; exact cleaned_path_cases p⟩, ?_, by decide⟩
  rotate_left
  · intro hroot
    rw [hroot]
    decide
  · intro ch
    unfold safe_path_char
    by_cases h1 : ch = '/' <;> by_cases h2 : ch.isAlphanum = true <;> by_cases h3 : ch = '-' <;>
      by_cases h4 : ch = '_' <;> by_cases h5 : ch = '.' <;> simp [h1, h2, h3, h4, h5]
  · unfold url_to_filepath
    simp only [hparse]
    by_cases hb : base_dir = []
    · simp [hb]
    · have he : base_dir.isEmpty = false := by
        cases base_dir with
        | nil => exact absurd rfl hb
        | cons a b => rfl
      by_cases hl : base_dir.getLast? = some '/'
      · simp [hb, he, hl]
      · simp [hb, he, hl]

/-- Witness for C25: under `./output`, the path `/docs/page.HTML` becomes
`docs/page.md`. -/
theorem url_to_filepath_name_witness :
    url_to_filepath "https://example.com/docs/page.HTML".data "example.com".data "./output".data
      = .ok "./output/example.com/docs/page.md".data := by
  have h := url_to_filepath_name "https://example.com/docs/page.HTML".data "example.com".data
    "./output".data
    { scheme := "https".data, host := "example.com".data, path := "/docs/page.HTML".data }
    (by decide)
  rw [h.1, h.2.1 "docs/page".data "HTML".data (by decide) (by decide) (by decide)]
  decide

/-- C23: `parse(s)` returns components only if `s` is a scheme that reads
`http` or `https` in some letter case, then `://`, then a non-empty host
without `/` and `:`; the components then hold the scheme in lowercase (`http`
or `https`), the host in lowercase and a path beginning with `/`. It returns
nothing for every string not of the form scheme `://` rest with such a scheme:
the empty string, strings without a scheme, other schemes such as `ftp`. -/
theorem parse_accepts_http_only (s : Str) :
    (∀ c : URLComponents, URLNormalizer.parse s = .ok (some c) →
      ∃ scheme host rest : Str,
        s = scheme ++ "://".data ++ host ++ rest ∧
        (to_lower scheme = "http".data ∨ to_lower scheme = "https".data) ∧
        host ≠ [] ∧ host.all host_char = true ∧
        c.scheme = to_lower scheme ∧ (c.scheme = "http".data ∨ c.scheme = "https".data) ∧
        c.host = to_lower host ∧ to_lower c.host = c.host ∧
        c.path.head? = some '/') ∧
    ((¬ ∃ scheme rest : Str, s = scheme ++ "://".data ++ rest ∧
        (to_lower scheme = "http".data ∨ to_lower scheme = "https".data)) →
      URLNormalizer.parse s = .ok none) ∧
    URLNormalizer.parse [] = .ok none ∧
    URLNormalizer.parse "example.com/path".data = .ok none ∧
    URLNormalizer.parse "ftp://example.com/".data = .ok none ∧
    URLNormalizer.parse "HTTPS://Example.COM/Path".data
      = .ok (some { scheme := "https".data, host := "example.com".data,
                    path := "/Path".data }) := by
  refine ⟨?_, ?_, by decide, by decide, by decide, by decide⟩
  · intro c hc
    obtain ⟨scheme, r, host, m, port, hms, hmh, _, hceq⟩ := parse_inv s c hc
    obtain ⟨hne, hall, rest, hr, _⟩ := match_host_split_off r host m hmh
    have hwf := parse_well_formed s c hc
    refine ⟨scheme, host, rest, ?_, match_scheme_lower _ _ _ hms, hne, hall, ?_, hwf.1, ?_,
      hwf.2.2.2.1, hwf.2.2.2.2.2.2.1⟩
    · rw [match_scheme_split s scheme r hms, hr]
      simp only [List.append_assoc]
    · rw [hceq]
    · rw [hceq]
  · intro hno
    apply parse_of_no_scheme
    cases hms : match_scheme s with
    | none => rfl
    | some x =>
      obtain ⟨scheme, r⟩ := x
      exact absurd ⟨scheme, r, match_scheme_split s scheme r hms, match_scheme_lower _ _ _ hms⟩ hno

/-- C24: for every URL that parses, `normalize` returns a URL whose path, as
`extract_path` reads it back, is `normalize_path` of the parsed path; that
path begins with `/` and is either exactly `/` (no segment remains) or a
sequence of segments, each after a `/`, none of them empty, `.` or `..`,
followed by at most one `/` at the end. -/
theorem normalize_collapses_path (url : Str) (c : URLComponents)
    (hparse : URLNormalizer.parse url = .ok (some c)) :
    ∃ (n : Str) (segments : List Str),
      URLNormalizer.normalize url = .ok n ∧
      URLNormalizer.extract_path n = .ok (URLNormalizer.normalize_path c.path) ∧
      (URLNormalizer.normalize_path c.path).head? = some '/' ∧
      (∀ s ∈ segments, s ≠ [] ∧ s ≠ ".".data ∧ s ≠ "..".data ∧ '/' ∉ s) ∧
      ((segments = [] ∧ URLNormalizer.normalize_path c.path = "/".data) ∨
       (segments ≠ [] ∧
        (URLNormalizer.normalize_path c.path = join_segments segments ∨
         URLNormalizer.normalize_path c.path = join_segments segments ++ "/".data))) := by
  obtain ⟨n, hn, hpn⟩ := parse_normalize url c false hparse
  obtain ⟨segments, hseg, hshape⟩ := normalize_path_shape c.path
  refine ⟨n, segments, hn, ?_, normalize_path_head _, fun s hs => (hseg s hs).1, hshape⟩
  unfold URLNormalizer.extract_path
  rw [hpn]

/-- Witness for C24: the URL of the spec's example is normalized to a URL with
the path `/A/C`. -/
theorem normalize_collapses_path_witness :
    URLNormalizer.normalize "https://EXAMPLE.COM:443/A/B/../C?z=1&a=2#x".data
      = .ok "https://example.com/A/C?a=2&z=1".data ∧
    URLNormalizer.extract_path "https://example.com/A/C?a=2&z=1".data = .ok "/A/C".data := by
  obtain ⟨n, segments, h1, h2, _⟩ := normalize_collapses_path
    "https://EXAMPLE.COM:443/A/B/../C?z=1&a=2#x".data
    { scheme := "https".data, host := "example.com".data, port := 443,
      path := "/A/B/../C".data, query := "z=1&a=2".data, fragment := "x".data }
    (by decide)
  have hn : URLNormalizer.normalize "https://EXAMPLE.COM:443/A/B/../C?z=1&a=2#x".data
      = .ok "https://example.com/A/C?a=2&z=1".data := by decide
  rw [hn] at h1
  simp only [Except.ok.injEq] at h1
  rw [← h1] at h2
  refine ⟨hn, ?_⟩
  rw [h2]
  decide

/-- C21: for every base URL that parses, with its path cut after its last `/`
into directory and file, and every non-empty relative reference without
`://`, `?`, `#` and leading `/`, `resolve` returns the URL made of the base's
scheme, host and non-default port and of the path that `normalize_path`
(dot-segment collapsing) makes of the directory followed by the reference;
`resolve("https://ex.com/docs/guide/page.html", "../images/logo.png")` is
`https://ex.com/docs/images/logo.png`. -/
theorem resolve_relative_path (base rel : Str) (b : URLComponents) (dir file : Str)
    (hbase : URLNormalizer.parse base = .ok (some b))
    (hdir : b.path = dir ++ file) (hslash : dir.getLast? = some '/') (hfile : '/' ∉ file)
    (hne : rel ≠ []) (habs : URLNormalizer.is_absolute rel = false)
    (hchars : ∀ ch ∈ rel, ch ≠ '?' ∧ ch ≠ '#') (hhead : rel.head? ≠ some '/') :
    URLNormalizer.resolve base rel
      = .ok (some (b.scheme ++ "://".data ++ b.host
          ++ (if b.is_default_port then [] else ':' :: int_to_str b.port)
          ++ URLNormalizer.normalize_path (dir ++ rel))) ∧
    URLNormalizer.resolve "https://ex.com/docs/guide/page.html".data "../images/logo.png".data
      = .ok (some "https://ex.com/docs/images/logo.png".data) := by
  refine ⟨?_, by decide⟩
  have hwf := parse_well_formed base b hbase
  obtain ⟨hs, hhne, hh, hlow, hp0, hp1, hphead, hpall, _, _⟩ := hwf
  -- the directory of the base path
  obtain ⟨d, hd⟩ : ∃ d, dir = d ++ ['/'] := List.getLast?_eq_some_iff.mp hslash
  have hbd : (match rfind_char '/' b.path with
      | some last_slash => b.path.take (last_slash + 1)
      | none => "/".data) = dir := by
    have hpath : b.path = d ++ '/' :: file := by
      rw [hdir, hd]
      simp
    rw [hpath, rfind_char_at_split '/' d file hfile]
    simp only
    rw [hd]
    have : d ++ '/' :: file = (d ++ ['/']) ++ file := by simp
    rw [this]
    exact List.take_left' (by simp)
  rw [resolve_relative base rel b hbase hne habs hchars hhead, hbd]
  -- the components handed to `to_string` and read back by `normalize`
  have hrelall : rel.all path_char = true := by
    simp only [List.all_eq_true, path_char, Bool.and_eq_true, bne_iff_ne, ne_eq]
    exact hchars
  have hdirall : dir.all path_char = true := by
    rw [hdir] at hpall
    simp only [List.all_append, Bool.and_eq_true] at hpall
    exact hpall.1
  have hall : (dir ++ rel).all path_char = true := by
    simp only [List.all_append, hdirall, hrelall, Bool.and_self]
  have hwfR : (URLComponents.mk b.scheme b.host b.port
      (URLNormalizer.normalize_path (dir ++ rel)) [] []).well_formed :=
    ⟨hs, hhne, hh, hlow, hp0, hp1, normalize_path_head _,
      normalize_path_all _ path_char (by decide) hall, rfl, rfl⟩
  rw [normalize_to_string_plain _ hwfR rfl (normalize_path_idem _)]
  rfl

/-- Witness for C21: against the base `http://ex.com:8080/a/b/c.html` the
reference `./d/../e.png` resolves to `http://ex.com:8080/a/b/e.png`. -/
theorem resolve_relative_path_witness :
    URLNormalizer.parse "http://ex.com:8080/a/b/c.html".data
      = .ok (some (URLComponents.mk "http".data "ex.com".data 8080 "/a/b/c.html".data [] [])) ∧
    URLNormalizer.resolve "http://ex.com:8080/a/b/c.html".data "./d/../e.png".data
      = .ok (some "http://ex.com:8080/a/b/e.png".data) := by
  refine ⟨by decide, ?_⟩
  have h := (resolve_relative_path "http://ex.com:8080/a/b/c.html".data "./d/../e.png".data
    (URLComponents.mk "http".data "ex.com".data 8080 "/a/b/c.html".data [] [])
    "/a/b/".data "c.html".data (by decide) (by decide) (by decide) (by decide) (by decide)
    (by decide) (by decide) (by decide)).1
  rw [h]
  decide

/-- C22 (as stated, refuted): `resolve` returns the base itself for an empty
reference, also when the base is no URL, and returns the absolute URL
`ftp://x/y` of another scheme as it is; neither value is accepted by
`parse`. -/
theorem resolve_returns_unparsed :
    URLNormalizer.resolve "not a url".data [] = .ok (some "not a url".data) ∧
    URLNormalizer.parse "not a url".data = .ok none ∧
    URLNormalizer.resolve "http://a/".data "ftp://x/y".data = .ok (some "ftp://x/y".data) ∧
    URLNormalizer.parse "ftp://x/y".data = .ok none := by
  decide

/-- C22 (amended): whenever `resolve(base, rel)` returns a value, that value is
an absolute URL that `parse` accepts, with scheme `http` or `https`, in each
of these cases: `rel` is empty and `parse` accepts `base`; `parse` accepts
`rel`; `rel` is not empty, holds no `://` and no line terminator, and the path
of `base` holds no line terminator. For an empty `rel`, `resolve` returns
`base` itself. -/
theorem resolve_value_parses (base rel v : Str)
    (hres : URLNormalizer.resolve base rel = .ok (some v))
    (hcase : (rel = [] ∧ ∃ b, URLNormalizer.parse base = .ok (some b)) ∨
      (∃ r, URLNormalizer.parse rel = .ok (some r)) ∨
      (rel ≠ [] ∧ URLNormalizer.is_absolute rel = false ∧ rel.all dot_matches = true ∧
        ∀ b, URLNormalizer.parse base = .ok (some b) → b.path.all dot_matches = true)) :
    (∃ c, URLNormalizer.parse v = .ok (some c) ∧
      (c.scheme = "http".data ∨ c.scheme = "https".data) ∧
      URLNormalizer.is_absolute v = true) ∧
    URLNormalizer.resolve base [] = .ok (some base) := by
  refine ⟨?_, rfl⟩
  suffices hmain : ∃ c, URLNormalizer.parse v = .ok (some c) ∧
      (c.scheme = "http".data ∨ c.scheme = "https".data) by
    obtain ⟨c, h1, h2⟩ := hmain
    exact ⟨c, h1, h2, is_absolute_of_parsed v c h1⟩
  rcases hcase with ⟨hrel, b, hb⟩ | ⟨r, hr⟩ | ⟨hne, habs, hdot, hbase⟩
  · rw [hrel] at hres
    simp only [URLNormalizer.resolve, Except.ok.injEq, Option.some.injEq] at hres
    rw [← hres]
    exact ⟨b, hb, (parse_well_formed _ _ hb).1⟩
  · have habs := is_absolute_of_parsed rel r hr
    obtain ⟨n, hn, hpn⟩ := parse_normalize rel r false hr
    cases hrel : rel with
    | nil =>
      rw [hrel] at hr
      have : URLNormalizer.parse [] = .ok none := rfl
      rw [this] at hr
      cases hr
    | cons c0 tail =>
      rw [hrel] at habs hn
      rw [hrel] at hres
      simp only [URLNormalizer.resolve, habs, if_true] at hres
      rw [hn] at hres
      simp only [Except.map, Except.ok.injEq, Option.some.injEq] at hres
      rw [← hres]
      exact ⟨_, hpn, (parse_well_formed _ _ hr).1⟩
  · cases hrel : rel with
    | nil => exact absurd hrel hne
    | cons c0 tail =>
      rw [hrel] at habs hdot hres
      have htail : tail.all dot_matches = true := by
        simp only [List.all_cons, Bool.and_eq_true] at hdot
        exact hdot.2
      simp only [URLNormalizer.resolve, habs, Bool.false_eq_true, if_false] at hres
      cases hpb : URLNormalizer.parse base with
      | error e => simp [hpb] at hres
      | ok ob =>
        cases ob with
        | none => simp [hpb] at hres
        | some b =>
          have hwf := parse_well_formed base b hpb
          have hbp := hbase b hpb
          simp only [hpb] at hres
          by_cases h1 : c0 = '/'
          · simp only [h1, if_true] at hres
            by_cases h2 : tail.head? = some '/'
            · simp only [h2, if_true] at hres
              cases hpp : URLNormalizer.parse (b.scheme ++ ':' :: '/' :: tail) with
              | error e => simp [hpp] at hres
              | ok op =>
                cases op with
                | none => simp [hpp] at hres
                | some parsed =>
                  simp [hpp] at hres
                  rw [← hres]
                  have hwfp := parse_well_formed _ _ hpp
                  exact ⟨_, parse_to_string parsed false hwfp, hwfp.1⟩
            · simp only [h2, if_false] at hres
              rw [h1] at hdot
              obtain ⟨q1, q2⟩ := split_query_all dot_matches _ hdot
              exact resolve_finish_parses b hwf _ _ v q1 q2 hres
          · simp only [h1, if_false] at hres
            by_cases h3 : c0 = '?'
            · simp only [h3, if_true] at hres
              exact resolve_finish_parses b hwf _ _ v hbp htail hres
            · simp only [h3, if_false] at hres
              by_cases h4 : c0 = '#'
              · simp only [h4, if_true, Except.ok.injEq, Option.some.injEq] at hres
                rw [← hres]
                obtain ⟨hs, hhne, hh, hlow, hp0, hp1, hhead, hpall, hq, hf⟩ := hwf
                have hwf2 : (URLComponents.mk b.scheme b.host b.port b.path b.query
                    tail).well_formed :=
                  ⟨hs, hhne, hh, hlow, hp0, hp1, hhead, hpall, hq, htail⟩
                exact ⟨_, parse_to_string _ true hwf2, hs⟩
              · simp only [h4, if_false] at hres
                obtain ⟨q1, q2⟩ := split_query_all dot_matches _ hdot
                refine resolve_finish_parses b hwf _ _ v ?_ q2 hres
                simp only [List.all_append, q1, Bool.and_true]
                split
                · exact all_take _ _ _ hbp
                · rfl

/-- Witness for C22 (amended): the value that `resolve` returns for the base
`https://ex.com/docs/guide/page.html` and the reference `../images/logo.png`
is accepted by `parse`, with scheme `http` or `https`, and is absolute. -/
theorem resolve_value_parses_witness :
    URLNormalizer.resolve "https://ex.com/docs/guide/page.html".data "../images/logo.png".data
      = .ok (some "https://ex.com/docs/images/logo.png".data) ∧
    ∃ c, URLNormalizer.parse "https://ex.com/docs/images/logo.png".data = .ok (some c) ∧
      (c.scheme = "http".data ∨ c.scheme = "https".data) ∧
      URLNormalizer.is_absolute "https://ex.com/docs/images/logo.png".data = true := by
  have hbase : URLNormalizer.parse "https://ex.com/docs/guide/page.html".data
      = .ok (some (URLComponents.mk "https".data "ex.com".data 0 "/docs/guide/page.html".data
          [] [])) := by decide
  refine ⟨by decide, (resolve_value_parses "https://ex.com/docs/guide/page.html".data
    "../images/logo.png".data "https://ex.com/docs/images/logo.png".data (by decide)
    (Or.inr (Or.inr ⟨by decide, by decide, by decide, ?_⟩))).1⟩
  intro b hb
  rw [hbase] at hb
  simp only [Except.ok.injEq, Option.some.injEq] at hb
  rw [← hb]
  decide

/-- C31: for every input, `sanitize_filename(input)` with the default
`max_length` of 255 is not empty, holds at most 255 bytes, and holds none of
the characters `< > : " / \ | ? *` and no byte below 0x20. -/
theorem sanitize_filename_safe (input : Str) :
    sanitize_filename input ≠ [] ∧
    (sanitize_filename input).length ≤ 255 ∧
    ∀ c ∈ sanitize_filename input,
      c ≠ '<' ∧ c ≠ '>' ∧ c ≠ ':' ∧ c ≠ '"' ∧ c ≠ '/' ∧ c ≠ '\\' ∧ c ≠ '|' ∧ c ≠ '?' ∧
      c ≠ '*' ∧ 32 ≤ c.toNat := by
  have hstripped : ∀ x ∈ pop_back_while (fun c => decide (c = '.') || decide (c = ' '))
      ((collapse_duplicates (input.map sanitize_char) '_').dropWhile
        (fun c => decide (c = '.') || decide (c = ' '))),
      x ∉ INVALID_CHARS ∧ 32 ≤ x.toNat := by
    intro x hx
    have h1 := pop_back_while_subset _ _ x hx
    have h2 := (List.dropWhile_suffix _).subset h1
    have h3 := collapse_loop_subset '_' _ false x h2
    obtain ⟨y, _, hy⟩ := List.mem_map.1 h3
    rw [← hy]
    exact sanitize_char_ok y
  have hunnamed : ∀ x ∈ "unnamed".data, x ∉ INVALID_CHARS ∧ 32 ≤ x.toNat := by decide
  have hall : sanitize_filename input ≠ [] ∧ (sanitize_filename input).length ≤ 255 ∧
      ∀ c ∈ sanitize_filename input, c ∉ INVALID_CHARS ∧ 32 ≤ c.toNat := by
    unfold sanitize_filename
    by_cases he : input.isEmpty = true
    · rw [if_pos he]
      exact ⟨by decide, by decide, hunnamed⟩
    · rw [if_neg he]
      simp only
      obtain ⟨h1, h2, h3⟩ := sanitize_tail
        (pop_back_while (fun c => decide (c = '.') || decide (c = ' '))
          ((collapse_duplicates (input.map sanitize_char) '_').dropWhile
            (fun c => decide (c = '.') || decide (c = ' '))))
        (RESERVED_NAMES.contains
          (match find_char '.' ((pop_back_while (fun c => decide (c = '.') || decide (c = ' '))
              ((collapse_duplicates (input.map sanitize_char) '_').dropWhile
                (fun c => decide (c = '.') || decide (c = ' ')))).map Char.toUpper) with
            | some dot_pos => ((pop_back_while (fun c => decide (c = '.') || decide (c = ' '))
                ((collapse_duplicates (input.map sanitize_char) '_').dropWhile
                  (fun c => decide (c = '.') || decide (c = ' ')))).map Char.toUpper).take dot_pos
            | none => (pop_back_while (fun c => decide (c = '.') || decide (c = ' '))
                ((collapse_duplicates (input.map sanitize_char) '_').dropWhile
                  (fun c => decide (c = '.') || decide (c = ' ')))).map Char.toUpper))
        255
      refine ⟨h2, h3 (by decide), ?_⟩
      intro c hc
      rcases h1 c hc with h | h | h
      · exact hunnamed c h
      · rw [h]
        decide
      · exact hstripped c h
  obtain ⟨h1, h2, h3⟩ := hall
  refine ⟨h1, h2, ?_⟩
  intro c hc
  obtain ⟨h4, h5⟩ := h3 c hc
  have hmem : ∀ x ∈ INVALID_CHARS, c ≠ x := fun x hx he => h4 (he ▸ hx)
  exact ⟨hmem _ (by decide), hmem _ (by decide), hmem _ (by decide), hmem _ (by decide),
    hmem _ (by decide), hmem _ (by decide), hmem _ (by decide), hmem _ (by decide),
    hmem _ (by decide), h5⟩

/-- C32: for every text `s` and bound `n`, `truncate_utf8(s, n)` starts `s`,
holds at most `n` bytes, is `s` itself when `s` holds at most `n` bytes, and
is valid UTF-8 (as `is_valid_utf8` tells) whenever `s` is; of `héllo`, whose
`é` takes two bytes, the first two bytes give `h`. -/
theorem truncate_utf8_spec (s : Str) (n : Nat) :
    (∃ rest, s = truncate_utf8 s n ++ rest) ∧
    (truncate_utf8 s n).length ≤ n ∧
    (s.length ≤ n → truncate_utf8 s n = s) ∧
    (is_valid_utf8 s = true → is_valid_utf8 (truncate_utf8 s n) = true) ∧
    truncate_utf8 ['h', Char.ofNat 0xC3, Char.ofNat 0xA9, 'l', 'l', 'o'] 2 = ['h'] := by
  refine ⟨?_, truncate_utf8_length s n, ?_, ?_, by decide⟩
  · unfold truncate_utf8
    split
    · exact ⟨[], by simp⟩
    · exact ⟨s.drop (truncate_boundary s n), (List.take_append_drop _ _).symm⟩
  · intro h
    unfold truncate_utf8
    rw [if_pos h]
  · intro hv
    unfold truncate_utf8
    split
    · exact hv
    · exact valid_utf8_from_take s 0 _ hv (fun _ => rfl) (truncate_boundary_spec s n)

/-- C33 (refuted): with an overlap of at least 1 below the chunk size,
`chunk_markdown` does not return for any text of which one section counts
more tokens than `max_chunk_size`: the fallback loop over that section is
still running after any number of iterations. -/
theorem chunk_markdown_never_returns (config : ChunkerConfig) (markdown section_text : Str)
    (hov : 1 ≤ config.chunk_overlap) (hlt : config.chunk_overlap < config.max_chunk_size)
    (hmax : config.max_chunk_size ≤ 536870911)
    (hsec : section_text ∈ Chunker.split_by_headings markdown)
    (htok : config.max_chunk_size < Tokenizer.count_tokens section_text) :
    ∀ fuel : Nat, Chunker.chunk_markdown config fuel markdown = none := by
  intro fuel
  unfold Chunker.chunk_markdown
  exact chunk_sections_runs config fuel section_text hov hlt hmax htok _ hsec

/-- Witness for C33: with the default configuration (512 tokens, overlap 50)
the loop over a text of 2048 letters `a` is still running after a million
iterations. -/
theorem chunk_markdown_never_returns_witness :
    Chunker.chunk_markdown {} 1000000 (List.replicate 2048 'a') = none :=
  chunk_markdown_never_returns {} (List.replicate 2048 'a') (List.replicate 2048 'a')
    (by decide) (by decide) (by decide)
    (by
      rw [split_by_headings_of_no_hash _
        (fun h => absurd (List.eq_of_mem_replicate h) (by decide))]
      exact List.mem_singleton.2 rfl)
    (by
      rw [count_tokens_of_length _ 2048 (List.length_replicate _ _) (by decide)]
      decide)
    1000000

set_option maxRecDepth 1000000 in
/-- C34 (refuted): a page at `https://example.com/docs/` that links to
`//example.com/../../escape` makes the crawler queue the URL
`https://example.com/../../escape` (`resolve` does not collapse the path of a
protocol-relative link and `is_in_scope` accepts it), and `url_to_filepath`
maps that URL under `./output` to `./output/example.com/../../escape.md`,
which lies outside `./output/example.com`; the same holds for such a URL given
as a start URL. -/
theorem url_to_filepath_leaves_output_dir :
    URLNormalizer.resolve "https://example.com/docs/".data "//example.com/../../escape".data
      = .ok (some "https://example.com/../../escape".data) ∧
    URLNormalizer.is_in_scope "https://example.com/../../escape".data "example.com".data
      = .ok true ∧
    ((Crawler.enqueue_links { allowed_domain := "example.com".data }
        (WorkItem.make "https://example.com/docs/".data 0 0)
        { fetch_result := {}, result := {} }
        ["//example.com/../../escape".data] 0 {}).1.queue.items.map (fun item => item.url))
      = ["https://example.com/../../escape".data] ∧
    url_to_filepath "https://example.com/../../escape".data "example.com".data "./output".data
      = .ok "./output/example.com/../../escape.md".data ∧
    url_to_filepath "https://example.com/../../etc/passwd".data "example.com".data "out".data
      = .ok "out/example.com/../../etc/passwd.md".data := by
  decide

set_option maxRecDepth 1000000 in
/-- C35 (refuted): `parse` raises `std::out_of_range` on
`http://example.com:99999999999/`, whose port does not fit an `int`, and so do
`normalize`, `resolve` and `is_in_scope`; `process_page` on a page that links
to this URL is left by the exception. The largest port that `parse` reads is
2147483647. -/
theorem parse_raises_on_long_port :
    URLNormalizer.parse "http://example.com:99999999999/".data = .error .out_of_range ∧
    URLNormalizer.parse "http://example.com:2147483648/".data = .error .out_of_range ∧
    (URLNormalizer.parse "http://example.com:2147483647/".data).map (Option.map (fun c => c.port))
      = .ok (some 2147483647) ∧
    URLNormalizer.normalize "http://example.com:99999999999/".data = .error .out_of_range ∧
    URLNormalizer.resolve "http://example.com/".data "http://example.com:99999999999/".data
      = .error .out_of_range ∧
    URLNormalizer.is_in_scope "http://example.com:99999999999/".data "example.com".data
      = .error .out_of_range ∧
    (Crawler.process_page demo_env { allowed_domain := "example.com".data } {}
        (WorkItem.make "http://example.com/".data 0 0)
        { fetch_result := { status_code := 200, success := true,
                            content_type := "text/html".data },
          result := { markdown := "# A".data, saved_file_path := "out/index.md".data,
                      token_count := 2, success := true,
                      extracted_links := ["http://example.com:99999999999/".data] } }).2
      = some .out_of_range := by
  decide

/-- C36 (as stated, refuted): `normalize` maps `http://h/?a=1&a=2` to
`http://h/?a=2`, the normalized form of `http://h/?a=2` itself: of two
parameters with the same key only the last is kept; and it maps
`http://h/?b=&a` to `http://h/?a&b`, where the piece `b=` has become `b`. -/
theorem normalize_drops_repeated_key :
    URLNormalizer.normalize "http://h/?a=1&a=2".data = .ok "http://h/?a=2".data ∧
    URLNormalizer.normalize "http://h/?a=2".data = .ok "http://h/?a=2".data ∧
    query_parameters "a=1&a=2".data = [("a".data, "1".data), ("a".data, "2".data)] ∧
    query_parameters "a=2".data = [("a".data, "2".data)] ∧
    URLNormalizer.normalize "http://h/?b=&a".data = .ok "http://h/?a&b".data ∧
    getlines '&' "b=&a".data = ["b=".data, "a".data] ∧
    getlines '&' "a&b".data = ["a".data, "b".data] := by
  decide

/-- C36 (amended): for every URL that parses and whose query component, as
`parse` reads it, holds pairwise distinct keys and no parameter that is empty
on both sides of its `=`, `normalize(url)` parses and the parameters (key and
value) of its query component are those of the query component of `url`,
in the order of their keys; so two such URLs receive the same normalized form
only if their query components carry the same parameters. -/
theorem normalize_keeps_distinct_parameters (url : Str) (c : URLComponents)
    (hparse : URLNormalizer.parse url = .ok (some c))
    (hkeys : ((query_parameters c.query).map Prod.fst).Nodup)
    (hne : ([], []) ∉ query_parameters c.query) :
    ∃ n c2, URLNormalizer.normalize url = .ok n ∧ URLNormalizer.parse n = .ok (some c2) ∧
      (query_parameters c2.query).Perm (query_parameters c.query) ∧
      keys_sorted (query_parameters c2.query) ∧
      ∀ (url2 : Str) (d : URLComponents), URLNormalizer.parse url2 = .ok (some d) →
        ((query_parameters d.query).map Prod.fst).Nodup →
        ([], []) ∉ query_parameters d.query →
        URLNormalizer.normalize url2 = .ok n →
        (query_parameters d.query).Perm (query_parameters c.query) := by
  obtain ⟨n, hn, hpn⟩ := parse_normalize url c false hparse
  obtain ⟨h1, h2⟩ := sort_query_params_parameters c.query hkeys hne
  refine ⟨n, _, hn, hpn, h1, h2, ?_⟩
  intro url2 d hd hdk hdn hn2
  obtain ⟨n2, hn2', hpn2⟩ := parse_normalize url2 d false hd
  have he : n2 = n := by
    have : Except.ok n2 = (Except.ok n : Except Raised Str) := hn2'.symm.trans hn2
    exact Except.ok.inj this
  rw [he, hpn] at hpn2
  have hq : URLNormalizer.sort_query_params c.query = URLNormalizer.sort_query_params d.query :=
    congrArg URLComponents.query (Option.some.inj (Except.ok.inj hpn2))
  obtain ⟨h3, _⟩ := sort_query_params_parameters d.query hdk hdn
  rw [← hq] at h3
  exact h3.symm.trans h1

/-- Witness for C36: the parameters of
`https://example.com/search?z=last&a=first&m=middle` are those of its
normalized form `https://example.com/search?a=first&m=middle&z=last`. -/
theorem normalize_keeps_distinct_parameters_witness :
    URLNormalizer.normalize "https://example.com/search?z=last&a=first&m=middle".data
      = .ok "https://example.com/search?a=first&m=middle&z=last".data ∧
    ∃ n c2,
      URLNormalizer.normalize "https://example.com/search?z=last&a=first&m=middle".data = .ok n ∧
      URLNormalizer.parse n = .ok (some c2) ∧
      (query_parameters c2.query).Perm
        [("z".data, "last".data), ("a".data, "first".data), ("m".data, "middle".data)] := by
  refine ⟨by decide, ?_⟩
  obtain ⟨n, c2, h1, h2, h3, _⟩ := normalize_keeps_distinct_parameters
    "https://example.com/search?z=last&a=first&m=middle".data
    { scheme := "https".data, host := "example.com".data, path := "/search".data,
      query := "z=last&a=first&m=middle".data }
    (by decide) (by decide) (by decide)
  exact ⟨n, c2, h1, h2, h3⟩

set_option maxRecDepth 1000000 in
/-- C37 (refuted): on the JSON object whose member `created_at` is
`2024-01-01T00:00:00.abc`, `PageDBEntry::from_json` and
`ImageDBEntry::from_json` are left by the `std::invalid_argument` that
`std::stoi` raises on `abc`, which the handler for `json::exception` does not
catch; and on an object whose `status` is `success` and whose `depth` is a
string, `from_json` returns an entry with status `Success` and the timestamps
read before the type error, not the default-constructed entry. -/
theorem from_json_raises_on_bad_milliseconds :
    PageDBEntry.from_json mini_json demo_clib
        "\x7b\"created_at\":\"2024-01-01T00:00:00.abc\"\x7d".data
      = .error .invalid_argument ∧
    ImageDBEntry.from_json mini_json demo_clib
        "\x7b\"created_at\":\"2024-01-01T00:00:00.abc\"\x7d".data
      = .error .invalid_argument ∧
    PageDBEntry.from_json mini_json demo_clib
        "\x7b\"depth\":\"deep\",\"status\":\"success\"\x7d".data
      = .ok { status := .Success, created_at := -2209075200000000000,
              processed_at := -2209075200000000000, last_attempt := -2209075200000000000 } ∧
    PageDBEntry.from_json mini_json demo_clib "[]".data = .ok {} ∧
    PageDBEntry.from_json mini_json demo_clib "not json".data = .ok {} := by
  decide

/-- C38 (as stated, refuted): after a `push` and a `clear`, `get_stats()`
reports `current_size` 0 with `total_pushed` 1 and `total_popped` 0. -/
theorem stats_after_clear :
    (run_queue_ops {} [.push (WorkItem.make "url1".data 1 0), .clear]).get_stats
      = { total_pushed := 1, total_popped := 0, current_size := 0, min_depth := 1,
          max_depth := 1 } := by
  decide

/-- C38 (amended): after every sequence of `push`, `push_batch`, `pop`,
`try_pop`, `try_pop_nonblocking`, `clear` and `close` operations on a new
queue, `get_stats()` satisfies `current_size = total_pushed - total_popped -
cleared`, where `cleared` is the number of items that the `clear` calls
removed; so `current_size = total_pushed - total_popped` after every sequence
without `clear`, and `current_size ≤ total_pushed - total_popped` always. -/
theorem stats_size_balance (ops : List QueueOp) :
    (run_queue_ops {} ops).get_stats.current_size
        + (run_queue_ops {} ops).get_stats.total_popped + cleared_by {} ops
      = (run_queue_ops {} ops).get_stats.total_pushed ∧
    ((∀ op ∈ ops, op.is_clear = false) →
      (run_queue_ops {} ops).get_stats.current_size
        = (run_queue_ops {} ops).get_stats.total_pushed
          - (run_queue_ops {} ops).get_stats.total_popped) ∧
    (run_queue_ops {} ops).get_stats.current_size
      ≤ (run_queue_ops {} ops).get_stats.total_pushed
        - (run_queue_ops {} ops).get_stats.total_popped := by
  have h := run_queue_ops_balance ops {}
  simp only [ThreadSafePriorityQueue.get_stats]
  have h0 : ({} : ThreadSafePriorityQueue).items.length = 0 := rfl
  have h1 : ({} : ThreadSafePriorityQueue).total_popped = 0 := rfl
  have h2 : ({} : ThreadSafePriorityQueue).total_pushed = 0 := rfl
  rw [h0, h1, h2] at h
  refine ⟨by omega, ?_, by omega⟩
  intro hno
  have := cleared_by_of_no_clear ops hno {}
  omega

/-- Witness for C38: after three pushes and one pop the size is 2, with 3
pushed and 1 popped. -/
theorem stats_size_balance_witness :
    (run_queue_ops {}
        [.push (WorkItem.make "url1".data 1 0), .push (WorkItem.make "url2".data 5 0),
         .push (WorkItem.make "url3".data 3 0), .try_pop_nonblocking 0]).get_stats.current_size
      = 3 - 1 := by
  have h := (stats_size_balance
    [.push (WorkItem.make "url1".data 1 0), .push (WorkItem.make "url2".data 5 0),
     .push (WorkItem.make "url3".data 3 0), .try_pop_nonblocking 0]).2.1 (by decide)
  rw [h]
  decide

end GraphWeaver
